import Mathlib

/-! kvstore: a segmented write-ahead log with per-segment hash indexes and compaction.

A shallow embedding of `src/c4_hash_indexes/kvstore` (`wal.go`, `wal_segment.go`,
`kvstore.go`) and of the command codec of `commands.go`.

Modelling conventions.

* A Go `string` / `[]byte` is a list of bytes (`Bytes`); a Go string need not be valid
  UTF-8, and `encoding/json` treats invalid bytes specially, so bytes are kept.
* `uint64` and `int64` values (record indices, file offsets) are natural numbers; the
  wrap-around at `2^64` is not modelled (it needs `2^64` appended records).
* A Go `panic` is the result `none` of an `Option`-valued function.
* `time.Now()` and `uuid.NewString()` are two counters of the state: every call returns a
  value larger than all earlier ones.
* The file system is a map from segment file paths (determined by `SegmentIndex` and `Id`)
  to file contents, plus the manifest file; I/O calls succeed, except in the variants
  `writeEntryIO`, `WriteEntryIO`, `PutIO` and `DeleteIO`, which take the outcome of the write
  to the segment file as an argument and return the `error` of the call.
* `encoding/json` and `encoding/base64` are library code: `Marshal` is modelled by the exact
  bytes Go emits for the three struct shapes used here, `Unmarshal` by a decoder of that
  canonical form (any other input is a decoding error).
-/

namespace kvstore

/-! ## Bytes and literals -/

/-- A Go byte slice or string. -/
abbrev Bytes := List UInt8

/-- The bytes of an ASCII string literal. -/
def ascii (s : String) : Bytes := s.toList.map (fun c => UInt8.ofNat c.toNat)

/-- Remove the literal `lit` from the front of `s`; `none` when `s` does not start with it. -/
def dropLit : Bytes → Bytes → Option Bytes
  | [], s => some s
  | _ :: _, [] => none
  | a :: lit, b :: s => if a = b then dropLit lit s else none

/-! ## Decimal numbers (`strconv.AppendUint`, `strconv.AppendInt`) -/

/-- The ASCII digit of `d < 10`. -/
def digitByte (d : Nat) : UInt8 := UInt8.ofNat (48 + d)

/-- An ASCII decimal digit. -/
def isDigit (b : UInt8) : Bool := decide (48 ≤ b.toNat) && decide (b.toNat ≤ 57)

/-- Decimal digits of `n` pushed in front of `acc`; `fuel` bounds the number of digits. -/
def appendUintAux : Nat → Nat → Bytes → Bytes
  | 0, _, acc => acc
  | fuel + 1, n, acc =>
    if n < 10 then digitByte n :: acc
    else appendUintAux fuel (n / 10) (digitByte (n % 10) :: acc)

/-- The decimal text of an unsigned number. -/
def appendUint (n : Nat) : Bytes := appendUintAux (n + 1) n []

/-- The decimal text of a signed number. -/
def appendInt (i : Int) : Bytes :=
  if i < 0 then 45 :: appendUint i.natAbs else appendUint i.natAbs

/-- The value of a run of decimal digits. -/
def parseUint (ds : Bytes) : Nat := ds.foldl (fun acc b => acc * 10 + (b.toNat - 48)) 0

/-- A JSON unsigned integer literal at the front of `s`: a non-empty digit run without a
redundant leading zero. Returns the value and the rest. -/
def readUint (s : Bytes) : Option (Nat × Bytes) :=
  let ds := s.takeWhile isDigit
  let rest := s.dropWhile isDigit
  if ds = [] then none
  else if ds.head? = some 48 ∧ ds.length ≠ 1 then none
  else some (parseUint ds, rest)

/-- A JSON integer literal at the front of `s`, with an optional minus sign. -/
def readInt (s : Bytes) : Option (Int × Bytes) :=
  match s with
  | [] => none
  | b :: s1 =>
    if b = 45 then (readUint s1).map (fun r => (-(r.1 : Int), r.2))
    else (readUint s).map (fun r => ((r.1 : Int), r.2))

/-! ## Base64 (`base64.StdEncoding`), used by `encoding/json` for `[]byte` fields -/

/-- The standard base64 alphabet. -/
def b64Alphabet : Bytes :=
  ascii "ABCDEFGHIJKLMNOPQRSTUVWXYZabcdefghijklmnopqrstuvwxyz0123456789+/"

/-- The base64 character of the sextet `i`. -/
def b64Char (i : Nat) : UInt8 := b64Alphabet.getD i 0

/-- The sextet of a base64 character. -/
def b64Index (c : UInt8) : Option Nat :=
  let i := b64Alphabet.indexOf c
  if i < 64 then some i else none

/-- Standard base64 with `=` padding. -/
def base64Encode : Bytes → Bytes
  | [] => []
  | [a] =>
    let n := a.toNat
    [b64Char (n / 4), b64Char (n % 4 * 16), 61, 61]
  | [a, b] =>
    let n := a.toNat * 256 + b.toNat
    [b64Char (n / 1024), b64Char (n / 16 % 64), b64Char (n % 16 * 4), 61]
  | a :: b :: c :: rest =>
    let n := a.toNat * 65536 + b.toNat * 256 + c.toNat
    b64Char (n / 262144) :: b64Char (n / 4096 % 64) :: b64Char (n / 64 % 64)
      :: b64Char (n % 64) :: base64Encode rest

/-- Decode one group of four base64 characters; the last group may be padded. Returns the
decoded bytes and whether the group was padded. -/
def b64Group (a b c d : UInt8) : Option (Bytes × Bool) :=
  match b64Index a, b64Index b with
  | some i, some j =>
    if d = 61 then
      if c = 61 then some ([UInt8.ofNat (i * 4 + j / 16)], true)
      else
        match b64Index c with
        | some k =>
          let n := i * 4096 + j * 64 + k
          some ([UInt8.ofNat (n / 1024), UInt8.ofNat (n / 4 % 256)], true)
        | none => none
    else
      match b64Index c, b64Index d with
      | some k, some l =>
        let n := i * 262144 + j * 4096 + k * 64 + l
        some ([UInt8.ofNat (n / 65536), UInt8.ofNat (n / 256 % 256), UInt8.ofNat (n % 256)],
          false)
      | _, _ => none
  | _, _ => none

/-- Decoder of standard padded base64; `none` on malformed input. -/
def base64Decode : Bytes → Option Bytes
  | [] => some []
  | a :: b :: c :: d :: rest =>
    match b64Group a b c d with
    | some (bytes, padded) =>
      if padded then (if rest = [] then some bytes else none)
      else (base64Decode rest).map (fun tl => bytes ++ tl)
    | none => none
  | _ => none

/-! ## UTF-8 (`unicode/utf8`) -/

/-- The replacement rune `utf8.RuneError`, U+FFFD. -/
def runeError : Nat := 0xFFFD

/-- A byte `b` with `lo ≤ b ≤ hi`. -/
def inRange (b : UInt8) (lo hi : Nat) : Bool := decide (lo ≤ b.toNat) && decide (b.toNat ≤ hi)

/-- The function `utf8.DecodeRune`: the first rune of `p` and its width in bytes; an
invalid or truncated encoding gives `(runeError, 1)`, the empty input `(runeError, 0)`.
The accepted ranges of the second byte are those of Go's `acceptRanges` table. -/
def decodeRune (p : Bytes) : Nat × Nat :=
  match p with
  | [] => (runeError, 0)
  | p0 :: rest =>
    let b0 := p0.toNat
    if b0 < 0x80 then (b0, 1)
    else if b0 < 0xC2 then (runeError, 1)
    else if b0 < 0xE0 then
      match rest with
      | b1 :: _ =>
        if inRange b1 0x80 0xBF then ((b0 - 0xC0) * 64 + (b1.toNat - 0x80), 2)
        else (runeError, 1)
      | _ => (runeError, 1)
    else if b0 < 0xF0 then
      match rest with
      | b1 :: b2 :: _ =>
        let lo := if b0 = 0xE0 then 0xA0 else 0x80
        let hi := if b0 = 0xED then 0x9F else 0xBF
        if inRange b1 lo hi && inRange b2 0x80 0xBF then
          ((b0 - 0xE0) * 4096 + (b1.toNat - 0x80) * 64 + (b2.toNat - 0x80), 3)
        else (runeError, 1)
      | _ => (runeError, 1)
    else if b0 < 0xF5 then
      match rest with
      | b1 :: b2 :: b3 :: _ =>
        let lo := if b0 = 0xF0 then 0x90 else 0x80
        let hi := if b0 = 0xF4 then 0x8F else 0xBF
        if inRange b1 lo hi && inRange b2 0x80 0xBF && inRange b3 0x80 0xBF then
          ((b0 - 0xF0) * 262144 + (b1.toNat - 0x80) * 4096 + (b2.toNat - 0x80) * 64
            + (b3.toNat - 0x80), 4)
        else (runeError, 1)
      | _ => (runeError, 1)
    else (runeError, 1)

/-- The function `utf8.AppendRune`: the UTF-8 encoding of a rune; surrogates and values
above U+10FFFF are encoded as U+FFFD. -/
def appendRune (r : Nat) : Bytes :=
  if r < 0x80 then [UInt8.ofNat r]
  else if r < 0x800 then [UInt8.ofNat (0xC0 + r / 64), UInt8.ofNat (0x80 + r % 64)]
  else if (0xD800 ≤ r ∧ r < 0xE000) ∨ 0x10FFFF < r then [0xEF, 0xBF, 0xBD]
  else if r < 0x10000 then
    [UInt8.ofNat (0xE0 + r / 4096), UInt8.ofNat (0x80 + r / 64 % 64), UInt8.ofNat (0x80 + r % 64)]
  else
    [UInt8.ofNat (0xF0 + r / 262144), UInt8.ofNat (0x80 + r / 4096 % 64),
      UInt8.ofNat (0x80 + r / 64 % 64), UInt8.ofNat (0x80 + r % 64)]

/-- Validity scan of `utf8.Valid`, with `fuel` bounding the number of runes. -/
def validAux : Nat → Bytes → Bool
  | _, [] => true
  | 0, _ :: _ => false
  | fuel + 1, b :: rest =>
    let d := decodeRune (b :: rest)
    if d.1 = runeError ∧ d.2 = 1 then false else validAux fuel (rest.drop (d.2 - 1))

/-- The function `utf8.Valid`: the bytes are a sequence of well-formed UTF-8 encodings. -/
def validUTF8 (s : Bytes) : Bool := validAux s.length s

/-! ## JSON strings (`encoding/json`: `appendString` with HTML escaping, `unquote`) -/

/-- Lower-case hexadecimal digit. -/
def hexChar (i : Nat) : UInt8 := (ascii "0123456789abcdef").getD i 0

/-- Value of a hexadecimal digit of either case. -/
def hexVal (c : UInt8) : Option Nat :=
  let n := c.toNat
  if 48 ≤ n ∧ n ≤ 57 then some (n - 48)
  else if 97 ≤ n ∧ n ≤ 102 then some (n - 87)
  else if 65 ≤ n ∧ n ≤ 70 then some (n - 55)
  else none

/-- Go's `htmlSafeSet`: the ASCII bytes written into a JSON string without escaping. -/
def htmlSafe (b : UInt8) : Bool :=
  decide (0x20 ≤ b.toNat) && decide (b.toNat < 0x80) && decide (b.toNat ≠ 0x22)
    && decide (b.toNat ≠ 0x26) && decide (b.toNat ≠ 0x3C) && decide (b.toNat ≠ 0x3E)
    && decide (b.toNat ≠ 0x5C)

/-- The encoding of one ASCII byte inside a JSON string. -/
def escapeByte (b : UInt8) : Bytes :=
  if htmlSafe b then [b]
  else if b = 0x5C ∨ b = 0x22 then [0x5C, b]
  else if b = 8 then [0x5C, 98]
  else if b = 12 then [0x5C, 102]
  else if b = 10 then [0x5C, 110]
  else if b = 13 then [0x5C, 114]
  else if b = 9 then [0x5C, 116]
  else [0x5C, 117, 48, 48, hexChar (b.toNat / 16), hexChar (b.toNat % 16)]

/-- The body of `appendString`, between the quotes. -/
def appendStringAux : Nat → Bytes → Bytes
  | _, [] => []
  | 0, _ :: _ => []
  | fuel + 1, b :: rest =>
    if b.toNat < 0x80 then escapeByte b ++ appendStringAux fuel rest
    else
      let d := decodeRune (b :: rest)
      if d.1 = runeError ∧ d.2 = 1 then
        ascii "\\ufffd" ++ appendStringAux fuel rest
      else if d.1 = 0x2028 ∨ d.1 = 0x2029 then
        ascii "\\u202" ++ hexChar (d.1 % 16) :: appendStringAux fuel (rest.drop (d.2 - 1))
      else
        (b :: rest).take d.2 ++ appendStringAux fuel (rest.drop (d.2 - 1))

/-- The JSON text of a Go string (`json.Marshal` of a `string`): quoted, ASCII control
characters, quote, backslash, `<`, `>`, `&`, U+2028 and U+2029 escaped, bytes that are not
valid UTF-8 replaced by `\ufffd`. -/
def appendString (src : Bytes) : Bytes := 34 :: (appendStringAux src.length src ++ [34])

/-- The function `getu4` without the leading `\u`: four hexadecimal digits. -/
def hex4 (a b c d : UInt8) : Option Nat :=
  match hexVal a, hexVal b, hexVal c, hexVal d with
  | some x, some y, some z, some w => some (x * 4096 + y * 256 + z * 16 + w)
  | _, _, _, _ => none

/-- The byte denoted by a one-letter escape. -/
def simpleEscape (e : UInt8) : Option UInt8 :=
  if e = 34 ∨ e = 0x5C ∨ e = 47 then some e
  else if e = 98 then some 8
  else if e = 102 then some 12
  else if e = 110 then some 10
  else if e = 114 then some 13
  else if e = 116 then some 9
  else none

/-- The second half of a surrogate pair at the front of `s`, written `\uXXXX`: the
combined rune and the rest, when the pair is valid (`utf16.DecodeRune`). -/
def lowSurrogate (hi : Nat) (s : Bytes) : Option (Nat × Bytes) :=
  match s with
  | 0x5C :: 117 :: a :: b :: c :: d :: rest =>
    match hex4 a b c d with
    | some lo =>
      if 0xD800 ≤ hi ∧ hi < 0xDC00 ∧ 0xDC00 ≤ lo ∧ lo < 0xE000 then
        some ((hi - 0xD800) * 1024 + (lo - 0xDC00) + 0x10000, rest)
      else none
    | none => none
  | _ => none

/-- Decoder of a JSON string body: `s` starts after the opening quote; the result is the
decoded Go string and the input after the closing quote. `none` is a syntax error. -/
def unquoteAux : Nat → Bytes → Option (Bytes × Bytes)
  | 0, _ => none
  | _ + 1, [] => none
  | fuel + 1, c :: rest =>
    if c = 34 then some ([], rest)
    else if c = 0x5C then
      match rest with
      | [] => none
      | e :: rest2 =>
        if e = 117 then
          match rest2 with
          | h1 :: h2 :: h3 :: h4 :: rest3 =>
            match hex4 h1 h2 h3 h4 with
            | some r =>
              if 0xD800 ≤ r ∧ r < 0xE000 then
                match lowSurrogate r rest3 with
                | some (r2, rest4) =>
                  (unquoteAux fuel rest4).map (fun p => (appendRune r2 ++ p.1, p.2))
                | none => (unquoteAux fuel rest3).map (fun p => (appendRune runeError ++ p.1, p.2))
              else (unquoteAux fuel rest3).map (fun p => (appendRune r ++ p.1, p.2))
            | none => none
          | _ => none
        else
          match simpleEscape e with
          | some b => (unquoteAux fuel rest2).map (fun p => (b :: p.1, p.2))
          | none => none
    else if c.toNat < 0x20 then none
    else if c.toNat < 0x80 then (unquoteAux fuel rest).map (fun p => (c :: p.1, p.2))
    else
      let d := decodeRune (c :: rest)
      (unquoteAux fuel (rest.drop (d.2 - 1))).map (fun p => (appendRune d.1 ++ p.1, p.2))

/-- A JSON string literal at the front of `s`: its value and the rest of the input. -/
def readString (s : Bytes) : Option (Bytes × Bytes) :=
  match s with
  | 34 :: body => unquoteAux body.length body
  | _ => none

/-- JSON insignificant whitespace. -/
def isSpace (b : UInt8) : Bool := b = 32 || b = 9 || b = 13 || b = 10

/-! ## Log entries and commands (`wal.go`, `commands.go`) -/

/-- The struct `walEntry`. `EntryType` is a Go `int`: 0 is `WalEntryTypeSetCommand`, 1 is
`WalEntryTypeDeleteCommand`. -/
structure walEntry where
  Index : Nat
  Data : Bytes
  EntryType : Int
deriving DecidableEq

/-- The constant `WalEntryTypeSetCommand`. -/
def WalEntryTypeSetCommand : Int := 0

/-- The constant `WalEntryTypeDeleteCommand`. -/
def WalEntryTypeDeleteCommand : Int := 1

/-- The struct `SetValueCommand`. -/
structure SetValueCommand where
  Key : Bytes
  Value : Bytes
deriving DecidableEq

/-- The struct `DeleteValueCommand`. -/
structure DeleteValueCommand where
  Key : Bytes
deriving DecidableEq

/-- The call `json.Marshal(command)` for a `SetValueCommand`. -/
def marshalSetValueCommand (command : SetValueCommand) : Bytes :=
  ascii "\x7b\"key\":" ++ appendString command.Key ++ ascii ",\"value\":"
    ++ appendString command.Value ++ ascii "\x7d"

/-- The call `json.Marshal(command)` for a `DeleteValueCommand`. -/
def marshalDeleteValueCommand (command : DeleteValueCommand) : Bytes :=
  ascii "\x7b\"key\":" ++ appendString command.Key ++ ascii "\x7d"

/-- Decoder of a command object: `key` and, when present, `value`. `none` is a decoding
error. -/
def unmarshalCommand (data : Bytes) : Option (Bytes × Option Bytes) :=
  match dropLit (ascii "\x7b\"key\":") data with
  | none => none
  | some s1 =>
    match readString s1 with
    | none => none
    | some (key, s2) =>
      match dropLit (ascii ",\"value\":") s2 with
      | some s3 =>
        match readString s3 with
        | none => none
        | some (value, s4) =>
          match dropLit (ascii "\x7d") s4 with
          | some s5 => if s5.all isSpace then some (key, some value) else none
          | none => none
      | none =>
        match dropLit (ascii "\x7d") s2 with
        | some s5 => if s5.all isSpace then some (key, none) else none
        | none => none

/-- The call `json.Marshal(entry)` for a `walEntry`: fields in declaration order, `Data`
in base64. -/
def marshalEntry (entry : walEntry) : Bytes :=
  ascii "\x7b\"index\":" ++ appendUint entry.Index ++ ascii ",\"data\":\""
    ++ base64Encode entry.Data ++ ascii "\",\"entryType\":" ++ appendInt entry.EntryType
    ++ ascii "\x7d"

/-- Decoder of an entry object, followed by optional whitespace (the line feed that
`ReadBytes` leaves at the end of a line). `none` is a decoding error. -/
def unmarshalEntry (bytes : Bytes) : Option walEntry :=
  match dropLit (ascii "\x7b\"index\":") bytes with
  | none => none
  | some s1 =>
    match readUint s1 with
    | none => none
    | some (index, s2) =>
      match dropLit (ascii ",\"data\":\"") s2 with
      | none => none
      | some s3 =>
        match base64Decode (s3.takeWhile (fun b => b ≠ 34)) with
        | none => none
        | some data =>
          match dropLit (ascii "\",\"entryType\":") (s3.dropWhile (fun b => b ≠ 34)) with
          | none => none
          | some s4 =>
            match readInt s4 with
            | none => none
            | some (entryType, s5) =>
              match dropLit (ascii "\x7d") s5 with
              | some s6 =>
                if s6.all isSpace then
                  some { Index := index, Data := data, EntryType := entryType }
                else none
              | none => none

/-- The method `SetValueCommand.toWalEntry`; `json.Marshal` cannot fail on a struct of two
strings, so the returned error is always nil and is left out. -/
def SetValueCommand.toWalEntry (command : SetValueCommand) : walEntry :=
  { Index := 0, Data := marshalSetValueCommand command, EntryType := WalEntryTypeSetCommand }

/-- The method `DeleteValueCommand.toWalEntry`; the returned error is always nil. -/
def DeleteValueCommand.toWalEntry (command : DeleteValueCommand) : walEntry :=
  { Index := 0, Data := marshalDeleteValueCommand command,
    EntryType := WalEntryTypeDeleteCommand }

/-- The method `SetValueCommand.fromWalEntry`: the command after the call and whether the
call returned nil. On an error the receiver is left as it was. -/
def SetValueCommand.fromWalEntry (command : SetValueCommand) (entry : walEntry) :
    SetValueCommand × Bool :=
  if entry.EntryType ≠ WalEntryTypeSetCommand then (command, false)
  else
    match unmarshalCommand entry.Data with
    | some (key, value) => ({ Key := key, Value := value.getD command.Value }, true)
    | none => (command, false)

/-- The method `DeleteValueCommand.fromWalEntry`. -/
def DeleteValueCommand.fromWalEntry (command : DeleteValueCommand) (entry : walEntry) :
    DeleteValueCommand × Bool :=
  if entry.EntryType ≠ WalEntryTypeDeleteCommand then (command, false)
  else
    match unmarshalCommand entry.Data with
    | some (key, _) => ({ Key := key }, true)
    | none => (command, false)

/-- The method `walEntry.keyValue`: pointers to key and value, `none` for nil. The error of
`fromWalEntry` is dropped, as in the source. -/
def walEntry.keyValue (entry : walEntry) : Option Bytes × Option Bytes :=
  if entry.EntryType = WalEntryTypeSetCommand then
    let command := (SetValueCommand.fromWalEntry { Key := [], Value := [] } entry).1
    (some command.Key, some command.Value)
  else if entry.EntryType = WalEntryTypeDeleteCommand then
    let command := (DeleteValueCommand.fromWalEntry { Key := [] } entry).1
    (some command.Key, none)
  else (none, none)

/-! ## Segments (`wal_segment.go`) -/

/-- The constant `walSegmentSize` of `wal_segment.go`. The functions below take the
segment size as their first argument, so that results hold for every positive size. -/
def walSegmentSize : Nat := 5

/-- The struct `walSegmentMetadata`. `CreatedAt` is a clock reading, `Id` a fresh
identifier (a UUID string in the source). -/
structure walSegmentMetadata where
  FirstEntryIndex : Nat
  LastEntryIndex : Nat
  Closed : Bool
  SegmentIndex : Nat
  CreatedAt : Nat
  Id : Nat
  IsCompactedSegment : Bool
  CompactionCompleted : Bool
deriving DecidableEq

/-- The struct `walSegment` without file handle, writer and mutex. In the source `meta`
is a pointer shared with the manifest list of the `wal`; here it is a copy, and the
functions that write through the pointer update the manifest entry with the same `Id`. -/
structure walSegment where
  meta : walSegmentMetadata
  hashIndex : Bytes → Option Nat

/-- The world outside the process: the manifest file `dat/meta/wal_metadata.dat` (`none`
when it does not exist), the segment files by path, the clock and the UUID source. -/
structure Env where
  manifest : Option (List walSegmentMetadata)
  files : Nat × Nat → Option Bytes
  now : Nat
  uuid : Nat

/-- An empty data directory. -/
def Env.empty : Env := { manifest := none, files := fun _ => none, now := 0, uuid := 0 }

/-- The function `newWalSegment` for a non-nil `meta`. -/
def newWalSegment (m : walSegmentMetadata) : walSegment :=
  { meta := m, hashIndex := fun _ => none }

/-- The method `segmentLogFilePath`: the path `dat/wal_segment_<SegmentIndex>_<Id>.wal`,
represented by the two values that determine it. -/
def walSegmentMetadata.segmentLogFilePath (m : walSegmentMetadata) : Nat × Nat :=
  (m.SegmentIndex, m.Id)

/-- The method `isAtCapacity`. -/
def walSegmentMetadata.isAtCapacity (size : Nat) (m : walSegmentMetadata) : Bool :=
  if m.LastEntryIndex < m.FirstEntryIndex then false
  else decide (m.LastEntryIndex - m.FirstEntryIndex ≥ size)

/-- Append bytes to a file, creating it when missing (`O_CREATE|O_APPEND`). -/
def Env.appendFile (env : Env) (path : Nat × Nat) (bytes : Bytes) : Env :=
  { env with files := fun p => if p = path then some ((env.files path).getD [] ++ bytes)
                               else env.files p }

/-- Remove a file (`os.Remove`); removing a missing file changes nothing. -/
def Env.removeFile (env : Env) (path : Nat × Nat) : Env :=
  { env with files := fun p => if p = path then none else env.files p }

/-- The call `reader.ReadBytes(10)`: the bytes up to and including the first line feed, or
`none` when the input ends before one (the error `io.EOF`). -/
def readBytes : Bytes → Option Bytes
  | [] => none
  | b :: rest => if b = 10 then some [b] else (readBytes rest).map (fun l => b :: l)

/-- The successive results of `ReadBytes(10)` until it fails: the complete lines of a
file, each with its line feed; `cur` is the line being read. -/
def readLinesAux : Bytes → Bytes → List Bytes
  | [], _ => []
  | b :: rest, cur =>
    if b = 10 then (cur ++ [b]) :: readLinesAux rest [] else readLinesAux rest (cur ++ [b])

/-- The complete lines of a file. -/
def readLines (content : Bytes) : List Bytes := readLinesAux content []

/-- The statements `var entry walEntry; json.Unmarshal(bytes, &entry)` with the error
dropped: on a decoding error the entry keeps its zero value. -/
def decodeLine (bytes : Bytes) : walEntry :=
  (unmarshalEntry bytes).getD { Index := 0, Data := [], EntryType := 0 }

/-- The method `ReadEntryAtOffset`. The outer `none` is the panic on a line that does not
decode; `some none` is the nil result (file missing, or no complete line at the offset). -/
def walSegment.ReadEntryAtOffset (seg : walSegment) (env : Env) (offset : Nat) :
    Option (Option walEntry) :=
  match env.files seg.meta.segmentLogFilePath with
  | none => some none
  | some content =>
    match readBytes (content.drop offset) with
    | none => some none
    | some bytes =>
      match unmarshalEntry bytes with
      | none => none
      | some entry => some (some entry)

/-- The method `walSegment.writeEntry` on a successful write: the segment and the file
system after the call. `none` is a panic: closed segment, segment at capacity, or the nil
key of an entry of unknown type. -/
def walSegment.writeEntry (size : Nat) (seg : walSegment) (env : Env) (entry : walEntry)
    (index : Option Nat) : Option (walSegment × Env) :=
  if seg.meta.Closed then none
  else if seg.meta.isAtCapacity size then none
  else
    let entry1 : walEntry :=
      match index with
      | some i => { entry with Index := i }
      | none => { entry with Index := seg.meta.LastEntryIndex }
    let offset := ((env.files seg.meta.segmentLogFilePath).getD []).length
    let env1 := env.appendFile seg.meta.segmentLogFilePath (marshalEntry entry1 ++ [10])
    let meta1 :=
      match index with
      | some _ => seg.meta
      | none => { seg.meta with LastEntryIndex := seg.meta.LastEntryIndex + 1 }
    match entry1.keyValue.1 with
    | none => none
    | some k =>
      some ({ meta := meta1,
              hashIndex := fun key => if key = k then some offset else seg.hashIndex key },
            env1)

/-- The loop of `walSegment.loadHashIndex` over the lines of the file. `none` is the panic
on the nil key of an entry of unknown type. -/
def loadHashIndexLoop : List Bytes → (Bytes → Option Nat) → Nat → Option (Bytes → Option Nat)
  | [], hashIndex, _ => some hashIndex
  | bytes :: rest, hashIndex, diskOffeset =>
    match (decodeLine bytes).keyValue.1 with
    | none => none
    | some key =>
      loadHashIndexLoop rest (fun k => if k = key then some diskOffeset else hashIndex k)
        (diskOffeset + bytes.length)

/-- The method `walSegment.loadHashIndex`; a missing file leaves the index as it is. -/
def walSegment.loadHashIndex (seg : walSegment) (env : Env) : Option walSegment :=
  match env.files seg.meta.segmentLogFilePath with
  | none => some seg
  | some content =>
    (loadHashIndexLoop (readLines content) seg.hashIndex 0).map
      (fun h => { seg with hashIndex := h })

/-- The method `processEntries`: the entries handed to the visitor, in file order. -/
def processEntries (m : walSegmentMetadata) (env : Env) : List walEntry :=
  match env.files m.segmentLogFilePath with
  | none => []
  | some content => (readLines content).map decodeLine

/-- The method `walSegment.close`. -/
def walSegment.close (seg : walSegment) : walSegment :=
  { seg with meta := { seg.meta with Closed := true } }

/-! ## The write-ahead log (`wal.go`) -/

/-- The struct `wal` together with the world it runs in. `metatada` is the list
`wal.metatada.SortedSegmentsMetadata`; `metatadaNil` tells that the pointer `wal.metatada`
is nil, as it is between `newWal` and the first `readSegments` or the first `loadMetadata`
that finds a manifest file (the list is not used then). The field `openSegment` of the
source always points at the last element of `sortedSegments` (both assignments to it, in
`openNewSegment` and `readSegments`, set it so) and is the function `wal.openSegment`
below. The ticker and the mutex are left out: `cleanSegments` is run between operations. -/
structure wal where
  sortedSegments : List walSegment
  metatada : List walSegmentMetadata
  cleaningSegments : Bool
  env : Env
  metatadaNil : Bool

/-- The field `wal.openSegment`. -/
def wal.openSegment (w : wal) : Option walSegment := w.sortedSegments.getLast?

/-- The order function of `sortMetadata`. -/
def metaLess (a b : walSegmentMetadata) : Bool :=
  if a.SegmentIndex ≠ b.SegmentIndex then decide (a.SegmentIndex < b.SegmentIndex)
  else decide (a.CreatedAt < b.CreatedAt)

/-- The entry `a` may stand before `b` in a sorted manifest: `b` is not less than `a`. -/
def metaLE (a b : walSegmentMetadata) : Prop := metaLess b a = false

instance metaLE_decidable : DecidableRel metaLE :=
  fun a b => inferInstanceAs (Decidable (metaLess b a = false))

/-- The method `sortMetadata`: a rearrangement in which no entry is `metaLess` than an
earlier one. (`sort.Slice` is not stable; the order of entries that agree in
`SegmentIndex` and `CreatedAt` is unspecified in Go and is the insertion order here.) -/
def sortMetadata (l : List walSegmentMetadata) : List walSegmentMetadata :=
  l.insertionSort metaLE

/-- The function `newWal` in a given world. -/
def newWal (env : Env) : wal :=
  { sortedSegments := [], metatada := [], cleaningSegments := false, env := env,
    metatadaNil := true }

/-- The method `newMetadata`: the new metadata and the world after reading the clock and
drawing a UUID. -/
def newMetadata (env : Env) (segmentIndex firstEntryIndex : Nat) : walSegmentMetadata × Env :=
  ({ FirstEntryIndex := firstEntryIndex, LastEntryIndex := firstEntryIndex, Closed := false,
     SegmentIndex := segmentIndex, CreatedAt := env.now, Id := env.uuid,
     IsCompactedSegment := false, CompactionCompleted := false },
   { env with now := env.now + 1, uuid := env.uuid + 1 })

/-- Write `m` through the pointer shared by the manifest list: the entry with the `Id` of
`m` becomes `m`. -/
def storeMeta (m : walSegmentMetadata) (l : List walSegmentMetadata) :
    List walSegmentMetadata :=
  l.map (fun x => if x.Id = m.Id then m else x)

/-- Replace the open segment (the last element of `sortedSegments`) and write its
metadata through to the manifest list. -/
def wal.setOpenSegment (w : wal) (seg : walSegment) : wal :=
  { w with sortedSegments := w.sortedSegments.dropLast ++ [seg],
           metatada := storeMeta seg.meta w.metatada }

/-- The method `openNewSegment`, called with a `wal.metatada` that is not nil: the callers
`readSegments` and `maybeRoll` see to it (with a nil pointer the source panics at the
append to the manifest list, which is the `none` of `maybeRoll`). -/
def wal.openNewSegment (w : wal) (index : Nat) (previousSegment : Option walSegment) : wal :=
  let w1 :=
    match w.openSegment with
    | some seg => w.setOpenSegment seg.close
    | none => w
  let firstEntryIndex :=
    match previousSegment with
    | some prev => prev.meta.LastEntryIndex
    | none => 0
  let r := newMetadata w1.env index firstEntryIndex
  { w1 with sortedSegments := w1.sortedSegments ++ [newWalSegment r.1],
            metatada := w1.metatada ++ [r.1],
            env := r.2 }

/-- The method `saveMetadata`: sort in place, then write the manifest file. It is called
with a `wal.metatada` that is not nil: `WriteEntry` and `deleteSegment` test the pointer
before the call (with a nil pointer the source panics in `sortMetadata`, which is their
`none`), and within `cleanSegments` the call of `getNextDirtySegment` has tested it. -/
def wal.saveMetadata (w : wal) : wal :=
  { w with metatada := sortMetadata w.metatada,
           env := { w.env with manifest := some (sortMetadata w.metatada) } }

/-- The method `loadMetadata`: a missing manifest file leaves the list, or the nil pointer,
as it is. Otherwise the list gets the values stored in the file, sorted, and the pointer is
not nil. (`json.Unmarshal` decodes into the structs already in the list, which the
segments in memory share; in every state reached by `WriteEntry` calls and passes the file
holds the values of the list, see `Inv.manifest`, so nothing changes through these
pointers. Statements about other states assume that file and list agree.) -/
def wal.loadMetadata (w : wal) : wal :=
  match w.env.manifest with
  | none => w
  | some l => { w with metatada := sortMetadata l, metatadaNil := false }

/-- The method `getNextDirtySegment`: the first entry that is not a compacted segment,
and the log after `loadMetadata`. `none` is the nil dereference of `wal.metatada` in the
range loop. -/
def wal.getNextDirtySegment (w : wal) : Option (Option walSegmentMetadata × wal) :=
  if w.loadMetadata.metatadaNil then none
  else some (w.loadMetadata.metatada.find? (fun m => !m.IsCompactedSegment), w.loadMetadata)

/-- The method `readSegments`: a nil `wal.metatada` becomes the empty list. -/
def wal.readSegments (w : wal) : wal :=
  let w1 : wal :=
    if w.loadMetadata.metatadaNil then
      { w.loadMetadata with metatada := [], metatadaNil := false }
    else w.loadMetadata
  let segments := w1.metatada.map newWalSegment
  if segments.length > 0 then { w1 with sortedSegments := segments }
  else w1.openNewSegment 0 none

/-- The method `maybeRoll`; `none` is the nil dereference when there is no open segment,
or, when a new segment is to be opened, the one of a nil `wal.metatada` in
`openNewSegment`. -/
def wal.maybeRoll (size : Nat) (w : wal) : Option wal :=
  match w.openSegment with
  | none => none
  | some seg =>
    if seg.meta.isAtCapacity size || seg.meta.Closed then
      if w.metatadaNil then none
      else some (w.openNewSegment (seg.meta.SegmentIndex + 1) (some seg))
    else some w

/-- The method `WriteEntry`; `none` is a panic, the last one the nil dereference of
`wal.metatada` in `saveMetadata`. The write itself succeeds, so the returned error is nil
and the manifest is saved. -/
def wal.WriteEntry (size : Nat) (w : wal) (entry : walEntry) : Option wal :=
  match w.maybeRoll size with
  | none => none
  | some w1 =>
    match w1.openSegment with
    | none => none
    | some seg =>
      match seg.writeEntry size w1.env entry none with
      | none => none
      | some (seg1, env1) =>
        if w1.metatadaNil then none
        else some ({ w1.setOpenSegment seg1 with env := env1 }).saveMetadata

/-- The loop of `GetEntry` over the segments, newest first. -/
def getEntryLoop (env : Env) (key : Bytes) : List walSegment → Option (Option walEntry)
  | [] => some none
  | segment :: older =>
    match segment.hashIndex key with
    | none => getEntryLoop env key older
    | some offset =>
      match segment.ReadEntryAtOffset env offset with
      | none => none
      | some none => getEntryLoop env key older
      | some (some entry) => some (some entry)

/-- The method `GetEntry`: `some none` is the nil result, the outer `none` a panic. -/
def wal.GetEntry (w : wal) (key : Bytes) : Option (Option walEntry) :=
  getEntryLoop w.env key w.sortedSegments.reverse

/-- The loop of `wal.loadHashIndex`: segments of an unfinished compaction are skipped. -/
def loadHashIndexAll (env : Env) : List walSegment → Option (List walSegment)
  | [] => some []
  | segment :: rest =>
    match (if segment.meta.IsCompactedSegment && !segment.meta.CompactionCompleted
           then some segment else segment.loadHashIndex env) with
    | none => none
    | some seg1 => (loadHashIndexAll env rest).map (fun l => seg1 :: l)

/-- The method `wal.loadHashIndex`. -/
def wal.loadHashIndex (w : wal) : Option wal :=
  (loadHashIndexAll w.readSegments.env w.readSegments.sortedSegments).map
    (fun segs => { w.readSegments with sortedSegments := segs })

/-- The method `deleteSegment`. `none` is the panic when `wal.metatada` is nil or no
manifest entry has the id. -/
def wal.deleteSegment (w : wal) (segmentId : Nat) : Option wal :=
  if w.metatadaNil then none
  else
    match w.metatada.find? (fun m => m.Id = segmentId) with
    | none => none
    | some m =>
      some ({ w with metatada := w.metatada.eraseP (fun m => m.Id = segmentId),
                     env := w.env.removeFile m.segmentLogFilePath }).saveMetadata

/-! ### Compaction (`cleanSegments`) -/

/-- The first visitor of `cleanSegments`: the largest index seen for each key. -/
def offsetMapStep (offsetMap : Bytes → Option Nat) (entry : walEntry) : Bytes → Option Nat :=
  match entry.keyValue.1 with
  | none => offsetMap
  | some key =>
    match offsetMap key with
    | some offset =>
      if entry.Index > offset then fun k => if k = key then some entry.Index else offsetMap k
      else offsetMap
    | none => fun k => if k = key then some entry.Index else offsetMap k

/-- The second visitor of `cleanSegments`. `none` is the nil dereference `*offset` for a
Delete entry whose key is not in `offsetMap`. In the purge loop `key != k` compares two
`*string` pointers, each the address of a fresh local of a `keyValue` call, so it is true
for every `e` and `tempEntries` keeps all of `entries`. -/
def gatherStep (offsetMap : Bytes → Option Nat) (entries : List walEntry) (entry : walEntry) :
    Option (List walEntry) :=
  match entry.keyValue with
  | (none, _) => some entries
  | (some key, value) =>
    match offsetMap key, value with
    | none, some _ => some (entries ++ [entry])
    | none, none => none
    | some offset, none =>
      if entry.Index ≥ offset then some (entries.filter (fun _ => true)) else some entries
    | some offset, some _ =>
      if entry.Index ≥ offset then some (entries ++ [entry]) else some entries

/-- The visitor run over a list of entries. -/
def gatherEntries (offsetMap : Bytes → Option Nat) :
    List walEntry → List walEntry → Option (List walEntry)
  | entries, [] => some entries
  | entries, entry :: rest =>
    match gatherStep offsetMap entries entry with
    | none => none
    | some entries1 => gatherEntries offsetMap entries1 rest

/-- The loop of `cleanSegments` over the manifest list: gathers the live entries and the
segments to delete, and stops after the segment to clean. -/
def gatherLoop (env : Env) (segmentToClean : walSegmentMetadata) (offsetMap : Bytes → Option Nat) :
    List walSegmentMetadata → List walEntry → List walSegmentMetadata →
      Option (List walEntry × List walSegmentMetadata)
  | [], entries, cleanedSegments => some (entries, cleanedSegments)
  | m :: rest, entries, cleanedSegments =>
    if segmentToClean.SegmentIndex ≥ m.SegmentIndex && m.Closed then
      match gatherEntries offsetMap entries (processEntries m env) with
      | none => none
      | some entries1 =>
        if m.Id = segmentToClean.Id then some (entries1, cleanedSegments ++ [m])
        else gatherLoop env segmentToClean offsetMap rest entries1 (cleanedSegments ++ [m])
    else if m.Id = segmentToClean.Id then some (entries, cleanedSegments)
    else gatherLoop env segmentToClean offsetMap rest entries cleanedSegments

/-- The variables of the loop of `cleanSegments` that writes the compacted segments;
`currentSegmentMeta` is `currentSegment.meta`. -/
structure emitState where
  w : wal
  newSegmentMetas : List walSegmentMetadata
  currentBatchSize : Nat
  currentSegment : Option walSegment

/-- One iteration of the writing loop, for `entry` followed by the entries `rest`
(`index == len(entries)-1` is `rest = []`). -/
def emitStep (size : Nat) (st : emitState) (entry : walEntry) (rest : List walEntry) :
    Option emitState :=
  let st1 : emitState :=
    if st.currentBatchSize = 0 then
      let r := newMetadata st.w.env st.newSegmentMetas.length entry.Index
      let m : walSegmentMetadata :=
        { r.1 with IsCompactedSegment := true, CompactionCompleted := false,
                   FirstEntryIndex := entry.Index }
      { st with w := { st.w with env := r.2 },
                currentSegment := some (newWalSegment m),
                newSegmentMetas := st.newSegmentMetas ++ [m] }
    else st
  match st1.currentSegment with
  | none => none
  | some seg =>
    match seg.writeEntry size st1.w.env entry (some entry.Index) with
    | none => none
    | some (seg1, env1) =>
      if st1.currentBatchSize + 1 ≥ size || rest = [] then
        let m : walSegmentMetadata := { seg1.meta with LastEntryIndex := entry.Index }
        some { w := ({ st1.w with env := env1, metatada := st1.w.metatada ++ [m] }).saveMetadata,
               newSegmentMetas := storeMeta m st1.newSegmentMetas,
               currentBatchSize := 0,
               currentSegment := some { seg1 with meta := m } }
      else
        some { st1 with w := { st1.w with env := env1 },
                        currentBatchSize := st1.currentBatchSize + 1,
                        currentSegment := some seg1 }

/-- The writing loop of `cleanSegments`. -/
def emitLoop (size : Nat) : emitState → List walEntry → Option emitState
  | st, [] => some st
  | st, entry :: rest =>
    match emitStep size st entry rest with
    | none => none
    | some st1 => emitLoop size st1 rest

/-- The loop that marks the new segments completed and closed, through the pointers shared
with the manifest list. -/
def finalizeMetas (newSegmentMetas l : List walSegmentMetadata) : List walSegmentMetadata :=
  l.map (fun m => if newSegmentMetas.any (fun n => n.Id = m.Id)
                  then { m with CompactionCompleted := true, Closed := true } else m)

/-- The loop that deletes the cleaned segments. -/
def deleteSegments : wal → List walSegmentMetadata → Option wal
  | w, [] => some w
  | w, m :: rest =>
    match w.deleteSegment m.Id with
    | none => none
    | some w1 => deleteSegments w1 rest

/-- The method `cleanSegments`: one compaction pass. `none` is a panic. (The source sets
`cleaningSegments` for the duration of the pass and resets it in a deferred function when
the pass returns; the flag is read only by the test at the start, so it keeps its value
`false` here.) -/
def wal.cleanSegments (size : Nat) (w : wal) : Option wal :=
  if w.cleaningSegments then some w
  else
    match w.getNextDirtySegment with
    | none => none
    | some (none, w1) => some w1
    | some (some segmentToClean, w1) =>
      if !segmentToClean.Closed then some w1
      else
        let offsetMap := (processEntries segmentToClean w1.env).foldl offsetMapStep (fun _ => none)
        match gatherLoop w1.env segmentToClean offsetMap w1.metatada [] [] with
        | none => none
        | some (entries, cleanedSegments) =>
          match emitLoop size { w := w1, newSegmentMetas := [], currentBatchSize := 0,
                                currentSegment := none } entries with
          | none => none
          | some st =>
            let w2 := ({ st.w with metatada := finalizeMetas st.newSegmentMetas st.w.metatada
                       }).saveMetadata
            match deleteSegments w2 cleanedSegments with
            | none => none
            | some w3 => some w3.saveMetadata

/-! ## The store (`kvstore.go`) -/

/-- The struct `KvStore`. -/
structure KvStore where
  wal : wal

/-- The function `NewKvStore` on a data directory; `none` is a panic. -/
def NewKvStore (env : Env) : Option KvStore :=
  (newWal env).loadHashIndex.map (fun w => { wal := w })

/-- The method `Put`; the error of `WriteEntry` is dropped and nil is returned. -/
def KvStore.Put (size : Nat) (store : KvStore) (key value : Bytes) : Option KvStore :=
  (store.wal.WriteEntry size (SetValueCommand.toWalEntry { Key := key, Value := value })).map
    (fun w => { wal := w })

/-- The method `Get`: `some none` is the nil result, the outer `none` a panic. -/
def KvStore.Get (store : KvStore) (key : Bytes) : Option (Option Bytes) :=
  match store.wal.GetEntry key with
  | none => none
  | some none => some none
  | some (some entry) => some entry.keyValue.2

/-- The method `Delete`. -/
def KvStore.Delete (size : Nat) (store : KvStore) (key : Bytes) : Option KvStore :=
  (store.wal.WriteEntry size (DeleteValueCommand.toWalEntry { Key := key })).map
    (fun w => { wal := w })

/-! ## Specification-level views of a segment file

These functions are not part of the program: they describe the contents of files and hash
indexes in the statements below. -/

/-- The content of a segment file holding the entries `es`: one encoded entry per line. -/
def fileOf : List walEntry → Bytes
  | [] => []
  | e :: es => marshalEntry e ++ 10 :: fileOf es

/-- The hash index obtained from `h` by recording the entries `es`, written from offset
`off` on: each key points at the offset of the last entry written for it. -/
def hashIndexFrom (h : Bytes → Option Nat) (off : Nat) : List walEntry → Bytes → Option Nat
  | [] => h
  | e :: es =>
    match e.keyValue.1 with
    | none => hashIndexFrom h (off + (marshalEntry e ++ [10]).length) es
    | some key =>
      hashIndexFrom (fun k => if k = key then some off else h k)
        (off + (marshalEntry e ++ [10]).length) es

/-- The hash index of a segment file holding the entries `es`. -/
def hashIndexOf (es : List walEntry) : Bytes → Option Nat := hashIndexFrom (fun _ => none) 0 es

/-- The last entry for `key` in a sequence of entries. -/
def lastFor (key : Bytes) (es : List walEntry) : Option walEntry :=
  es.reverse.find? (fun e => decide (e.keyValue.1 = some key))

/-- The content of a file, a missing file counting as empty. -/
def Env.content (env : Env) (path : Nat × Nat) : Bytes := (env.files path).getD []

/-- The manifest in order, each segment with the entries stored in its file. -/
abbrev Log := List (walSegmentMetadata × List walEntry)

/-- The entries of all segments, in manifest order. -/
def Log.entries : Log → List walEntry
  | [] => []
  | p :: rest => p.2 ++ Log.entries rest

/-- A segment in memory agrees with the file holding the entries `es`: the file has that
content and the hash index is the one of `es`. -/
def SegOK (env : Env) (seg : walSegment) (es : List walEntry) : Prop :=
  env.content seg.meta.segmentLogFilePath = fileOf es ∧ seg.hashIndex = hashIndexOf es ∧
    ∀ e ∈ es, e.keyValue.1 ≠ none

/-! ## Invariants of the log

The log is described by three parts: the compacted segments `C`, the closed segments `D`
written by `WriteEntry` and not yet compacted, and the open segment `o`. -/

/-- A finished compacted segment: at most `size` entries, all of them Sets, the index
range given by the first and the last entry. -/
structure CompactedOK (size : Nat) (p : walSegmentMetadata × List walEntry) : Prop where
  compacted : p.1.IsCompactedSegment = true
  completed : p.1.CompactionCompleted = true
  closed : p.1.Closed = true
  nonempty : p.2 ≠ []
  len : p.2.length ≤ size
  first : p.2.head?.map (fun e => e.Index) = some p.1.FirstEntryIndex
  last : p.2.getLast?.map (fun e => e.Index) = some p.1.LastEntryIndex
  sets : ∀ e ∈ p.2, e.keyValue.2 ≠ none

/-- A segment written by `WriteEntry`: its entries carry the consecutive indices from
`FirstEntryIndex` up to `LastEntryIndex - 1`, at most `size` of them. -/
structure DirtyOK (size : Nat) (p : walSegmentMetadata × List walEntry) : Prop where
  dirty : p.1.IsCompactedSegment = false
  range : p.2.map (fun e => e.Index) =
    List.range' p.1.FirstEntryIndex (p.1.LastEntryIndex - p.1.FirstEntryIndex)
  le : p.1.FirstEntryIndex ≤ p.1.LastEntryIndex
  cap : p.1.LastEntryIndex - p.1.FirstEntryIndex ≤ size

/-- The invariant of the states reached by `WriteEntry` calls and compaction passes. -/
structure Inv (size : Nat) (w : wal) (C D : Log) (o : walSegmentMetadata × List walEntry) :
    Prop where
  metas : w.metatada = (C ++ D ++ [o]).map Prod.fst
  manifest : w.env.manifest = none ∨ w.env.manifest = some w.metatada
  content : ∀ p ∈ C ++ D ++ [o], w.env.content p.1.segmentLogFilePath = fileOf p.2
  fresh : ∀ path : Nat × Nat, w.env.uuid ≤ path.2 → w.env.files path = none
  ids : ∀ p ∈ C ++ D ++ [o], p.1.Id < w.env.uuid
  nodup : ((C ++ D ++ [o]).map (fun p => p.1.Id)).Nodup
  segIdx : ((C ++ D ++ [o]).map (fun p => p.1.SegmentIndex)).Pairwise (fun a b => a < b)
  comp : ∀ p ∈ C, CompactedOK size p
  compKeys : ((Log.entries C).map (fun e => e.keyValue.1)).Nodup
  dirty : ∀ p ∈ D, DirtyOK size p ∧ p.1.Closed = true
  openOK : DirtyOK size o ∧ o.1.Closed = false
  keys : ∀ e ∈ Log.entries (C ++ D ++ [o]), e.keyValue.1 ≠ none
  incr : ((Log.entries (C ++ D ++ [o])).map (fun e => e.Index)).Pairwise (fun a b => a < b)
  bound : ∀ e ∈ Log.entries (C ++ D ++ [o]), e.Index < o.1.LastEntryIndex
  mem : ∃ ss seg, w.sortedSegments = ss ++ [seg] ∧ seg.meta = o.1
  notCleaning : w.cleaningSegments = false
  nonNil : w.metatadaNil = false

/-- The segments in memory mirror the log: same metadata, and each hash index is the one
of the segment file. Holds as long as no compaction pass has run. -/
def Mirror (w : wal) (log : Log) : Prop :=
  w.sortedSegments.map (fun s => s.meta) = log.map Prod.fst ∧
    w.sortedSegments.map (fun s => s.hashIndex) = log.map (fun p => hashIndexOf p.2)

/-- The store created by `NewKvStore` on an empty data directory. -/
def freshWal : wal := (newWal Env.empty).readSegments

/-- The metadata of a segment after one more auto-indexed entry. -/
def bumpLast (m : walSegmentMetadata) : walSegmentMetadata :=
  { m with LastEntryIndex := m.LastEntryIndex + 1 }

/-- The entry `e` as written with index `i`. -/
def withIndex (e : walEntry) (i : Nat) : walEntry := { e with Index := i }

/-- The metadata of a segment after it has been closed. -/
def closedMeta (m : walSegmentMetadata) : walSegmentMetadata := { m with Closed := true }

/-- The metadata of the segment opened by a roll after the segment `m`, once its first
entry has been written. -/
def rolledMeta (m : walSegmentMetadata) (now uuid : Nat) : walSegmentMetadata :=
  { FirstEntryIndex := m.LastEntryIndex, LastEntryIndex := m.LastEntryIndex + 1,
    Closed := false, SegmentIndex := m.SegmentIndex + 1, CreatedAt := now, Id := uuid,
    IsCompactedSegment := false, CompactionCompleted := false }

/-! ## Runs -/

/-- An operation on the log: a `WriteEntry` call or a complete `cleanSegments` pass. -/
inductive Op where
  | write (entry : walEntry)
  | clean

/-- One operation; `none` is a panic. -/
def wal.step (size : Nat) (w : wal) : Op → Option wal
  | Op.write entry => w.WriteEntry size entry
  | Op.clean => w.cleanSegments size

/-- A sequence of operations, in order. -/
def wal.run (size : Nat) : wal → List Op → Option wal
  | w, [] => some w
  | w, op :: ops =>
    match w.step size op with
    | none => none
    | some w1 => wal.run size w1 ops

/-- A call of the store: `Put(key, value)` or `Delete(key)`. -/
inductive Cmd where
  | put (key value : Bytes)
  | delete (key : Bytes)

/-- One call of the store; `none` is a panic. -/
def KvStore.exec (size : Nat) (store : KvStore) : Cmd → Option KvStore
  | Cmd.put key value => store.Put size key value
  | Cmd.delete key => store.Delete size key

/-- A sequence of calls of the store, in order. -/
def KvStore.run (size : Nat) : KvStore → List Cmd → Option KvStore
  | store, [] => some store
  | store, c :: cs =>
    match store.exec size c with
    | none => none
    | some s1 => KvStore.run size s1 cs

/-- The entry that a call hands to `WriteEntry`. -/
def Cmd.entry : Cmd → walEntry
  | Cmd.put key value => SetValueCommand.toWalEntry { Key := key, Value := value }
  | Cmd.delete key => DeleteValueCommand.toWalEntry { Key := key }

/-- The key of a call. -/
def Cmd.key : Cmd → Bytes
  | Cmd.put key _ => key
  | Cmd.delete key => key

/-- The most recent call on the key `k`. -/
def lastCmd (k : Bytes) (cs : List Cmd) : Option Cmd :=
  cs.reverse.find? (fun c => decide (c.key = k))

/-- The result expected of `Get(k)` after the calls `cs`: the value of the most recent
`Put` of `k` when the most recent call on `k` is a `Put`, nil when it is a `Delete` or
when there is no call on `k`. -/
def kvModel (cs : List Cmd) (k : Bytes) : Option Bytes :=
  match lastCmd k cs with
  | some (Cmd.put _ value) => some value
  | some (Cmd.delete _) => none
  | none => none

/-- The entries `es` as `WriteEntry` stores them when the next index is `i`. -/
def stamp (i : Nat) : List walEntry → List walEntry
  | [] => []
  | e :: es => withIndex e i :: stamp (i + 1) es

/-- The calls whose keys and values are valid UTF-8 (which `encoding/json` stores
unchanged). -/
def Cmd.valid : Cmd → Bool
  | Cmd.put key value => validUTF8 key && validUTF8 value
  | Cmd.delete key => validUTF8 key

/-- The result of `Get` that an entry stands for. -/
def valueOf (e : Option walEntry) : Option Bytes :=
  match e with
  | none => none
  | some entry => entry.keyValue.2

/-- The layout of the log after `n` writes and no compaction: the closed segments `D` are
full and numbered from 0, and the open segment `o` holds the remaining entries. -/
structure Layout (size n : Nat) (D : Log) (o : walSegmentMetadata × List walEntry) : Prop where
  closed : ∀ j p, D[j]? = some p →
    p.1.SegmentIndex = j ∧ p.1.FirstEntryIndex = j * size ∧
      p.1.LastEntryIndex = (j + 1) * size ∧ p.2.length = size
  openIdx : o.1.SegmentIndex = D.length
  openFirst : o.1.FirstEntryIndex = D.length * size
  openLast : o.1.LastEntryIndex = n
  lower : (n = 0 ∧ D = []) ∨ D.length * size < n
  upper : n ≤ (D.length + 1) * size

/-- A compacted segment whose compaction has not been completed. -/
def walSegmentMetadata.unfinished (m : walSegmentMetadata) : Bool :=
  m.IsCompactedSegment && !m.CompactionCompleted

/-- A data directory left by an interrupted compaction pass: the manifest lists an
unfinished compacted segment (id 5) whose file holds an entry for the key `a`, and the
open segment (id 0) with an entry `a = 1`. -/
def interruptedEnv : Env :=
  { manifest := some
      [{ FirstEntryIndex := 0, LastEntryIndex := 0, Closed := false, SegmentIndex := 0,
         CreatedAt := 0, Id := 0, IsCompactedSegment := false, CompactionCompleted := false },
       { FirstEntryIndex := 0, LastEntryIndex := 0, Closed := false, SegmentIndex := 0,
         CreatedAt := 5, Id := 5, IsCompactedSegment := true, CompactionCompleted := false }],
    files := fun p =>
      if p = (0, 0) then some (fileOf [(Cmd.put (ascii "a") (ascii "1")).entry])
      else if p = (0, 5) then some (fileOf [(Cmd.put (ascii "a") (ascii "9")).entry])
      else none,
    now := 6, uuid := 6 }

/-- Six calls that fill the first segment (size 5) and roll to the second one. -/
def sixPuts : List Cmd :=
  [Cmd.put (ascii "a") (ascii "1"), Cmd.put (ascii "b") (ascii "1"),
   Cmd.put (ascii "b") (ascii "2"), Cmd.put (ascii "b") (ascii "3"),
   Cmd.put (ascii "b") (ascii "4"), Cmd.put (ascii "b") (ascii "5")]

/-- The store after `sixPuts` on an empty directory, with the segment size of the source. -/
def afterSixPuts : Option KvStore :=
  (NewKvStore Env.empty).bind (fun s => KvStore.run walSegmentSize s sixPuts)

/-- The same store instance after one complete `cleanSegments` pass. -/
def afterSixPutsAndPass : Option KvStore :=
  afterSixPuts.bind (fun s => (s.wal.cleanSegments walSegmentSize).map (fun w => { wal := w }))

/-! ## Specification-level view of a compaction pass -/

/-- The map built by the first visitor of `cleanSegments` from the entries of the segment
to clean. -/
def offsetMapOf (es : List walEntry) : Bytes → Option Nat :=
  es.foldl offsetMapStep (fun _ => none)

/-- The entries that the second visitor of `cleanSegments` appends to the live list. -/
def keep (offsetMap : Bytes → Option Nat) (e : walEntry) : Bool :=
  match e.keyValue with
  | (none, _) => false
  | (some key, value) =>
    match offsetMap key, value with
    | none, some _ => true
    | none, none => false
    | some _, none => false
    | some offset, some _ => decide (e.Index ≥ offset)

/-- The live entries gathered by a pass from the compacted entries `ces` and the entries
`tes` of the segment to clean: the compacted entries whose key does not occur in `tes`,
then the entries of `tes` that are the last one of their key and are Sets. -/
def liveEntries (ces tes : List walEntry) : List walEntry :=
  (ces ++ tes).filter (keep (offsetMapOf tes))

/-- The metadata `m` with `LastEntryIndex` set to `last`. -/
def withLast (m : walSegmentMetadata) (last : Nat) : walSegmentMetadata :=
  { m with LastEntryIndex := last }

/-- The metadata that the writing loop of `cleanSegments` creates for a new compacted
segment whose first entry has index `first`. -/
def compactedMeta (segmentIndex first now uuid : Nat) : walSegmentMetadata :=
  { FirstEntryIndex := first, LastEntryIndex := first, Closed := false,
    SegmentIndex := segmentIndex, CreatedAt := now, Id := uuid,
    IsCompactedSegment := true, CompactionCompleted := false }

/-- The metadata of a compacted segment after the pass has marked it completed. -/
def completedMeta (m : walSegmentMetadata) : walSegmentMetadata :=
  { m with CompactionCompleted := true, Closed := true }

/-- The world after the clock has been read and a UUID drawn. -/
def Env.tick (env : Env) : Env := { env with now := env.now + 1, uuid := env.uuid + 1 }

/-- The index of the last entry of `x :: es`. -/
def lastIdx (x : walEntry) : List walEntry → Nat
  | [] => x.Index
  | y :: ys => lastIdx y ys

/-- A state of the writing loop inside a batch: `j` entries of the current segment `m`
have been written. -/
def emitMid (w0 : wal) (env : Env) (nsm : List walSegmentMetadata) (m : walSegmentMetadata)
    (j : Nat) (h : Bytes → Option Nat) : emitState :=
  { w := { w0 with env := env }, newSegmentMetas := nsm ++ [m], currentBatchSize := j,
    currentSegment := some { meta := m, hashIndex := h } }

/-- A state of the writing loop between two batches. -/
def emitStart (w0 : wal) (nsm : List walSegmentMetadata) (cur : Option walSegment) : emitState :=
  { w := w0, newSegmentMetas := nsm, currentBatchSize := 0, currentSegment := cur }

/-- The log after a batch has been written: the manifest list gets the new segment and is
saved. -/
def batchWal (w0 : wal) (env : Env) (m : walSegmentMetadata) : wal :=
  ({ w0 with env := env, metatada := w0.metatada ++ [m] }).saveMetadata

/-- The shape of a compacted segment as written by the writing loop of `cleanSegments`,
before it is marked completed. -/
structure BatchOK (size : Nat) (p : walSegmentMetadata × List walEntry) : Prop where
  compacted : p.1.IsCompactedSegment = true
  completed : p.1.CompactionCompleted = false
  closed : p.1.Closed = false
  nonempty : p.2 ≠ []
  len : p.2.length ≤ size
  first : p.2.head?.map (fun e => e.Index) = some p.1.FirstEntryIndex
  last : p.2.getLast?.map (fun e => e.Index) = some p.1.LastEntryIndex

/-- The effect of the writing loop of `cleanSegments`, started between two batches in the
log `w0` with `nsm0` as the list of new segments, on the entries `live`: the state `st`
reached, and the new segments `N` with the entries in their files. -/
structure Emitted (size : Nat) (w0 : wal) (nsm0 : List walSegmentMetadata)
    (live : List walEntry) (st : emitState) (N : Log) : Prop where
  metas : st.newSegmentMetas = nsm0 ++ N.map Prod.fst
  entries : Log.entries N = live
  perm : st.w.metatada.Perm (w0.metatada ++ N.map Prod.fst)
  sorted : st.w.metatada.Sorted metaLE
  segs : st.w.sortedSegments = w0.sortedSegments
  cleaning : st.w.cleaningSegments = w0.cleaningSegments
  uuid : st.w.env.uuid = w0.env.uuid + N.length
  old : ∀ path : Nat × Nat, path.2 < w0.env.uuid → st.w.env.files path = w0.env.files path
  fresh : ∀ path : Nat × Nat, st.w.env.uuid ≤ path.2 → st.w.env.files path = none
  content : ∀ p ∈ N, st.w.env.content p.1.segmentLogFilePath = fileOf p.2
  shape : ∀ p ∈ N, BatchOK size p
  segIdx : N.map (fun p => p.1.SegmentIndex) = List.range' nsm0.length N.length
  ids : N.map (fun p => p.1.Id) = List.range' w0.env.uuid N.length
  count : N.length * size < live.length + size
  full : ∀ i p, N[i]? = some p → i + 1 < N.length → p.2.length = size

/-- The number of `WriteEntry` calls in a sequence of operations. -/
def numWrites : List Op → Nat
  | [] => 0
  | Op.write _ :: ops => numWrites ops + 1
  | Op.clean :: ops => numWrites ops

/-- The records of the log: the entries stored in the segment files, the segments taken
in the order of the manifest list. -/
def wal.records (w : wal) : List walEntry :=
  w.metatada.flatMap (fun m => processEntries m w.env)

/-- The compacted segments listed in the manifest. -/
def wal.compactedSegments (w : wal) : List walSegmentMetadata :=
  w.metatada.filter (fun m => m.IsCompactedSegment)

/-- The records stored in the compacted segments, in manifest and file order. -/
def wal.compactedRecords (w : wal) : List walEntry :=
  w.compactedSegments.flatMap (fun m => processEntries m w.env)

/-- The six writes of `sixPuts`, one complete compaction pass, and one more write. -/
def sixWritesPassWrite : List Op :=
  sixPuts.map (fun c => Op.write c.entry) ++
    [Op.clean, Op.write (Cmd.put (ascii "c") (ascii "1")).entry]

/-- The index range property as the specification states it, for every segment of the
manifest: `last_index - first_index <= capacity`, and every record of the segment file has
`first_index <= index < first_index + capacity` and `index <= last_index`. -/
def RangeOK (size : Nat) (w : wal) : Prop :=
  ∀ m ∈ w.metatada, m.LastEntryIndex - m.FirstEntryIndex ≤ size ∧
    ∀ e ∈ processEntries m w.env,
      m.FirstEntryIndex ≤ e.Index ∧ e.Index < m.FirstEntryIndex + size ∧
        e.Index ≤ m.LastEntryIndex

/-- Eleven writes (`a`, four times `b`, five times `c`, then `d`: two full segments and
one entry in the third) followed by two complete compaction passes. -/
def elevenWritesTwoPasses : List Op :=
  ([Cmd.put (ascii "a") (ascii "1"),
    Cmd.put (ascii "b") (ascii "1"), Cmd.put (ascii "b") (ascii "2"),
    Cmd.put (ascii "b") (ascii "3"), Cmd.put (ascii "b") (ascii "4"),
    Cmd.put (ascii "c") (ascii "1"), Cmd.put (ascii "c") (ascii "2"),
    Cmd.put (ascii "c") (ascii "3"), Cmd.put (ascii "c") (ascii "4"),
    Cmd.put (ascii "c") (ascii "5"),
    Cmd.put (ascii "d") (ascii "1")].map (fun c => Op.write c.entry)) ++ [Op.clean, Op.clean]

/-- The first segment of the manifest: whether it is compacted, its index range, and the
indices of the records in its file. -/
def wal.firstSegmentView (w : wal) : Option (Bool × Nat × Nat × List Nat) :=
  w.metatada.head?.map (fun m =>
    (m.IsCompactedSegment, m.FirstEntryIndex, m.LastEntryIndex,
      (processEntries m w.env).map (fun e => e.Index)))

/-- The record `e` is a Set and no record of `tes` with the same key has a larger index:
`e` is the highest-index record of its key among `tes`, and it is a Set. -/
def highestSet (tes : List walEntry) (e : walEntry) : Bool :=
  decide (e.keyValue.2 ≠ none) &&
    tes.all (fun t => decide (t.keyValue.1 = e.keyValue.1 → t.Index ≤ e.Index))

/-- The metadata of the first segment after the six writes of `sixPuts`: full and closed. -/
def firstSegmentAfterSixPuts : walSegmentMetadata :=
  { FirstEntryIndex := 0, LastEntryIndex := 5, Closed := true, SegmentIndex := 0,
    CreatedAt := 0, Id := 0, IsCompactedSegment := false, CompactionCompleted := false }

/-- The operations that do not panic: `WriteEntry` dereferences the key of the entry, which
is nil for an entry of unknown type. -/
def Op.valid : Op → Bool
  | Op.write entry => entry.keyValue.1.isSome
  | Op.clean => true

/-- The manifest order of the specification: `a` may stand before `b` when it has the
smaller `SegmentIndex`, or the same `SegmentIndex` and a `CreatedAt` that is not later. -/
def manifestOrder (a b : walSegmentMetadata) : Prop :=
  a.SegmentIndex < b.SegmentIndex ∨
    (a.SegmentIndex = b.SegmentIndex ∧ a.CreatedAt ≤ b.CreatedAt)

/-! ## Returned errors and failing writes

The functions above take the file writes to succeed and leave out the returned `error`
values, which are then nil. The variants below return the `error` as well and take the
outcome of `fileWriter.Write` as an argument. -/

/-- A non-nil `error` value: the error returned by `fileWriter.Write`. -/
inductive GoError where
  | writeFailed
deriving DecidableEq

/-- The outcome of the call `fileWriter.Write(append(bytes, '\n'))`: success, or an error
after `n` bytes of the line have reached the file (`n = 0` when the writer still holds the
error of an earlier flush). -/
inductive WriteOutcome where
  | ok
  | failed (n : Nat)
deriving DecidableEq

/-- The method `walSegment.writeEntry` with its returned `error`. On a failed write
`LastEntryIndex` is not advanced, the hash index is updated all the same, and the error is
returned. -/
def walSegment.writeEntryIO (size : Nat) (seg : walSegment) (env : Env) (entry : walEntry)
    (index : Option Nat) (out : WriteOutcome) : Option (walSegment × Env × Option GoError) :=
  if seg.meta.Closed then none
  else if seg.meta.isAtCapacity size then none
  else
    let entry1 : walEntry :=
      match index with
      | some i => { entry with Index := i }
      | none => { entry with Index := seg.meta.LastEntryIndex }
    let offset := ((env.files seg.meta.segmentLogFilePath).getD []).length
    let line := marshalEntry entry1 ++ [10]
    let env1 :=
      match out with
      | WriteOutcome.ok => env.appendFile seg.meta.segmentLogFilePath line
      | WriteOutcome.failed n => env.appendFile seg.meta.segmentLogFilePath (line.take n)
    let err : Option GoError :=
      match out with
      | WriteOutcome.ok => none
      | WriteOutcome.failed _ => some GoError.writeFailed
    let meta1 :=
      match out, index with
      | WriteOutcome.ok, none => { seg.meta with LastEntryIndex := seg.meta.LastEntryIndex + 1 }
      | _, _ => seg.meta
    match entry1.keyValue.1 with
    | none => none
    | some k =>
      some ({ meta := meta1,
              hashIndex := fun key => if key = k then some offset else seg.hashIndex key },
            env1, err)

/-- The method `WriteEntry` with its returned `error`: the manifest is saved only when the
write returned nil. -/
def wal.WriteEntryIO (size : Nat) (w : wal) (entry : walEntry) (out : WriteOutcome) :
    Option (wal × Option GoError) :=
  match w.maybeRoll size with
  | none => none
  | some w1 =>
    match w1.openSegment with
    | none => none
    | some seg =>
      match seg.writeEntryIO size w1.env entry none out with
      | none => none
      | some (seg1, env1, err) =>
        match err with
        | none =>
          if w1.metatadaNil then none
          else some (({ w1.setOpenSegment seg1 with env := env1 }).saveMetadata, none)
        | some e => some ({ w1.setOpenSegment seg1 with env := env1 }, some e)

/-- The method `Put` with its returned `error`. The error of `toWalEntry` is nil; the value
returned by `WriteEntry` is not used, and nil is returned. -/
def KvStore.PutIO (size : Nat) (store : KvStore) (key value : Bytes) (out : WriteOutcome) :
    Option (KvStore × Option GoError) :=
  (store.wal.WriteEntryIO size (SetValueCommand.toWalEntry { Key := key, Value := value })
    out).map (fun r => ({ wal := r.1 }, none))

/-- The method `Delete` with its returned `error`. -/
def KvStore.DeleteIO (size : Nat) (store : KvStore) (key : Bytes) (out : WriteOutcome) :
    Option (KvStore × Option GoError) :=
  (store.wal.WriteEntryIO size (DeleteValueCommand.toWalEntry { Key := key }) out).map
    (fun r => ({ wal := r.1 }, none))

/-- The part of `cleanSegments` that writes the compacted segments for the gathered
entries: the writing loop, the loop that marks the new segments completed and closed, and
the `saveMetadata` call after it. Returns the log after that call and the list
`newSegmentMetas`. `none` is a panic. -/
def wal.emitSegments (size : Nat) (w : wal) (entries : List walEntry) :
    Option (wal × List walSegmentMetadata) :=
  match emitLoop size { w := w, newSegmentMetas := [], currentBatchSize := 0,
                        currentSegment := none } entries with
  | none => none
  | some st =>
    some (({ st.w with metatada := finalizeMetas st.newSegmentMetas st.w.metatada
           }).saveMetadata,
          st.newSegmentMetas.map
            (fun m => { m with CompactionCompleted := true, Closed := true }))

/-- The append preconditions hold in the log `w`: `maybeRoll` returns, and the open segment
it leaves, to which `WriteEntry` delegates, is neither closed nor at capacity, so that
`writeEntry` on it returns for every entry with a key. -/
def AppendReady (size : Nat) (w : wal) : Prop :=
  ∃ w1 seg, w.maybeRoll size = some w1 ∧ w1.openSegment = some seg ∧
    seg.meta.Closed = false ∧ seg.meta.isAtCapacity size = false ∧
    ∀ entry, entry.keyValue.1 ≠ none → (seg.writeEntry size w1.env entry none).isSome

/-- A data directory with one segment file, at the path of segment 0 with id 0, holding
`content`. -/
def oneFileEnv (content : Bytes) : Env :=
  { Env.empty with files := fun q => if q = (0, 0) then some content else none }

/-- A segment file whose first line, `xx`, does not decode to an entry, followed by the
line of the record `a = 1` with index 5. -/
def malformedFirstLine : Bytes :=
  ascii "xx\n" ++ fileOf [withIndex (Cmd.put (ascii "a") (ascii "1")).entry 5]

/-- The non-compacted segments listed in the manifest. -/
def wal.dirtySegments (w : wal) : List walSegmentMetadata :=
  w.metatada.filter (fun m => !m.IsCompactedSegment)

/-- The records stored in the non-compacted segments, in manifest and file order. -/
def wal.dirtyRecords (w : wal) : List walEntry :=
  w.dirtySegments.flatMap (fun m => processEntries m w.env)

/-- In a list of segments in the order in which a lookup consults them, no compacted
segment stands before a non-compacted one. -/
def dirtyFirst (l : List walSegmentMetadata) : Prop :=
  l.Pairwise (fun a b => a.IsCompactedSegment = true → b.IsCompactedSegment = true)

/-- The segments in the order in which `GetEntry` consults them: `sortedSegments` from the
last to the first. -/
def wal.lookupOrder (w : wal) : List walSegmentMetadata :=
  w.sortedSegments.reverse.map (fun seg => seg.meta)

/-- The points of a pass at which the log is observed: after the metadata has been loaded,
after each iteration of the writing loop, after the marking loop and its `saveMetadata`,
after each `deleteSegment` call, and after the last `saveMetadata`. -/
inductive PassStep where
  | start
  | wrote (entry : walEntry)
  | finalized
  | deleted (segmentId : Nat)
  | done
deriving DecidableEq

/-- The writing loop of `cleanSegments` with the log after each iteration, in the order of
the iterations, and the state of the loop at its end. -/
def emitTrace (size : Nat) : emitState → List walEntry →
    Option (List (PassStep × wal) × emitState)
  | st, [] => some ([], st)
  | st, entry :: rest =>
    match emitStep size st entry rest with
    | none => none
    | some st1 =>
      (emitTrace size st1 rest).map (fun r => ((PassStep.wrote entry, st1.w) :: r.1, r.2))

/-- The loop of `cleanSegments` that deletes the cleaned segments, with the log after each
`deleteSegment` call, in the order of the calls, and the log at its end. -/
def deleteTrace : wal → List walSegmentMetadata → Option (List (PassStep × wal) × wal)
  | w, [] => some ([], w)
  | w, m :: rest =>
    match w.deleteSegment m.Id with
    | none => none
    | some w1 =>
      (deleteTrace w1 rest).map (fun r => ((PassStep.deleted m.Id, w1) :: r.1, r.2))

/-- The method `cleanSegments` with the logs it goes through, in the order in which the
source reaches them: the statements of `cleanSegments` in their order, each loop replaced
by its trace. `none` is a panic. (As in `cleanSegments`, the flag `cleaningSegments`, which
the source holds at `true` between the start and the return of the pass, is left as it
is.) -/
def wal.cleanSegmentsTrace (size : Nat) (w : wal) : Option (List (PassStep × wal)) :=
  if w.cleaningSegments then some []
  else
    match w.getNextDirtySegment with
    | none => none
    | some (none, w1) => some [(PassStep.start, w1)]
    | some (some segmentToClean, w1) =>
      if !segmentToClean.Closed then some [(PassStep.start, w1)]
      else
        let offsetMap := (processEntries segmentToClean w1.env).foldl offsetMapStep (fun _ => none)
        match gatherLoop w1.env segmentToClean offsetMap w1.metatada [] [] with
        | none => none
        | some (entries, cleanedSegments) =>
          match emitTrace size { w := w1, newSegmentMetas := [], currentBatchSize := 0,
                                 currentSegment := none } entries with
          | none => none
          | some (written, st) =>
            let w2 := ({ st.w with metatada := finalizeMetas st.newSegmentMetas st.w.metatada
                       }).saveMetadata
            match deleteTrace w2 cleanedSegments with
            | none => none
            | some (removed, w3) =>
              some ((PassStep.start, w1) :: written ++ [(PassStep.finalized, w2)] ++ removed ++
                [(PassStep.done, w3.saveMetadata)])

/-- The log at the end of a trace that starts in `w`. -/
def traceEnd (w : wal) (trace : List (PassStep × wal)) : wal :=
  (trace.getLast?.map Prod.snd).getD w

/-- A log in which the files older than the id `u0` are those of the log `w0`, and every
segment of `orig` is listed in the manifest list and in the manifest file, if there is
one. -/
def FrameOK (u0 : Nat) (w0 : wal) (orig : List walSegmentMetadata) (s : wal) : Prop :=
  (∀ path : Nat × Nat, path.2 < u0 → s.env.files path = w0.env.files path) ∧
  (∀ x ∈ orig, x ∈ s.metatada) ∧
  (∀ x ∈ orig, ∀ l, s.env.manifest = some l → x ∈ l)

/-- A log in which the segments `orig` of the log `w0` are untouched: each is listed in the
manifest list, is listed in the manifest file, if there is one, and has its file as in
`w0`. -/
def Untouched (w0 : wal) (orig : List walSegmentMetadata) (s : wal) : Prop :=
  ∀ x ∈ orig, x ∈ s.metatada ∧
    s.env.files x.segmentLogFilePath = w0.env.files x.segmentLogFilePath ∧
    ∀ l, s.env.manifest = some l → x ∈ l

theorem toNat_ofNat_u8 (n : Nat) (h : n < 256) : (UInt8.ofNat n).toNat = n := by
  simp [UInt8.ofNat, UInt8.toNat, Fin.ofNat, Nat.mod_eq_of_lt h]

theorem ofNat_toNat_u8 (b : UInt8) : UInt8.ofNat b.toNat = b := by
  cases b with
  | mk v =>
    simp only [UInt8.ofNat, UInt8.toNat, Fin.ofNat]
    congr 1
    ext
    simp [Nat.mod_eq_of_lt v.isLt]

theorem toNat_lt_u8 (b : UInt8) : b.toNat < 256 := UInt8.toNat_lt_size b

theorem toNat_inj_u8 {a b : UInt8} (h : a.toNat = b.toNat) : a = b := by
  rw [← ofNat_toNat_u8 a, ← ofNat_toNat_u8 b, h]

theorem dropLit_append (lit s : Bytes) : dropLit lit (lit ++ s) = some s := by
  induction lit with
  | nil => simp [dropLit]
  | cons a lit ih => simp [dropLit, ih]

theorem takeWhile_append_stop {p : UInt8 → Bool} (ds rest : Bytes) (hds : ∀ b ∈ ds, p b = true)
    (hrest : ∀ b, rest.head? = some b → p b = false) :
    (ds ++ rest).takeWhile p = ds ∧ (ds ++ rest).dropWhile p = rest := by
  induction ds with
  | nil =>
    cases rest with
    | nil => simp
    | cons b r =>
      have := hrest b rfl
      simp [List.takeWhile, List.dropWhile, this]
  | cons a ds ih =>
    have ha := hds a (List.mem_cons_self _ _)
    have := ih (fun b hb => hds b (List.mem_cons_of_mem _ hb))
    simp [List.takeWhile, List.dropWhile, ha, this]

theorem digitByte_toNat (d : Nat) (h : d < 10) : (digitByte d).toNat = 48 + d := by
  unfold digitByte
  exact toNat_ofNat_u8 _ (by omega)

theorem isDigit_digitByte (d : Nat) (h : d < 10) : isDigit (digitByte d) = true := by
  simp [isDigit, digitByte_toNat d h]
  omega

theorem appendUintAux_acc (fuel n : Nat) (acc : Bytes) :
    appendUintAux fuel n acc = appendUintAux fuel n [] ++ acc := by
  induction fuel generalizing n acc with
  | zero => simp [appendUintAux]
  | succ fuel ih =>
    unfold appendUintAux
    split
    · simp
    · rw [ih (n / 10) (digitByte (n % 10) :: acc), ih (n / 10) [digitByte (n % 10)]]
      simp

theorem parseUint_append_one (ds : Bytes) (b : UInt8) :
    parseUint (ds ++ [b]) = parseUint ds * 10 + (b.toNat - 48) := by
  simp [parseUint, List.foldl_append]

/-- The digits of a number: all digits, value `n`, no redundant leading zero. -/
theorem appendUintAux_spec (fuel n : Nat) (h : n < fuel) :
    (∀ b ∈ appendUintAux fuel n [], isDigit b = true) ∧
    parseUint (appendUintAux fuel n []) = n ∧
    appendUintAux fuel n [] ≠ [] ∧
    ((appendUintAux fuel n []).head? = some 48 → (appendUintAux fuel n []).length = 1) := by
  induction fuel generalizing n with
  | zero => omega
  | succ fuel ih =>
    unfold appendUintAux
    by_cases hn : n < 10
    · simp only [hn, if_true]
      refine ⟨?_, ?_, by simp, by simp⟩
      · intro b hb
        simp at hb
        subst hb
        exact isDigit_digitByte n hn
      · simp [parseUint, digitByte_toNat n hn]
    · simp only [hn, if_false]
      have hlt : n / 10 < fuel := by omega
      obtain ⟨h1, h2, h3, h4⟩ := ih (n / 10) hlt
      rw [appendUintAux_acc]
      refine ⟨?_, ?_, by simp, ?_⟩
      · intro b hb
        simp at hb
        rcases hb with hb | hb
        · exact h1 b hb
        · subst hb
          exact isDigit_digitByte _ (Nat.mod_lt _ (by omega))
      · rw [parseUint_append_one, h2, digitByte_toNat _ (Nat.mod_lt _ (by omega))]
        omega
      · intro hh
        exfalso
        cases hx : appendUintAux fuel (n / 10) [] with
        | nil => exact h3 hx
        | cons a l =>
          rw [hx] at hh h2 h4
          simp at hh
          subst hh
          have hl := h4 rfl
          simp at hl
          subst hl
          have h48 : parseUint [48] = 0 := by decide
          rw [h48] at h2
          omega

theorem appendUint_spec (n : Nat) :
    (∀ b ∈ appendUint n, isDigit b = true) ∧ parseUint (appendUint n) = n ∧
    appendUint n ≠ [] ∧ ((appendUint n).head? = some 48 → (appendUint n).length = 1) :=
  appendUintAux_spec (n + 1) n (by omega)

theorem readUint_appendUint (n : Nat) (rest : Bytes)
    (hrest : ∀ b, rest.head? = some b → isDigit b = false) :
    readUint (appendUint n ++ rest) = some (n, rest) := by
  obtain ⟨h1, h2, h3, h4⟩ := appendUint_spec n
  obtain ⟨ht, hd⟩ := takeWhile_append_stop (appendUint n) rest h1 hrest
  unfold readUint
  simp only [ht, hd, h3, if_false, h2]
  by_cases hh : (appendUint n).head? = some 48
  · simp [hh, h4 hh]
  · simp [hh]

theorem readInt_appendInt (i : Int) (rest : Bytes)
    (hrest : ∀ b, rest.head? = some b → isDigit b = false) :
    readInt (appendInt i ++ rest) = some (i, rest) := by
  unfold appendInt
  by_cases hi : i < 0
  · simp only [hi, if_true, List.cons_append, readInt]
    simp [readUint_appendUint _ rest hrest]
    rw [abs_of_neg hi]
    omega
  · simp only [hi, if_false]
    obtain ⟨h1, h2, h3, h4⟩ := appendUint_spec i.natAbs
    cases hx : appendUint i.natAbs with
    | nil => exact absurd hx h3
    | cons a l =>
      have ha : isDigit a = true := h1 a (by simp [hx])
      have ha45 : a ≠ 45 := by
        intro h
        subst h
        simp [isDigit] at ha
        revert ha
        decide
      simp only [List.cons_append, readInt, ha45, if_false]
      rw [← List.cons_append, ← hx, readUint_appendUint _ rest hrest]
      simp
      omega

theorem b64Char_facts : ∀ i : Fin 64,
    b64Index (b64Char i.val) = some i.val ∧ b64Char i.val ≠ 61 ∧ b64Char i.val ≠ 34 ∧
      b64Char i.val ≠ 10 := by
  decide

theorem b64Index_b64Char (i : Nat) (h : i < 64) : b64Index (b64Char i) = some i :=
  (b64Char_facts ⟨i, h⟩).1

theorem b64Char_ne_pad (i : Nat) (h : i < 64) : b64Char i ≠ 61 :=
  (b64Char_facts ⟨i, h⟩).2.1

theorem b64Char_ne_quote (i : Nat) (h : i < 64) : b64Char i ≠ 34 :=
  (b64Char_facts ⟨i, h⟩).2.2.1

theorem b64Char_ne_lf (i : Nat) (h : i < 64) : b64Char i ≠ 10 :=
  (b64Char_facts ⟨i, h⟩).2.2.2

theorem b64Group_three (a b c : UInt8) :
    b64Group (b64Char ((a.toNat * 65536 + b.toNat * 256 + c.toNat) / 262144))
      (b64Char ((a.toNat * 65536 + b.toNat * 256 + c.toNat) / 4096 % 64))
      (b64Char ((a.toNat * 65536 + b.toNat * 256 + c.toNat) / 64 % 64))
      (b64Char ((a.toNat * 65536 + b.toNat * 256 + c.toNat) % 64)) = some ([a, b, c], false) := by
  have ha := toNat_lt_u8 a
  have hb := toNat_lt_u8 b
  have hc := toNat_lt_u8 c
  generalize hn : a.toNat * 65536 + b.toNat * 256 + c.toNat = n
  have h1 : n / 262144 < 64 := by omega
  have h2 : n / 4096 % 64 < 64 := by omega
  have h3 : n / 64 % 64 < 64 := by omega
  have h4 : n % 64 < 64 := by omega
  unfold b64Group
  simp only [b64Index_b64Char _ h1, b64Index_b64Char _ h2, b64Index_b64Char _ h3,
    b64Index_b64Char _ h4, b64Char_ne_pad _ h4, if_false]
  have e : n / 262144 * 262144 + n / 4096 % 64 * 4096 + n / 64 % 64 * 64 + n % 64 = n := by omega
  rw [e]
  have e1 : n / 65536 = a.toNat := by omega
  have e2 : n / 256 % 256 = b.toNat := by omega
  have e3 : n % 256 = c.toNat := by omega
  rw [e1, e2, e3, ofNat_toNat_u8, ofNat_toNat_u8, ofNat_toNat_u8]

theorem b64Group_two (a b : UInt8) :
    b64Group (b64Char ((a.toNat * 256 + b.toNat) / 1024))
      (b64Char ((a.toNat * 256 + b.toNat) / 16 % 64))
      (b64Char ((a.toNat * 256 + b.toNat) % 16 * 4)) 61 = some ([a, b], true) := by
  have ha := toNat_lt_u8 a
  have hb := toNat_lt_u8 b
  generalize hn : a.toNat * 256 + b.toNat = n
  have h1 : n / 1024 < 64 := by omega
  have h2 : n / 16 % 64 < 64 := by omega
  have h3 : n % 16 * 4 < 64 := by omega
  unfold b64Group
  simp only [b64Index_b64Char _ h1, b64Index_b64Char _ h2, b64Index_b64Char _ h3,
    b64Char_ne_pad _ h3, if_true, if_false]
  have e1 : (n / 1024 * 4096 + n / 16 % 64 * 64 + n % 16 * 4) / 1024 = a.toNat := by omega
  have e2 : (n / 1024 * 4096 + n / 16 % 64 * 64 + n % 16 * 4) / 4 % 256 = b.toNat := by omega
  rw [e1, e2, ofNat_toNat_u8, ofNat_toNat_u8]

theorem b64Group_one (a : UInt8) :
    b64Group (b64Char (a.toNat / 4)) (b64Char (a.toNat % 4 * 16)) 61 61 = some ([a], true) := by
  have ha := toNat_lt_u8 a
  have h1 : a.toNat / 4 < 64 := by omega
  have h2 : a.toNat % 4 * 16 < 64 := by omega
  unfold b64Group
  simp only [b64Index_b64Char _ h1, b64Index_b64Char _ h2, if_true]
  have e1 : a.toNat / 4 * 4 + a.toNat % 4 * 16 / 16 = a.toNat := by omega
  rw [e1, ofNat_toNat_u8]

theorem base64Decode_encode (bs : Bytes) : base64Decode (base64Encode bs) = some bs := by
  induction bs using base64Encode.induct with
  | case1 => simp [base64Encode, base64Decode]
  | case2 a => simp [base64Encode, base64Decode, b64Group_one]
  | case3 a b => simp [base64Encode, base64Decode, b64Group_two]
  | case4 a b c rest ih => simp [base64Encode, base64Decode, b64Group_three, ih]

theorem base64Encode_chars (bs : Bytes) : ∀ x ∈ base64Encode bs, x ≠ 34 ∧ x ≠ 10 := by
  induction bs using base64Encode.induct with
  | case1 => simp [base64Encode]
  | case2 a =>
    have ha := toNat_lt_u8 a
    intro x hx
    simp only [base64Encode, List.mem_cons, List.mem_singleton, List.not_mem_nil, or_false] at hx
    rcases hx with h | h | h | h <;> subst h
    · exact ⟨b64Char_ne_quote _ (by omega), b64Char_ne_lf _ (by omega)⟩
    · exact ⟨b64Char_ne_quote _ (by omega), b64Char_ne_lf _ (by omega)⟩
    · decide
    · decide
  | case3 a b =>
    have ha := toNat_lt_u8 a
    have hb := toNat_lt_u8 b
    intro x hx
    simp only [base64Encode, List.mem_cons, List.mem_singleton, List.not_mem_nil, or_false] at hx
    rcases hx with h | h | h | h <;> subst h
    · exact ⟨b64Char_ne_quote _ (by omega), b64Char_ne_lf _ (by omega)⟩
    · exact ⟨b64Char_ne_quote _ (by omega), b64Char_ne_lf _ (by omega)⟩
    · exact ⟨b64Char_ne_quote _ (by omega), b64Char_ne_lf _ (by omega)⟩
    · decide
  | case4 a b c rest ih =>
    have ha := toNat_lt_u8 a
    have hb := toNat_lt_u8 b
    have hc := toNat_lt_u8 c
    intro x hx
    simp only [base64Encode, List.mem_cons] at hx
    rcases hx with h | h | h | h | h
    · subst h; exact ⟨b64Char_ne_quote _ (by omega), b64Char_ne_lf _ (by omega)⟩
    · subst h; exact ⟨b64Char_ne_quote _ (by omega), b64Char_ne_lf _ (by omega)⟩
    · subst h; exact ⟨b64Char_ne_quote _ (by omega), b64Char_ne_lf _ (by omega)⟩
    · subst h; exact ⟨b64Char_ne_quote _ (by omega), b64Char_ne_lf _ (by omega)⟩
    · exact ih x h

theorem isDigit_ne_lf (b : UInt8) (h : isDigit b = true) : b ≠ 10 := by
  intro hb
  subst hb
  revert h
  decide

theorem appendInt_no_lf (i : Int) : ∀ x ∈ appendInt i, x ≠ 10 := by
  intro x hx
  unfold appendInt at hx
  split at hx
  · simp only [List.mem_cons] at hx
    rcases hx with h | h
    · subst h; decide
    · exact isDigit_ne_lf x ((appendUint_spec _).1 x h)
  · exact isDigit_ne_lf x ((appendUint_spec _).1 x hx)

/-- An encoded entry contains no line feed. -/
theorem marshalEntry_no_lf (e : walEntry) : ∀ x ∈ marshalEntry e, x ≠ 10 := by
  intro x hx
  unfold marshalEntry at hx
  simp only [List.mem_append] at hx
  rcases hx with ((((((h | h) | h) | h) | h) | h) | h)
  · revert x; decide
  · exact isDigit_ne_lf x ((appendUint_spec _).1 x h)
  · revert x; decide
  · exact (base64Encode_chars _ x h).2
  · revert x; decide
  · exact appendInt_no_lf _ x h
  · revert x; decide

/-- Decoding an encoded entry, followed by whitespace, gives the entry back. -/
theorem unmarshalEntry_marshalEntry (e : walEntry) (ws : Bytes) (hws : ws.all isSpace = true) :
    unmarshalEntry (marshalEntry e ++ ws) = some e := by
  unfold unmarshalEntry marshalEntry
  simp only [List.append_assoc, dropLit_append]
  rw [readUint_appendUint _ _ (by intro b hb; simp [ascii] at hb; subst hb; decide)]
  simp only [dropLit_append]
  obtain ⟨ht, hd⟩ := takeWhile_append_stop (p := fun b => decide (b ≠ 34)) (base64Encode e.Data)
    (ascii "\",\"entryType\":" ++ (appendInt e.EntryType ++ (ascii "\x7d" ++ ws)))
    (by intro b hb; simpa using (base64Encode_chars _ b hb).1)
    (by intro b hb; simp [ascii] at hb; subst hb; decide)
  rw [ht, hd]
  simp only [base64Decode_encode, dropLit_append]
  rw [readInt_appendInt _ _ (by intro b hb; simp [ascii] at hb; subst hb; decide)]
  simp only [dropLit_append, hws, if_true]

theorem decodeLine_marshalEntry (e : walEntry) : decodeLine (marshalEntry e ++ [10]) = e := by
  unfold decodeLine
  rw [unmarshalEntry_marshalEntry e [10] (by decide)]
  rfl

/-! ## Segment files -/

theorem fileOf_append (es1 es2 : List walEntry) :
    fileOf (es1 ++ es2) = fileOf es1 ++ fileOf es2 := by
  induction es1 with
  | nil => rfl
  | cons e es ih => simp [fileOf, ih]

theorem fileOf_snoc (es : List walEntry) (e : walEntry) :
    fileOf (es ++ [e]) = fileOf es ++ (marshalEntry e ++ [10]) := by
  rw [fileOf_append]
  simp [fileOf]

theorem readLinesAux_line (line rest cur : Bytes) (h : ∀ x ∈ line, x ≠ 10) :
    readLinesAux (line ++ 10 :: rest) cur = (cur ++ line ++ [10]) :: readLinesAux rest [] := by
  induction line generalizing cur with
  | nil => simp [readLinesAux]
  | cons a line ih =>
    have ha : a ≠ 10 := h a (List.mem_cons_self _ _)
    simp only [List.cons_append, readLinesAux, ha, if_false, List.append_eq]
    rw [ih (cur ++ [a]) (fun x hx => h x (List.mem_cons_of_mem _ hx))]
    simp

theorem readLines_fileOf (es : List walEntry) :
    readLines (fileOf es) = es.map (fun e => marshalEntry e ++ [10]) := by
  unfold readLines
  induction es with
  | nil => rfl
  | cons e es ih =>
    simp only [fileOf, List.map_cons]
    rw [readLinesAux_line _ _ _ (marshalEntry_no_lf e), ih]
    simp

theorem map_decodeLine_readLines (es : List walEntry) :
    (readLines (fileOf es)).map decodeLine = es := by
  rw [readLines_fileOf, List.map_map]
  conv => rhs; rw [← List.map_id es]
  apply List.map_congr_left
  intro e _
  simp [decodeLine_marshalEntry]

theorem readBytes_line (line rest : Bytes) (h : ∀ x ∈ line, x ≠ 10) :
    readBytes (line ++ 10 :: rest) = some (line ++ [10]) := by
  induction line with
  | nil => simp [readBytes]
  | cons a line ih =>
    have ha : a ≠ 10 := h a (List.mem_cons_self _ _)
    simp only [List.cons_append, readBytes, ha, if_false, List.append_eq]
    rw [ih (fun x hx => h x (List.mem_cons_of_mem _ hx))]
    rfl

theorem readBytes_nil_of_no_lf (s : Bytes) (h : ∀ x ∈ s, x ≠ 10) : readBytes s = none := by
  induction s with
  | nil => rfl
  | cons a s ih =>
    have ha : a ≠ 10 := h a (List.mem_cons_self _ _)
    simp [readBytes, ha, ih (fun x hx => h x (List.mem_cons_of_mem _ hx))]

/-- Reading at the offset where an entry starts returns that entry. -/
theorem readBytes_at_entry (p1 p2 : List walEntry) (e : walEntry) :
    readBytes ((fileOf (p1 ++ e :: p2)).drop (fileOf p1).length) = some (marshalEntry e ++ [10]) := by
  rw [fileOf_append, List.drop_left]
  simp only [fileOf]
  exact readBytes_line _ _ (marshalEntry_no_lf e)

theorem processEntries_of_content (m : walSegmentMetadata) (env : Env) (es : List walEntry)
    (h : env.content m.segmentLogFilePath = fileOf es) : processEntries m env = es := by
  unfold processEntries
  unfold Env.content at h
  cases hf : env.files m.segmentLogFilePath with
  | none =>
    rw [hf] at h
    simp at h
    cases es with
    | nil => rfl
    | cons e es => simp [fileOf] at h
  | some content =>
    rw [hf] at h
    simp at h
    subst h
    exact map_decodeLine_readLines es

theorem hashIndexFrom_snoc (h : Bytes → Option Nat) (off : Nat) (es : List walEntry)
    (e : walEntry) :
    hashIndexFrom h off (es ++ [e]) =
      match e.keyValue.1 with
      | none => hashIndexFrom h off es
      | some key => fun k => if k = key then some (off + (fileOf es).length)
                             else hashIndexFrom h off es k := by
  induction es generalizing h off with
  | nil =>
    simp only [List.nil_append, hashIndexFrom, fileOf, List.length_nil, Nat.add_zero]
  | cons a es ih =>
    simp only [List.cons_append, hashIndexFrom, fileOf, List.append_eq]
    cases hk : a.keyValue.1 with
    | none =>
      simp only []
      rw [ih]
      cases e.keyValue.1 with
      | none => rfl
      | some key =>
        simp only [List.length_append, List.length_cons, List.length_nil]
        funext k
        congr 2
        omega
    | some ka =>
      simp only []
      rw [ih]
      cases e.keyValue.1 with
      | none => rfl
      | some key =>
        simp only [List.length_append, List.length_cons, List.length_nil]
        funext k
        congr 2
        omega

theorem hashIndexOf_snoc (es : List walEntry) (e : walEntry) (key : Bytes)
    (hk : e.keyValue.1 = some key) :
    hashIndexOf (es ++ [e]) =
      fun k => if k = key then some (fileOf es).length else hashIndexOf es k := by
  unfold hashIndexOf
  rw [hashIndexFrom_snoc, hk]
  simp

theorem loadHashIndexLoop_fileOf (es : List walEntry) (h : Bytes → Option Nat) (off : Nat)
    (hkeys : ∀ e ∈ es, e.keyValue.1 ≠ none) :
    loadHashIndexLoop (es.map (fun e => marshalEntry e ++ [10])) h off =
      some (hashIndexFrom h off es) := by
  induction es generalizing h off with
  | nil => rfl
  | cons e es ih =>
    have he := hkeys e (List.mem_cons_self _ _)
    simp only [List.map_cons, loadHashIndexLoop, decodeLine_marshalEntry, hashIndexFrom]
    cases hk : e.keyValue.1 with
    | none => exact absurd hk he
    | some key =>
      simp only []
      exact ih _ _ (fun x hx => hkeys x (List.mem_cons_of_mem _ hx))

theorem lastFor_snoc (key : Bytes) (es : List walEntry) (e : walEntry) :
    lastFor key (es ++ [e]) = if e.keyValue.1 = some key then some e else lastFor key es := by
  unfold lastFor
  simp [List.find?_cons]
  split <;> simp_all

theorem lastFor_append (key : Bytes) (es1 es2 : List walEntry) :
    lastFor key (es1 ++ es2) = (lastFor key es2).or (lastFor key es1) := by
  unfold lastFor
  simp [List.find?_append]

/-! ## Lookup through the hash index -/

theorem lastFor_nil (key : Bytes) : lastFor key [] = none := rfl

/-- The hash index of a file points at the last entry of each key. -/
theorem hashIndexOf_spec (es : List walEntry) (hkeys : ∀ e ∈ es, e.keyValue.1 ≠ none)
    (key : Bytes) :
    match hashIndexOf es key with
    | none => lastFor key es = none
    | some off => ∃ p1 e p2, es = p1 ++ e :: p2 ∧ off = (fileOf p1).length ∧
        lastFor key es = some e := by
  induction es using List.reverseRecOn with
  | nil => simp [hashIndexOf, hashIndexFrom, lastFor]
  | append_singleton es e ih =>
    have he : e.keyValue.1 ≠ none := hkeys e (by simp)
    have ih := ih (fun x hx => hkeys x (by simp [hx]))
    cases hk : e.keyValue.1 with
    | none => exact absurd hk he
    | some k =>
      rw [hashIndexOf_snoc es e k hk, lastFor_snoc]
      by_cases hkey : key = k
      · subst hkey
        simp only [if_true, hk]
        exact ⟨es, e, [], rfl, rfl, rfl⟩
      · have hne : ¬ (e.keyValue.1 = some key) := by
          rw [hk]
          intro h
          exact hkey (Option.some.inj h).symm
        simp only [hkey, if_false, hne]
        cases hh : hashIndexOf es key with
        | none =>
          rw [hh] at ih
          exact ih
        | some off =>
          rw [hh] at ih
          obtain ⟨p1, e1, p2, h1, h2, h3⟩ := ih
          exact ⟨p1, e1, p2 ++ [e], by simp [h1], h2, h3⟩

/-- One segment of the lookup loop: a hit in the hash index reads the last entry of the
key, a miss means the key does not occur in the segment. -/
theorem segment_lookup (env : Env) (seg : walSegment) (es : List walEntry)
    (hok : SegOK env seg es) (key : Bytes) :
    match seg.hashIndex key with
    | none => lastFor key es = none
    | some off => ∃ e, seg.ReadEntryAtOffset env off = some (some e) ∧
        lastFor key es = some e := by
  obtain ⟨hc, hh, hkeys⟩ := hok
  have hs := hashIndexOf_spec es hkeys key
  rw [hh]
  cases hx : hashIndexOf es key with
  | none =>
    rw [hx] at hs
    exact hs
  | some off =>
    rw [hx] at hs
    obtain ⟨p1, e, p2, h1, h2, h3⟩ := hs
    refine ⟨e, ?_, h3⟩
    unfold walSegment.ReadEntryAtOffset
    unfold Env.content at hc
    cases hf : env.files seg.meta.segmentLogFilePath with
    | none =>
      rw [hf] at hc
      simp at hc
      rw [h1, fileOf_append] at hc
      simp [fileOf] at hc
    | some content =>
      rw [hf] at hc
      simp at hc
      subst hc
      simp only []
      rw [h2, h1, readBytes_at_entry]
      simp only []
      rw [unmarshalEntry_marshalEntry e [10] (by decide)]

/-- The lookup loop over segments that agree with their files returns the last entry of
the key in the whole log. `ss` lists the segments oldest first. -/
theorem getEntryLoop_spec (env : Env) (key : Bytes) (ss : List (walSegment × List walEntry))
    (hok : ∀ p ∈ ss, SegOK env p.1 p.2) :
    getEntryLoop env key (ss.map Prod.fst).reverse =
      some (lastFor key (ss.map Prod.snd).flatten) := by
  induction ss using List.reverseRecOn with
  | nil => rfl
  | append_singleton ss p ih =>
    have ih := ih (fun x hx => hok x (by simp [hx]))
    have hp := segment_lookup env p.1 p.2 (hok p (by simp)) key
    simp only [List.map_append, List.map_cons, List.map_nil, List.reverse_append,
      List.reverse_cons, List.reverse_nil, List.nil_append, List.singleton_append,
      List.flatten_append, List.flatten_cons, List.flatten_nil, List.append_nil, getEntryLoop]
    rw [lastFor_append]
    cases hx : p.1.hashIndex key with
    | none =>
      rw [hx] at hp
      simp only [hp, Option.or]
      exact ih
    | some off =>
      rw [hx] at hp
      obtain ⟨e, h1, h2⟩ := hp
      simp only [h1, h2, Option.or]

/-! ## Sorting the manifest -/

theorem metaLE_total (a b : walSegmentMetadata) : metaLE a b ∨ metaLE b a := by
  unfold metaLE metaLess
  by_cases h : a.SegmentIndex = b.SegmentIndex
  · simp [h]
    omega
  · have h2 : ¬ b.SegmentIndex = a.SegmentIndex := fun e => h e.symm
    simp [h, h2]
    omega

theorem metaLE_trans (a b c : walSegmentMetadata) (h1 : metaLE a b) (h2 : metaLE b c) :
    metaLE a c := by
  unfold metaLE metaLess at *
  by_cases hab : a.SegmentIndex = b.SegmentIndex <;> by_cases hbc : b.SegmentIndex = c.SegmentIndex
    <;> by_cases hac : a.SegmentIndex = c.SegmentIndex
    <;> simp_all [eq_comm] <;> omega

instance metaLE_isTotal : IsTotal walSegmentMetadata metaLE := ⟨metaLE_total⟩

instance metaLE_isTrans : IsTrans walSegmentMetadata metaLE := ⟨metaLE_trans⟩

theorem metaLE_of_segIdx_lt (a b : walSegmentMetadata) (h : a.SegmentIndex < b.SegmentIndex) :
    metaLE a b := by
  unfold metaLE metaLess
  have : ¬ b.SegmentIndex = a.SegmentIndex := by omega
  simp [this]
  omega

theorem sorted_of_segIdx (l : List walSegmentMetadata)
    (h : (l.map (fun m => m.SegmentIndex)).Pairwise (fun a b => a < b)) : l.Sorted metaLE := by
  rw [List.pairwise_map] at h
  exact h.imp (fun {a b} hab => metaLE_of_segIdx_lt a b hab)

theorem sortMetadata_of_segIdx (l : List walSegmentMetadata)
    (h : (l.map (fun m => m.SegmentIndex)).Pairwise (fun a b => a < b)) : sortMetadata l = l :=
  List.Sorted.insertionSort_eq (sorted_of_segIdx l h)

theorem sortMetadata_perm (l : List walSegmentMetadata) : (sortMetadata l).Perm l :=
  List.perm_insertionSort metaLE l

theorem sortMetadata_sorted (l : List walSegmentMetadata) : (sortMetadata l).Sorted metaLE :=
  List.sorted_insertionSort metaLE l

/-- Two sorted arrangements of the same entries are equal when the order separates the
entries. -/
theorem sorted_perm_unique (l1 l2 : List walSegmentMetadata) (hp : l1.Perm l2)
    (h1 : l1.Sorted metaLE) (h2 : l2.Sorted metaLE)
    (hanti : ∀ a ∈ l1, ∀ b ∈ l1, metaLE a b → metaLE b a → a = b) : l1 = l2 := by
  induction l1 generalizing l2 with
  | nil => exact (List.Perm.nil_eq hp)
  | cons a t ih =>
    cases l2 with
    | nil => exact absurd hp.length_eq (by simp)
    | cons b t2 =>
      have hab : a = b := by
        have ha : a ∈ b :: t2 := hp.subset (List.mem_cons_self _ _)
        have hb : b ∈ a :: t := hp.symm.subset (List.mem_cons_self _ _)
        rcases List.mem_cons.1 ha with h | h
        · exact h
        · rcases List.mem_cons.1 hb with h' | h'
          · exact h'.symm
          · have r1 : metaLE a b := List.rel_of_sorted_cons h1 b h'
            have r2 : metaLE b a := List.rel_of_sorted_cons h2 a h
            exact hanti a (List.mem_cons_self _ _) b hb r1 r2
      subst hab
      have ht : t.Perm t2 := List.Perm.cons_inv hp
      rw [ih t2 ht h1.of_cons h2.of_cons
        (fun x hx y hy => hanti x (List.mem_cons_of_mem _ hx) y (List.mem_cons_of_mem _ hy))]

theorem eq_of_segIdx_eq (l : List walSegmentMetadata)
    (h : (l.map (fun m => m.SegmentIndex)).Pairwise (fun a b => a < b))
    (a b : walSegmentMetadata) (ha : a ∈ l) (hb : b ∈ l)
    (he : a.SegmentIndex = b.SegmentIndex) : a = b := by
  rw [List.pairwise_map] at h
  induction l with
  | nil => simp at ha
  | cons x t ih =>
    rw [List.pairwise_cons] at h
    rcases List.mem_cons.1 ha with ha1 | ha1
    · rcases List.mem_cons.1 hb with hb1 | hb1
      · rw [ha1, hb1]
      · have := h.1 b hb1
        rw [ha1] at he
        omega
    · rcases List.mem_cons.1 hb with hb1 | hb1
      · have := h.1 a ha1
        rw [hb1] at he
        omega
      · exact ih h.2 ha1 hb1

/-- A sorted arrangement of entries with strictly increasing segment indices is that list. -/
theorem sorted_eq_of_perm_segIdx (l1 l2 : List walSegmentMetadata) (hp : l1.Perm l2)
    (h1 : l1.Sorted metaLE)
    (h2 : (l2.map (fun m => m.SegmentIndex)).Pairwise (fun a b => a < b)) : l1 = l2 := by
  apply sorted_perm_unique l1 l2 hp h1 (sorted_of_segIdx l2 h2)
  intro a ha b hb r1 r2
  apply eq_of_segIdx_eq l2 h2 a b (hp.subset ha) (hp.subset hb)
  unfold metaLE metaLess at r1 r2
  by_contra hne
  have hne2 : ¬ b.SegmentIndex = a.SegmentIndex := fun e => hne e.symm
  simp [hne, hne2] at r1 r2
  omega

/-! ## One `WriteEntry` call -/

theorem keyValue_with_index (entry : walEntry) (i : Nat) :
    ({ entry with Index := i } : walEntry).keyValue = entry.keyValue := by
  simp [walEntry.keyValue, SetValueCommand.fromWalEntry, DeleteValueCommand.fromWalEntry]

theorem storeMeta_last (l : List walSegmentMetadata) (m m1 : walSegmentMetadata)
    (hl : ∀ x ∈ l, x.Id ≠ m.Id) (hid : m1.Id = m.Id) :
    storeMeta m1 (l ++ [m]) = l ++ [m1] := by
  unfold storeMeta
  rw [List.map_append]
  congr 1
  · conv => rhs; rw [← List.map_id l]
    apply List.map_congr_left
    intro x hx
    simp [hid, hl x hx]
  · simp [hid]

theorem openSegment_eq (w : wal) (ss : List walSegment) (seg : walSegment)
    (hss : w.sortedSegments = ss ++ [seg]) : w.openSegment = some seg := by
  simp [wal.openSegment, hss]

/-- A write that does not roll: the entry gets the index `LastEntryIndex` of the open
segment and is appended to its file. -/
theorem WriteEntry_noroll (size : Nat) (w : wal) (ss : List walSegment) (seg : walSegment)
    (entry : walEntry) (k : Bytes) (hss : w.sortedSegments = ss ++ [seg])
    (hcl : seg.meta.Closed = false) (hcap : seg.meta.isAtCapacity size = false)
    (hk : entry.keyValue.1 = some k) (hnil : w.metatadaNil = false) :
    w.WriteEntry size entry = some
      { sortedSegments := ss ++ [{ meta := bumpLast seg.meta,
                                   hashIndex := fun key => if key = k
                                     then some (w.env.content seg.meta.segmentLogFilePath).length
                                     else seg.hashIndex key }],
        metatada := sortMetadata (storeMeta (bumpLast seg.meta) w.metatada),
        cleaningSegments := w.cleaningSegments,
        env := { manifest := some (sortMetadata (storeMeta (bumpLast seg.meta) w.metatada)),
                 files := (w.env.appendFile seg.meta.segmentLogFilePath
                    (marshalEntry (withIndex entry seg.meta.LastEntryIndex) ++ [10])).files,
                 now := w.env.now, uuid := w.env.uuid },
        metatadaNil := false } := by
  have ho := openSegment_eq w ss seg hss
  unfold wal.WriteEntry wal.maybeRoll
  simp only [ho, hcap, hcl, Bool.or_self, Bool.false_eq_true, if_false]
  unfold walSegment.writeEntry
  simp only [hcl, hcap, Bool.false_eq_true, if_false, keyValue_with_index, hk, hnil]
  simp [wal.saveMetadata, wal.setOpenSegment, hss, List.dropLast_concat, Env.content,
    bumpLast, withIndex, hcl, Env.appendFile, hnil]

/-- A write that rolls: the open segment is closed and the entry becomes the first one of
a new segment. -/
theorem WriteEntry_roll (size : Nat) (hsize : 0 < size) (w : wal) (ss : List walSegment)
    (seg : walSegment) (entry : walEntry) (k : Bytes) (hss : w.sortedSegments = ss ++ [seg])
    (hcap : (seg.meta.isAtCapacity size || seg.meta.Closed) = true)
    (hk : entry.keyValue.1 = some k) (hnil : w.metatadaNil = false) :
    w.WriteEntry size entry = some
      { sortedSegments := ss ++ [seg.close] ++
          [{ meta := rolledMeta seg.meta w.env.now w.env.uuid,
             hashIndex := fun key => if key = k
               then some (w.env.content (seg.meta.SegmentIndex + 1, w.env.uuid)).length
               else none }],
        metatada := sortMetadata (storeMeta (rolledMeta seg.meta w.env.now w.env.uuid)
          (storeMeta (closedMeta seg.meta) w.metatada ++
            [{ rolledMeta seg.meta w.env.now w.env.uuid with
               LastEntryIndex := seg.meta.LastEntryIndex }])),
        cleaningSegments := w.cleaningSegments,
        env := { manifest := some (sortMetadata (storeMeta (rolledMeta seg.meta w.env.now w.env.uuid)
                   (storeMeta (closedMeta seg.meta) w.metatada ++
                     [{ rolledMeta seg.meta w.env.now w.env.uuid with
                        LastEntryIndex := seg.meta.LastEntryIndex }]))),
                 files := (w.env.appendFile (seg.meta.SegmentIndex + 1, w.env.uuid)
                    (marshalEntry (withIndex entry seg.meta.LastEntryIndex) ++ [10])).files,
                 now := w.env.now + 1,
                 uuid := w.env.uuid + 1 },
        metatadaNil := false } := by
  have ho := openSegment_eq w ss seg hss
  unfold wal.WriteEntry wal.maybeRoll
  simp only [ho, hcap, if_true, hnil, Bool.false_eq_true, if_false]
  have hnew : (wal.openNewSegment w (seg.meta.SegmentIndex + 1) (some seg)).sortedSegments =
      (ss ++ [seg.close]) ++ [newWalSegment (newMetadata w.env (seg.meta.SegmentIndex + 1) seg.meta.LastEntryIndex).1] := by
    simp [wal.openNewSegment, ho, wal.setOpenSegment, hss, List.dropLast_concat]
  have ho2 := openSegment_eq _ _ _ hnew
  simp only [ho2]
  unfold walSegment.writeEntry
  have hc0 : walSegmentMetadata.isAtCapacity size
      (newWalSegment (newMetadata w.env (seg.meta.SegmentIndex + 1) seg.meta.LastEntryIndex).1).meta = false := by
    simp [walSegmentMetadata.isAtCapacity, newWalSegment, newMetadata]
    omega
  simp only [hc0, Bool.false_eq_true, if_false, keyValue_with_index, hk]
  simp only [newWalSegment, newMetadata, Bool.false_eq_true, if_false]
  have hnil2 : (wal.openNewSegment w (seg.meta.SegmentIndex + 1) (some seg)).metatadaNil =
      false := by
    simp [wal.openNewSegment, ho, wal.setOpenSegment, hnil]
  simp only [hnil2, Bool.false_eq_true, if_false]
  simp only [wal.saveMetadata, wal.setOpenSegment, hnew, List.dropLast_concat, Env.content]
  simp [wal.openNewSegment, ho, wal.setOpenSegment, hss, List.dropLast_concat, newMetadata,
    walSegmentMetadata.segmentLogFilePath, Env.appendFile, newWalSegment, rolledMeta, closedMeta,
    withIndex, walSegment.close, hnil]

theorem writeEntry_nil_key (size : Nat) (seg : walSegment) (env : Env) (entry : walEntry)
    (index : Option Nat) (hk : entry.keyValue.1 = none) :
    seg.writeEntry size env entry index = none := by
  unfold walSegment.writeEntry
  cases index <;> simp only [keyValue_with_index, hk] <;> split <;> try rfl
  all_goals (split <;> rfl)

theorem WriteEntry_nil_key (size : Nat) (w : wal) (entry : walEntry)
    (hk : entry.keyValue.1 = none) : w.WriteEntry size entry = none := by
  unfold wal.WriteEntry
  cases w.maybeRoll size with
  | none => rfl
  | some w1 =>
    simp only []
    cases w1.openSegment with
    | none => rfl
    | some seg =>
      simp only [writeEntry_nil_key size seg w1.env entry none hk]

/-! ## `WriteEntry` preserves the invariant -/

theorem entries_append (l1 l2 : Log) :
    Log.entries (l1 ++ l2) = Log.entries l1 ++ Log.entries l2 := by
  induction l1 with
  | nil => rfl
  | cons p l ih => simp [Log.entries, ih]

theorem entries_singleton (p : walSegmentMetadata × List walEntry) : Log.entries [p] = p.2 := by
  simp [Log.entries]

theorem mem_entries (l : Log) (e : walEntry) : e ∈ Log.entries l ↔ ∃ p ∈ l, e ∈ p.2 := by
  induction l with
  | nil => simp [Log.entries]
  | cons p l ih => simp [Log.entries, ih]

theorem range'_snoc (a n : Nat) : List.range' a (n + 1) = List.range' a n ++ [a + n] := by
  rw [List.range'_concat]
  simp

theorem pairwise_lt_snoc (l : List Nat) (x : Nat) (h : l.Pairwise (fun a b => a < b))
    (hx : ∀ a ∈ l, a < x) : (l ++ [x]).Pairwise (fun a b => a < b) := by
  rw [List.pairwise_append]
  refine ⟨h, by simp, ?_⟩
  intro a ha b hb
  simp at hb
  subst hb
  exact hx a ha

theorem content_appendFile_same (env : Env) (path : Nat × Nat) (bytes : Bytes) :
    (env.appendFile path bytes).content path = env.content path ++ bytes := by
  simp [Env.content, Env.appendFile]

theorem content_appendFile_other (env : Env) (path q : Nat × Nat) (bytes : Bytes)
    (h : q ≠ path) : (env.appendFile path bytes).content q = env.content q := by
  simp [Env.content, Env.appendFile, h]

theorem path_ne_of_id_ne (a b : walSegmentMetadata) (h : a.Id ≠ b.Id) :
    a.segmentLogFilePath ≠ b.segmentLogFilePath := by
  intro e
  simp [walSegmentMetadata.segmentLogFilePath] at e
  exact h e.2

theorem inv_ids_ne_open {size : Nat} {w : wal} {C D : Log} {o : walSegmentMetadata × List walEntry}
    (inv : Inv size w C D o) : ∀ p ∈ C ++ D, p.1.Id ≠ o.1.Id := by
  have h := inv.nodup
  rw [List.map_append, List.nodup_append] at h
  intro p hp e
  exact h.2.2 (List.mem_map_of_mem (fun p => p.1.Id) hp) (by simp [e])

theorem inv_segIdx_lt_open {size : Nat} {w : wal} {C D : Log}
    {o : walSegmentMetadata × List walEntry} (inv : Inv size w C D o) :
    ∀ p ∈ C ++ D, p.1.SegmentIndex < o.1.SegmentIndex := by
  have h := inv.segIdx
  rw [List.map_append, List.pairwise_append] at h
  intro p hp
  exact h.2.2 _ (List.mem_map_of_mem (fun p => p.1.SegmentIndex) hp) _ (by simp)

theorem keyValue_withIndex (entry : walEntry) (i : Nat) :
    (withIndex entry i).keyValue = entry.keyValue := keyValue_with_index entry i

theorem inv_write_noroll (size : Nat) (w : wal) (C D : Log)
    (o : walSegmentMetadata × List walEntry) (inv : Inv size w C D o) (entry : walEntry)
    (k : Bytes) (hk : entry.keyValue.1 = some k) (hcap : o.1.isAtCapacity size = false) :
    ∃ w1, w.WriteEntry size entry = some w1 ∧
      Inv size w1 C D (bumpLast o.1, o.2 ++ [withIndex entry o.1.LastEntryIndex]) ∧
      (Mirror w (C ++ D ++ [o]) → Mirror w1 (C ++ D ++
        [(bumpLast o.1, o.2 ++ [withIndex entry o.1.LastEntryIndex])])) := by
  obtain ⟨ss, seg, hss, hseg⟩ := inv.mem
  have hcl : seg.meta.Closed = false := by rw [hseg]; exact inv.openOK.2
  have hcap2 : seg.meta.isAtCapacity size = false := by rw [hseg]; exact hcap
  have hW := WriteEntry_noroll size w ss seg entry k hss hcl hcap2 hk inv.nonNil
  rw [hseg] at hW
  have hmeta : storeMeta (bumpLast o.1) w.metatada = (C ++ D).map Prod.fst ++ [bumpLast o.1] := by
    rw [inv.metas, List.map_append, List.map_singleton]
    apply storeMeta_last
    · intro x hx
      obtain ⟨p, hp, rfl⟩ := List.mem_map.1 hx
      exact inv_ids_ne_open inv p hp
    · rfl
  have hseg2 : (((C ++ D).map Prod.fst ++ [bumpLast o.1]).map
      (fun m : walSegmentMetadata => m.SegmentIndex)).Pairwise (fun a b => a < b) := by
    have h := inv.segIdx
    simpa [List.map_append, Function.comp_def, bumpLast] using h
  have hsort := sortMetadata_of_segIdx _ hseg2
  rw [hmeta, hsort] at hW
  have hcont : w.env.content o.1.segmentLogFilePath = fileOf o.2 :=
    inv.content o (by simp)
  have hcapn : o.1.LastEntryIndex - o.1.FirstEntryIndex < size := by
    have := hcap
    unfold walSegmentMetadata.isAtCapacity at this
    have hle := inv.openOK.1.le
    simp [Nat.not_lt.2 hle] at this
    exact this
  refine ⟨_, hW, ?_, ?_⟩
  · constructor
    · simp
    · right; rfl
    · intro p hp
      rw [List.mem_append] at hp
      rcases hp with hp | hp
      · have hne : p.1.segmentLogFilePath ≠ o.1.segmentLogFilePath :=
          path_ne_of_id_ne _ _ (inv_ids_ne_open inv p hp)
        have := inv.content p (by simp [List.mem_append] at hp ⊢; tauto)
        simp only [Env.content, Env.appendFile, hne, if_false]
        exact this
      · simp at hp
        subst hp
        simp only [Env.content, Env.appendFile, walSegmentMetadata.segmentLogFilePath, bumpLast,
          if_true]
        rw [fileOf_snoc]
        simp only [Env.content, walSegmentMetadata.segmentLogFilePath] at hcont
        simp [hcont]
    · intro path hpath
      have hne : path ≠ o.1.segmentLogFilePath := by
        intro e
        have := inv.ids o (by simp)
        rw [e] at hpath
        simp [walSegmentMetadata.segmentLogFilePath] at hpath
        omega
      simp only [Env.appendFile, hne, if_false]
      exact inv.fresh path hpath
    · intro p hp
      have := inv.ids
      rw [List.mem_append] at hp
      rcases hp with hp | hp
      · exact this p (by simp [List.mem_append] at hp ⊢; tauto)
      · simp at hp
        subst hp
        exact this o (by simp)
    · have := inv.nodup
      simpa [List.map_append, bumpLast] using this
    · have := inv.segIdx
      simpa [List.map_append, bumpLast] using this
    · exact inv.comp
    · exact inv.compKeys
    · exact inv.dirty
    · refine ⟨⟨inv.openOK.1.dirty, ?_, ?_, ?_⟩, inv.openOK.2⟩
      · simp only [List.map_append, List.map_singleton, bumpLast, withIndex]
        rw [inv.openOK.1.range]
        have hle := inv.openOK.1.le
        have e : o.1.LastEntryIndex + 1 - o.1.FirstEntryIndex =
            (o.1.LastEntryIndex - o.1.FirstEntryIndex) + 1 := by omega
        rw [e, range'_snoc]
        congr 2
        omega
      · have := inv.openOK.1.le
        simp only [bumpLast]
        omega
      · have := inv.openOK.1.le
        simp only [bumpLast]
        omega
    · intro e he
      rw [entries_append, entries_singleton, List.mem_append] at he
      rcases he with he | he
      · exact inv.keys e (by rw [entries_append, List.mem_append]; left; exact he)
      · simp only [List.mem_append, List.mem_singleton] at he
        rcases he with he | he
        · exact inv.keys e (by
            rw [entries_append, entries_singleton, List.mem_append]; right; exact he)
        · subst he
          rw [keyValue_withIndex, hk]
          simp
    · have h1 := inv.incr
      have h2 := inv.bound
      rw [entries_append, entries_singleton] at h1 h2 ⊢
      rw [← List.append_assoc, List.map_append]
      exact pairwise_lt_snoc _ _ h1 (by
        intro a ha
        obtain ⟨e, he, rfl⟩ := List.mem_map.1 ha
        exact h2 e he)
    · intro e he
      have h2 := inv.bound
      rw [entries_append, entries_singleton] at h2 he
      rw [← List.append_assoc, List.mem_append] at he
      simp only [bumpLast]
      rcases he with he | he
      · have := h2 e he
        omega
      · simp at he
        subst he
        simp [withIndex]
    · exact ⟨ss, _, rfl, rfl⟩
    · exact inv.notCleaning
    · rfl
  · intro hm
    obtain ⟨hm1, hm2⟩ := hm
    rw [hss] at hm1 hm2
    simp only [List.map_append, List.map_singleton] at hm1 hm2
    have h1 := List.append_inj' hm1 (by simp)
    have h2 := List.append_inj' hm2 (by simp)
    constructor
    · simp only [List.map_append, List.map_singleton, h1.1]
    · simp only [List.map_append, List.map_singleton, h2.1]
      congr 2
      rw [hashIndexOf_snoc o.2 _ k (by rw [keyValue_withIndex]; exact hk)]
      have h3 : seg.hashIndex = hashIndexOf o.2 := by simpa using h2.2
      rw [h3, hcont]

theorem inv_write_roll (size : Nat) (hsize : 0 < size) (w : wal) (C D : Log)
    (o : walSegmentMetadata × List walEntry) (inv : Inv size w C D o) (entry : walEntry)
    (k : Bytes) (hk : entry.keyValue.1 = some k) (hcap : o.1.isAtCapacity size = true) :
    ∃ w1, w.WriteEntry size entry = some w1 ∧
      Inv size w1 C (D ++ [(closedMeta o.1, o.2)])
        (rolledMeta o.1 w.env.now w.env.uuid, [withIndex entry o.1.LastEntryIndex]) ∧
      (Mirror w (C ++ D ++ [o]) → Mirror w1 (C ++ (D ++ [(closedMeta o.1, o.2)]) ++
        [(rolledMeta o.1 w.env.now w.env.uuid, [withIndex entry o.1.LastEntryIndex])])) := by
  obtain ⟨ss, seg, hss, hseg⟩ := inv.mem
  have hcap2 : (seg.meta.isAtCapacity size || seg.meta.Closed) = true := by
    rw [hseg, hcap]; rfl
  have hW := WriteEntry_roll size hsize w ss seg entry k hss hcap2 hk inv.nonNil
  rw [hseg] at hW
  have hm1 : storeMeta (closedMeta o.1) w.metatada = (C ++ D).map Prod.fst ++ [closedMeta o.1] := by
    rw [inv.metas, List.map_append, List.map_singleton]
    apply storeMeta_last
    · intro x hx
      obtain ⟨p, hp, rfl⟩ := List.mem_map.1 hx
      exact inv_ids_ne_open inv p hp
    · rfl
  have hm2 : storeMeta (rolledMeta o.1 w.env.now w.env.uuid)
      (storeMeta (closedMeta o.1) w.metatada ++
        [{ rolledMeta o.1 w.env.now w.env.uuid with LastEntryIndex := o.1.LastEntryIndex }]) =
      ((C ++ D).map Prod.fst ++ [closedMeta o.1]) ++ [rolledMeta o.1 w.env.now w.env.uuid] := by
    rw [hm1]
    apply storeMeta_last
    · intro x hx
      have hlt : x.Id < w.env.uuid := by
        rw [List.mem_append] at hx
        rcases hx with hx | hx
        · obtain ⟨p, hp, rfl⟩ := List.mem_map.1 hx
          exact inv.ids p (by simp [List.mem_append] at hp ⊢; tauto)
        · simp at hx
          subst hx
          exact inv.ids o (by simp)
      simp only [rolledMeta]
      omega
    · rfl
  have hseg2 : ((((C ++ D).map Prod.fst ++ [closedMeta o.1]) ++
      [rolledMeta o.1 w.env.now w.env.uuid]).map
      (fun m : walSegmentMetadata => m.SegmentIndex)).Pairwise (fun a b => a < b) := by
    have h := inv.segIdx
    have h3 := inv_segIdx_lt_open inv
    rw [List.map_append]
    apply pairwise_lt_snoc
    · simpa [List.map_append, Function.comp_def, closedMeta] using h
    · intro a ha
      obtain ⟨m, hm, rfl⟩ := List.mem_map.1 ha
      rw [List.mem_append] at hm
      show m.SegmentIndex < o.1.SegmentIndex + 1
      rcases hm with hm | hm
      · obtain ⟨p, hp, rfl⟩ := List.mem_map.1 hm
        have := h3 p hp
        omega
      · simp only [List.mem_singleton] at hm
        subst hm
        show o.1.SegmentIndex < _
        omega
  have hsort := sortMetadata_of_segIdx _ hseg2
  rw [hm2, hsort] at hW
  have hnewpath : w.env.files (o.1.SegmentIndex + 1, w.env.uuid) = none :=
    inv.fresh _ (by simp)
  have hent : Log.entries (C ++ (D ++ [(closedMeta o.1, o.2)]) ++
      [(rolledMeta o.1 w.env.now w.env.uuid, [withIndex entry o.1.LastEntryIndex])]) =
      Log.entries (C ++ D ++ [o]) ++ [withIndex entry o.1.LastEntryIndex] := by
    simp [entries_append, entries_singleton, List.append_assoc, Log.entries]
  refine ⟨_, hW, ?_, ?_⟩
  · constructor
    · simp
    · right; rfl
    · intro p hp
      rw [List.mem_append] at hp
      rcases hp with hp | hp
      · have hp2 : p ∈ C ++ D ∨ p = (closedMeta o.1, o.2) := by
          simp only [List.mem_append, List.mem_singleton] at hp ⊢
          tauto
        have hid : p.1.Id < w.env.uuid := by
          rcases hp2 with hp2 | hp2
          · exact inv.ids p (List.mem_append_left _ hp2)
          · subst hp2
            exact inv.ids o (by simp)
        have hne : p.1.segmentLogFilePath ≠ (o.1.SegmentIndex + 1, w.env.uuid) := by
          intro e
          simp [walSegmentMetadata.segmentLogFilePath] at e
          omega
        simp only [Env.content, Env.appendFile, hne, if_false]
        rcases hp2 with hp2 | hp2
        · exact inv.content p (List.mem_append_left _ hp2)
        · subst hp2
          exact inv.content o (by simp)
      · simp at hp
        subst hp
        simp [Env.content, Env.appendFile, walSegmentMetadata.segmentLogFilePath, rolledMeta,
          hnewpath, fileOf]
    · intro path hpath
      simp only at hpath
      have hne : path ≠ (o.1.SegmentIndex + 1, w.env.uuid) := by
        intro e
        rw [e] at hpath
        simp at hpath
      simp only [Env.appendFile, hne, if_false]
      exact inv.fresh path (by omega)
    · intro p hp
      have hp2 : p ∈ C ++ D ∨ p = (closedMeta o.1, o.2) ∨
          p = (rolledMeta o.1 w.env.now w.env.uuid, [withIndex entry o.1.LastEntryIndex]) := by
        simp only [List.mem_append, List.mem_singleton] at hp ⊢
        tauto
      show p.1.Id < w.env.uuid + 1
      rcases hp2 with hp2 | hp2 | hp2
      · have := inv.ids p (List.mem_append_left _ hp2)
        omega
      · subst hp2
        have := inv.ids o (by simp)
        show o.1.Id < _
        omega
      · subst hp2
        show w.env.uuid < _
        omega
    · have h := inv.nodup
      have hids := inv.ids
      simp only [List.map_append, List.map_singleton, List.append_assoc] at h ⊢
      rw [← List.append_assoc, ← List.append_assoc, List.nodup_append]
      refine ⟨by simpa [closedMeta, List.append_assoc] using h, by simp, ?_⟩
      intro a ha hb
      simp only [List.mem_singleton, rolledMeta] at hb
      subst hb
      have ha2 : ∃ p ∈ C ++ D ++ [o], p.1.Id = w.env.uuid := by
        simp only [List.mem_append, List.mem_map, List.mem_singleton, closedMeta] at ha
        rcases ha with (⟨p, hp, hpe⟩ | ⟨p, hp, hpe⟩) | hpe
        · exact ⟨p, by simp [hp], hpe⟩
        · exact ⟨p, by simp [hp], hpe⟩
        · exact ⟨o, by simp, hpe.symm⟩
      obtain ⟨p, hp, hpe⟩ := ha2
      have := hids p hp
      omega
    · simpa [List.map_append] using hseg2
    · exact inv.comp
    · exact inv.compKeys
    · intro p hp
      rw [List.mem_append] at hp
      rcases hp with hp | hp
      · exact inv.dirty p hp
      · simp at hp
        subst hp
        exact ⟨⟨inv.openOK.1.dirty, inv.openOK.1.range, inv.openOK.1.le, inv.openOK.1.cap⟩, rfl⟩
    · refine ⟨⟨rfl, ?_, ?_, ?_⟩, rfl⟩
      · simp [rolledMeta, withIndex]
      · simp [rolledMeta]
      · simp only [rolledMeta]
        omega
    · intro e he
      rw [hent, List.mem_append] at he
      rcases he with he | he
      · exact inv.keys e he
      · simp only [List.mem_singleton] at he
        subst he
        rw [keyValue_withIndex, hk]
        simp
    · rw [hent, List.map_append]
      apply pairwise_lt_snoc _ _ inv.incr
      intro a ha
      obtain ⟨e, he, rfl⟩ := List.mem_map.1 ha
      exact inv.bound e he
    · intro e he
      rw [hent, List.mem_append] at he
      show e.Index < o.1.LastEntryIndex + 1
      rcases he with he | he
      · have := inv.bound e he
        omega
      · simp only [List.mem_singleton] at he
        subst he
        show o.1.LastEntryIndex < _
        omega
    · exact ⟨ss ++ [seg.close], _, rfl, rfl⟩
    · exact inv.notCleaning
    · rfl
  · intro hm
    obtain ⟨hm1, hm2⟩ := hm
    rw [hss] at hm1 hm2
    simp only [List.map_append, List.map_singleton] at hm1 hm2
    have h1 := List.append_inj' hm1 (by simp)
    have h2 := List.append_inj' hm2 (by simp)
    have h3 : seg.hashIndex = hashIndexOf o.2 := by simpa using h2.2
    constructor
    · simp only [List.map_append, List.map_singleton, h1.1, walSegment.close, hseg, closedMeta,
        List.append_assoc, List.map_cons, List.map_nil]
    · simp only [List.map_append, List.map_singleton, h2.1, walSegment.close, h3,
        List.append_assoc, List.map_cons, List.map_nil]
      congr 3
      have hc0 : w.env.content (o.1.SegmentIndex + 1, w.env.uuid) = [] := by
        simp [Env.content, hnewpath]
      rw [hc0]
      have := hashIndexOf_snoc [] (withIndex entry o.1.LastEntryIndex) k
        (by rw [keyValue_withIndex]; exact hk)
      simp only [List.nil_append] at this
      rw [this]
      rfl

/-! ## The fresh store and runs of writes -/

/-- The metadata of the segment that `NewKvStore` opens in an empty directory. -/
theorem freshWal_eq : freshWal =
    { sortedSegments := [newWalSegment (newMetadata Env.empty 0 0).1],
      metatada := [(newMetadata Env.empty 0 0).1],
      cleaningSegments := false,
      env := (newMetadata Env.empty 0 0).2,
      metatadaNil := false } := by
  rfl

theorem NewKvStore_empty : NewKvStore Env.empty = some { wal := freshWal } := by
  rfl

theorem inv_fresh (size : Nat) : Inv size freshWal [] [] ((newMetadata Env.empty 0 0).1, []) := by
  rw [freshWal_eq]
  constructor
  · rfl
  · left; rfl
  · intro p hp
    simp at hp
    subst hp
    rfl
  · intro path _
    rfl
  · intro p hp
    simp at hp
    subst hp
    simp [newMetadata, Env.empty]
  · simp
  · simp
  · intro p hp
    simp at hp
  · simp [Log.entries]
  · intro p hp
    simp at hp
  · refine ⟨⟨rfl, ?_, ?_, ?_⟩, rfl⟩
    · simp [newMetadata]
    · simp [newMetadata]
    · simp [newMetadata]
  · intro e he
    simp [Log.entries] at he
  · simp [Log.entries]
  · intro e he
    simp [Log.entries] at he
  · exact ⟨[], _, rfl, rfl⟩
  · rfl
  · rfl

theorem mirror_fresh : Mirror freshWal [((newMetadata Env.empty 0 0).1, [])] := by
  rw [freshWal_eq]
  constructor <;> rfl

/-- Every `WriteEntry` call with an entry of a known type succeeds, keeps the invariant,
appends the entry with the next index to the log, and keeps the segments in memory in
step with the files. -/
theorem inv_write (size : Nat) (hsize : 0 < size) (w : wal) (C D : Log)
    (o : walSegmentMetadata × List walEntry) (inv : Inv size w C D o) (entry : walEntry)
    (k : Bytes) (hk : entry.keyValue.1 = some k) :
    ∃ w1 D1 o1, w.WriteEntry size entry = some w1 ∧ Inv size w1 C D1 o1 ∧
      Log.entries (D1 ++ [o1]) = Log.entries (D ++ [o]) ++ [withIndex entry o.1.LastEntryIndex] ∧
      o1.1.LastEntryIndex = o.1.LastEntryIndex + 1 ∧
      (Mirror w (C ++ D ++ [o]) → Mirror w1 (C ++ D1 ++ [o1])) := by
  cases hcap : o.1.isAtCapacity size with
  | false =>
    obtain ⟨w1, h1, h2, h3⟩ := inv_write_noroll size w C D o inv entry k hk hcap
    exact ⟨w1, D, _, h1, h2, by simp [entries_append, entries_singleton], rfl, h3⟩
  | true =>
    obtain ⟨w1, h1, h2, h3⟩ := inv_write_roll size hsize w C D o inv entry k hk hcap
    exact ⟨w1, _, _, h1, h2, by simp [entries_append, entries_singleton, Log.entries], rfl, h3⟩

/-! ## UTF-8 and JSON strings -/

theorem inRange_iff (b : UInt8) (lo hi : Nat) :
    inRange b lo hi = true ↔ lo ≤ b.toNat ∧ b.toNat ≤ hi := by
  simp [inRange]

theorem ofNat_add_u8 (b : UInt8) (x : Nat) (h : x = b.toNat) : UInt8.ofNat x = b := by
  rw [h, ofNat_toNat_u8]

theorem utf8_three (a b1 b2 r : Nat) (ha : 0xE0 ≤ a) (ha2 : a < 0xF0)
    (h1 : (if a = 0xE0 then 0xA0 else 0x80) ≤ b1) (h2 : b1 ≤ (if a = 0xED then 0x9F else 0xBF))
    (h3 : 0x80 ≤ b2) (h4 : b2 ≤ 0xBF)
    (hr : (a - 0xE0) * 4096 + (b1 - 0x80) * 64 + (b2 - 0x80) = r) :
    ¬ (r < 0x80) ∧ ¬ (r < 0x800) ∧ ¬ ((0xD800 ≤ r ∧ r < 0xE000) ∨ 0x10FFFF < r) ∧ r < 0x10000 ∧
      0xE0 + r / 4096 = a ∧ 0x80 + r / 64 % 64 = b1 ∧ 0x80 + r % 64 = b2 := by
  split at h1 <;> split at h2 <;> omega

theorem utf8_four (a b1 b2 b3 r : Nat) (ha : 0xF0 ≤ a) (ha2 : a < 0xF5)
    (h1 : (if a = 0xF0 then 0x90 else 0x80) ≤ b1) (h2 : b1 ≤ (if a = 0xF4 then 0x8F else 0xBF))
    (h3 : 0x80 ≤ b2) (h4 : b2 ≤ 0xBF) (h5 : 0x80 ≤ b3) (h6 : b3 ≤ 0xBF)
    (hr : (a - 0xF0) * 262144 + (b1 - 0x80) * 4096 + (b2 - 0x80) * 64 + (b3 - 0x80) = r) :
    ¬ (r < 0x80) ∧ ¬ (r < 0x800) ∧ ¬ ((0xD800 ≤ r ∧ r < 0xE000) ∨ 0x10FFFF < r) ∧
      ¬ (r < 0x10000) ∧ 0xF0 + r / 262144 = a ∧ 0x80 + r / 4096 % 64 = b1 ∧
      0x80 + r / 64 % 64 = b2 ∧ 0x80 + r % 64 = b3 := by
  split at h1 <;> split at h2 <;> omega

/-- A well-formed multi-byte encoding at the front of the input: `DecodeRune` consumes
the lead byte and the continuation bytes `hd`, `AppendRune` gives these bytes back, and
the result does not depend on what follows. -/
theorem decodeRune_multibyte (b : UInt8) (rest : Bytes) (hb : 0x80 ≤ b.toNat)
    (hv : ¬ ((decodeRune (b :: rest)).1 = runeError ∧ (decodeRune (b :: rest)).2 = 1)) :
    ∃ hd tl, rest = hd ++ tl ∧ (decodeRune (b :: rest)).2 = hd.length + 1 ∧ 1 ≤ hd.length ∧
      appendRune (decodeRune (b :: rest)).1 = b :: hd ∧
      ∀ q, decodeRune (b :: (hd ++ q)) = decodeRune (b :: rest) := by
  have hb256 := toNat_lt_u8 b
  unfold decodeRune at hv ⊢
  simp only [] at hv ⊢
  by_cases h1 : b.toNat < 0x80
  · omega
  by_cases h2 : b.toNat < 0xC2
  · simp [h1, h2] at hv
  by_cases h3 : b.toNat < 0xE0
  · simp only [h1, h2, h3, if_true, if_false] at hv ⊢
    cases rest with
    | nil => simp at hv
    | cons b1 tl =>
      simp only [] at hv ⊢
      by_cases hr : inRange b1 0x80 0xBF = true
      · simp only [hr, if_true] at hv ⊢
        rw [inRange_iff] at hr
        refine ⟨[b1], tl, rfl, rfl, by simp, ?_, ?_⟩
        · unfold appendRune
          have e1 : ¬ ((b.toNat - 0xC0) * 64 + (b1.toNat - 0x80) < 0x80) := by omega
          have e2 : (b.toNat - 0xC0) * 64 + (b1.toNat - 0x80) < 0x800 := by omega
          simp only [e1, e2, if_true, if_false]
          rw [ofNat_add_u8 b _ (by omega), ofNat_add_u8 b1 _ (by omega)]
        · intro q
          simp [inRange_iff, hr]
      · simp [hr] at hv
  by_cases h4 : b.toNat < 0xF0
  · simp only [h1, h2, h3, h4, if_true, if_false] at hv ⊢
    rcases rest with _ | ⟨b1, _ | ⟨b2, tl⟩⟩
    · simp at hv
    · simp at hv
    · simp only [] at hv ⊢
      by_cases hr : (inRange b1 (if b.toNat = 0xE0 then 0xA0 else 0x80)
          (if b.toNat = 0xED then 0x9F else 0xBF) && inRange b2 0x80 0xBF) = true
      · simp only [hr, if_true] at hv ⊢
        rw [Bool.and_eq_true, inRange_iff, inRange_iff] at hr
        obtain ⟨⟨hr1, hr2⟩, hr3, hr4⟩ := hr
        refine ⟨[b1, b2], tl, rfl, rfl, by simp, ?_, ?_⟩
        · unfold appendRune
          obtain ⟨e1, e2, e3, e4, e5, e6, e7⟩ := utf8_three b.toNat b1.toNat b2.toNat _
            (by omega) h4 hr1 hr2 hr3 hr4 rfl
          simp only [e1, e2, e3, e4, if_true, if_false]
          rw [ofNat_add_u8 b _ e5, ofNat_add_u8 b1 _ e6, ofNat_add_u8 b2 _ e7]
        · intro q
          have hrr : (inRange b1 (if b.toNat = 0xE0 then 0xA0 else 0x80)
              (if b.toNat = 0xED then 0x9F else 0xBF) && inRange b2 0x80 0xBF) = true := by
            rw [Bool.and_eq_true, inRange_iff, inRange_iff]
            exact ⟨⟨hr1, hr2⟩, hr3, hr4⟩
          simp [hrr]
      · simp [hr] at hv
  by_cases h5 : b.toNat < 0xF5
  · simp only [h1, h2, h3, h4, h5, if_true, if_false] at hv ⊢
    rcases rest with _ | ⟨b1, _ | ⟨b2, _ | ⟨b3, tl⟩⟩⟩
    · simp at hv
    · simp at hv
    · simp at hv
    · simp only [] at hv ⊢
      by_cases hr : (inRange b1 (if b.toNat = 0xF0 then 0x90 else 0x80)
          (if b.toNat = 0xF4 then 0x8F else 0xBF) && inRange b2 0x80 0xBF
          && inRange b3 0x80 0xBF) = true
      · simp only [hr, if_true] at hv ⊢
        have hrr := hr
        rw [Bool.and_eq_true, Bool.and_eq_true, inRange_iff, inRange_iff, inRange_iff] at hr
        obtain ⟨⟨⟨hr1, hr2⟩, hr3, hr4⟩, hr5, hr6⟩ := hr
        refine ⟨[b1, b2, b3], tl, rfl, rfl, by simp, ?_, ?_⟩
        · unfold appendRune
          obtain ⟨e1, e2, e3, e4, e5, e6, e7, e8⟩ := utf8_four b.toNat b1.toNat b2.toNat
            b3.toNat _ (by omega) h5 hr1 hr2 hr3 hr4 hr5 hr6 rfl
          simp only [e1, e2, e3, e4, if_false]
          rw [ofNat_add_u8 b _ e5, ofNat_add_u8 b1 _ e6, ofNat_add_u8 b2 _ e7,
            ofNat_add_u8 b3 _ e8]
        · intro q
          simp [hrr]
      · simp [hr] at hv
  · simp [h1, h2, h3, h4, h5] at hv

theorem hexVal_hexChar : ∀ i : Fin 16, hexVal (hexChar i.val) = some i.val := by
  decide

theorem u8_ne_of_toNat_ne {a b : UInt8} (h : a.toNat ≠ b.toNat) : a ≠ b := by
  intro e
  exact h (by rw [e])

/-- Decoding the escape of one ASCII byte. -/
theorem unquoteAux_escapeByte (b : UInt8) (hb : b.toNat < 0x80) (fuel : Nat) (x : Bytes) :
    unquoteAux (fuel + 1) (escapeByte b ++ x) =
      (unquoteAux fuel x).map (fun p => (b :: p.1, p.2)) := by
  unfold escapeByte
  by_cases hs : htmlSafe b = true
  · simp only [hs, if_true, List.singleton_append]
    simp only [htmlSafe, Bool.and_eq_true, decide_eq_true_eq] at hs
    obtain ⟨⟨⟨⟨⟨⟨h1, h2⟩, h3⟩, h4⟩, h5⟩, h6⟩, h7⟩ := hs
    have n34 : b ≠ 34 := u8_ne_of_toNat_ne (by simpa using h3)
    have n5c : b ≠ 0x5C := u8_ne_of_toNat_ne (by simpa using h7)
    have n20 : ¬ b.toNat < 0x20 := by omega
    simp only [unquoteAux, n34, n5c, n20, hb, if_true, if_false]
  · simp only [hs, Bool.false_eq_true, if_false]
    by_cases c1 : b = 0x5C ∨ b = 0x22
    · simp only [c1, if_true]
      rcases c1 with c1 | c1 <;> subst c1 <;> simp [unquoteAux, simpleEscape]
    simp only [c1, if_false]
    by_cases c2 : b = 8
    · subst c2; simp [unquoteAux, simpleEscape]
    simp only [c2, if_false]
    by_cases c3 : b = 12
    · subst c3; simp [unquoteAux, simpleEscape]
    simp only [c3, if_false]
    by_cases c4 : b = 10
    · subst c4; simp [unquoteAux, simpleEscape]
    simp only [c4, if_false]
    by_cases c5 : b = 13
    · subst c5; simp [unquoteAux, simpleEscape]
    simp only [c5, if_false]
    by_cases c6 : b = 9
    · subst c6; simp [unquoteAux, simpleEscape]
    simp only [c6, if_false]
    have hhi : b.toNat / 16 < 16 := by omega
    have hlo : b.toNat % 16 < 16 := by omega
    have e1 := hexVal_hexChar ⟨b.toNat / 16, hhi⟩
    have e2 := hexVal_hexChar ⟨b.toNat % 16, hlo⟩
    simp only at e1 e2
    have e0 : hexVal 48 = some 0 := by decide
    have hx : hex4 48 48 (hexChar (b.toNat / 16)) (hexChar (b.toNat % 16)) = some b.toNat := by
      simp only [hex4, e0, e1, e2]
      congr 1
      omega
    have hns : ¬ (0xD800 ≤ b.toNat ∧ b.toNat < 0xE000) := by omega
    have hap : appendRune b.toNat = [b] := by
      unfold appendRune
      simp only [hb, if_true, ofNat_toNat_u8]
    have d1 : ((0x5C : UInt8) = 34) = False := by decide
    have d2 : ((117 : UInt8) = 117) = True := by decide
    have e : [0x5C, 117, 48, 48, hexChar (b.toNat / 16), hexChar (b.toNat % 16)] ++ x =
        0x5C :: 117 :: 48 :: 48 :: hexChar (b.toNat / 16) :: hexChar (b.toNat % 16) :: x := rfl
    rw [e]
    simp only [unquoteAux, d1, if_false, if_true, hx, hns, hap]
    cases unquoteAux fuel x <;> rfl

theorem unquoteAux_quote (fuel : Nat) (rest : Bytes) :
    unquoteAux (fuel + 1) (34 :: rest) = some ([], rest) := by
  simp [unquoteAux]

/-- Decoding a well-formed multi-byte sequence that was copied verbatim. -/
theorem unquoteAux_multibyte (b : UInt8) (hd tl : Bytes) (hb : 0x80 ≤ b.toNat)
    (r : Nat) (hdec : ∀ q, decodeRune (b :: (hd ++ q)) = (r, hd.length + 1))
    (hap : appendRune r = b :: hd) (fuel : Nat) :
    unquoteAux (fuel + 1) (b :: hd ++ tl) =
      (unquoteAux fuel tl).map (fun p => (b :: hd ++ p.1, p.2)) := by
  have n34 : b ≠ 34 := u8_ne_of_toNat_ne (by
    have : (34 : UInt8).toNat = 34 := rfl
    omega)
  have n5c : b ≠ 0x5C := u8_ne_of_toNat_ne (by
    have : (0x5C : UInt8).toNat = 0x5C := rfl
    omega)
  have n20 : ¬ b.toNat < 0x20 := by omega
  have n80 : ¬ b.toNat < 0x80 := by omega
  have e : b :: hd ++ tl = b :: (hd ++ tl) := rfl
  rw [e]
  simp only [unquoteAux, n34, n5c, n20, n80, if_false]
  rw [hdec tl]
  simp only [hap, Nat.add_sub_cancel, List.drop_left, List.cons_append]

/-- Decoding the escape ` ` or ` `. -/
theorem unquoteAux_linesep (r : Nat) (hr : r = 0x2028 ∨ r = 0x2029) (fuel : Nat) (x : Bytes) :
    unquoteAux (fuel + 1) (ascii "\\u202" ++ hexChar (r % 16) :: x) =
      (unquoteAux fuel x).map (fun p => (appendRune r ++ p.1, p.2)) := by
  rcases hr with hr | hr <;> subst hr
  · have hx : hex4 50 48 50 (hexChar (0x2028 % 16)) = some 0x2028 := by decide
    have e : ascii "\\u202" ++ hexChar (0x2028 % 16) :: x =
        0x5C :: 117 :: 50 :: 48 :: 50 :: hexChar (0x2028 % 16) :: x := by
      have : ascii "\\u202" = [0x5C, 117, 50, 48, 50] := by decide
      rw [this]
      rfl
    rw [e]
    have d1 : ((0x5C : UInt8) = 34) = False := by decide
    simp only [unquoteAux, d1, if_false, if_true, hx]
    simp
  · have hx : hex4 50 48 50 (hexChar (0x2029 % 16)) = some 0x2029 := by decide
    have e : ascii "\\u202" ++ hexChar (0x2029 % 16) :: x =
        0x5C :: 117 :: 50 :: 48 :: 50 :: hexChar (0x2029 % 16) :: x := by
      have : ascii "\\u202" = [0x5C, 117, 50, 48, 50] := by decide
      rw [this]
      rfl
    rw [e]
    have d1 : ((0x5C : UInt8) = 34) = False := by decide
    simp only [unquoteAux, d1, if_false, if_true, hx]
    simp

/-- Decoding the body of an encoded valid string gives the string back. -/
theorem unquoteAux_appendStringAux (n : Nat) (src rest : Bytes) (fuel : Nat)
    (hv : validAux n src = true) (hfuel : (appendStringAux n src).length + 1 ≤ fuel) :
    unquoteAux fuel (appendStringAux n src ++ 34 :: rest) = some (src, rest) := by
  induction n generalizing src fuel with
  | zero =>
    cases src with
    | nil =>
      obtain ⟨f, rfl⟩ : ∃ f, fuel = f + 1 := ⟨fuel - 1, by omega⟩
      simp [appendStringAux, unquoteAux_quote]
    | cons b t => simp [validAux] at hv
  | succ n ih =>
    cases src with
    | nil =>
      obtain ⟨f, rfl⟩ : ∃ f, fuel = f + 1 := ⟨fuel - 1, by omega⟩
      simp [appendStringAux, unquoteAux_quote]
    | cons b t =>
      obtain ⟨f, rfl⟩ : ∃ f, fuel = f + 1 := ⟨fuel - 1, by omega⟩
      simp only [validAux] at hv
      simp only [appendStringAux] at hfuel ⊢
      by_cases hb : b.toNat < 0x80
      · have hd : decodeRune (b :: t) = (b.toNat, 1) := by
          simp [decodeRune, hb]
        rw [hd] at hv
        simp only [Nat.sub_self, List.drop_zero] at hv
        have hv2 : validAux n t = true := by
          split at hv
          · exact absurd hv (by simp)
          · exact hv
        simp only [hb, if_true] at hfuel ⊢
        rw [List.append_assoc, unquoteAux_escapeByte b hb]
        have hlen : 1 ≤ (escapeByte b).length := by
          unfold escapeByte
          repeat' split
          all_goals simp
        rw [ih t f hv2 (by simp only [List.length_append] at hfuel; omega)]
        rfl
      · have hb2 : 0x80 ≤ b.toNat := by omega
        by_cases hbad : (decodeRune (b :: t)).1 = runeError ∧ (decodeRune (b :: t)).2 = 1
        · simp [hbad] at hv
        · simp only [hbad, if_false] at hv
          obtain ⟨hd, tl, ht, hsz, hpos, hap, hdec⟩ := decodeRune_multibyte b t hb2 hbad
          have hdrop : t.drop ((decodeRune (b :: t)).2 - 1) = tl := by
            rw [hsz, Nat.add_sub_cancel, ht, List.drop_left]
          have htake : (b :: t).take (decodeRune (b :: t)).2 = b :: hd := by
            rw [hsz, List.take_succ_cons, ht, List.take_left]
          rw [hdrop] at hv
          simp only [hb, if_false, hbad, hdrop, htake] at hfuel ⊢
          have hdec2 : ∀ q, decodeRune (b :: (hd ++ q)) =
              ((decodeRune (b :: t)).1, hd.length + 1) := by
            intro q
            rw [hdec q, ← hsz]
          by_cases hls : (decodeRune (b :: t)).1 = 0x2028 ∨ (decodeRune (b :: t)).1 = 0x2029
          · simp only [hls, if_true] at hfuel ⊢
            rw [List.append_assoc, List.cons_append, unquoteAux_linesep _ hls]
            rw [ih tl f hv (by
              simp only [List.length_append, List.length_cons] at hfuel; omega)]
            simp only [Option.map_some', hap]
            rw [ht]
            rfl
          · simp only [hls, if_false] at hfuel ⊢
            rw [List.append_assoc, unquoteAux_multibyte b hd _ hb2 _ hdec2 hap]
            rw [ih tl f hv (by
              simp only [List.length_append, List.length_cons] at hfuel; omega)]
            simp only [Option.map_some']
            rw [ht]
            rfl

/-- A JSON string literal written by `appendString` for a valid UTF-8 string reads back
as that string. -/
theorem readString_appendString (s rest : Bytes) (hv : validUTF8 s = true) :
    readString (appendString s ++ rest) = some (s, rest) := by
  unfold readString appendString
  simp only [List.cons_append, List.append_assoc, List.singleton_append]
  exact unquoteAux_appendStringAux s.length s rest _ hv (by simp)

/-! ## Commands -/

theorem unmarshalCommand_set (key value : Bytes) (hk : validUTF8 key = true)
    (hv : validUTF8 value = true) :
    unmarshalCommand (marshalSetValueCommand { Key := key, Value := value }) =
      some (key, some value) := by
  unfold unmarshalCommand marshalSetValueCommand
  simp only [List.append_assoc, dropLit_append, readString_appendString _ _ hk,
    readString_appendString _ _ hv]
  have h2 : dropLit (ascii "\x7d") (ascii "\x7d") = some [] := by decide
  simp [h2]

theorem unmarshalCommand_delete (key : Bytes) (hk : validUTF8 key = true) :
    unmarshalCommand (marshalDeleteValueCommand { Key := key }) = some (key, none) := by
  unfold unmarshalCommand marshalDeleteValueCommand
  simp only [List.append_assoc, dropLit_append, readString_appendString _ _ hk]
  have h1 : dropLit (ascii ",\"value\":") (ascii "\x7d") = none := by decide
  have h2 : dropLit (ascii "\x7d") (ascii "\x7d") = some [] := by decide
  simp [h1, h2]

theorem keyValue_set (key value : Bytes) (i : Nat) (hk : validUTF8 key = true)
    (hv : validUTF8 value = true) :
    (withIndex (SetValueCommand.toWalEntry { Key := key, Value := value }) i).keyValue =
      (some key, some value) := by
  rw [keyValue_withIndex]
  simp [walEntry.keyValue, SetValueCommand.toWalEntry, SetValueCommand.fromWalEntry,
    unmarshalCommand_set key value hk hv]

theorem keyValue_delete (key : Bytes) (i : Nat) (hk : validUTF8 key = true) :
    (withIndex (DeleteValueCommand.toWalEntry { Key := key }) i).keyValue = (some key, none) := by
  rw [keyValue_withIndex]
  simp [walEntry.keyValue, DeleteValueCommand.toWalEntry, DeleteValueCommand.fromWalEntry,
    unmarshalCommand_delete key hk, WalEntryTypeDeleteCommand, WalEntryTypeSetCommand]

/-! ## Lookups in a store that mirrors its files -/

theorem map_eq_snoc {α β : Type} (f : α → β) (l : List α) (a : List β) (b : β)
    (h : l.map f = a ++ [b]) : ∃ l1 x, l = l1 ++ [x] ∧ l1.map f = a ∧ f x = b := by
  rcases List.eq_nil_or_concat l with hl | ⟨l1, x, hl⟩
  · subst hl
    simp at h
  · subst hl
    rw [List.concat_eq_append, List.map_append, List.map_singleton] at h
    have := List.append_inj' h (by simp)
    exact ⟨l1, x, by simp, this.1, by simpa using this.2⟩

theorem entries_snoc (l : Log) (p : walSegmentMetadata × List walEntry) :
    Log.entries (l ++ [p]) = Log.entries l ++ p.2 := by
  rw [entries_append, entries_singleton]

/-- `GetEntry` in a store whose segments mirror the files returns the last entry of the
key in the log. -/
theorem getEntryLoop_log (env : Env) (key : Bytes) (log : Log) (segs : List walSegment)
    (h1 : segs.map (fun s => s.meta) = log.map Prod.fst)
    (h2 : segs.map (fun s => s.hashIndex) = log.map (fun p => hashIndexOf p.2))
    (hc : ∀ p ∈ log, env.content p.1.segmentLogFilePath = fileOf p.2)
    (hk : ∀ e ∈ Log.entries log, e.keyValue.1 ≠ none) :
    getEntryLoop env key segs.reverse = some (lastFor key (Log.entries log)) := by
  induction log using List.reverseRecOn generalizing segs with
  | nil =>
    simp at h1
    subst h1
    rfl
  | append_singleton log p ih =>
    rw [List.map_append, List.map_singleton] at h1 h2
    obtain ⟨s1, seg, hs, hm1, hm2⟩ := map_eq_snoc _ _ _ _ h1
    subst hs
    rw [List.map_append, List.map_singleton] at h2
    have h2' := List.append_inj' h2 (by simp)
    have hh : seg.hashIndex = hashIndexOf p.2 := by simpa using h2'.2
    have ih := ih s1 hm1 h2'.1 (fun q hq => hc q (by simp [hq]))
      (fun e he => hk e (by rw [entries_snoc]; simp [he]))
    have hok : SegOK env seg p.2 := by
      refine ⟨?_, hh, ?_⟩
      · rw [hm2]
        exact hc p (by simp)
      · intro e he
        exact hk e (by rw [entries_snoc]; simp [he])
    have hp := segment_lookup env seg p.2 hok key
    rw [entries_snoc, lastFor_append]
    simp only [List.reverse_append, List.reverse_cons, List.reverse_nil, List.nil_append,
      List.singleton_append, getEntryLoop]
    cases hx : seg.hashIndex key with
    | none =>
      rw [hx] at hp
      simp only [hp, Option.or]
      exact ih
    | some off =>
      rw [hx] at hp
      obtain ⟨e, e1, e2⟩ := hp
      simp only [e1, e2, Option.or]

theorem Get_of_GetEntry (store : KvStore) (key : Bytes) (r : Option walEntry)
    (h : store.wal.GetEntry key = some r) : store.Get key = some (valueOf r) := by
  unfold KvStore.Get
  rw [h]
  cases r <;> rfl

/-- In a state that keeps the invariant and mirrors its files, `Get` returns the value of
the last entry of the key. -/
theorem Get_of_mirror (size : Nat) (w : wal) (C D : Log) (o : walSegmentMetadata × List walEntry)
    (inv : Inv size w C D o) (hm : Mirror w (C ++ D ++ [o])) (key : Bytes) :
    KvStore.Get { wal := w } key = some (valueOf (lastFor key (Log.entries (C ++ D ++ [o])))) := by
  apply Get_of_GetEntry
  exact getEntryLoop_log w.env key _ _ hm.1 hm.2 inv.content inv.keys

/-! ## Runs of `Put` and `Delete` -/

theorem stamp_append (i : Nat) (es1 es2 : List walEntry) :
    stamp i (es1 ++ es2) = stamp i es1 ++ stamp (i + es1.length) es2 := by
  induction es1 generalizing i with
  | nil => simp [stamp]
  | cons e es ih =>
    have e1 : i + 1 + es.length = i + (es.length + 1) := by omega
    simp only [List.cons_append, stamp, List.length_cons, List.append_eq]
    rw [ih, e1]

theorem Cmd.entry_key (c : Cmd) (i : Nat) (hv : c.valid = true) :
    (withIndex c.entry i).keyValue.1 = some c.key := by
  cases c with
  | put key value =>
    simp only [Cmd.valid, Bool.and_eq_true] at hv
    simp [Cmd.entry, Cmd.key, keyValue_set key value i hv.1 hv.2]
  | delete key =>
    simp only [Cmd.valid] at hv
    simp [Cmd.entry, Cmd.key, keyValue_delete key i hv]

theorem Cmd.entry_key0 (c : Cmd) (hv : c.valid = true) : c.entry.keyValue.1 = some c.key := by
  have := Cmd.entry_key c 0 hv
  rwa [keyValue_withIndex] at this

theorem Cmd.entry_key_some (c : Cmd) : ∃ k, c.entry.keyValue.1 = some k := by
  cases c with
  | put key value =>
    exact ⟨_, by simp only [Cmd.entry, walEntry.keyValue, SetValueCommand.toWalEntry]; rfl⟩
  | delete key =>
    exact ⟨_, by
      simp only [Cmd.entry, walEntry.keyValue, DeleteValueCommand.toWalEntry,
        WalEntryTypeDeleteCommand, WalEntryTypeSetCommand]
      rfl⟩

/-- A run of `Put` and `Delete` calls succeeds; it appends the entries of the calls, with
consecutive indices, and keeps invariant and mirror. -/
theorem run_cmds (size : Nat) (hsize : 0 < size) (cs : List Cmd) (w : wal) (C D : Log)
    (o : walSegmentMetadata × List walEntry) (inv : Inv size w C D o)
    (hm : Mirror w (C ++ D ++ [o])) :
    ∃ w1 D1 o1, KvStore.run size { wal := w } cs = some { wal := w1 } ∧ Inv size w1 C D1 o1 ∧
      Mirror w1 (C ++ D1 ++ [o1]) ∧
      Log.entries (D1 ++ [o1]) =
        Log.entries (D ++ [o]) ++ stamp o.1.LastEntryIndex (cs.map Cmd.entry) ∧
      o1.1.LastEntryIndex = o.1.LastEntryIndex + cs.length := by
  induction cs generalizing w D o with
  | nil => exact ⟨w, D, o, rfl, inv, hm, by simp [stamp], rfl⟩
  | cons c cs ih =>
    obtain ⟨k, hk⟩ := Cmd.entry_key_some c
    obtain ⟨w1, D1, o1, h1, h2, h3, h4, h5⟩ :=
      inv_write size hsize w C D o inv c.entry k hk
    obtain ⟨w2, D2, o2, g1, g2, g3, g4, g5⟩ := ih w1 D1 o1 h2 (h5 hm)
    refine ⟨w2, D2, o2, ?_, g2, g3, ?_, ?_⟩
    · have hexec : KvStore.exec size { wal := w } c = some { wal := w1 } := by
        cases c <;> simp [KvStore.exec, KvStore.Put, KvStore.Delete, Cmd.entry] at h1 ⊢ <;>
          simp [h1]
      simp only [KvStore.run, hexec]
      exact g1
    · rw [g4, h3, h4]
      simp [stamp, List.append_assoc]
    · rw [g5, h4, List.length_cons]
      omega

theorem lastCmd_snoc (k : Bytes) (cs : List Cmd) (c : Cmd) :
    lastCmd k (cs ++ [c]) = if c.key = k then some c else lastCmd k cs := by
  unfold lastCmd
  simp [List.find?_cons]
  split <;> simp_all

/-- The value of the last entry of a key among the entries written by valid calls is the
value that the calls describe. -/
theorem valueOf_lastFor_stamp (cs : List Cmd) (hv : ∀ c ∈ cs, c.valid = true) (i : Nat)
    (k : Bytes) : valueOf (lastFor k (stamp i (cs.map Cmd.entry))) = kvModel cs k := by
  induction cs using List.reverseRecOn with
  | nil => rfl
  | append_singleton cs c ih =>
    have hc := hv c (by simp)
    have ih := ih (fun x hx => hv x (by simp [hx]))
    rw [List.map_append, List.map_singleton, stamp_append]
    simp only [stamp]
    rw [lastFor_snoc, Cmd.entry_key c _ hc]
    unfold kvModel
    rw [lastCmd_snoc]
    by_cases hk : c.key = k
    · simp only [hk, if_true]
      cases c with
      | put key value =>
        simp only [Cmd.valid, Bool.and_eq_true] at hc
        simp [valueOf, Cmd.entry, keyValue_set key value _ hc.1 hc.2]
      | delete key =>
        simp only [Cmd.valid] at hc
        simp [valueOf, Cmd.entry, keyValue_delete key _ hc]
    · have hk2 : ¬ (some c.key = some k) := fun e => hk (Option.some.inj e)
      simp only [hk, hk2, if_false]
      exact ih

/-! ## Claims C1 and C5 -/

/-- Claim C1, amended to valid UTF-8 keys and values. For every positive segment size and
every sequence of `Put` and `Delete` calls on a freshly created store whose keys and values
are valid UTF-8, the run succeeds and afterwards `Get(k)` returns, for every key `k`, the
value of the most recent `Put(k, v)` when the most recent call on `k` is a `Put`, and nil
when it is a `Delete` or `k` was never written; rollovers in between make no difference. -/
theorem get_returns_latest_put (size : Nat) (hsize : 0 < size) (cs : List Cmd)
    (hv : ∀ c ∈ cs, c.valid = true) :
    ∃ store, (NewKvStore Env.empty).bind (fun s => KvStore.run size s cs) = some store ∧
      ∀ k, store.Get k = some (kvModel cs k) := by
  obtain ⟨w1, D1, o1, h1, h2, h3, h4, _⟩ :=
    run_cmds size hsize cs freshWal [] [] _ (inv_fresh size) mirror_fresh
  refine ⟨{ wal := w1 }, ?_, ?_⟩
  · rw [NewKvStore_empty]
    exact h1
  · intro k
    rw [Get_of_mirror size w1 [] D1 o1 h2 h3 k]
    have e : Log.entries ([] ++ D1 ++ [o1]) = stamp 0 (cs.map Cmd.entry) := by
      rw [List.nil_append, h4]
      simp [Log.entries, newMetadata]
    rw [e, valueOf_lastFor_stamp cs hv 0 k]

/-- Witness for claim C1: the theorem applied to five calls with segment size 2, so that
the entries of the keys are spread over three segments. -/
theorem get_returns_latest_put_witness :
    ∃ store, (NewKvStore Env.empty).bind (fun s => KvStore.run 2 s
        [Cmd.put (ascii "a") (ascii "1"), Cmd.put (ascii "b") (ascii "2"),
         Cmd.delete (ascii "a"), Cmd.put (ascii "c") (ascii "3"),
         Cmd.put (ascii "b") (ascii "4")]) = some store ∧
      ∀ k, store.Get k = some (kvModel
        [Cmd.put (ascii "a") (ascii "1"), Cmd.put (ascii "b") (ascii "2"),
         Cmd.delete (ascii "a"), Cmd.put (ascii "c") (ascii "3"),
         Cmd.put (ascii "b") (ascii "4")] k) :=
  get_returns_latest_put 2 (by decide) _ (by decide)

/-- Counterexample to claim C1 as stated: after `Put` of the key with the single byte
`0xFF` (not valid UTF-8), `Get` of that key returns nil, although the most recent call on
the key is a `Put` of the value `v`: the hash index is keyed by the decoded JSON key, in
which the byte has become U+FFFD. -/
theorem get_invalid_utf8_key_counterexample :
    ((NewKvStore Env.empty).bind (fun s => KvStore.run 5 s [Cmd.put [0xFF] (ascii "v")])).bind
        (fun s => s.Get [0xFF]) = some none ∧
      kvModel [Cmd.put [0xFF] (ascii "v")] [0xFF] = some (ascii "v") := by
  decide!

/-- Claim C5, amended to valid UTF-8 keys and values. For every index and every key and
value that are valid UTF-8: the line of the entry made by `toWalEntry` for a Set command
decodes to an entry with the same index and entry type whose `keyValue` is the key and the
value, and for a Delete command to one whose `keyValue` is the key and nil. For every
entry whatsoever, decoding its line gives the entry back, and encoding the decoded entry
gives the line back. -/
theorem codec_round_trip (key value : Bytes) (index : Nat) (hk : validUTF8 key = true)
    (hv : validUTF8 value = true) :
    (∃ d, unmarshalEntry (marshalEntry
          (withIndex (SetValueCommand.toWalEntry { Key := key, Value := value }) index) ++ [10])
        = some d ∧ d.Index = index ∧ d.EntryType = WalEntryTypeSetCommand ∧
        d.keyValue = (some key, some value)) ∧
    (∃ d, unmarshalEntry (marshalEntry
          (withIndex (DeleteValueCommand.toWalEntry { Key := key }) index) ++ [10])
        = some d ∧ d.Index = index ∧ d.EntryType = WalEntryTypeDeleteCommand ∧
        d.keyValue = (some key, none)) ∧
    (∀ r : walEntry, unmarshalEntry (marshalEntry r ++ [10]) = some r) ∧
    (∀ r d : walEntry, unmarshalEntry (marshalEntry r ++ [10]) = some d →
        marshalEntry d ++ [10] = marshalEntry r ++ [10]) := by
  refine ⟨⟨_, unmarshalEntry_marshalEntry _ [10] (by decide), rfl, rfl,
      keyValue_set key value index hk hv⟩,
    ⟨_, unmarshalEntry_marshalEntry _ [10] (by decide), rfl, rfl,
      keyValue_delete key index hk⟩,
    fun r => unmarshalEntry_marshalEntry r [10] (by decide), ?_⟩
  intro r d h
  rw [unmarshalEntry_marshalEntry r [10] (by decide)] at h
  rw [← Option.some.inj h]

/-- Witness for claim C5: the theorem at key `a`, value `1` and index 7. -/
theorem codec_round_trip_witness :
    (∃ d, unmarshalEntry (marshalEntry
          (withIndex (SetValueCommand.toWalEntry { Key := ascii "a", Value := ascii "1" }) 7)
            ++ [10])
        = some d ∧ d.Index = 7 ∧ d.EntryType = WalEntryTypeSetCommand ∧
        d.keyValue = (some (ascii "a"), some (ascii "1"))) ∧
    (∃ d, unmarshalEntry (marshalEntry
          (withIndex (DeleteValueCommand.toWalEntry { Key := ascii "a" }) 7) ++ [10])
        = some d ∧ d.Index = 7 ∧ d.EntryType = WalEntryTypeDeleteCommand ∧
        d.keyValue = (some (ascii "a"), none)) ∧
    (∀ r : walEntry, unmarshalEntry (marshalEntry r ++ [10]) = some r) ∧
    (∀ r d : walEntry, unmarshalEntry (marshalEntry r ++ [10]) = some d →
        marshalEntry d ++ [10] = marshalEntry r ++ [10]) :=
  codec_round_trip (ascii "a") (ascii "1") 7 (by decide) (by decide)

/-- Counterexample to claim C5 as stated: the key with the single byte `0xFF` is a Go
string, but the entry made for `Set` of it decodes to the key U+FFFD (bytes EF BF BD),
because `json.Marshal` replaces bytes that are not valid UTF-8. -/
theorem codec_invalid_utf8_counterexample :
    (decodeLine (marshalEntry
        (SetValueCommand.toWalEntry { Key := [0xFF], Value := ascii "v" }) ++ [10])).keyValue
      = (some [0xEF, 0xBF, 0xBD], some (ascii "v")) ∧
    (decodeLine (marshalEntry
        (SetValueCommand.toWalEntry { Key := [0xFF], Value := ascii "v" }) ++ [10])).keyValue
      ≠ (some [0xFF], some (ascii "v")) := by
  decide!

/-! ## The layout of the segments after a run of writes -/

theorem dirty_length {size : Nat} {p : walSegmentMetadata × List walEntry} (h : DirtyOK size p) :
    p.2.length = p.1.LastEntryIndex - p.1.FirstEntryIndex := by
  have := congrArg List.length h.range
  simpa using this

theorem layout_fresh (size : Nat) :
    Layout size 0 [] ((newMetadata Env.empty 0 0).1, []) := by
  constructor
  · intro j p h
    simp at h
  · rfl
  · simp [newMetadata]
  · rfl
  · left; exact ⟨rfl, rfl⟩
  · simp

theorem layout_noroll (size n : Nat) (D : Log) (o : walSegmentMetadata × List walEntry)
    (e : walEntry) (h : Layout size n D o) (hcap : o.1.isAtCapacity size = false) :
    Layout size (n + 1) D (bumpLast o.1, o.2 ++ [e]) := by
  have hge : D.length * size ≤ n := by
    rcases h.lower with ⟨h1, h2⟩ | h1
    · subst h2
      simp
    · omega
  have hc : n - D.length * size < size := by
    unfold walSegmentMetadata.isAtCapacity at hcap
    rw [h.openFirst, h.openLast] at hcap
    split at hcap
    · omega
    · simpa using hcap
  constructor
  · exact h.closed
  · exact h.openIdx
  · exact h.openFirst
  · simp [bumpLast, h.openLast]
  · right
    rcases h.lower with ⟨h1, h2⟩ | h1
    · subst h2
      simp
    · omega
  · have := h.upper
    rw [Nat.succ_mul] at this ⊢
    rcases h.lower with ⟨h1, h2⟩ | h1
    · subst h1; subst h2
      simp
      omega
    · omega

theorem layout_roll (size n : Nat) (hsize : 0 < size) (D : Log)
    (o : walSegmentMetadata × List walEntry) (e : walEntry) (now uuid : Nat)
    (h : Layout size n D o) (hd : DirtyOK size o) (hcap : o.1.isAtCapacity size = true) :
    Layout size (n + 1) (D ++ [(closedMeta o.1, o.2)]) (rolledMeta o.1 now uuid, [e]) := by
  have hup := h.upper
  rw [Nat.succ_mul] at hup
  have hc : n = D.length * size + size := by
    unfold walSegmentMetadata.isAtCapacity at hcap
    rw [h.openFirst, h.openLast] at hcap
    split at hcap
    · simp at hcap
    · have : size ≤ n - D.length * size := by simpa using hcap
      omega
  constructor
  · intro j p hj
    by_cases hlt : j < D.length
    · rw [List.getElem?_append_left hlt] at hj
      exact h.closed j p hj
    · have hge : D.length ≤ j := by omega
      rw [List.getElem?_append_right hge] at hj
      have hj0 : j - D.length = 0 := by
        by_contra hne
        have : ([(closedMeta o.1, o.2)] : Log)[j - D.length]? = none := by
          apply List.getElem?_eq_none
          simp
          omega
        rw [this] at hj
        simp at hj
      rw [hj0] at hj
      simp at hj
      subst hj
      have hj2 : j = D.length := by omega
      subst hj2
      refine ⟨h.openIdx, h.openFirst, ?_, ?_⟩
      · show o.1.LastEntryIndex = _
        rw [h.openLast, Nat.succ_mul]
        exact hc
      · rw [dirty_length hd, h.openLast, h.openFirst]
        omega
  · simp [rolledMeta, h.openIdx]
  · simp only [rolledMeta, List.length_append, List.length_singleton, h.openLast]
    rw [Nat.succ_mul]
    exact hc
  · simp [rolledMeta, h.openLast]
  · right
    simp only [List.length_append, List.length_singleton]
    rw [Nat.succ_mul]
    omega
  · simp only [List.length_append, List.length_singleton]
    rw [Nat.succ_mul, Nat.succ_mul]
    omega

theorem run_append (size : Nat) (w : wal) (ops1 ops2 : List Op) :
    wal.run size w (ops1 ++ ops2) = (wal.run size w ops1).bind (fun w1 => wal.run size w1 ops2) := by
  induction ops1 generalizing w with
  | nil => rfl
  | cons op ops ih =>
    simp only [List.cons_append, wal.run]
    cases w.step size op with
    | none => rfl
    | some w1 => exact ih w1

/-- A run of writes from the fresh store: it succeeds, keeps the invariant and the mirror,
stores the entries with the indices 0, 1, 2, ... and produces the layout. -/
theorem run_writes (size : Nat) (hsize : 0 < size) (es : List walEntry)
    (hes : ∀ e ∈ es, e.keyValue.1 ≠ none) :
    ∃ w D o, wal.run size freshWal (es.map Op.write) = some w ∧ Inv size w [] D o ∧
      Mirror w (D ++ [o]) ∧ Log.entries (D ++ [o]) = stamp 0 es ∧ Layout size es.length D o := by
  induction es using List.reverseRecOn with
  | nil =>
    exact ⟨freshWal, [], _, rfl, inv_fresh size, mirror_fresh, rfl, layout_fresh size⟩
  | append_singleton es e ih =>
    obtain ⟨w, D, o, h1, h2, h3, h4, h5⟩ := ih (fun x hx => hes x (by simp [hx]))
    have he := hes e (by simp)
    obtain ⟨k, hk⟩ : ∃ k, e.keyValue.1 = some k := by
      cases hx : e.keyValue.1 with
      | none => exact absurd hx he
      | some k => exact ⟨k, rfl⟩
    have hlast : o.1.LastEntryIndex = es.length := h5.openLast
    rw [List.map_append, run_append, h1]
    simp only [Option.bind, List.map_singleton, wal.run, wal.step]
    cases hcap : o.1.isAtCapacity size with
    | false =>
      obtain ⟨w1, g1, g2, g3⟩ := inv_write_noroll size w [] D o h2 e k hk hcap
      refine ⟨w1, D, _, by simp [g1], g2, by simpa using g3 (by simpa using h3), ?_, ?_⟩
      · rw [entries_append, entries_singleton, stamp_append, ← h4, entries_append,
          entries_singleton, hlast]
        simp [stamp]
      · rw [List.length_append, List.length_singleton]
        exact layout_noroll size es.length D o _ h5 hcap
    | true =>
      obtain ⟨w1, g1, g2, g3⟩ := inv_write_roll size hsize w [] D o h2 e k hk hcap
      refine ⟨w1, _, _, by simp [g1], g2, by simpa using g3 (by simpa using h3), ?_, ?_⟩
      · rw [stamp_append, ← h4, hlast]
        simp [entries_append, entries_singleton, Log.entries, stamp]
      · rw [List.length_append, List.length_singleton]
        exact layout_roll size es.length hsize D o _ _ _ h5 h2.openOK.1 hcap

theorem ceil_div_eq (size n k : Nat) (hsize : 0 < size) (h1 : k * size < n)
    (h2 : n ≤ (k + 1) * size) : (n + size - 1) / size = k + 1 := by
  rw [Nat.succ_mul] at h2
  apply Nat.le_antisymm
  · apply Nat.lt_succ_iff.1
    rw [Nat.div_lt_iff_lt_mul hsize, Nat.succ_mul, Nat.succ_mul]
    omega
  · rw [Nat.le_div_iff_mul_le hsize, Nat.succ_mul]
    omega

theorem entries_drop (size : Nat) (log : Log) (j : Nat)
    (h : ∀ i p, i < j → log[i]? = some p → p.2.length = size) (hj : j ≤ log.length) :
    (Log.entries log).drop (j * size) = Log.entries (log.drop j) := by
  induction j generalizing log with
  | zero => simp
  | succ j ih =>
    cases log with
    | nil => simp at hj
    | cons p rest =>
      have hp : p.2.length = size := h 0 p (by omega) (by simp)
      simp only [Log.entries, List.drop_succ_cons]
      rw [Nat.succ_mul, Nat.add_comm, ← List.drop_drop]
      have : List.drop size (p.2 ++ Log.entries rest) = Log.entries rest := by
        rw [← hp, List.drop_left]
      rw [this]
      exact ih rest (fun i q hi hq => h (i + 1) q (by omega) (by simpa using hq))
        (by simpa using hj)

theorem drop_eq_getElem_cons' {α : Type} (l : List α) (j : Nat) (p : α) (h : l[j]? = some p) :
    l.drop j = p :: l.drop (j + 1) := by
  have hlt : j < l.length := by
    by_contra hge
    rw [List.getElem?_eq_none (by omega)] at h
    simp at h
  rw [List.getElem?_eq_getElem hlt] at h
  rw [List.drop_eq_getElem_cons hlt]
  congr 1
  exact Option.some.inj h

/-! ## Claim C7 -/

/-- The facts of claim C7 about one segment of the manifest, from invariant and layout. -/
theorem layout_segment (size : Nat) (es : List walEntry) (w : wal) (D : Log)
    (o : walSegmentMetadata × List walEntry) (inv : Inv size w [] D o)
    (hent : Log.entries (D ++ [o]) = stamp 0 es) (lay : Layout size es.length D o)
    (j : Nat) (m : walSegmentMetadata) (hj : w.metatada[j]? = some m) :
    m.SegmentIndex = j ∧ m.FirstEntryIndex = j * size ∧
      m.LastEntryIndex = min es.length ((j + 1) * size) ∧
      processEntries m w.env = ((stamp 0 es).drop (j * size)).take size ∧
      (processEntries m w.env).map (fun e => e.Index) =
        List.range' (j * size) (min es.length ((j + 1) * size) - j * size) ∧
      m.Closed = decide (j + 1 < w.metatada.length) ∧ m.IsCompactedSegment = false := by
  have hmetas : w.metatada = (D ++ [o]).map Prod.fst := by simpa using inv.metas
  have hlen : w.metatada.length = D.length + 1 := by simp [hmetas]
  rw [hmetas, List.getElem?_map] at hj
  obtain ⟨p, hp, hpm⟩ : ∃ p, (D ++ [o])[j]? = some p ∧ p.1 = m := by
    cases hx : (D ++ [o])[j]? with
    | none => rw [hx] at hj; simp at hj
    | some p => rw [hx] at hj; exact ⟨p, rfl, by simpa using hj⟩
  subst hpm
  have hpmem : p ∈ D ++ [o] := List.getElem?_mem hp
  have hproc : processEntries p.1 w.env = p.2 :=
    processEntries_of_content p.1 w.env p.2 (inv.content p (by simpa using hpmem))
  have hfull : ∀ i q, i < j → (D ++ [o])[i]? = some q → q.2.length = size := by
    intro i q hi hq
    have hjlt : j < (D ++ [o]).length := by
      by_contra hge
      rw [List.getElem?_eq_none (by omega)] at hp
      simp at hp
    have hiD : i < D.length := by simp at hjlt; omega
    rw [List.getElem?_append_left hiD] at hq
    exact (lay.closed i q hq).2.2.2
  have hjle : j ≤ (D ++ [o]).length := by
    by_contra hge
    rw [List.getElem?_eq_none (by omega)] at hp
    simp at hp
  have hdrop := entries_drop size (D ++ [o]) j hfull hjle
  rw [hent, drop_eq_getElem_cons' _ j p hp] at hdrop
  rw [hproc, hdrop, hlen]
  by_cases hlt : j < D.length
  · rw [List.getElem?_append_left hlt] at hp
    obtain ⟨c1, c2, c3, c4⟩ := lay.closed j p hp
    have hpD : p ∈ D := List.getElem?_mem hp
    obtain ⟨hd, hcl⟩ := inv.dirty p hpD
    have hlow : D.length * size < es.length := by
      rcases lay.lower with ⟨_, h2⟩ | h2
      · subst h2; simp at hlt
      · exact h2
    have hle : (j + 1) * size ≤ D.length * size := Nat.mul_le_mul_right size (by omega)
    have hmin : min es.length ((j + 1) * size) = (j + 1) * size := by
      apply Nat.min_eq_right
      omega
    refine ⟨c1, c2, by rw [hmin]; exact c3, ?_, ?_, ?_, hd.dirty⟩
    · simp only [Log.entries]
      rw [← c4, List.take_left]
    · rw [hd.range, c2, c3, hmin]
    · rw [hcl]
      simp
      omega
  · have hjlt : j < (D ++ [o]).length := by
      by_contra hge
      rw [List.getElem?_eq_none (by omega)] at hp
      simp at hp
    have hjD : j = D.length := by simp at hjlt; omega
    subst hjD
    rw [List.getElem?_append_right (Nat.le_refl _)] at hp
    simp at hp
    subst hp
    have hmin : min es.length ((D.length + 1) * size) = es.length :=
      Nat.min_eq_left lay.upper
    obtain ⟨hd, hcl⟩ := inv.openOK
    refine ⟨lay.openIdx, lay.openFirst, by rw [hmin]; exact lay.openLast, ?_, ?_, ?_, hd.dirty⟩
    · have hl : o.2.length ≤ size := by
        rw [dirty_length hd]
        exact hd.cap
      simp only [List.drop_succ_cons, List.drop_length, Log.entries, List.append_nil]
      have : List.drop (D.length + 1) (D ++ [o]) = [] := by
        apply List.drop_eq_nil_of_le
        simp
      rw [this]
      simp only [Log.entries, List.append_nil]
      exact (List.take_of_length_le hl).symm
    · rw [hd.range, lay.openFirst, lay.openLast, hmin]
    · rw [hcl]
      simp

/-- Claim C7. With a positive segment size `size`, after the `n` successful `WriteEntry`
calls for the entries `es` on the fresh store: the manifest has `max 1 ⌈n / size⌉`
segments; segment `j` has `SegmentIndex j`, `FirstEntryIndex j * size`, and its file holds,
in order, exactly the written entries number `j * size` to `min n ((j+1) * size) - 1`,
stored with these indices; every segment but the last is closed, the last is open and is
the active segment of the store. A new segment is created by `openNewSegment` with
`FirstEntryIndex = LastEntryIndex =` the `LastEntryIndex` of the segment before it. -/
theorem roll_boundary_and_layout (size : Nat) (hsize : 0 < size) (es : List walEntry)
    (hes : ∀ e ∈ es, e.keyValue.1 ≠ none) :
    ∃ w, wal.run size freshWal (es.map Op.write) = some w ∧
      w.metatada.length = max 1 ((es.length + size - 1) / size) ∧
      w.sortedSegments.map (fun s => s.meta) = w.metatada ∧
      (∀ j m, w.metatada[j]? = some m →
        m.SegmentIndex = j ∧ m.FirstEntryIndex = j * size ∧
          m.LastEntryIndex = min es.length ((j + 1) * size) ∧
          processEntries m w.env = ((stamp 0 es).drop (j * size)).take size ∧
          (processEntries m w.env).map (fun e => e.Index) =
            List.range' (j * size) (min es.length ((j + 1) * size) - j * size) ∧
          m.Closed = decide (j + 1 < w.metatada.length) ∧ m.IsCompactedSegment = false) ∧
      (∃ seg, w.openSegment = some seg ∧ some seg.meta = w.metatada.getLast? ∧
        seg.meta.Closed = false) ∧
      (∀ (w0 : wal) (index : Nat) (prev : walSegment),
        ∃ m, (w0.openNewSegment index (some prev)).metatada.getLast? = some m ∧
          m.SegmentIndex = index ∧ m.FirstEntryIndex = prev.meta.LastEntryIndex ∧
          m.LastEntryIndex = prev.meta.LastEntryIndex ∧ m.Closed = false) := by
  obtain ⟨w, D, o, h1, h2, h3, h4, h5⟩ := run_writes size hsize es hes
  have hmetas : w.metatada = (D ++ [o]).map Prod.fst := by simpa using h2.metas
  refine ⟨w, h1, ?_, ?_, ?_, ?_, ?_⟩
  · rw [hmetas]
    simp only [List.map_append, List.map_singleton, List.length_append, List.length_map,
      List.length_singleton]
    rcases h5.lower with ⟨hn, hD⟩ | hlow
    · rw [hn, hD]
      have : (0 + size - 1) / size = 0 := by
        apply Nat.div_eq_of_lt
        omega
      rw [this]
      simp
    · rw [ceil_div_eq size es.length D.length hsize hlow h5.upper]
      simp
  · rw [hmetas]
    exact h3.1
  · intro j m hj
    exact layout_segment size es w D o h2 h4 h5 j m hj
  · obtain ⟨ss, seg, hss, hseg⟩ := h2.mem
    refine ⟨seg, openSegment_eq w ss seg hss, ?_, ?_⟩
    · rw [hmetas, hseg]
      simp
    · rw [hseg]
      exact h2.openOK.2
  · intro w0 index prev
    refine ⟨(newMetadata (match w0.openSegment with
        | some seg => w0.setOpenSegment seg.close
        | none => w0).env index prev.meta.LastEntryIndex).1, ?_, rfl, rfl, rfl, rfl⟩
    simp [wal.openNewSegment]

/-- Witness for claim C7: segment size 2 and the three entries of `Put(a,1)`, `Put(b,2)`,
`Put(c,3)`. -/
theorem roll_boundary_and_layout_witness :
    ∃ w, wal.run 2 freshWal
        ([(Cmd.put (ascii "a") (ascii "1")).entry, (Cmd.put (ascii "b") (ascii "2")).entry,
          (Cmd.put (ascii "c") (ascii "3")).entry].map Op.write) = some w ∧
      w.metatada.length = max 1 ((3 + 2 - 1) / 2) ∧
      w.sortedSegments.map (fun s => s.meta) = w.metatada :=
  have h := roll_boundary_and_layout 2 (by decide)
    [(Cmd.put (ascii "a") (ascii "1")).entry, (Cmd.put (ascii "b") (ascii "2")).entry,
      (Cmd.put (ascii "c") (ascii "3")).entry] (by decide)
  Exists.elim h (fun w hw => ⟨w, hw.1, hw.2.1, hw.2.2.1⟩)

/-! ## Reopening a store -/

/-- The segment that `loadHashIndex` builds for a file holding the entries `es`. -/
theorem loadHashIndex_of_content (m : walSegmentMetadata) (env : Env) (es : List walEntry)
    (hc : env.content m.segmentLogFilePath = fileOf es) (hk : ∀ e ∈ es, e.keyValue.1 ≠ none) :
    (newWalSegment m).loadHashIndex env = some { meta := m, hashIndex := hashIndexOf es } := by
  unfold walSegment.loadHashIndex
  simp only [newWalSegment]
  unfold Env.content at hc
  cases hf : env.files m.segmentLogFilePath with
  | none =>
    rw [hf] at hc
    simp at hc
    cases es with
    | nil => rfl
    | cons e es => simp [fileOf] at hc
  | some content =>
    rw [hf] at hc
    simp at hc
    subst hc
    simp only [readLines_fileOf, loadHashIndexLoop_fileOf es _ 0 hk]
    rfl

theorem loadHashIndexAll_log (env : Env) (log : Log)
    (hvis : ∀ p ∈ log, (p.1.IsCompactedSegment && !p.1.CompactionCompleted) = false)
    (hc : ∀ p ∈ log, env.content p.1.segmentLogFilePath = fileOf p.2)
    (hk : ∀ p ∈ log, ∀ e ∈ p.2, e.keyValue.1 ≠ none) :
    loadHashIndexAll env (log.map (fun p => newWalSegment p.1)) =
      some (log.map (fun p => { meta := p.1, hashIndex := hashIndexOf p.2 })) := by
  induction log with
  | nil => rfl
  | cons p log ih =>
    have hv := hvis p (List.mem_cons_self _ _)
    simp only [List.map_cons, loadHashIndexAll]
    have hm : (newWalSegment p.1).meta = p.1 := rfl
    rw [hm, hv]
    simp only [Bool.false_eq_true, if_false]
    rw [loadHashIndex_of_content p.1 env p.2 (hc p (List.mem_cons_self _ _))
      (hk p (List.mem_cons_self _ _))]
    simp only []
    rw [ih (fun q hq => hvis q (List.mem_cons_of_mem _ hq))
      (fun q hq => hc q (List.mem_cons_of_mem _ hq))
      (fun q hq => hk q (List.mem_cons_of_mem _ hq))]
    rfl

theorem inv_visible {size : Nat} {w : wal} {C D : Log} {o : walSegmentMetadata × List walEntry}
    (inv : Inv size w C D o) :
    ∀ p ∈ C ++ D ++ [o], (p.1.IsCompactedSegment && !p.1.CompactionCompleted) = false := by
  intro p hp
  simp only [List.mem_append, List.mem_singleton] at hp
  rcases hp with (hp | hp) | hp
  · have := inv.comp p hp
    simp [this.completed]
  · simp [(inv.dirty p hp).1.dirty]
  · subst hp
    simp [inv.openOK.1.dirty]

theorem inv_sorted {size : Nat} {w : wal} {C D : Log} {o : walSegmentMetadata × List walEntry}
    (inv : Inv size w C D o) : sortMetadata w.metatada = w.metatada := by
  apply sortMetadata_of_segIdx
  rw [inv.metas, List.map_map]
  exact inv.segIdx

/-- A store opened on the files of a state that keeps the invariant: it has one segment
in memory per manifest entry, each with the hash index of its file, and the same world. -/
theorem reopen (size : Nat) (w : wal) (C D : Log) (o : walSegmentMetadata × List walEntry)
    (inv : Inv size w C D o) (hman : w.env.manifest = some w.metatada) :
    ∃ w2, NewKvStore w.env = some { wal := w2 } ∧ Inv size w2 C D o ∧
      Mirror w2 (C ++ D ++ [o]) ∧ w2.env = w.env := by
  have hsort := inv_sorted inv
  have hload : (newWal w.env).loadMetadata =
      { sortedSegments := [], metatada := w.metatada, cleaningSegments := false, env := w.env,
        metatadaNil := false } := by
    simp [wal.loadMetadata, newWal, hman, hsort]
  have hread : (newWal w.env).readSegments =
      { sortedSegments := (C ++ D ++ [o]).map (fun p => newWalSegment p.1),
        metatada := w.metatada, cleaningSegments := false, env := w.env,
        metatadaNil := false } := by
    unfold wal.readSegments
    rw [hload]
    simp only [inv.metas, List.map_map, Bool.false_eq_true, if_false]
    simp [Function.comp_def]
  have hall := loadHashIndexAll_log w.env (C ++ D ++ [o]) (inv_visible inv) inv.content
    (fun p hp e he => inv.keys e ((mem_entries _ e).2 ⟨p, hp, he⟩))
  refine ⟨{ sortedSegments := (C ++ D ++ [o]).map
              (fun p => { meta := p.1, hashIndex := hashIndexOf p.2 }),
            metatada := w.metatada, cleaningSegments := false, env := w.env,
            metatadaNil := false }, ?_, ?_, ?_, rfl⟩
  · unfold NewKvStore wal.loadHashIndex
    rw [hread]
    simp only [hall]
    rfl
  · exact
      { metas := inv.metas
        manifest := Or.inr hman
        content := inv.content
        fresh := inv.fresh
        ids := inv.ids
        nodup := inv.nodup
        segIdx := inv.segIdx
        comp := inv.comp
        compKeys := inv.compKeys
        dirty := inv.dirty
        openOK := inv.openOK
        keys := inv.keys
        incr := inv.incr
        bound := inv.bound
        mem := ⟨(C ++ D).map (fun p => { meta := p.1, hashIndex := hashIndexOf p.2 }),
          { meta := o.1, hashIndex := hashIndexOf o.2 }, by simp, rfl⟩
        notCleaning := rfl
        nonNil := rfl }
  · constructor
    · simp [List.map_map, Function.comp_def]
    · simp [List.map_map, Function.comp_def]

theorem WriteEntry_manifest (size : Nat) (w w1 : wal) (entry : walEntry)
    (h : w.WriteEntry size entry = some w1) : w1.env.manifest = some w1.metatada := by
  unfold wal.WriteEntry at h
  cases hr : w.maybeRoll size with
  | none => rw [hr] at h; simp at h
  | some wr =>
    rw [hr] at h
    simp only [] at h
    cases ho : wr.openSegment with
    | none => rw [ho] at h; simp at h
    | some seg =>
      rw [ho] at h
      simp only [] at h
      cases hw : seg.writeEntry size wr.env entry none with
      | none => rw [hw] at h; simp at h
      | some r =>
        rw [hw] at h
        cases hn : wr.metatadaNil with
        | true => rw [hn] at h; simp at h
        | false =>
          rw [hn] at h
          simp only [Bool.false_eq_true, if_false, Option.some.injEq] at h
          subst h
          rfl

theorem run_cmds_manifest (size : Nat) (cs : List Cmd) (w w1 : wal)
    (h : KvStore.run size { wal := w } cs = some { wal := w1 })
    (h0 : w.env.manifest = some w.metatada ∨ cs ≠ []) : w1.env.manifest = some w1.metatada := by
  induction cs generalizing w with
  | nil =>
    simp only [KvStore.run, Option.some.injEq, KvStore.mk.injEq] at h
    subst h
    rcases h0 with h0 | h0
    · exact h0
    · exact absurd rfl h0
  | cons c cs ih =>
    simp only [KvStore.run] at h
    cases he : KvStore.exec size { wal := w } c with
    | none => rw [he] at h; simp at h
    | some s1 =>
      rw [he] at h
      simp only [] at h
      have hm : s1.wal.env.manifest = some s1.wal.metatada := by
        cases c with
        | put key value =>
          simp only [KvStore.exec, KvStore.Put, Option.map_eq_some'] at he
          obtain ⟨w', hw', rfl⟩ := he
          exact WriteEntry_manifest size w w' _ hw'
        | delete key =>
          simp only [KvStore.exec, KvStore.Delete, Option.map_eq_some'] at he
          obtain ⟨w', hw', rfl⟩ := he
          exact WriteEntry_manifest size w w' _ hw'
      exact ih s1.wal h (Or.inl hm)

/-! ## Claim C4 -/

/-- Claim C4. For every positive segment size and every sequence of `Put` and `Delete`
calls on a fresh store, the run succeeds, and a store opened by `NewKvStore` on the
manifest and segment files it leaves returns for every key the same `Get` result as the
store that performed the writes; the hash indexes rebuilt by `loadHashIndex` are equal,
segment by segment, to the ones that `writeEntry` maintained. -/
theorem reopen_preserves_lookups (size : Nat) (hsize : 0 < size) (cs : List Cmd) :
    ∃ store store2, (NewKvStore Env.empty).bind (fun s => KvStore.run size s cs) = some store ∧
      NewKvStore store.wal.env = some store2 ∧ (∀ k, store2.Get k = store.Get k) ∧
      store2.wal.sortedSegments.map (fun s => s.hashIndex) =
        store.wal.sortedSegments.map (fun s => s.hashIndex) := by
  rw [NewKvStore_empty]
  simp only [Option.bind]
  cases hcs : cs with
  | nil =>
    refine ⟨{ wal := freshWal }, _, rfl, rfl, ?_, rfl⟩
    intro k
    rfl
  | cons c cs1 =>
    rw [← hcs]
    obtain ⟨w1, D1, o1, h1, h2, h3, _, _⟩ :=
      run_cmds size hsize cs freshWal [] [] _ (inv_fresh size) mirror_fresh
    have hman := run_cmds_manifest size cs freshWal w1 h1 (Or.inr (by rw [hcs]; simp))
    obtain ⟨w2, g1, g2, g3, _⟩ := reopen size w1 [] D1 o1 h2 hman
    refine ⟨{ wal := w1 }, { wal := w2 }, h1, g1, ?_, ?_⟩
    · intro k
      rw [Get_of_mirror size w2 [] D1 o1 g2 g3 k, Get_of_mirror size w1 [] D1 o1 h2 h3 k]
    · rw [g3.2, h3.2]

/-- Witness for claim C4: segment size 2 and four calls. -/
theorem reopen_preserves_lookups_witness :
    ∃ store store2, (NewKvStore Env.empty).bind (fun s => KvStore.run 2 s
        [Cmd.put (ascii "a") (ascii "1"), Cmd.put (ascii "b") (ascii "2"),
         Cmd.delete (ascii "a"), Cmd.put (ascii "c") (ascii "3")]) = some store ∧
      NewKvStore store.wal.env = some store2 ∧ (∀ k, store2.Get k = store.Get k) ∧
      store2.wal.sortedSegments.map (fun s => s.hashIndex) =
        store.wal.sortedSegments.map (fun s => s.hashIndex) :=
  reopen_preserves_lookups 2 (by decide) _

/-! ## Claim C10 -/

theorem loadHashIndex_meta (seg seg2 : walSegment) (env : Env)
    (h : seg.loadHashIndex env = some seg2) : seg2.meta = seg.meta := by
  unfold walSegment.loadHashIndex at h
  cases hf : env.files seg.meta.segmentLogFilePath with
  | none =>
    rw [hf] at h
    simp only [Option.some.injEq] at h
    rw [← h]
  | some content =>
    rw [hf] at h
    simp only [Option.map_eq_some'] at h
    obtain ⟨hi, _, rfl⟩ := h
    rfl

/-- The loop of `wal.loadHashIndex` leaves unfinished compacted segments as they are. -/
theorem loadHashIndexAll_unfinished (env : Env) (segs segs2 : List walSegment)
    (h : loadHashIndexAll env segs = some segs2) :
    ∀ s2 ∈ segs2, s2.meta.unfinished = true → s2 ∈ segs := by
  induction segs generalizing segs2 with
  | nil =>
    simp only [loadHashIndexAll, Option.some.injEq] at h
    subst h
    intro s2 hs2
    simp at hs2
  | cons seg rest ih =>
    simp only [loadHashIndexAll] at h
    cases hx : (if (seg.meta.IsCompactedSegment && !seg.meta.CompactionCompleted) = true
        then some seg else seg.loadHashIndex env) with
    | none => rw [hx] at h; simp at h
    | some seg1 =>
      rw [hx] at h
      simp only [Option.map_eq_some'] at h
      obtain ⟨l, hl, rfl⟩ := h
      intro s2 hs2 hun
      rcases List.mem_cons.1 hs2 with hs | hs
      · subst hs
        by_cases hc : (seg.meta.IsCompactedSegment && !seg.meta.CompactionCompleted) = true
        · rw [if_pos hc] at hx
          simp only [Option.some.injEq] at hx
          subst hx
          exact List.mem_cons_self _ _
        · rw [if_neg hc] at hx
          have hm := loadHashIndex_meta seg s2 env hx
          unfold walSegmentMetadata.unfinished at hun
          rw [hm] at hun
          exact absurd hun hc
      · exact List.mem_cons_of_mem _ (ih l hl s2 hs hun)

theorem readSegments_newWal_empty (env : Env) :
    ∀ s ∈ (newWal env).readSegments.sortedSegments, s.hashIndex = fun _ => none := by
  intro s hs
  have hgen : ∀ w1 : wal, w1.sortedSegments = [] →
      ∀ s ∈ (if (w1.metatada.map newWalSegment).length > 0
              then { w1 with sortedSegments := w1.metatada.map newWalSegment }
              else w1.openNewSegment 0 none).sortedSegments, s.hashIndex = fun _ => none := by
    intro w1 h1 s hs
    by_cases hlen : (w1.metatada.map newWalSegment).length > 0
    · rw [if_pos hlen] at hs
      simp only [List.mem_map] at hs
      obtain ⟨m, _, rfl⟩ := hs
      rfl
    · rw [if_neg hlen] at hs
      have ho : w1.openSegment = none := by
        simp [wal.openSegment, h1]
      simp only [wal.openNewSegment, ho, h1, List.nil_append, List.mem_singleton] at hs
      subst hs
      rfl
  unfold wal.readSegments at hs
  refine hgen _ ?_ s hs
  unfold wal.loadMetadata newWal
  cases env.manifest <;> rfl

theorem getEntryLoop_filter (env : Env) (key : Bytes) (p : walSegment → Bool)
    (l : List walSegment) (h : ∀ s ∈ l, p s = false → s.hashIndex key = none) :
    getEntryLoop env key l = getEntryLoop env key (l.filter p) := by
  induction l with
  | nil => rfl
  | cons s rest ih =>
    have ih := ih (fun x hx => h x (List.mem_cons_of_mem _ hx))
    cases hp : p s with
    | false =>
      rw [List.filter_cons_of_neg (by simp [hp])]
      simp only [getEntryLoop, h s (List.mem_cons_self _ _) hp]
      exact ih
    | true =>
      rw [List.filter_cons_of_pos hp]
      simp only [getEntryLoop]
      rw [ih]

/-- Claim C10. In a store opened by `NewKvStore` on any data directory, every segment that
is a compacted segment with `CompactionCompleted = false` has an empty hash index, and
`GetEntry` returns for every key what it returns when these segments are left out: no
entry is ever read from such a segment. -/
theorem unfinished_segments_invisible (env : Env) (store : KvStore)
    (h : NewKvStore env = some store) :
    (∀ seg ∈ store.wal.sortedSegments, seg.meta.IsCompactedSegment = true →
        seg.meta.CompactionCompleted = false → ∀ k, seg.hashIndex k = none) ∧
    (∀ k, store.wal.GetEntry k = getEntryLoop store.wal.env k
        (store.wal.sortedSegments.filter (fun seg => !seg.meta.unfinished)).reverse) := by
  unfold NewKvStore wal.loadHashIndex at h
  cases hsegs : loadHashIndexAll (newWal env).readSegments.env
      (newWal env).readSegments.sortedSegments with
  | none => rw [hsegs] at h; simp at h
  | some segs =>
  rw [hsegs] at h
  simp only [Option.map_some', Option.some.injEq] at h
  subst h
  have hempty : ∀ seg ∈ segs, seg.meta.unfinished = true → ∀ k, seg.hashIndex k = none := by
    intro seg hseg hun k
    have hmem := loadHashIndexAll_unfinished _ _ _ hsegs seg hseg hun
    rw [readSegments_newWal_empty env seg hmem]
  constructor
  · intro seg hseg h1 h2 k
    exact hempty seg hseg (by simp [walSegmentMetadata.unfinished, h1, h2]) k
  · intro k
    unfold wal.GetEntry
    simp only []
    rw [← List.filter_reverse]
    apply getEntryLoop_filter
    intro s hs hp
    exact hempty s (List.mem_reverse.1 hs) (by simpa using hp) k

/-- Witness for claim C10: the store opened on `interruptedEnv`, whose manifest lists an
unfinished compacted segment with a non-empty file. -/
theorem unfinished_segments_invisible_witness :
    ∃ store, NewKvStore interruptedEnv = some store ∧
      (∀ seg ∈ store.wal.sortedSegments, seg.meta.IsCompactedSegment = true →
          seg.meta.CompactionCompleted = false → ∀ k, seg.hashIndex k = none) ∧
      (∀ k, store.wal.GetEntry k = getEntryLoop store.wal.env k
          (store.wal.sortedSegments.filter (fun seg => !seg.meta.unfinished)).reverse) :=
  Exists.elim (Option.isSome_iff_exists.1 (by decide! : (NewKvStore interruptedEnv).isSome = true))
    (fun store hs => ⟨store, hs, unfinished_segments_invisible interruptedEnv store hs⟩)

/-! ## Claim C3 -/

/-- Claim C3 fails on the code. After `Put(a,1)` and five `Put`s of `b` (segment size 5),
`Get(a)` returns `1`; after one complete `cleanSegments` pass on the same store instance
`Get(a)` returns nil, and `Get(b)` still returns `5`. The pass deleted the file of the
first segment and wrote a compacted segment, but `wal.sortedSegments` still lists only the
old segments, so the live value of `a` is out of reach of the running store. A store
reopened on the same files returns `1` again. -/
theorem get_after_pass_loses_value :
    afterSixPuts.bind (fun s => s.Get (ascii "a")) = some (some (ascii "1")) ∧
    afterSixPutsAndPass.bind (fun s => s.Get (ascii "a")) = some none ∧
    afterSixPutsAndPass.bind (fun s => s.Get (ascii "b")) = some (some (ascii "5")) ∧
    (afterSixPutsAndPass.bind (fun s => NewKvStore s.wal.env)).bind
      (fun s => s.Get (ascii "a")) = some (some (ascii "1")) := by
  decide!

/-! ## The gather step of a compaction pass -/

theorem lastFor_mem (key : Bytes) (es : List walEntry) (e : walEntry)
    (h : lastFor key es = some e) : e ∈ es ∧ e.keyValue.1 = some key := by
  unfold lastFor at h
  have h1 := List.mem_of_find?_eq_some h
  have h2 := List.find?_some h
  exact ⟨List.mem_reverse.1 h1, by simpa using h2⟩

theorem lastFor_eq_none (key : Bytes) (es : List walEntry) :
    lastFor key es = none ↔ ∀ e ∈ es, e.keyValue.1 ≠ some key := by
  unfold lastFor
  rw [List.find?_eq_none]
  simp

theorem offsetMapOf_snoc (es : List walEntry) (e : walEntry) :
    offsetMapOf (es ++ [e]) = offsetMapStep (offsetMapOf es) e := by
  simp [offsetMapOf, List.foldl_append]

/-- With strictly increasing indices, the map of the first visitor gives for each key the
index of its last entry. -/
theorem offsetMapOf_spec (es : List walEntry)
    (hincr : (es.map (fun e => e.Index)).Pairwise (fun a b => a < b)) :
    ∀ key, offsetMapOf es key = (lastFor key es).map (fun e => e.Index) := by
  induction es using List.reverseRecOn with
  | nil => intro key; rfl
  | append_singleton es e ih =>
    rw [List.map_append, List.pairwise_append] at hincr
    obtain ⟨h1, _, h3⟩ := hincr
    have ih := ih h1
    intro key
    rw [offsetMapOf_snoc, lastFor_snoc]
    have hupd : (fun k' => if k' = key then some e.Index else offsetMapOf es k') key =
        some e.Index := by simp
    unfold offsetMapStep
    cases hk : e.keyValue.1 with
    | none =>
      simp only []
      rw [if_neg (by simp)]
      exact ih key
    | some k =>
      simp only []
      have hgt : ∀ off, offsetMapOf es k = some off → e.Index > off := by
        intro off ho
        rw [ih k] at ho
        cases hl : lastFor k es with
        | none => rw [hl] at ho; simp at ho
        | some e1 =>
          rw [hl] at ho
          simp only [Option.map_some', Option.some.injEq] at ho
          have hmem := (lastFor_mem k es e1 hl).1
          have := h3 e1.Index (List.mem_map_of_mem _ hmem) e.Index (by simp)
          omega
      have hres : (match offsetMapOf es k with
          | some offset =>
            if e.Index > offset then fun k' => if k' = k then some e.Index else offsetMapOf es k'
            else offsetMapOf es
          | none => fun k' => if k' = k then some e.Index else offsetMapOf es k') =
          fun k' => if k' = k then some e.Index else offsetMapOf es k' := by
        cases ho : offsetMapOf es k with
        | none => rfl
        | some off =>
          simp only []
          rw [if_pos (hgt off ho)]
      rw [hres]
      by_cases hkk : key = k
      · subst hkk
        simp
      · have : ¬ (some k = some key) := fun h => hkk (Option.some.inj h).symm
        simp only [hkk, this, if_false]
        exact ih key

theorem gatherStep_keep (offsetMap : Bytes → Option Nat) (entries : List walEntry)
    (e : walEntry)
    (hnp : ∀ key, e.keyValue = (some key, none) → offsetMap key ≠ none) :
    gatherStep offsetMap entries e =
      some (if keep offsetMap e then entries ++ [e] else entries) := by
  unfold gatherStep keep
  rcases hkv : e.keyValue with ⟨k, v⟩
  cases k with
  | none => simp
  | some key =>
    cases ho : offsetMap key with
    | none =>
      cases v with
      | none => exact absurd ho (hnp key hkv)
      | some val => simp [ho]
    | some off =>
      cases v with
      | none => simp [ho]
      | some val =>
        by_cases hge : off ≤ e.Index
        · simp [ho, hge]
        · simp [ho, hge]

/-- The second visitor is a filter: it appends the entries that `keep` selects. -/
theorem gatherEntries_filter (offsetMap : Bytes → Option Nat) (entries es : List walEntry)
    (hnp : ∀ e ∈ es, ∀ key, e.keyValue = (some key, none) → offsetMap key ≠ none) :
    gatherEntries offsetMap entries es = some (entries ++ es.filter (keep offsetMap)) := by
  induction es generalizing entries with
  | nil => simp [gatherEntries]
  | cons e es ih =>
    simp only [gatherEntries]
    rw [gatherStep_keep offsetMap entries e (hnp e (List.mem_cons_self _ _))]
    simp only []
    rw [ih _ (fun x hx => hnp x (List.mem_cons_of_mem _ hx))]
    by_cases hk : keep offsetMap e = true
    · simp [hk, List.filter_cons]
    · simp [hk, List.filter_cons]

theorem gatherLoop_spec (env : Env) (T : walSegmentMetadata) (tes : List walEntry)
    (offsetMap : Bytes → Option Nat) (Cl : Log) (rest : List walSegmentMetadata)
    (entries : List walEntry) (cleaned : List walSegmentMetadata)
    (hC : ∀ p ∈ Cl, p.1.SegmentIndex ≤ T.SegmentIndex ∧ p.1.Closed = true ∧ p.1.Id ≠ T.Id ∧
      env.content p.1.segmentLogFilePath = fileOf p.2 ∧
      ∀ e ∈ p.2, ∀ key, e.keyValue = (some key, none) → offsetMap key ≠ none)
    (hTc : T.Closed = true) (hTf : env.content T.segmentLogFilePath = fileOf tes)
    (hTn : ∀ e ∈ tes, ∀ key, e.keyValue = (some key, none) → offsetMap key ≠ none) :
    gatherLoop env T offsetMap (Cl.map Prod.fst ++ T :: rest) entries cleaned =
      some (entries ++ (Log.entries Cl ++ tes).filter (keep offsetMap),
        cleaned ++ Cl.map Prod.fst ++ [T]) := by
  induction Cl generalizing entries cleaned with
  | nil =>
    simp only [List.map_nil, List.nil_append, gatherLoop, hTc, Log.entries, List.append_nil]
    have : (decide (T.SegmentIndex ≥ T.SegmentIndex) && true) = true := by simp
    rw [if_pos this, processEntries_of_content T env tes hTf, gatherEntries_filter _ _ _ hTn]
    simp
  | cons p Cl ih =>
    obtain ⟨h1, h2, h3, h4, h5⟩ := hC p (List.mem_cons_self _ _)
    simp only [List.map_cons, List.cons_append, gatherLoop, h2, List.append_eq]
    have : (decide (T.SegmentIndex ≥ p.1.SegmentIndex) && true) = true := by simp [h1]
    rw [if_pos this, processEntries_of_content p.1 env p.2 h4, gatherEntries_filter _ _ _ h5]
    simp only [h3, if_false]
    rw [ih _ _ (fun q hq => hC q (List.mem_cons_of_mem _ hq))]
    simp [Log.entries, List.append_assoc]

theorem pairwise_lt_inj {α : Type} (f : α → Nat) (l : List α)
    (h : (l.map f).Pairwise (fun a b => a < b)) (a b : α) (ha : a ∈ l) (hb : b ∈ l)
    (he : f a = f b) : a = b := by
  rw [List.pairwise_map] at h
  induction l with
  | nil => simp at ha
  | cons x t ih =>
    rw [List.pairwise_cons] at h
    rcases List.mem_cons.1 ha with ha1 | ha1
    · rcases List.mem_cons.1 hb with hb1 | hb1
      · rw [ha1, hb1]
      · have := h.1 b hb1
        rw [ha1] at he
        omega
    · rcases List.mem_cons.1 hb with hb1 | hb1
      · have := h.1 a ha1
        rw [hb1] at he
        omega
      · exact ih h.2 ha1 hb1

/-- With strictly increasing indices the last entry of a key has the largest index among
the entries of the key. -/
theorem lastFor_max (key : Bytes) (es : List walEntry)
    (hincr : (es.map (fun e => e.Index)).Pairwise (fun a b => a < b)) (l : walEntry)
    (hl : lastFor key es = some l) :
    ∀ e ∈ es, e.keyValue.1 = some key → e.Index ≤ l.Index := by
  induction es using List.reverseRecOn with
  | nil => intro e he; simp at he
  | append_singleton es x ih =>
    rw [List.map_append, List.pairwise_append] at hincr
    obtain ⟨h1, _, h3⟩ := hincr
    rw [lastFor_snoc] at hl
    intro e he hk
    by_cases hx : x.keyValue.1 = some key
    · rw [if_pos hx] at hl
      have hlx : x = l := Option.some.inj hl
      subst hlx
      rcases List.mem_append.1 he with he | he
      · have := h3 e.Index (List.mem_map_of_mem _ he) x.Index (by simp)
        omega
      · simp at he
        subst he
        exact Nat.le_refl _
    · rw [if_neg hx] at hl
      rcases List.mem_append.1 he with he | he
      · exact ih h1 hl e he hk
      · simp at he
        subst he
        exact absurd hk hx

/-- An entry of the segment to clean is kept exactly when it is the last entry of its key
and is a Set. -/
theorem keep_target (tes : List walEntry)
    (hincr : (tes.map (fun e => e.Index)).Pairwise (fun a b => a < b))
    (e : walEntry) (he : e ∈ tes) (key : Bytes) (hk : e.keyValue.1 = some key) :
    keep (offsetMapOf tes) e = true ↔ (lastFor key tes = some e ∧ e.keyValue.2 ≠ none) := by
  have hspec := offsetMapOf_spec tes hincr key
  obtain ⟨l, hl⟩ : ∃ l, lastFor key tes = some l := by
    cases hl : lastFor key tes with
    | none =>
      rw [lastFor_eq_none] at hl
      exact absurd hk (hl e he)
    | some l => exact ⟨l, rfl⟩
  have hlm := lastFor_mem key tes l hl
  have hmax := lastFor_max key tes hincr l hl e he hk
  rw [hl] at hspec
  simp only [Option.map_some'] at hspec
  unfold keep
  rcases hkv : e.keyValue with ⟨k, v⟩
  rw [hkv] at hk
  simp only at hk
  subst hk
  simp only [hspec, hl]
  cases v with
  | none => simp
  | some val =>
    simp only [ge_iff_le, decide_eq_true_eq, ne_eq, not_false_eq_true, and_true, reduceCtorEq,
      Option.some.injEq]
    constructor
    · intro h
      have hidx : e.Index = l.Index := by omega
      exact (pairwise_lt_inj (fun e => e.Index) tes hincr e l he hlm.1 hidx).symm
    · intro h
      rw [h]

/-- A compacted entry (a Set, older than every entry of the segment to clean) is kept
exactly when its key does not occur in the segment to clean. -/
theorem keep_compacted (tes : List walEntry)
    (hincr : (tes.map (fun e => e.Index)).Pairwise (fun a b => a < b))
    (e : walEntry) (key : Bytes) (hk : e.keyValue.1 = some key) (hv : e.keyValue.2 ≠ none)
    (hold : ∀ t ∈ tes, e.Index < t.Index) :
    keep (offsetMapOf tes) e = true ↔ lastFor key tes = none := by
  have hspec := offsetMapOf_spec tes hincr key
  unfold keep
  rcases hkv : e.keyValue with ⟨k, v⟩
  rw [hkv] at hk hv
  simp only at hk hv
  subst hk
  cases v with
  | none => exact absurd rfl hv
  | some val =>
    cases hl : lastFor key tes with
    | none =>
      rw [hl] at hspec
      simp at hspec
      simp [hspec]
    | some l =>
      rw [hl] at hspec
      simp at hspec
      have := hold l (lastFor_mem key tes l hl).1
      simp [hspec]
      omega

theorem keep_set (offsetMap : Bytes → Option Nat) (e : walEntry)
    (h : keep offsetMap e = true) : e.keyValue.1 ≠ none ∧ e.keyValue.2 ≠ none := by
  unfold keep at h
  rcases hkv : e.keyValue with ⟨k, v⟩
  rw [hkv] at h
  cases k with
  | none => simp at h
  | some key =>
    cases v with
    | none =>
      simp only at h
      cases ho : offsetMap key <;> rw [ho] at h <;> simp at h
    | some val => simp

/-! ### Lookups in a filtered list -/

theorem lastFor_filter_of_last (key : Bytes) (p : walEntry → Bool) (es : List walEntry)
    (l : walEntry) (hl : lastFor key es = some l) (hp : p l = true) :
    lastFor key (es.filter p) = some l := by
  induction es using List.reverseRecOn with
  | nil => simp [lastFor] at hl
  | append_singleton es x ih =>
    rw [lastFor_snoc] at hl
    rw [List.filter_append]
    by_cases hx : x.keyValue.1 = some key
    · rw [if_pos hx] at hl
      have hlx : x = l := Option.some.inj hl
      subst hlx
      simp only [List.filter_cons, hp, if_true, List.filter_nil]
      rw [lastFor_snoc, if_pos hx]
    · rw [if_neg hx] at hl
      by_cases hpx : p x = true
      · simp only [List.filter_cons, hpx, if_true, List.filter_nil]
        rw [lastFor_snoc, if_neg hx]
        exact ih hl
      · simp only [List.filter_cons, hpx, if_false, List.filter_nil, List.append_nil,
          Bool.false_eq_true]
        exact ih hl

theorem lastFor_filter_none (key : Bytes) (p : walEntry → Bool) (es : List walEntry)
    (h : ∀ e ∈ es, e.keyValue.1 = some key → p e = false) :
    lastFor key (es.filter p) = none := by
  rw [lastFor_eq_none]
  intro e he hk
  rw [List.mem_filter] at he
  have := h e he.1 hk
  rw [this] at he
  simp at he

theorem lastFor_filter_all (key : Bytes) (p : walEntry → Bool) (es : List walEntry)
    (h : ∀ e ∈ es, e.keyValue.1 = some key → p e = true) :
    lastFor key (es.filter p) = lastFor key es := by
  cases hl : lastFor key es with
  | none =>
    rw [lastFor_eq_none] at hl ⊢
    intro e he
    exact hl e (List.mem_filter.1 he).1
  | some l =>
    have hm := lastFor_mem key es l hl
    exact lastFor_filter_of_last key p es l hl (h l hm.1 hm.2)

theorem writeEntry_index (size : Nat) (hsize : 0 < size) (m : walSegmentMetadata)
    (h : Bytes → Option Nat) (env : Env) (x : walEntry) (k : Bytes)
    (hmc : m.Closed = false) (hmf : m.LastEntryIndex = m.FirstEntryIndex)
    (hk : x.keyValue.1 = some k) :
    walSegment.writeEntry size { meta := m, hashIndex := h } env x (some x.Index) =
      some ({ meta := m, hashIndex := fun key =>
                if key = k then some ((env.files m.segmentLogFilePath).getD []).length
                else h key },
            env.appendFile m.segmentLogFilePath (marshalEntry x ++ [10])) := by
  have hcap : m.isAtCapacity size = false := by
    unfold walSegmentMetadata.isAtCapacity
    rw [hmf]
    simp
    omega
  unfold walSegment.writeEntry
  simp only [hmc, hcap, Bool.false_eq_true, if_false]
  have e1 : ({ x with Index := x.Index } : walEntry) = x := rfl
  simp only [e1, hk]

theorem appendFile_appendFile (env : Env) (path : Nat × Nat) (a b : Bytes) :
    (env.appendFile path a).appendFile path b = env.appendFile path (a ++ b) := by
  unfold Env.appendFile
  simp only [if_true, Option.getD_some, List.append_assoc]
  congr 1
  funext p
  by_cases hp : p = path <;> simp [hp]

theorem storeMeta_snoc (nsm : List walSegmentMetadata) (m m1 : walSegmentMetadata)
    (hid : ∀ n ∈ nsm, n.Id ≠ m.Id) (h1 : m1.Id = m.Id) :
    storeMeta m1 (nsm ++ [m]) = nsm ++ [m1] := by
  unfold storeMeta
  rw [List.map_append]
  congr 1
  · conv_rhs => rw [← List.map_id nsm]
    apply List.map_congr_left
    intro n hn
    rw [h1, if_neg (hid n hn)]
    rfl
  · simp [h1]

/-- The writing loop inside a batch: the remaining entries `x :: suf` of the batch are
appended to the file of the current segment, then the segment is listed and saved. -/
theorem emit_mid (size : Nat) (hsize : 0 < size) (w0 : wal) (nsm : List walSegmentMetadata)
    (m : walSegmentMetadata) (hmc : m.Closed = false)
    (hmf : m.LastEntryIndex = m.FirstEntryIndex) (hid : ∀ n ∈ nsm, n.Id ≠ m.Id)
    (rest : List walEntry) :
    ∀ (suf : List walEntry) (x : walEntry) (j : Nat) (h : Bytes → Option Nat) (env : Env),
      0 < j → j + (suf.length + 1) ≤ size → (j + (suf.length + 1) = size ∨ rest = []) →
      (∀ e ∈ x :: suf, e.keyValue.1 ≠ none) →
      ∃ h1, emitLoop size (emitMid w0 env nsm m j h) (x :: suf ++ rest) =
        emitLoop size (emitStart
          (batchWal w0 (env.appendFile m.segmentLogFilePath (fileOf (x :: suf)))
            (withLast m (lastIdx x suf)))
          (nsm ++ [withLast m (lastIdx x suf)])
          (some { meta := withLast m (lastIdx x suf), hashIndex := h1 })) rest := by
  intro suf
  induction suf with
  | nil =>
    intro x j h env hj hle hfull hkeys
    obtain ⟨k, hk⟩ := Option.ne_none_iff_exists'.1 (hkeys x (List.mem_cons_self _ _))
    have hcond : (decide (j + 1 ≥ size) || decide (rest = [])) = true := by
      rcases hfull with hf | hf
      · simp at hf
        simp
        left
        omega
      · simp [hf]
    refine ⟨fun key =>
        if key = k then some ((env.files m.segmentLogFilePath).getD []).length else h key, ?_⟩
    have hstep : emitStep size (emitMid w0 env nsm m j h) x rest =
        some (emitStart (batchWal w0 (env.appendFile m.segmentLogFilePath (fileOf [x]))
            (withLast m (lastIdx x [])))
          (nsm ++ [withLast m (lastIdx x [])])
          (some { meta := withLast m (lastIdx x []),
                  hashIndex := fun key =>
                    if key = k then some ((env.files m.segmentLogFilePath).getD []).length
                    else h key })) := by
      unfold emitStep
      have hj0 : ¬ j = 0 := by omega
      simp only [emitMid, hj0, if_false]
      rw [writeEntry_index size hsize m h env x k hmc hmf hk]
      simp only [hcond, if_true]
      have hs := storeMeta_snoc nsm m (withLast m x.Index) hid rfl
      simp only [withLast] at hs
      rw [hs]
      simp [emitStart, batchWal, withLast, lastIdx, fileOf]
    have e1 : x :: [] ++ rest = x :: rest := rfl
    rw [e1, emitLoop, hstep]
  | cons y suf ih =>
    intro x j h env hj hle hfull hkeys
    obtain ⟨k, hk⟩ := Option.ne_none_iff_exists'.1 (hkeys x (List.mem_cons_self _ _))
    simp only [List.length_cons] at hle hfull
    have hcond : (decide (j + 1 ≥ size) || decide (y :: suf ++ rest = [])) = false := by
      simp
      omega
    have hstep : emitStep size (emitMid w0 env nsm m j h) x (y :: suf ++ rest) =
        some (emitMid w0 (env.appendFile m.segmentLogFilePath (marshalEntry x ++ [10])) nsm m
          (j + 1) (fun key =>
            if key = k then some ((env.files m.segmentLogFilePath).getD []).length
            else h key)) := by
      unfold emitStep
      have hj0 : ¬ j = 0 := by omega
      simp only [emitMid, hj0, if_false]
      rw [writeEntry_index size hsize m h env x k hmc hmf hk]
      simp only [hcond, Bool.false_eq_true, if_false]
    obtain ⟨h1, ih1⟩ := ih y (j + 1) (fun key =>
        if key = k then some ((env.files m.segmentLogFilePath).getD []).length else h key)
      (env.appendFile m.segmentLogFilePath (marshalEntry x ++ [10])) (by omega) (by omega)
      (by rcases hfull with hf | hf
          · left; omega
          · right; exact hf)
      (fun e he => hkeys e (List.mem_cons_of_mem _ he))
    refine ⟨h1, ?_⟩
    have e1 : x :: (y :: suf) ++ rest = x :: (y :: suf ++ rest) := rfl
    rw [e1, emitLoop, hstep]
    simp only
    rw [ih1, appendFile_appendFile]
    have e2 : marshalEntry x ++ [10] ++ fileOf (y :: suf) = fileOf (x :: y :: suf) := by
      simp [fileOf]
    rw [e2]
    rfl

/-- One batch of the writing loop: a new compacted segment is created, the entries
`x :: suf` of the batch are written to its file, and the segment is listed and saved. -/
theorem emit_batch (size : Nat) (hsize : 0 < size) (w0 : wal) (nsm : List walSegmentMetadata)
    (cur : Option walSegment) (hid : ∀ n ∈ nsm, n.Id < w0.env.uuid)
    (x : walEntry) (suf rest : List walEntry) (hle : suf.length + 1 ≤ size)
    (hfull : suf.length + 1 = size ∨ rest = [])
    (hkeys : ∀ e ∈ x :: suf, e.keyValue.1 ≠ none) :
    ∃ h1, emitLoop size (emitStart w0 nsm cur) (x :: suf ++ rest) =
      emitLoop size (emitStart
        (batchWal w0
          (w0.env.tick.appendFile
            (compactedMeta nsm.length x.Index w0.env.now w0.env.uuid).segmentLogFilePath
            (fileOf (x :: suf)))
          (withLast (compactedMeta nsm.length x.Index w0.env.now w0.env.uuid) (lastIdx x suf)))
        (nsm ++ [withLast (compactedMeta nsm.length x.Index w0.env.now w0.env.uuid)
          (lastIdx x suf)])
        (some { meta := withLast (compactedMeta nsm.length x.Index w0.env.now w0.env.uuid)
                  (lastIdx x suf),
                hashIndex := h1 })) rest := by
  obtain ⟨k, hk⟩ := Option.ne_none_iff_exists'.1 (hkeys x (List.mem_cons_self _ _))
  have hid1 : ∀ n ∈ nsm, n.Id ≠ (compactedMeta nsm.length x.Index w0.env.now w0.env.uuid).Id := by
    intro n hn
    have := hid n hn
    simp only [compactedMeta]
    omega
  cases suf with
  | nil =>
    have hcond : (decide (0 + 1 ≥ size) || decide (rest = [])) = true := by
      rcases hfull with hf | hf
      · simp at hf
        simp
        left
        omega
      · simp [hf]
    refine ⟨fun key => if key = k then
        some ((w0.env.tick.files
          (compactedMeta nsm.length x.Index w0.env.now w0.env.uuid).segmentLogFilePath).getD
            []).length
        else (fun _ => none) key, ?_⟩
    have hstep : emitStep size (emitStart w0 nsm cur) x rest =
        some (emitStart
          (batchWal w0
            (w0.env.tick.appendFile
              (compactedMeta nsm.length x.Index w0.env.now w0.env.uuid).segmentLogFilePath
              (fileOf [x]))
            (withLast (compactedMeta nsm.length x.Index w0.env.now w0.env.uuid) (lastIdx x [])))
          (nsm ++ [withLast (compactedMeta nsm.length x.Index w0.env.now w0.env.uuid)
            (lastIdx x [])])
          (some { meta := withLast (compactedMeta nsm.length x.Index w0.env.now w0.env.uuid)
                    (lastIdx x []),
                  hashIndex := fun key => if key = k then
                    some ((w0.env.tick.files
                      (compactedMeta nsm.length x.Index w0.env.now
                        w0.env.uuid).segmentLogFilePath).getD []).length
                    else (fun _ => none) key })) := by
      unfold emitStep
      simp only [emitStart, if_true]
      have hw := writeEntry_index size hsize
        (compactedMeta nsm.length x.Index w0.env.now w0.env.uuid) (fun _ => none) w0.env.tick x k
        rfl rfl hk
      simp only [compactedMeta, Env.tick] at hw
      simp only [newWalSegment, newMetadata]
      rw [hw]
      simp only [hcond, if_true]
      have hs := storeMeta_snoc nsm (compactedMeta nsm.length x.Index w0.env.now w0.env.uuid)
        (withLast (compactedMeta nsm.length x.Index w0.env.now w0.env.uuid) x.Index) hid1 rfl
      simp only [withLast, compactedMeta] at hs
      rw [hs]
      simp [emitStart, batchWal, withLast, lastIdx, fileOf, compactedMeta, Env.tick]
    have e1 : x :: [] ++ rest = x :: rest := rfl
    rw [e1, emitLoop, hstep]
  | cons y suf =>
    simp only [List.length_cons] at hle hfull
    have hcond : (decide (0 + 1 ≥ size) || decide (y :: suf ++ rest = [])) = false := by
      simp
      omega
    have hstep : emitStep size (emitStart w0 nsm cur) x (y :: suf ++ rest) =
        some (emitMid w0
          (w0.env.tick.appendFile
            (compactedMeta nsm.length x.Index w0.env.now w0.env.uuid).segmentLogFilePath
            (marshalEntry x ++ [10])) nsm
          (compactedMeta nsm.length x.Index w0.env.now w0.env.uuid) (0 + 1)
          (fun key => if key = k then
            some ((w0.env.tick.files
              (compactedMeta nsm.length x.Index w0.env.now w0.env.uuid).segmentLogFilePath).getD
                []).length
            else (fun _ => none) key)) := by
      unfold emitStep
      simp only [emitStart, if_true]
      have hw := writeEntry_index size hsize
        (compactedMeta nsm.length x.Index w0.env.now w0.env.uuid) (fun _ => none) w0.env.tick x k
        rfl rfl hk
      simp only [compactedMeta, Env.tick] at hw
      simp only [newWalSegment, newMetadata]
      rw [hw]
      simp only [hcond, Bool.false_eq_true, if_false]
      simp [emitMid, compactedMeta, Env.tick]
    obtain ⟨h1, ih1⟩ := emit_mid size hsize w0 nsm
      (compactedMeta nsm.length x.Index w0.env.now w0.env.uuid) rfl rfl hid1 rest suf y (0 + 1)
      (fun key => if key = k then
            some ((w0.env.tick.files
              (compactedMeta nsm.length x.Index w0.env.now w0.env.uuid).segmentLogFilePath).getD
                []).length
            else (fun _ => none) key)
      (w0.env.tick.appendFile
            (compactedMeta nsm.length x.Index w0.env.now w0.env.uuid).segmentLogFilePath
            (marshalEntry x ++ [10])) (by omega) (by omega)
      (by rcases hfull with hf | hf
          · left; omega
          · right; exact hf)
      (fun e he => hkeys e (List.mem_cons_of_mem _ he))
    refine ⟨h1, ?_⟩
    have e1 : x :: (y :: suf) ++ rest = x :: (y :: suf ++ rest) := rfl
    rw [e1, emitLoop, hstep]
    simp only
    rw [ih1, appendFile_appendFile]
    have e2 : marshalEntry x ++ [10] ++ fileOf (y :: suf) = fileOf (x :: y :: suf) := by
      simp [fileOf]
    rw [e2]
    rfl

theorem lastIdx_eq (x : walEntry) (suf : List walEntry) :
    (x :: suf).getLast?.map (fun e => e.Index) = some (lastIdx x suf) := by
  induction suf generalizing x with
  | nil => rfl
  | cons y suf ih =>
    rw [List.getLast?_cons_cons, ih]
    rfl

theorem emitLoop_spec (size : Nat) (hsize : 0 < size) :
    ∀ (n : Nat) (live : List walEntry) (w0 : wal) (nsm0 : List walSegmentMetadata)
      (cur : Option walSegment), live.length ≤ n →
      (∀ m ∈ nsm0, m.Id < w0.env.uuid) → w0.metatada.Sorted metaLE →
      (∀ path : Nat × Nat, w0.env.uuid ≤ path.2 → w0.env.files path = none) →
      (∀ e ∈ live, e.keyValue.1 ≠ none) →
      ∃ st N, emitLoop size (emitStart w0 nsm0 cur) live = some st ∧
        Emitted size w0 nsm0 live st N := by
  intro n
  induction n with
  | zero =>
    intro live w0 nsm0 cur hlen hid hsorted hfresh hkeys
    have hl : live = [] := List.length_eq_zero.1 (Nat.le_zero.1 hlen)
    subst hl
    refine ⟨emitStart w0 nsm0 cur, [], rfl, ?_⟩
    exact { metas := by simp [emitStart], entries := rfl, perm := by simp [emitStart],
            sorted := hsorted, segs := rfl, cleaning := rfl, uuid := rfl,
            old := fun _ _ => rfl, fresh := hfresh,
            content := fun p hp => absurd hp (List.not_mem_nil _),
            shape := fun p hp => absurd hp (List.not_mem_nil _),
            segIdx := rfl, ids := rfl, count := by simpa using hsize,
            full := fun i p hp => by simp at hp }
  | succ n ih =>
    intro live w0 nsm0 cur hlen hid hsorted hfresh hkeys
    cases live with
    | nil =>
      refine ⟨emitStart w0 nsm0 cur, [], rfl, ?_⟩
      exact { metas := by simp [emitStart], entries := rfl, perm := by simp [emitStart],
              sorted := hsorted, segs := rfl, cleaning := rfl, uuid := rfl,
              old := fun _ _ => rfl, fresh := hfresh,
              content := fun p hp => absurd hp (List.not_mem_nil _),
              shape := fun p hp => absurd hp (List.not_mem_nil _),
              segIdx := rfl, ids := rfl, count := by simpa using hsize,
              full := fun i p hp => by simp at hp }
    | cons x tl =>
      simp only [List.length_cons] at hlen
      have htl : tl = tl.take (size - 1) ++ tl.drop (size - 1) := (List.take_append_drop _ _).symm
      generalize hsuf : tl.take (size - 1) = suf at htl
      generalize hrest : tl.drop (size - 1) = rest at htl
      have hsl : suf.length + 1 ≤ size := by
        rw [← hsuf, List.length_take]
        omega
      have hfull : suf.length + 1 = size ∨ rest = [] := by
        by_cases h : size - 1 ≤ tl.length
        · left
          rw [← hsuf, List.length_take]
          omega
        · right
          rw [← hrest, List.drop_eq_nil_iff]
          omega
      have hrl : rest.length ≤ n := by
        have : tl.length = suf.length + rest.length := by rw [htl, List.length_append]
        omega
      have hk1 : ∀ e ∈ x :: suf, e.keyValue.1 ≠ none := by
        intro e he
        apply hkeys
        rw [htl]
        rcases List.mem_cons.1 he with he | he
        · rw [he]; exact List.mem_cons_self _ _
        · exact List.mem_cons_of_mem _ (List.mem_append_left _ he)
      have hk2 : ∀ e ∈ rest, e.keyValue.1 ≠ none := by
        intro e he
        apply hkeys
        rw [htl]
        exact List.mem_cons_of_mem _ (List.mem_append_right _ he)
      obtain ⟨h1, hb⟩ := emit_batch size hsize w0 nsm0 cur hid x suf rest hsl hfull hk1
      generalize hm : withLast (compactedMeta nsm0.length x.Index w0.env.now w0.env.uuid)
        (lastIdx x suf) = m1 at hb
      have hmid : m1.Id = w0.env.uuid := by rw [← hm]; rfl
      have hmidx : m1.SegmentIndex = nsm0.length := by rw [← hm]; rfl
      have hmpath : (compactedMeta nsm0.length x.Index w0.env.now w0.env.uuid).segmentLogFilePath
          = m1.segmentLogFilePath := by rw [← hm]; rfl
      rw [hmpath] at hb
      generalize hw1 : batchWal w0 (w0.env.tick.appendFile m1.segmentLogFilePath
        (fileOf (x :: suf))) m1 = w1 at hb
      have hw1u : w1.env.uuid = w0.env.uuid + 1 := by rw [← hw1]; rfl
      have hw1m : w1.metatada = sortMetadata (w0.metatada ++ [m1]) := by rw [← hw1]; rfl
      have hw1f : ∀ path : Nat × Nat, w1.env.files path =
          if path = m1.segmentLogFilePath
          then some ((w0.env.files m1.segmentLogFilePath).getD [] ++ fileOf (x :: suf))
          else w0.env.files path := by
        intro path; rw [← hw1]; rfl
      have hnew : w0.env.files m1.segmentLogFilePath = none := by
        apply hfresh
        simp only [walSegmentMetadata.segmentLogFilePath, hmid]
        exact Nat.le_refl _
      obtain ⟨st, N, hrun, E⟩ := ih rest w1 (nsm0 ++ [m1]) (some { meta := m1, hashIndex := h1 })
        hrl
        (by intro m hmm
            rw [hw1u]
            rcases List.mem_append.1 hmm with hmm | hmm
            · have := hid m hmm; omega
            · simp at hmm; rw [hmm, hmid]; omega)
        (by rw [hw1m]; exact sortMetadata_sorted _)
        (by intro path hp
            rw [hw1f, if_neg]
            · apply hfresh; rw [hw1u] at hp; omega
            · intro hpe
              rw [hpe, hw1u] at hp
              simp only [walSegmentMetadata.segmentLogFilePath, hmid] at hp
              omega)
        hk2
      refine ⟨st, (m1, x :: suf) :: N, ?_, ?_⟩
      · have e1 : x :: tl = x :: suf ++ rest := by rw [htl]; rfl
        rw [e1, hb, hrun]
      · have hB : BatchOK size (m1, x :: suf) :=
          { compacted := by rw [← hm]; rfl, completed := by rw [← hm]; rfl,
            closed := by rw [← hm]; rfl, nonempty := List.cons_ne_nil _ _,
            len := by simpa using hsl, first := by rw [← hm]; rfl,
            last := by rw [← hm]; exact lastIdx_eq x suf }
        exact
          { metas := by rw [E.metas]; simp
            entries := by
              rw [htl]
              simp [Log.entries, E.entries]
            perm := by
              refine E.perm.trans ?_
              rw [hw1m]
              have hp1 : (sortMetadata (w0.metatada ++ [m1]) ++ N.map Prod.fst).Perm
                  ((w0.metatada ++ [m1]) ++ N.map Prod.fst) :=
                List.Perm.append_right _ (sortMetadata_perm _)
              have e2 : w0.metatada ++ List.map Prod.fst ((m1, x :: suf) :: N) =
                  (w0.metatada ++ [m1]) ++ N.map Prod.fst := by simp
              rw [e2]
              exact hp1
            sorted := E.sorted
            segs := by rw [E.segs, ← hw1]; rfl
            cleaning := by rw [E.cleaning, ← hw1]; rfl
            uuid := by rw [E.uuid, hw1u, List.length_cons]; omega
            old := by
              intro path hp
              rw [E.old path (by rw [hw1u]; omega), hw1f, if_neg]
              intro hpe
              rw [hpe] at hp
              simp only [walSegmentMetadata.segmentLogFilePath, hmid] at hp
              omega
            fresh := E.fresh
            content := by
              intro p hp
              rcases List.mem_cons.1 hp with hp | hp
              · rw [hp]
                have hlt : m1.segmentLogFilePath.2 < w1.env.uuid := by
                  rw [hw1u]
                  simp only [walSegmentMetadata.segmentLogFilePath, hmid]
                  omega
                simp only [Env.content]
                rw [E.old _ hlt, hw1f, if_pos rfl, hnew]
                rfl
              · exact E.content p hp
            shape := by
              intro p hp
              rcases List.mem_cons.1 hp with hp | hp
              · rw [hp]; exact hB
              · exact E.shape p hp
            segIdx := by
              rw [List.map_cons, E.segIdx, List.length_cons, List.range'_succ, hmidx,
                List.length_append]
              rfl
            ids := by
              rw [List.map_cons, E.ids, List.length_cons, List.range'_succ, hmid, hw1u]
            count := by
              have := E.count
              rw [htl]
              simp only [List.length_cons, List.length_append]
              rw [Nat.succ_mul]
              rcases hfull with hf | hf
              · omega
              · rw [hf] at this ⊢
                have hN : N = [] := by
                  have := E.entries
                  rw [hf] at this
                  cases N with
                  | nil => rfl
                  | cons q N2 =>
                    exfalso
                    have hq := (E.shape q (List.mem_cons_self _ _)).nonempty
                    simp only [Log.entries] at this
                    exact hq (List.append_eq_nil.1 this).1
                rw [hN]
                simp
            full := by
              intro i p hp hi
              cases i with
              | zero =>
                simp only [List.getElem?_cons_zero, Option.some.injEq] at hp
                rw [← hp]
                rcases hfull with hf | hf
                · simpa using hf
                · exfalso
                  have hent := E.entries
                  rw [hf] at hent
                  cases N with
                  | nil => simp at hi
                  | cons q N2 =>
                    have hq := (E.shape q (List.mem_cons_self _ _)).nonempty
                    simp only [Log.entries] at hent
                    exact hq (List.append_eq_nil.1 hent).1
              | succ j =>
                simp only [List.getElem?_cons_succ] at hp
                simp only [List.length_cons] at hi
                exact E.full j p hp (by omega) }

theorem find_id (l : List walSegmentMetadata) (hnd : (l.map (fun m => m.Id)).Nodup)
    (c : walSegmentMetadata) (hc : c ∈ l) :
    l.find? (fun m => decide (m.Id = c.Id)) = some c := by
  induction l with
  | nil => simp at hc
  | cons x t ih =>
    rw [List.map_cons, List.nodup_cons] at hnd
    rcases List.mem_cons.1 hc with hc | hc
    · subst hc
      simp
    · have hne : x.Id ≠ c.Id := by
        intro he
        apply hnd.1
        rw [he]
        exact List.mem_map_of_mem (fun m => m.Id) hc
      rw [List.find?_cons_of_neg _ (by simpa using hne)]
      exact ih hnd.2 hc

theorem eraseP_id (l : List walSegmentMetadata) (hnd : (l.map (fun m => m.Id)).Nodup)
    (a : Nat) :
    l.eraseP (fun m => decide (m.Id = a)) = l.filter (fun m => !decide (m.Id = a)) := by
  induction l with
  | nil => rfl
  | cons x t ih =>
    rw [List.map_cons, List.nodup_cons] at hnd
    by_cases hx : x.Id = a
    · rw [List.eraseP_cons_of_pos (by simpa using hx), List.filter_cons_of_neg (by simpa using hx)]
      symm
      rw [List.filter_eq_self]
      intro m hm
      have : m.Id ≠ a := by
        intro he
        apply hnd.1
        rw [hx, ← he]
        exact List.mem_map_of_mem (fun m => m.Id) hm
      simpa using this
    · rw [List.eraseP_cons_of_neg (by simpa using hx), List.filter_cons_of_pos (by simpa using hx),
        ih hnd.2]

/-- The writing loop does not touch the pointer `wal.metatada`. -/
theorem emitStep_nil (size : Nat) (st st1 : emitState) (entry : walEntry)
    (rest : List walEntry) (h : emitStep size st entry rest = some st1) :
    st1.w.metatadaNil = st.w.metatadaNil := by
  unfold emitStep at h
  by_cases h0 : st.currentBatchSize = 0 <;> simp only [h0, if_true, if_false] at h <;>
    repeat' (first
      | (cases h; done)
      | (simp only [Option.some.injEq] at h; subst h; rfl)
      | split at h)

theorem emitLoop_nil (size : Nat) (es : List walEntry) :
    ∀ (st st1 : emitState), emitLoop size st es = some st1 →
      st1.w.metatadaNil = st.w.metatadaNil := by
  induction es with
  | nil =>
    intro st st1 h
    simp only [emitLoop, Option.some.injEq] at h
    subst h
    rfl
  | cons e es ih =>
    intro st st1 h
    simp only [emitLoop] at h
    cases hs : emitStep size st e es with
    | none => rw [hs] at h; cases h
    | some st2 =>
      rw [hs] at h
      exact (ih st2 st1 h).trans (emitStep_nil size st st2 e es hs)

/-- The effect of deleting the segments `cleaned`, all listed in the manifest. -/
theorem deleteSegments_spec (cleaned : List walSegmentMetadata) :
    ∀ (w : wal), w.metatadaNil = false →
      (w.metatada.map (fun m => m.Id)).Nodup → (∀ c ∈ cleaned, c ∈ w.metatada) →
      (cleaned.map (fun m => m.Id)).Nodup →
      ∃ w1, deleteSegments w cleaned = some w1 ∧
        w1.metatada.Perm
          (w.metatada.filter (fun m => !(cleaned.map (fun c => c.Id)).contains m.Id)) ∧
        w1.sortedSegments = w.sortedSegments ∧ w1.cleaningSegments = w.cleaningSegments ∧
        w1.env.uuid = w.env.uuid ∧ w1.env.now = w.env.now ∧
        (∀ c ∈ cleaned, w1.env.files c.segmentLogFilePath = none) ∧
        (∀ path, (∀ c ∈ cleaned, c.segmentLogFilePath ≠ path) →
          w1.env.files path = w.env.files path) := by
  induction cleaned with
  | nil =>
    intro w _ _ _ _
    refine ⟨w, rfl, ?_, rfl, rfl, rfl, rfl, ?_, fun _ _ => rfl⟩
    · simp
    · intro c hc; simp at hc
  | cons c rest ih =>
    intro w hnil hnd hmem hcn
    rw [List.map_cons, List.nodup_cons] at hcn
    have hfind := find_id w.metatada hnd c (hmem c (List.mem_cons_self _ _))
    have hpm : (sortMetadata (w.metatada.eraseP (fun m => decide (m.Id = c.Id)))).Perm
        (w.metatada.filter (fun m => !decide (m.Id = c.Id))) := by
      rw [← eraseP_id _ hnd]
      exact sortMetadata_perm _
    have hnd1 : ((sortMetadata (w.metatada.eraseP (fun m => decide (m.Id = c.Id)))).map
        (fun m => m.Id)).Nodup := by
      refine (List.Perm.nodup_iff (hpm.map _)).2 ?_
      exact List.Nodup.sublist (List.Sublist.map _ (List.filter_sublist _)) hnd
    obtain ⟨w1, hrun, hperm, hs, hcl, hu, hn, hrem, hkeep⟩ :=
      ih (({ w with metatada := w.metatada.eraseP (fun m => decide (m.Id = c.Id)),
                    env := w.env.removeFile c.segmentLogFilePath }).saveMetadata) hnil hnd1
        (by intro d hd
            refine (List.Perm.mem_iff hpm).2 ?_
            rw [List.mem_filter]
            refine ⟨hmem d (List.mem_cons_of_mem _ hd), ?_⟩
            have : d.Id ≠ c.Id := by
              intro he
              apply hcn.1
              rw [← he]
              exact List.mem_map_of_mem (fun m => m.Id) hd
            simpa using this)
        hcn.2
    refine ⟨w1, ?_, ?_, hs, hcl, hu, hn, ?_, ?_⟩
    · simp only [deleteSegments, wal.deleteSegment, hfind, hnil, Bool.false_eq_true, if_false]
      simp only [hnil] at hrun
      exact hrun
    · refine hperm.trans ?_
      have := (hpm.filter (fun m => !(rest.map (fun c => c.Id)).contains m.Id))
      refine this.trans ?_
      rw [List.filter_filter]
      apply List.Perm.of_eq
      apply List.filter_congr
      intro m _
      simp only [List.map_cons, List.contains_cons]
      by_cases h1 : m.Id = c.Id
      · simp [h1]
      · simp [h1]
    · intro d hd
      rcases List.mem_cons.1 hd with hd | hd
      · by_cases hex : ∃ e ∈ rest, e.segmentLogFilePath = d.segmentLogFilePath
        · obtain ⟨e, he, hee⟩ := hex
          rw [← hee]
          exact hrem e he
        · rw [hkeep _ (fun e he hee => hex ⟨e, he, hee⟩), hd]
          simp [wal.saveMetadata, Env.removeFile]
      · exact hrem d hd
    · intro path hp
      rw [hkeep path (fun e he => hp e (List.mem_cons_of_mem _ he))]
      have : c.segmentLogFilePath ≠ path := hp c (List.mem_cons_self _ _)
      simp [wal.saveMetadata, Env.removeFile, Ne.symm this]

theorem deleteSegment_nil (w w1 : wal) (id : Nat) (h : w.deleteSegment id = some w1) :
    w1.metatadaNil = w.metatadaNil := by
  unfold wal.deleteSegment at h
  split_ifs at h
  split at h
  · cases h
  · simp only [Option.some.injEq] at h
    subst h
    rfl

theorem deleteSegments_nil (l : List walSegmentMetadata) :
    ∀ w w1 : wal, deleteSegments w l = some w1 → w1.metatadaNil = w.metatadaNil := by
  induction l with
  | nil =>
    intro w w1 h
    simp only [deleteSegments, Option.some.injEq] at h
    subst h
    rfl
  | cons m l ih =>
    intro w w1 h
    simp only [deleteSegments] at h
    cases hd : w.deleteSegment m.Id with
    | none => rw [hd] at h; cases h
    | some w2 =>
      rw [hd] at h
      exact (ih w2 w1 h).trans (deleteSegment_nil w w2 m.Id hd)

/-- A pass leaves the pointer `wal.metatada` of a log non-nil. -/
theorem cleanSegments_nil (size : Nat) (w w1 : wal) (h : w.cleanSegments size = some w1)
    (hn : w.metatadaNil = false) : w1.metatadaNil = false := by
  unfold wal.cleanSegments at h
  split_ifs at h with hc
  · simp only [Option.some.injEq] at h
    subst h
    exact hn
  · unfold wal.getNextDirtySegment at h
    split_ifs at h with hl
    have hl2 : w.loadMetadata.metatadaNil = false := by simpa using hl
    cases hf : w.loadMetadata.metatada.find? (fun m => !m.IsCompactedSegment) with
    | none =>
      rw [hf] at h
      simp only [Option.some.injEq] at h
      subst h
      exact hl2
    | some T =>
      rw [hf] at h
      simp only [] at h
      split_ifs at h with hT
      · simp only [Option.some.injEq] at h
        subst h
        exact hl2
      · split at h
        · cases h
        · split at h
          · cases h
          · rename_i st hst
            split at h
            · cases h
            · rename_i w3 hw3
              simp only [Option.some.injEq] at h
              subst h
              have h1 := deleteSegments_nil _ _ _ hw3
              have h2 := emitLoop_nil size _ _ _ hst
              simp only [wal.saveMetadata] at h1 ⊢
              rw [h1, h2]
              exact hl2

theorem inv_loadMetadata {size : Nat} {w : wal} {C D : Log}
    {o : walSegmentMetadata × List walEntry} (inv : Inv size w C D o) : w.loadMetadata = w := by
  unfold wal.loadMetadata
  rcases inv.manifest with h | h
  · rw [h]
  · rw [h]
    simp only [inv_sorted inv, ← inv.nonNil]

theorem find_dirty (l1 l2 : List walSegmentMetadata) (a : walSegmentMetadata)
    (h1 : ∀ x ∈ l1, x.IsCompactedSegment = true) (ha : a.IsCompactedSegment = false) :
    (l1 ++ a :: l2).find? (fun m => !m.IsCompactedSegment) = some a := by
  induction l1 with
  | nil => simp [ha]
  | cons x t ih =>
    rw [List.cons_append, List.find?_cons_of_neg _ (by simp [h1 x (List.mem_cons_self _ _)])]
    exact ih (fun y hy => h1 y (List.mem_cons_of_mem _ hy))

/-- A pass on a log without a closed dirty segment changes nothing. -/
theorem clean_nop (size : Nat) (w : wal) (C : Log) (o : walSegmentMetadata × List walEntry)
    (inv : Inv size w C [] o) : w.cleanSegments size = some w := by
  unfold wal.cleanSegments
  rw [inv.notCleaning]
  simp only [Bool.false_eq_true, if_false, wal.getNextDirtySegment, inv_loadMetadata inv,
    inv.nonNil]
  have hm : w.metatada = C.map Prod.fst ++ o.1 :: [] := by
    rw [inv.metas]; simp
  rw [hm, find_dirty _ _ _ (fun x hx => by
    obtain ⟨p, hp, hpx⟩ := List.mem_map.1 hx
    rw [← hpx]
    exact (inv.comp p hp).compacted) inv.openOK.1.dirty]
  simp [inv.openOK.2]

theorem incr_nodup (es : List walEntry)
    (h : (es.map (fun e => e.Index)).Pairwise (fun a b => a < b)) : es.Nodup := by
  apply List.Nodup.of_map (fun e => e.Index)
  exact h.imp (fun hab => Nat.ne_of_lt hab)

/-- The keys of the live entries are distinct. -/
theorem live_keys_nodup (ces tes : List walEntry)
    (hck : (ces.map (fun e => e.keyValue.1)).Nodup)
    (hcs : ∀ e ∈ ces, e.keyValue.1 ≠ none ∧ e.keyValue.2 ≠ none)
    (htk : ∀ e ∈ tes, e.keyValue.1 ≠ none)
    (hincr : ((ces ++ tes).map (fun e => e.Index)).Pairwise (fun a b => a < b)) :
    ((liveEntries ces tes).map (fun e => e.keyValue.1)).Nodup := by
  rw [List.map_append, List.pairwise_append] at hincr
  obtain ⟨_, hti, hct⟩ := hincr
  unfold liveEntries
  rw [List.filter_append, List.map_append, List.nodup_append]
  refine ⟨?_, ?_, ?_⟩
  · exact List.Nodup.sublist (List.Sublist.map _ (List.filter_sublist _)) hck
  · apply List.Nodup.map_on
    · intro x hx y hy hxy
      rw [List.mem_filter] at hx hy
      obtain ⟨k, hk⟩ := Option.ne_none_iff_exists'.1 (htk x hx.1)
      have hky : y.keyValue.1 = some k := by rw [← hxy]; exact hk
      have h1 := ((keep_target tes hti x hx.1 k hk).1 hx.2).1
      have h2 := ((keep_target tes hti y hy.1 k hky).1 hy.2).1
      rw [h1] at h2
      exact Option.some.inj h2
    · exact List.Nodup.sublist (List.filter_sublist _) (incr_nodup tes hti)
  · intro ko h1 h2
    obtain ⟨e1, he1, hk1⟩ := List.mem_map.1 h1
    obtain ⟨e2, he2, hk2⟩ := List.mem_map.1 h2
    rw [List.mem_filter] at he1 he2
    obtain ⟨k, hk⟩ := Option.ne_none_iff_exists'.1 (hcs e1 he1.1).1
    have hnone := (keep_compacted tes hti e1 k hk (hcs e1 he1.1).2
      (fun t ht => hct _ (List.mem_map_of_mem _ he1.1) _ (List.mem_map_of_mem _ ht))).1 he1.2
    rw [lastFor_eq_none] at hnone
    apply hnone e2 he2.1
    rw [hk2, ← hk1, hk]

theorem entries_length_le (size : Nat) (C : Log) (h : ∀ p ∈ C, CompactedOK size p) :
    (Log.entries C).length ≤ C.length * size := by
  induction C with
  | nil => simp [Log.entries]
  | cons p C ih =>
    have h1 := (h p (List.mem_cons_self _ _)).len
    have h2 := ih (fun q hq => h q (List.mem_cons_of_mem _ hq))
    simp only [Log.entries, List.length_append, List.length_cons]
    rw [Nat.succ_mul]
    omega

theorem pairwise_lt_length (l : List Nat) :
    ∀ b, (l ++ [b]).Pairwise (fun a b => a < b) → l.length ≤ b := by
  induction l using List.reverseRecOn with
  | nil => intro b _; exact Nat.zero_le _
  | append_singleton t y ih =>
    intro b h
    rw [List.pairwise_append] at h
    have h1 := ih y h.1
    have h2 := h.2.2 y (by simp) b (by simp)
    simp only [List.length_append, List.length_singleton]
    omega

theorem finalize_perm (l old nf : List walSegmentMetadata) (u : Nat)
    (hperm : l.Perm (old ++ nf)) (hold : ∀ m ∈ old, m.Id < u) (hnew : ∀ m ∈ nf, u ≤ m.Id) :
    (finalizeMetas nf l).Perm (old ++ nf.map completedMeta) := by
  unfold finalizeMetas
  refine (hperm.map _).trans ?_
  rw [List.map_append]
  apply List.Perm.of_eq
  congr 1
  · conv_rhs => rw [← List.map_id old]
    apply List.map_congr_left
    intro m hm
    have : nf.any (fun n => decide (n.Id = m.Id)) = false := by
      rw [List.any_eq_false]
      intro n hn
      have h1 := hold m hm
      have h2 := hnew n hn
      simp
      omega
    rw [this]
    rfl
  · apply List.map_congr_left
    intro m hm
    have : nf.any (fun n => decide (n.Id = m.Id)) = true := by
      rw [List.any_eq_true]
      exact ⟨m, hm, by simp⟩
    rw [this]
    rfl

theorem filter_cleaned (cf rf nf : List walSegmentMetadata) (T : walSegmentMetadata) (u : Nat)
    (hnd : ((cf ++ T :: rf).map (fun m => m.Id)).Nodup)
    (hold : ∀ m ∈ cf ++ T :: rf, m.Id < u) (hnew : ∀ m ∈ nf, u ≤ m.Id) :
    ((cf ++ T :: rf) ++ nf).filter
      (fun m => !((cf ++ [T]).map (fun c => c.Id)).contains m.Id) = rf ++ nf := by
  have e1 : cf ++ T :: rf = (cf ++ [T]) ++ rf := by simp
  rw [e1] at hnd hold ⊢
  rw [List.map_append, List.nodup_append] at hnd
  obtain ⟨_, _, hdis⟩ := hnd
  rw [List.filter_append, List.filter_append]
  have h1 : (cf ++ [T]).filter
      (fun m => !((cf ++ [T]).map (fun c => c.Id)).contains m.Id) = [] := by
    rw [List.filter_eq_nil_iff]
    intro m hm
    have hin := List.mem_map_of_mem (fun c => c.Id) hm
    have hc : ((cf ++ [T]).map (fun c => c.Id)).contains m.Id = true :=
      List.elem_eq_true_of_mem hin
    rw [hc]
    simp
  have h2 : rf.filter
      (fun m => !((cf ++ [T]).map (fun c => c.Id)).contains m.Id) = rf := by
    rw [List.filter_eq_self]
    intro m hm
    have : m.Id ∉ (cf ++ [T]).map (fun c => c.Id) := by
      intro hin
      exact hdis hin (List.mem_map_of_mem (fun c => c.Id) hm)
    simpa using this
  have h3 : nf.filter
      (fun m => !((cf ++ [T]).map (fun c => c.Id)).contains m.Id) = nf := by
    rw [List.filter_eq_self]
    intro m hm
    have : m.Id ∉ (cf ++ [T]).map (fun c => c.Id) := by
      intro hin
      obtain ⟨c, hc, hce⟩ := List.mem_map.1 hin
      have h5 := hold c (List.mem_append_left _ hc)
      have h6 := hnew m hm
      have h7 : c.Id = m.Id := hce
      omega
    simpa using this
  rw [h1, h2, h3]
  rfl

theorem tes_length_le (size : Nat) (p : walSegmentMetadata × List walEntry)
    (h : DirtyOK size p) : p.2.length ≤ size := by
  have h1 := congrArg List.length h.range
  rw [List.length_map, List.length_range'] at h1
  have := h.cap
  omega

theorem mem_range'_ge (a n x : Nat) (h : x ∈ List.range' a n) : a ≤ x ∧ x < a + n := by
  rw [List.mem_range'_1] at h
  exact h

/-- One compaction pass on a log whose oldest dirty segment `T` is closed: the pass
completes; the manifest lists the new compacted segments `N` (holding the live entries),
then the remaining segments; the files of the old compacted segments and of `T` are gone. -/
theorem clean_run (size : Nat) (hsize : 0 < size) (w : wal) (C D : Log)
    (T : walSegmentMetadata) (tes : List walEntry) (o : walSegmentMetadata × List walEntry)
    (inv : Inv size w C ((T, tes) :: D) o) :
    ∃ w1 N, w.cleanSegments size = some w1 ∧
      Log.entries N = liveEntries (Log.entries C) tes ∧
      (∀ p ∈ N, BatchOK size p) ∧
      N.map (fun p => p.1.SegmentIndex) = List.range' 0 N.length ∧
      N.map (fun p => p.1.Id) = List.range' w.env.uuid N.length ∧
      N.length ≤ T.SegmentIndex + 1 ∧
      N.length * size < (liveEntries (Log.entries C) tes).length + size ∧
      w1.metatada = N.map (fun p => completedMeta p.1) ++ (D.map Prod.fst ++ [o.1]) ∧
      w1.env.manifest = some w1.metatada ∧
      w1.sortedSegments = w.sortedSegments ∧ w1.cleaningSegments = w.cleaningSegments ∧
      w1.env.uuid = w.env.uuid + N.length ∧
      (∀ p ∈ C ++ [(T, tes)], w1.env.files p.1.segmentLogFilePath = none) ∧
      (∀ p ∈ N, w1.env.content p.1.segmentLogFilePath = fileOf p.2) ∧
      (∀ path : Nat × Nat, path.2 < w.env.uuid →
        (∀ p ∈ C ++ [(T, tes)], p.1.segmentLogFilePath ≠ path) →
        w1.env.files path = w.env.files path) ∧
      (∀ path : Nat × Nat, w.env.uuid + N.length ≤ path.2 → w1.env.files path = none) ∧
      gatherLoop w.env T (offsetMapOf (processEntries T w.env)) w.metatada [] [] =
        some (liveEntries (Log.entries C) tes, C.map Prod.fst ++ [T]) ∧
      ∃ st, Emitted size w [] (liveEntries (Log.entries C) tes) st N ∧
        w.emitSegments size (liveEntries (Log.entries C) tes) =
          some (({ st.w with metatada := finalizeMetas st.newSegmentMetas st.w.metatada
                 }).saveMetadata, (N.map Prod.fst).map completedMeta) ∧
        (sortMetadata (finalizeMetas st.newSegmentMetas st.w.metatada)).Perm
          (w.metatada ++ (N.map Prod.fst).map completedMeta) ∧
        w.cleanSegments size =
          (deleteSegments
            (({ st.w with metatada := finalizeMetas st.newSegmentMetas st.w.metatada
              }).saveMetadata)
            (C.map Prod.fst ++ [T])).map wal.saveMetadata := by
  -- the manifest list
  have hm : w.metatada = C.map Prod.fst ++ T :: (D.map Prod.fst ++ [o.1]) := by
    rw [inv.metas]; simp
  have hTmem : (T, tes) ∈ C ++ (T, tes) :: D ++ [o] := by simp
  have hCmem : ∀ p ∈ C, p ∈ C ++ (T, tes) :: D ++ [o] := by
    intro p hp; simp [hp]
  have hTd := inv.dirty (T, tes) (List.mem_cons_self _ _)
  have hfind : w.metatada.find? (fun m => !m.IsCompactedSegment) = some T := by
    rw [hm]
    exact find_dirty _ _ _ (fun x hx => by
      obtain ⟨p, hp, hpx⟩ := List.mem_map.1 hx
      rw [← hpx]
      exact (inv.comp p hp).compacted) hTd.1.dirty
  have hTc : T.Closed = true := hTd.2
  -- the entries
  have hent : Log.entries (C ++ (T, tes) :: D ++ [o]) =
      (Log.entries C ++ tes) ++ (Log.entries D ++ o.2) := by
    simp [entries_append, entries_singleton, Log.entries, List.append_assoc]
  have hincr := inv.incr
  rw [hent, List.map_append, List.pairwise_append] at hincr
  have hincr1 := hincr.1
  have hti : (tes.map (fun e => e.Index)).Pairwise (fun a b => a < b) := by
    rw [List.map_append, List.pairwise_append] at hincr1
    exact hincr1.2.1
  have hTf : w.env.content T.segmentLogFilePath = fileOf tes := inv.content (T, tes) hTmem
  have hom : (processEntries T w.env).foldl offsetMapStep (fun _ => none) = offsetMapOf tes := by
    rw [processEntries_of_content T w.env tes hTf]
    rfl
  -- the segment indexes and ids
  have hseg := inv.segIdx
  have hseg1 : ((C.map (fun p => p.1.SegmentIndex)) ++ [T.SegmentIndex]).Pairwise
      (fun a b => a < b) := by
    have e1 : C ++ (T, tes) :: D ++ [o] = (C ++ [(T, tes)]) ++ (D ++ [o]) := by simp
    rw [e1, List.map_append, List.pairwise_append] at hseg
    simpa using hseg.1
  have hClen : C.length ≤ T.SegmentIndex := by
    have := pairwise_lt_length _ _ hseg1
    simpa using this
  have hCidx : ∀ p ∈ C, p.1.SegmentIndex ≤ T.SegmentIndex := by
    intro p hp
    rw [List.pairwise_append] at hseg1
    exact Nat.le_of_lt (hseg1.2.2 _ (List.mem_map_of_mem (fun p => p.1.SegmentIndex) hp) _
      (by simp))
  have hnd := inv.nodup
  have hnd1 : ((C.map (fun p => p.1.Id)) ++ [T.Id]).Nodup := by
    have e1 : C ++ (T, tes) :: D ++ [o] = (C ++ [(T, tes)]) ++ (D ++ [o]) := by simp
    rw [e1, List.map_append, List.nodup_append] at hnd
    simpa using hnd.1
  have hCid : ∀ p ∈ C, p.1.Id ≠ T.Id := by
    intro p hp he
    rw [List.nodup_append] at hnd1
    exact hnd1.2.2 (List.mem_map_of_mem (fun p => p.1.Id) hp) (by simp [he])
  -- the gathering loop
  have hTn : ∀ e ∈ tes, ∀ key, e.keyValue = (some key, none) → offsetMapOf tes key ≠ none := by
    intro e he key hkv
    rw [offsetMapOf_spec tes hti key]
    intro hnone
    rw [Option.map_eq_none', lastFor_eq_none] at hnone
    exact hnone e he (by rw [hkv])
  have hg : gatherLoop w.env T (offsetMapOf tes) w.metatada [] [] =
      some (liveEntries (Log.entries C) tes, C.map Prod.fst ++ [T]) := by
    rw [hm]
    have := gatherLoop_spec w.env T tes (offsetMapOf tes) C (D.map Prod.fst ++ [o.1]) [] []
      (fun p hp => ⟨hCidx p hp, (inv.comp p hp).closed, hCid p hp, inv.content p (hCmem p hp),
        fun e he key hkv => absurd (by rw [hkv]) ((inv.comp p hp).sets e he)⟩) hTc hTf hTn
    simpa [liveEntries] using this
  -- the writing loop
  have hlk : ∀ e ∈ liveEntries (Log.entries C) tes, e.keyValue.1 ≠ none := by
    intro e he
    exact (keep_set _ e (List.mem_filter.1 he).2).1
  have hsorted : w.metatada.Sorted metaLE := by
    apply sorted_of_segIdx
    rw [inv.metas, List.map_map]
    exact inv.segIdx
  obtain ⟨st, N, hemit, E⟩ := emitLoop_spec size hsize _ (liveEntries (Log.entries C) tes) w []
    none (Nat.le_refl _) (fun m hmm => absurd hmm (List.not_mem_nil _)) hsorted inv.fresh hlk
  have hnsm : st.newSegmentMetas = N.map Prod.fst := by rw [E.metas]; rfl
  have hsegN : N.map (fun p => p.1.SegmentIndex) = List.range' 0 N.length := E.segIdx
  -- ids of the old and the new segments
  have hold : ∀ m ∈ w.metatada, m.Id < w.env.uuid := by
    intro m hmm
    rw [inv.metas] at hmm
    obtain ⟨p, hp, hpm⟩ := List.mem_map.1 hmm
    rw [← hpm]
    exact inv.ids p hp
  have hnew : ∀ m ∈ N.map Prod.fst, w.env.uuid ≤ m.Id := by
    intro m hmm
    obtain ⟨p, hp, hpm⟩ := List.mem_map.1 hmm
    have : p.1.Id ∈ List.range' w.env.uuid N.length := by
      rw [← E.ids]
      exact List.mem_map_of_mem (fun p => p.1.Id) hp
    rw [← hpm]
    exact (mem_range'_ge _ _ _ this).1
  have hnew1 : ∀ m ∈ (N.map Prod.fst).map completedMeta, w.env.uuid ≤ m.Id := by
    intro m hmm
    obtain ⟨n, hn, hnm⟩ := List.mem_map.1 hmm
    rw [← hnm]
    exact hnew n hn
  -- the manifest list after the new segments have been marked completed
  have hp2 : (sortMetadata (finalizeMetas st.newSegmentMetas st.w.metatada)).Perm
      (w.metatada ++ (N.map Prod.fst).map completedMeta) := by
    refine (sortMetadata_perm _).trans ?_
    rw [hnsm]
    exact finalize_perm _ _ _ w.env.uuid E.perm hold hnew
  have hidsN : ((N.map Prod.fst).map completedMeta).map (fun m => m.Id) =
      List.range' w.env.uuid N.length := by
    rw [← E.ids, List.map_map, List.map_map]
    rfl
  have hnd2 : ((sortMetadata (finalizeMetas st.newSegmentMetas st.w.metatada)).map
      (fun m => m.Id)).Nodup := by
    refine (List.Perm.nodup_iff (hp2.map _)).2 ?_
    rw [List.map_append, List.nodup_append]
    refine ⟨?_, ?_, ?_⟩
    · rw [inv.metas, List.map_map]
      exact inv.nodup
    · rw [hidsN]
      exact List.nodup_range' _ _
    · intro a ha hb
      obtain ⟨m, hmm, hma⟩ := List.mem_map.1 ha
      obtain ⟨n, hn, hna⟩ := List.mem_map.1 hb
      have h1 := hold m hmm
      have h2 := hnew1 n hn
      have h3 : m.Id = a := hma
      have h4 : n.Id = a := hna
      omega
  have hcl : ∀ c ∈ C.map Prod.fst ++ [T], c ∈ w.metatada := by
    intro c hc
    rw [hm]
    rcases List.mem_append.1 hc with hc | hc
    · exact List.mem_append_left _ hc
    · simp at hc
      rw [hc]
      simp
  have hcn : ((C.map Prod.fst ++ [T]).map (fun m => m.Id)).Nodup := by
    simpa [List.map_map] using hnd1
  obtain ⟨w3, hdel, hperm3, hs3, hc3, hu3, _, hrem3, hkeep3⟩ :=
    deleteSegments_spec (C.map Prod.fst ++ [T])
      (({ st.w with metatada := finalizeMetas st.newSegmentMetas st.w.metatada }).saveMetadata)
      ((emitLoop_nil size _ _ _ hemit).trans inv.nonNil)
      hnd2 (fun c hc => (List.Perm.mem_iff hp2).2 (List.mem_append_left _ (hcl c hc))) hcn
  -- the pass
  have hrun : w.cleanSegments size = some w3.saveMetadata := by
    unfold wal.cleanSegments
    simp only [inv.notCleaning, wal.getNextDirtySegment, inv_loadMetadata inv, hfind, hTc, hom,
      hg, Bool.false_eq_true, if_false, Bool.not_true, inv.nonNil]
    have e1 : ({ w := w, newSegmentMetas := [], currentBatchSize := 0, currentSegment := none }
        : emitState) = emitStart w [] none := rfl
    rw [e1, hemit]
    simp only [hdel]
  -- the number of new segments
  have hNlen : N.length ≤ T.SegmentIndex + 1 := by
    have h1 := E.count
    have h2 : (liveEntries (Log.entries C) tes).length ≤ (Log.entries C ++ tes).length :=
      List.length_filter_le _ _
    have h3 := entries_length_le size C inv.comp
    have h4 := tes_length_le size (T, tes) hTd.1
    rw [List.length_append] at h2
    have h5 : C.length * size ≤ T.SegmentIndex * size := Nat.mul_le_mul_right _ hClen
    have h6 : N.length * size < (T.SegmentIndex + 2) * size := by
      have : (T.SegmentIndex + 2) * size = T.SegmentIndex * size + size + size := by ring
      simp only at h4
      omega
    have := Nat.lt_of_mul_lt_mul_right h6
    omega
  -- the final manifest list
  have hfinal : sortMetadata w3.metatada =
      N.map (fun p => completedMeta p.1) ++ (D.map Prod.fst ++ [o.1]) := by
    apply sorted_eq_of_perm_segIdx _ _ _ (sortMetadata_sorted _)
    · -- strictly increasing segment indexes
      rw [List.map_append, List.pairwise_append]
      refine ⟨?_, ?_, ?_⟩
      · have : (N.map (fun p => completedMeta p.1)).map (fun m => m.SegmentIndex) =
            List.range' 0 N.length := by
          rw [← hsegN, List.map_map]
          rfl
        rw [this]
        exact List.pairwise_lt_range' _ _
      · have e1 : C ++ (T, tes) :: D ++ [o] = (C ++ [(T, tes)]) ++ (D ++ [o]) := by simp
        rw [e1, List.map_append, List.pairwise_append] at hseg
        simpa [List.map_map] using hseg.2.1
      · intro a ha b hb
        obtain ⟨m, hmm, hma⟩ := List.mem_map.1 ha
        obtain ⟨p, hp, hpm⟩ := List.mem_map.1 hmm
        have h1 : p.1.SegmentIndex ∈ List.range' 0 N.length := by
          rw [← hsegN]
          exact List.mem_map_of_mem (fun p => p.1.SegmentIndex) hp
        have h2 := (mem_range'_ge _ _ _ h1).2
        have h3 : a = p.1.SegmentIndex := by rw [← hma, ← hpm]; rfl
        have e1 : C ++ (T, tes) :: D ++ [o] = (C ++ [(T, tes)]) ++ (D ++ [o]) := by simp
        rw [e1, List.map_append, List.pairwise_append] at hseg
        have h4 := hseg.2.2 T.SegmentIndex (by simp) b (by simpa [List.map_map] using hb)
        omega
    · refine (sortMetadata_perm _).trans (hperm3.trans ?_)
      have h1 := hp2.filter
        (fun m => !((C.map Prod.fst ++ [T]).map (fun c => c.Id)).contains m.Id)
      refine h1.trans ?_
      rw [hm, filter_cleaned (C.map Prod.fst) (D.map Prod.fst ++ [o.1])
        ((N.map Prod.fst).map completedMeta) T w.env.uuid
        (by rw [← hm, inv.metas, List.map_map]; exact inv.nodup)
        (by rw [← hm]; exact hold) hnew1]
      rw [List.map_map]
      exact List.perm_append_comm
  -- the files
  have hfiles : ∀ path : Nat × Nat, (∀ c ∈ C.map Prod.fst ++ [T], c.segmentLogFilePath ≠ path) →
      w3.env.files path = st.w.env.files path := by
    intro path hp
    rw [hkeep3 path hp]
    rfl
  have hcpath : ∀ path : Nat × Nat,
      (∀ p ∈ C ++ [(T, tes)], p.1.segmentLogFilePath ≠ path) →
      ∀ c ∈ C.map Prod.fst ++ [T], c.segmentLogFilePath ≠ path := by
    intro path hp c hc
    have : c ∈ (C ++ [(T, tes)]).map Prod.fst := by simpa using hc
    obtain ⟨p, hpp, hpc⟩ := List.mem_map.1 this
    rw [← hpc]
    exact hp p hpp
  have hnewpath : ∀ path : Nat × Nat, w.env.uuid ≤ path.2 →
      ∀ p ∈ C ++ [(T, tes)], p.1.segmentLogFilePath ≠ path := by
    intro path hp p hpp he
    have h1 : p.1.Id < w.env.uuid := inv.ids p (by
      rcases List.mem_append.1 hpp with h | h
      · exact hCmem p h
      · simp at h; rw [h]; exact hTmem)
    rw [← he] at hp
    simp only [walSegmentMetadata.segmentLogFilePath] at hp
    omega
  have hg1 : gatherLoop w.env T (offsetMapOf (processEntries T w.env)) w.metatada [] [] =
      some (liveEntries (Log.entries C) tes, C.map Prod.fst ++ [T]) := by
    rw [processEntries_of_content T w.env tes hTf]
    exact hg
  have hemitSeg : w.emitSegments size (liveEntries (Log.entries C) tes) =
      some (({ st.w with metatada := finalizeMetas st.newSegmentMetas st.w.metatada
             }).saveMetadata, (N.map Prod.fst).map completedMeta) := by
    unfold wal.emitSegments
    have e1 : ({ w := w, newSegmentMetas := [], currentBatchSize := 0, currentSegment := none }
        : emitState) = emitStart w [] none := rfl
    rw [e1, hemit]
    simp only [hnsm]
    rfl
  have hclean : w.cleanSegments size =
      (deleteSegments
        (({ st.w with metatada := finalizeMetas st.newSegmentMetas st.w.metatada
          }).saveMetadata)
        (C.map Prod.fst ++ [T])).map wal.saveMetadata := by
    rw [hdel]
    exact hrun
  refine ⟨w3.saveMetadata, N, hrun, E.entries, E.shape, hsegN, E.ids, hNlen, E.count, hfinal,
    rfl, ?_, ?_, ?_, ?_, ?_, ?_, ?_, hg1, st, E, hemitSeg, hp2, hclean⟩
  · show w3.sortedSegments = _
    rw [hs3]
    exact E.segs
  · show w3.cleaningSegments = _
    rw [hc3]
    exact E.cleaning
  · show w3.env.uuid = _
    rw [hu3]
    exact E.uuid
  · intro p hp
    have : p.1 ∈ C.map Prod.fst ++ [T] := by
      have := List.mem_map_of_mem Prod.fst hp
      simpa using this
    exact hrem3 p.1 this
  · intro p hp
    have hid : w.env.uuid ≤ p.1.Id := hnew p.1 (List.mem_map_of_mem Prod.fst hp)
    have h1 : w3.env.files p.1.segmentLogFilePath = st.w.env.files p.1.segmentLogFilePath :=
      hfiles _ (hcpath _ (hnewpath _ hid))
    have h2 := E.content p hp
    simp only [Env.content] at h2 ⊢
    rw [← h2]
    exact congrArg (fun x => Option.getD x []) h1
  · intro path hlt hp
    show w3.env.files path = _
    rw [hfiles path (hcpath path hp)]
    exact E.old path hlt
  · intro path hge
    show w3.env.files path = _
    rw [hfiles path (hcpath path (hnewpath path (by omega)))]
    apply E.fresh
    rw [E.uuid]
    exact hge

theorem entries_map_meta (f : walSegmentMetadata → walSegmentMetadata) (N : Log) :
    Log.entries (N.map (fun p => (f p.1, p.2))) = Log.entries N := by
  induction N with
  | nil => rfl
  | cons p N ih => simp [Log.entries, ih]

/-- A compaction pass preserves the invariant of the log: the compacted segments and the
oldest dirty segment are replaced by new compacted segments `N` holding the live entries. -/
theorem inv_clean (size : Nat) (hsize : 0 < size) (w : wal) (C D : Log)
    (T : walSegmentMetadata) (tes : List walEntry) (o : walSegmentMetadata × List walEntry)
    (inv : Inv size w C ((T, tes) :: D) o) :
    ∃ w1 N, w.cleanSegments size = some w1 ∧ Inv size w1 N D o ∧
      Log.entries N = liveEntries (Log.entries C) tes ∧
      w1.env.manifest = some w1.metatada ∧
      (∀ p ∈ C ++ [(T, tes)], w1.env.files p.1.segmentLogFilePath = none) ∧
      (∀ p ∈ N, w.env.uuid ≤ p.1.Id) ∧
      w1.sortedSegments = w.sortedSegments ∧
      N.length * size < (liveEntries (Log.entries C) tes).length + size := by
  obtain ⟨w1, N, hrun, hentN, hshape, hsegN, hidN, hNlen, hcount, hmeta, hman, hsegs, hcln, huuid,
    hrem, hcont, hold, hfresh, _⟩ := clean_run size hsize w C D T tes o inv
  have hTmem : (T, tes) ∈ C ++ (T, tes) :: D ++ [o] := by simp
  have hCmem : ∀ p ∈ C, p ∈ C ++ (T, tes) :: D ++ [o] := by
    intro p hp; simp [hp]
  have hDmem : ∀ p ∈ D ++ [o], p ∈ C ++ (T, tes) :: D ++ [o] := by
    intro p hp
    rcases List.mem_append.1 hp with h | h
    · simp [h]
    · simp at h; simp [h]
  have hent : Log.entries (C ++ (T, tes) :: D ++ [o]) =
      (Log.entries C ++ tes) ++ (Log.entries D ++ o.2) := by
    simp [entries_append, entries_singleton, Log.entries, List.append_assoc]
  have hentN1 : Log.entries (N.map (fun p => (completedMeta p.1, p.2))) =
      liveEntries (Log.entries C) tes := by
    rw [entries_map_meta, hentN]
  have hent1 : Log.entries (N.map (fun p => (completedMeta p.1, p.2)) ++ D ++ [o]) =
      liveEntries (Log.entries C) tes ++ (Log.entries D ++ o.2) := by
    rw [List.append_assoc, entries_append, hentN1, entries_append, entries_singleton]
  have hsub : (liveEntries (Log.entries C) tes ++ (Log.entries D ++ o.2)).Sublist
      ((Log.entries C ++ tes) ++ (Log.entries D ++ o.2)) :=
    List.Sublist.append_right (List.filter_sublist _) _
  have hidge : ∀ p ∈ N, w.env.uuid ≤ p.1.Id ∧ p.1.Id < w.env.uuid + N.length := by
    intro p hp
    have : p.1.Id ∈ List.range' w.env.uuid N.length := by
      rw [← hidN]
      exact List.mem_map_of_mem (fun p => p.1.Id) hp
    exact mem_range'_ge _ _ _ this
  have hidxN : ∀ p ∈ N, p.1.SegmentIndex < N.length := by
    intro p hp
    have : p.1.SegmentIndex ∈ List.range' 0 N.length := by
      rw [← hsegN]
      exact List.mem_map_of_mem (fun p => p.1.SegmentIndex) hp
    have := (mem_range'_ge _ _ _ this).2
    omega
  have hsegall := inv.segIdx
  have e1 : C ++ (T, tes) :: D ++ [o] = (C ++ [(T, tes)]) ++ (D ++ [o]) := by simp
  rw [e1, List.map_append, List.pairwise_append] at hsegall
  have hndall := inv.nodup
  rw [e1, List.map_append, List.nodup_append] at hndall
  have hincr := inv.incr
  rw [hent, List.map_append, List.pairwise_append] at hincr
  have hincr1 := hincr.1
  have hDpath : ∀ p ∈ D ++ [o], ∀ q ∈ C ++ [(T, tes)],
      q.1.segmentLogFilePath ≠ p.1.segmentLogFilePath := by
    intro p hp q hq
    apply path_ne_of_id_ne
    intro he
    exact hndall.2.2 (List.mem_map_of_mem (fun p => p.1.Id) hq)
      (by rw [he]; exact List.mem_map_of_mem (fun p => p.1.Id) hp)
  refine ⟨w1, N.map (fun p => (completedMeta p.1, p.2)), hrun, ?_, hentN1, hman, hrem, ?_, hsegs, ?_⟩
  · exact
      { metas := by
          rw [hmeta]
          simp [List.map_map, Function.comp_def]
        manifest := Or.inr hman
        content := by
          intro p hp
          rw [List.append_assoc] at hp
          rcases List.mem_append.1 hp with hp | hp
          · obtain ⟨q, hq, hqp⟩ := List.mem_map.1 hp
            rw [← hqp]
            exact hcont q hq
          · have h1 := hold p.1.segmentLogFilePath (inv.ids p (hDmem p hp))
              (fun q hq => hDpath p hp q hq)
            have h2 := inv.content p (hDmem p hp)
            simp only [Env.content] at h2 ⊢
            rw [h1]
            exact h2
        fresh := by
          intro path hp
          apply hfresh
          rw [huuid] at hp
          exact hp
        ids := by
          intro p hp
          rw [huuid]
          rw [List.append_assoc] at hp
          rcases List.mem_append.1 hp with hp | hp
          · obtain ⟨q, hq, hqp⟩ := List.mem_map.1 hp
            rw [← hqp]
            exact (hidge q hq).2
          · have := inv.ids p (hDmem p hp)
            omega
        nodup := by
          rw [List.append_assoc, List.map_append, List.nodup_append]
          refine ⟨?_, hndall.2.1, ?_⟩
          · have : (N.map (fun p => (completedMeta p.1, p.2))).map (fun p => p.1.Id) =
                List.range' w.env.uuid N.length := by
              rw [← hidN, List.map_map]
              rfl
            rw [this]
            exact List.nodup_range' _ _
          · intro a ha hb
            obtain ⟨p, hp, hpa⟩ := List.mem_map.1 ha
            obtain ⟨q, hq, hqp⟩ := List.mem_map.1 hp
            obtain ⟨r, hr, hra⟩ := List.mem_map.1 hb
            have h1 := (hidge q hq).1
            have h2 := inv.ids r (hDmem r hr)
            have h3 : q.1.Id = a := by rw [← hpa, ← hqp]; rfl
            have h4 : r.1.Id = a := hra
            omega
        segIdx := by
          rw [List.append_assoc, List.map_append, List.pairwise_append]
          refine ⟨?_, hsegall.2.1, ?_⟩
          · have : (N.map (fun p => (completedMeta p.1, p.2))).map (fun p => p.1.SegmentIndex) =
                List.range' 0 N.length := by
              rw [← hsegN, List.map_map]
              rfl
            rw [this]
            exact List.pairwise_lt_range' _ _
          · intro a ha b hb
            obtain ⟨p, hp, hpa⟩ := List.mem_map.1 ha
            obtain ⟨q, hq, hqp⟩ := List.mem_map.1 hp
            have h1 := hidxN q hq
            have h3 : q.1.SegmentIndex = a := by rw [← hpa, ← hqp]; rfl
            have h4 := hsegall.2.2 T.SegmentIndex (by simp) b hb
            omega
        comp := by
          intro p hp
          obtain ⟨q, hq, hqp⟩ := List.mem_map.1 hp
          have hB := hshape q hq
          rw [← hqp]
          exact
            { compacted := hB.compacted, completed := rfl, closed := rfl,
              nonempty := hB.nonempty, len := hB.len, first := hB.first, last := hB.last,
              sets := by
                intro e he
                have : e ∈ liveEntries (Log.entries C) tes := by
                  rw [← hentN, mem_entries]
                  exact ⟨q, hq, he⟩
                exact (keep_set _ e (List.mem_filter.1 this).2).2 }
        compKeys := by
          rw [hentN1]
          apply live_keys_nodup _ _ inv.compKeys
          · intro e he
            obtain ⟨p, hp, hpe⟩ := (mem_entries C e).1 he
            refine ⟨inv.keys e ?_, (inv.comp p hp).sets e hpe⟩
            rw [mem_entries]
            exact ⟨p, hCmem p hp, hpe⟩
          · intro e he
            apply inv.keys e
            rw [mem_entries]
            exact ⟨(T, tes), hTmem, he⟩
          · exact hincr1
        dirty := fun p hp => inv.dirty p (List.mem_cons_of_mem _ hp)
        openOK := inv.openOK
        keys := by
          intro e he
          rw [hent1] at he
          apply inv.keys e
          rw [hent]
          exact hsub.subset he
        incr := by
          rw [hent1]
          have := inv.incr
          rw [hent] at this
          exact List.Pairwise.sublist (List.Sublist.map _ hsub) this
        bound := by
          intro e he
          rw [hent1] at he
          apply inv.bound e
          rw [hent]
          exact hsub.subset he
        mem := by
          rw [hsegs]
          exact inv.mem
        notCleaning := by
          rw [hcln]
          exact inv.notCleaning
        nonNil := cleanSegments_nil size w w1 hrun inv.nonNil }
  · intro p hp
    obtain ⟨q, hq, hqp⟩ := List.mem_map.1 hp
    rw [← hqp]
    exact (hidge q hq).1
  · rw [List.length_map]
    exact hcount

theorem flatMap_processEntries (env : Env) (L : Log)
    (h : ∀ p ∈ L, env.content p.1.segmentLogFilePath = fileOf p.2) :
    (L.map Prod.fst).flatMap (fun m => processEntries m env) = Log.entries L := by
  induction L with
  | nil => rfl
  | cons p L ih =>
    rw [List.map_cons, List.flatMap_cons, ih (fun q hq => h q (List.mem_cons_of_mem _ hq)),
      processEntries_of_content p.1 env p.2 (h p (List.mem_cons_self _ _))]
    rfl

theorem records_of_inv {size : Nat} {w : wal} {C D : Log}
    {o : walSegmentMetadata × List walEntry} (inv : Inv size w C D o) :
    w.records = Log.entries (C ++ D ++ [o]) := by
  unfold wal.records
  rw [inv.metas]
  exact flatMap_processEntries w.env _ inv.content

/-- Every state reached by `WriteEntry` calls and compaction passes satisfies the
invariant; the next index to be written is the number of writes so far. -/
theorem inv_run (size : Nat) (hsize : 0 < size) (ops : List Op) :
    ∀ (w : wal) (C D : Log) (o : walSegmentMetadata × List walEntry), Inv size w C D o →
      (w.env.manifest = some w.metatada ∨ D = []) →
      ∀ w1, wal.run size w ops = some w1 →
        ∃ C1 D1 o1, Inv size w1 C1 D1 o1 ∧
          o1.1.LastEntryIndex = o.1.LastEntryIndex + numWrites ops ∧
          (w1.env.manifest = some w1.metatada ∨ D1 = []) := by
  induction ops with
  | nil =>
    intro w C D o inv hman w1 hrun
    simp only [wal.run, Option.some.injEq] at hrun
    subst hrun
    exact ⟨C, D, o, inv, rfl, hman⟩
  | cons op ops ih =>
    intro w C D o inv hman w1 hrun
    cases op with
    | write entry =>
      simp only [wal.run, wal.step] at hrun
      cases hk : entry.keyValue.1 with
      | none =>
        rw [WriteEntry_nil_key size w entry hk] at hrun
        simp at hrun
      | some k =>
        obtain ⟨w2, D2, o2, hw, inv2, _, hlast, _⟩ := inv_write size hsize w C D o inv entry k hk
        rw [hw] at hrun
        obtain ⟨C3, D3, o3, inv3, hl3, hm3⟩ := ih w2 C D2 o2 inv2
          (Or.inl (WriteEntry_manifest size w w2 entry hw)) w1 hrun
        refine ⟨C3, D3, o3, inv3, ?_, hm3⟩
        rw [hl3, hlast]
        simp only [numWrites]
        omega
    | clean =>
      simp only [wal.run, wal.step] at hrun
      cases D with
      | nil =>
        rw [clean_nop size w C o inv] at hrun
        exact ih w C [] o inv hman w1 hrun
      | cons p D =>
        obtain ⟨T, tes⟩ := p
        obtain ⟨w2, N, hw, inv2, _, hman2, _⟩ := inv_clean size hsize w C D T tes o inv
        rw [hw] at hrun
        exact ih w2 N D o inv2 (Or.inl hman2) w1 hrun

theorem inv_reachable (size : Nat) (hsize : 0 < size) (ops : List Op) (w : wal)
    (hrun : wal.run size freshWal ops = some w) :
    ∃ C D o, Inv size w C D o ∧ o.1.LastEntryIndex = numWrites ops ∧
      (w.env.manifest = some w.metatada ∨ D = []) := by
  obtain ⟨C, D, o, inv, hl, hm⟩ := inv_run size hsize ops freshWal [] []
    ((newMetadata Env.empty 0 0).1, []) (inv_fresh size) (Or.inr rfl) w hrun
  refine ⟨C, D, o, inv, ?_, hm⟩
  rw [hl]
  simp [newMetadata]

/-- Every sequence of valid operations runs to completion. -/
theorem run_total (size : Nat) (hsize : 0 < size) (ops : List Op) :
    ∀ (w : wal) (C D : Log) (o : walSegmentMetadata × List walEntry), Inv size w C D o →
      ops.all Op.valid = true → ∃ w1, wal.run size w ops = some w1 := by
  induction ops with
  | nil =>
    intro w C D o _ _
    exact ⟨w, rfl⟩
  | cons op ops ih =>
    intro w C D o inv hops
    rw [List.all_cons, Bool.and_eq_true] at hops
    cases op with
    | write entry =>
      obtain ⟨k, hk⟩ := Option.isSome_iff_exists.1 hops.1
      obtain ⟨w2, D2, o2, hw, inv2, _⟩ := inv_write size hsize w C D o inv entry k hk
      obtain ⟨w1, h1⟩ := ih w2 C D2 o2 inv2 hops.2
      refine ⟨w1, ?_⟩
      simp only [wal.run, wal.step, hw]
      exact h1
    | clean =>
      cases D with
      | nil =>
        obtain ⟨w1, h1⟩ := ih w C [] o inv hops.2
        refine ⟨w1, ?_⟩
        simp only [wal.run, wal.step, clean_nop size w C o inv]
        exact h1
      | cons p D =>
        obtain ⟨T, tes⟩ := p
        obtain ⟨w2, N, hw, inv2, _⟩ := inv_clean size hsize w C D T tes o inv
        obtain ⟨w1, h1⟩ := ih w2 N D o inv2 hops.2
        refine ⟨w1, ?_⟩
        simp only [wal.run, wal.step, hw]
        exact h1

/-- A sequence of operations that runs to completion is valid: a write of an entry
without key panics. -/
theorem valid_of_run (size : Nat) (ops : List Op) :
    ∀ (w w1 : wal), wal.run size w ops = some w1 → ops.all Op.valid = true := by
  induction ops with
  | nil => intro _ _ _; rfl
  | cons op ops ih =>
    intro w w1 hrun
    rw [List.all_cons, Bool.and_eq_true]
    simp only [wal.run] at hrun
    cases hstep : w.step size op with
    | none => rw [hstep] at hrun; simp at hrun
    | some w2 =>
      rw [hstep] at hrun
      refine ⟨?_, ih w2 w1 hrun⟩
      cases op with
      | clean => rfl
      | write entry =>
        simp only [Op.valid]
        cases hk : entry.keyValue.1 with
        | some k => rfl
        | none =>
          simp only [wal.step, WriteEntry_nil_key size w entry hk] at hstep
          simp at hstep

/-! ## Claim C8 -/

/-- Claim C8. Every sequence of `WriteEntry` calls (of entries with a key) and complete
`cleanSegments` passes on the empty log runs to completion, and in the state reached the
records of the segment files, taken in manifest order, have strictly increasing indices;
so no two records share an index. Every index in the log is below the number of writes
made so far, and the next `WriteEntry` appends its entry to the records with exactly that
number as index: larger than every index written before it. -/
theorem indices_unique_and_ordered (size : Nat) (hsize : 0 < size) (ops : List Op)
    (hops : ops.all Op.valid = true) :
    ∃ w, wal.run size freshWal ops = some w ∧
      (w.records.map (fun e => e.Index)).Pairwise (fun a b => a < b) ∧
      (w.records.map (fun e => e.Index)).Nodup ∧
      (∀ e ∈ w.records, e.Index < numWrites ops) ∧
      (∀ entry, entry.keyValue.1 ≠ none →
        ∃ w2, w.WriteEntry size entry = some w2 ∧
          w2.records = w.records ++ [withIndex entry (numWrites ops)]) := by
  obtain ⟨w, hrun⟩ := run_total size hsize ops freshWal [] []
    ((newMetadata Env.empty 0 0).1, []) (inv_fresh size) hops
  obtain ⟨C, D, o, inv, hl, _⟩ := inv_reachable size hsize ops w hrun
  refine ⟨w, hrun, ?_⟩
  rw [records_of_inv inv]
  refine ⟨inv.incr, inv.incr.imp (fun h => Nat.ne_of_lt h), ?_, ?_⟩
  · intro e he
    rw [← hl]
    exact inv.bound e he
  · intro entry hkey
    obtain ⟨k, hk⟩ := Option.ne_none_iff_exists'.1 hkey
    obtain ⟨w3, D3, o3, hw3, inv3, hent, _, _⟩ := inv_write size hsize w C D o inv entry k hk
    refine ⟨w3, hw3, ?_⟩
    rw [records_of_inv inv3, List.append_assoc, entries_append, hent, List.append_assoc C,
      entries_append C, hl, List.append_assoc]

/-- Witness for claim C8: six writes, a compaction pass and one more write, with the
segment size of the source. -/
theorem indices_unique_and_ordered_witness :
    ∃ w, wal.run walSegmentSize freshWal sixWritesPassWrite = some w ∧
      (w.records.map (fun e => e.Index)).Pairwise (fun a b => a < b) ∧
      (w.records.map (fun e => e.Index)).Nodup ∧
      (∀ e ∈ w.records, e.Index < numWrites sixWritesPassWrite) ∧
      (∀ entry, entry.keyValue.1 ≠ none →
        ∃ w2, w.WriteEntry walSegmentSize entry = some w2 ∧
          w2.records = w.records ++ [withIndex entry (numWrites sixWritesPassWrite)]) :=
  indices_unique_and_ordered walSegmentSize (by decide) sixWritesPassWrite (by decide!)

/-! ## Claim C9 -/

theorem entries_sublist (L : Log) (p : walSegmentMetadata × List walEntry) (hp : p ∈ L) :
    p.2.Sublist (Log.entries L) := by
  induction L with
  | nil => simp at hp
  | cons q L ih =>
    rcases List.mem_cons.1 hp with h | h
    · rw [h]
      exact List.sublist_append_left _ _
    · exact (ih h).trans (List.sublist_append_right _ _)

theorem between_head_last (l : List walEntry)
    (hincr : (l.map (fun e => e.Index)).Pairwise (fun a b => a < b)) (F L : Nat)
    (hF : l.head?.map (fun e => e.Index) = some F)
    (hL : l.getLast?.map (fun e => e.Index) = some L) :
    ∀ e ∈ l, F ≤ e.Index ∧ e.Index ≤ L := by
  intro e he
  constructor
  · cases l with
    | nil => simp at he
    | cons x t =>
      simp only [List.head?_cons, Option.map_some', Option.some.injEq] at hF
      rw [List.map_cons, List.pairwise_cons] at hincr
      rcases List.mem_cons.1 he with h | h
      · rw [h, hF]
      · have := hincr.1 e.Index (List.mem_map_of_mem (fun e => e.Index) h)
        omega
  · induction l using List.reverseRecOn with
    | nil => simp at he
    | append_singleton t x _ =>
      have e1 : (t ++ [x]).getLast? = some x := by simp
      rw [e1] at hL
      simp only [Option.map_some', Option.some.injEq] at hL
      rw [List.map_append, List.pairwise_append] at hincr
      rcases List.mem_append.1 he with h | h
      · have := hincr.2.2 e.Index (List.mem_map_of_mem (fun e => e.Index) h) x.Index (by simp)
        omega
      · simp at h
        rw [h, hL]

/-- Claim C9 as stated fails: after eleven writes and two compaction passes (segment size
5) the first segment of the manifest is a compacted segment with `FirstEntryIndex = 0` and
`LastEntryIndex = 9`, whose file holds the records with the indices 0, 4 and 9. Its index
range exceeds the capacity, and the record with index 9 is not below
`FirstEntryIndex + capacity`. -/
theorem segment_range_counterexample :
    ∃ w, wal.run walSegmentSize freshWal elevenWritesTwoPasses = some w ∧
      w.firstSegmentView = some (true, 0, 9, [0, 4, 9]) ∧ ¬ RangeOK walSegmentSize w := by
  have h : (wal.run walSegmentSize freshWal elevenWritesTwoPasses).bind
      (fun w => w.firstSegmentView) = some (true, 0, 9, [0, 4, 9]) := by decide!
  cases hrun : wal.run walSegmentSize freshWal elevenWritesTwoPasses with
  | none => rw [hrun] at h; simp at h
  | some w =>
    rw [hrun] at h
    simp only [Option.some_bind] at h
    refine ⟨w, rfl, h, ?_⟩
    intro hr
    unfold wal.firstSegmentView at h
    cases hm : w.metatada with
    | nil => rw [hm] at h; simp at h
    | cons m rest =>
      rw [hm] at h
      simp only [List.head?_cons, Option.map_some', Option.some.injEq, Prod.mk.injEq] at h
      have h1 := (hr m (by rw [hm]; exact List.mem_cons_self _ _)).1
      rw [h.2.1, h.2.2.1] at h1
      simp [walSegmentSize] at h1

/-- Claim C9, amended. Every sequence of `WriteEntry` calls (of entries with a key) and
complete `cleanSegments` passes on the empty log runs to completion, and in the state
reached every segment `S` of the manifest has
`first_index <= last_index`, and every record `R` of its file has
`first_index <= R.index <= last_index`. A segment written by `WriteEntry` (not compacted)
has moreover `last_index - first_index <= capacity` and
`R.index < last_index <= first_index + capacity`. A compacted segment holds at most
`capacity` records and at least one; its first and last records carry `first_index` and
`last_index`, and its index range is not bounded by the capacity. -/
theorem segment_index_range (size : Nat) (hsize : 0 < size) (ops : List Op)
    (hops : ops.all Op.valid = true) :
    ∃ w, wal.run size freshWal ops = some w ∧
    ∀ m ∈ w.metatada,
      m.FirstEntryIndex ≤ m.LastEntryIndex ∧
      (∀ e ∈ processEntries m w.env, m.FirstEntryIndex ≤ e.Index ∧ e.Index ≤ m.LastEntryIndex) ∧
      (m.IsCompactedSegment = false →
        m.LastEntryIndex - m.FirstEntryIndex ≤ size ∧
        ∀ e ∈ processEntries m w.env,
          e.Index < m.LastEntryIndex ∧ e.Index < m.FirstEntryIndex + size) ∧
      (m.IsCompactedSegment = true →
        (processEntries m w.env) ≠ [] ∧
        (processEntries m w.env).length ≤ size ∧
        (processEntries m w.env).head?.map (fun e => e.Index) = some m.FirstEntryIndex ∧
        (processEntries m w.env).getLast?.map (fun e => e.Index) = some m.LastEntryIndex) := by
  obtain ⟨w, hrun⟩ := run_total size hsize ops freshWal [] []
    ((newMetadata Env.empty 0 0).1, []) (inv_fresh size) hops
  refine ⟨w, hrun, ?_⟩
  obtain ⟨C, D, o, inv, _, _⟩ := inv_reachable size hsize ops w hrun
  intro m hm
  rw [inv.metas] at hm
  obtain ⟨p, hp, hpm⟩ := List.mem_map.1 hm
  subst hpm
  rw [processEntries_of_content p.1 w.env p.2 (inv.content p hp)]
  have hdirty : ∀ q : walSegmentMetadata × List walEntry, DirtyOK size q →
      q.1.FirstEntryIndex ≤ q.1.LastEntryIndex ∧
      (∀ e ∈ q.2, q.1.FirstEntryIndex ≤ e.Index ∧ e.Index ≤ q.1.LastEntryIndex) ∧
      (q.1.IsCompactedSegment = false →
        q.1.LastEntryIndex - q.1.FirstEntryIndex ≤ size ∧
        ∀ e ∈ q.2, e.Index < q.1.LastEntryIndex ∧ e.Index < q.1.FirstEntryIndex + size) ∧
      (q.1.IsCompactedSegment = true →
        q.2 ≠ [] ∧
        q.2.length ≤ size ∧
        q.2.head?.map (fun e => e.Index) = some q.1.FirstEntryIndex ∧
        q.2.getLast?.map (fun e => e.Index) = some q.1.LastEntryIndex) := by
    intro q hq
    have hr : ∀ e ∈ q.2, q.1.FirstEntryIndex ≤ e.Index ∧ e.Index < q.1.LastEntryIndex := by
      intro e he
      have : e.Index ∈ List.range' q.1.FirstEntryIndex
          (q.1.LastEntryIndex - q.1.FirstEntryIndex) := by
        rw [← hq.range]
        exact List.mem_map_of_mem (fun e => e.Index) he
      have := mem_range'_ge _ _ _ this
      have := hq.le
      omega
    have hc := hq.cap
    refine ⟨hq.le, fun e he => ⟨(hr e he).1, Nat.le_of_lt (hr e he).2⟩, fun _ => ⟨hc, ?_⟩, ?_⟩
    · intro e he
      have := hr e he
      have := hq.le
      omega
    · intro h
      rw [hq.dirty] at h
      exact absurd h (by simp)
  have hp0 := hp
  rw [List.append_assoc] at hp
  rcases List.mem_append.1 hp with hC | hDo
  · have hc := inv.comp p hC
    have hsub := entries_sublist _ p hp0
    have hincr : (p.2.map (fun e => e.Index)).Pairwise (fun a b => a < b) :=
      List.Pairwise.sublist (List.Sublist.map _ hsub) inv.incr
    have hb := between_head_last p.2 hincr _ _ hc.first hc.last
    refine ⟨?_, hb, ?_, fun _ => ⟨hc.nonempty, hc.len, hc.first, hc.last⟩⟩
    · cases hp2 : p.2 with
      | nil => exact absurd hp2 hc.nonempty
      | cons x t =>
        have := hb x (by rw [hp2]; exact List.mem_cons_self _ _)
        omega
    · intro h
      rw [hc.compacted] at h
      exact absurd h (by simp)
  · rcases List.mem_append.1 hDo with hD | ho
    · exact hdirty p (inv.dirty p hD).1
    · simp only [List.mem_singleton] at ho
      rw [ho]
      exact hdirty o inv.openOK.1

/-- Witness for the amended claim C9: the state after eleven writes and two passes. -/
theorem segment_index_range_witness :
    ∃ w, wal.run walSegmentSize freshWal elevenWritesTwoPasses = some w ∧
      ∀ m ∈ w.metatada,
        m.FirstEntryIndex ≤ m.LastEntryIndex ∧
        (∀ e ∈ processEntries m w.env,
          m.FirstEntryIndex ≤ e.Index ∧ e.Index ≤ m.LastEntryIndex) ∧
        (m.IsCompactedSegment = false →
          m.LastEntryIndex - m.FirstEntryIndex ≤ walSegmentSize ∧
          ∀ e ∈ processEntries m w.env,
            e.Index < m.LastEntryIndex ∧ e.Index < m.FirstEntryIndex + walSegmentSize) ∧
        (m.IsCompactedSegment = true →
          (processEntries m w.env) ≠ [] ∧
          (processEntries m w.env).length ≤ walSegmentSize ∧
          (processEntries m w.env).head?.map (fun e => e.Index) = some m.FirstEntryIndex ∧
          (processEntries m w.env).getLast?.map (fun e => e.Index) = some m.LastEntryIndex) :=
  segment_index_range walSegmentSize (by decide) elevenWritesTwoPasses (by decide!)

/-! ## Lookups before and after a compaction pass -/

/-- The last entry of a key among the live entries is the last entry of the key among the
gathered entries, unless that one is a Delete: then the key has no live entry. -/
theorem lastFor_live (ces tes : List walEntry) (hcs : ∀ e ∈ ces, e.keyValue.2 ≠ none)
    (hincr : ((ces ++ tes).map (fun e => e.Index)).Pairwise (fun a b => a < b)) (k : Bytes) :
    lastFor k (liveEntries ces tes) = lastFor k (ces ++ tes) ∨
    (∃ l, lastFor k (ces ++ tes) = some l ∧ l.keyValue.2 = none ∧
      lastFor k (liveEntries ces tes) = none) := by
  rw [List.map_append, List.pairwise_append] at hincr
  obtain ⟨_, hti, hct⟩ := hincr
  have hold : ∀ e ∈ ces, ∀ t ∈ tes, e.Index < t.Index := fun e he t ht =>
    hct _ (List.mem_map_of_mem (fun e => e.Index) he) _ (List.mem_map_of_mem (fun e => e.Index) ht)
  unfold liveEntries
  cases hl : lastFor k tes with
  | none =>
    left
    apply lastFor_filter_all
    intro e he hk
    rcases List.mem_append.1 he with h | h
    · exact (keep_compacted tes hti e k hk (hcs e h) (hold e h)).2 hl
    · exact absurd hk ((lastFor_eq_none k tes).1 hl e h)
  | some l =>
    have hall : lastFor k (ces ++ tes) = some l := by
      rw [lastFor_append, hl]
      rfl
    have hlm := lastFor_mem k tes l hl
    by_cases hv : l.keyValue.2 = none
    · right
      refine ⟨l, hall, hv, ?_⟩
      apply lastFor_filter_none
      intro e he hk
      rcases List.mem_append.1 he with h | h
      · cases hkeep : keep (offsetMapOf tes) e with
        | false => rfl
        | true =>
          have := (keep_compacted tes hti e k hk (hcs e h) (hold e h)).1 hkeep
          rw [hl] at this
          exact absurd this (by simp)
      · cases hkeep : keep (offsetMapOf tes) e with
        | false => rfl
        | true =>
          have := (keep_target tes hti e h k hk).1 hkeep
          rw [hl] at this
          have e1 : l = e := Option.some.inj this.1
          rw [e1] at hv
          exact absurd hv this.2
    · left
      rw [hall]
      exact lastFor_filter_of_last k _ _ l hall ((keep_target tes hti l hlm.1 k hlm.2).2 ⟨hl, hv⟩)

theorem lastFor_live_rest (ces tes rest : List walEntry)
    (hcs : ∀ e ∈ ces, e.keyValue.2 ≠ none)
    (hincr : ((ces ++ tes).map (fun e => e.Index)).Pairwise (fun a b => a < b)) (k : Bytes) :
    valueOf (lastFor k (liveEntries ces tes ++ rest)) =
      valueOf (lastFor k ((ces ++ tes) ++ rest)) ∧
    ∀ e, lastFor k ((ces ++ tes) ++ rest) = some e → e.keyValue.2 ≠ none →
      lastFor k (liveEntries ces tes ++ rest) = some e := by
  rw [lastFor_append, lastFor_append _ (ces ++ tes)]
  cases hr : lastFor k rest with
  | some r => exact ⟨rfl, fun e he _ => he⟩
  | none =>
    simp only [Option.or, Option.none_or]
    rcases lastFor_live ces tes hcs hincr k with h | ⟨l, h1, h2, h3⟩
    · rw [h]
      exact ⟨rfl, fun e he _ => he⟩
    · rw [h1, h3]
      refine ⟨?_, ?_⟩
      · simp only [valueOf, h2]
      · intro e he hv
        have e1 : l = e := Option.some.inj he
        rw [e1] at h2
        exact absurd h2 hv

/-! ## Claim C2 -/

/-- Claim C2. Every sequence of `WriteEntry` calls (the writes of `Put` and `Delete`) and
complete passes on the empty log runs to completion. When in the state reached the oldest
segment that is not compacted is closed, one `cleanSegments` pass completes and preserves
the on-disk view: a store opened on the files before the pass and a store opened on the
files after the pass return the same result of `Get(k)` for every key `k`, namely the
value of the record of `k` with the largest index (nil when that record is a Delete or
there is none). A key with a live value keeps its record of largest index, and after the
pass no segment of the manifest is an unfinished compacted segment, so that record is in a
visible segment. -/
theorem pass_preserves_disk_view (size : Nat) (hsize : 0 < size) (ops : List Op)
    (hops : ops.all Op.valid = true) :
    ∃ w, wal.run size freshWal ops = some w ∧
      ((w.metatada.find? (fun m => !m.IsCompactedSegment)).map (fun m => m.Closed) =
          some true →
        ∃ w1 s0 s1, w.cleanSegments size = some w1 ∧ NewKvStore w.env = some s0 ∧
          NewKvStore w1.env = some s1 ∧
          (∀ k, s1.Get k = s0.Get k) ∧
          (∀ k, s0.Get k = some (valueOf (lastFor k w.records))) ∧
          (∀ k e, lastFor k w.records = some e → e.keyValue.2 ≠ none →
            lastFor k w1.records = some e) ∧
          (∀ m ∈ w1.metatada, m.unfinished = false)) := by
  obtain ⟨w, hrun⟩ := run_total size hsize ops freshWal [] []
    ((newMetadata Env.empty 0 0).1, []) (inv_fresh size) hops
  refine ⟨w, hrun, ?_⟩
  intro hT
  obtain ⟨C, D, o, inv, _, hman⟩ := inv_reachable size hsize ops w hrun
  cases D with
  | nil =>
    exfalso
    have hm : w.metatada = C.map Prod.fst ++ o.1 :: [] := by
      rw [inv.metas]; simp
    rw [hm, find_dirty _ _ _ (fun x hx => by
      obtain ⟨p, hp, hpx⟩ := List.mem_map.1 hx
      rw [← hpx]
      exact (inv.comp p hp).compacted) inv.openOK.1.dirty] at hT
    simp [inv.openOK.2] at hT
  | cons p D =>
    obtain ⟨T, tes⟩ := p
    have hman0 : w.env.manifest = some w.metatada := by
      rcases hman with h | h
      · exact h
      · exact absurd h (List.cons_ne_nil _ _)
    obtain ⟨w2, hs0, inv2, hm2, _⟩ := reopen size w C ((T, tes) :: D) o inv hman0
    obtain ⟨w1, N, hclean, inv1, hentN, hman1, _⟩ := inv_clean size hsize w C D T tes o inv
    obtain ⟨w3, hs1, inv3, hm3, _⟩ := reopen size w1 N D o inv1 hman1
    have hent : Log.entries (C ++ (T, tes) :: D ++ [o]) =
        (Log.entries C ++ tes) ++ (Log.entries D ++ o.2) := by
      simp [entries_append, entries_singleton, Log.entries, List.append_assoc]
    have hent1 : Log.entries (N ++ D ++ [o]) =
        liveEntries (Log.entries C) tes ++ (Log.entries D ++ o.2) := by
      rw [List.append_assoc, entries_append, hentN, entries_append, entries_singleton]
    have hcs : ∀ e ∈ Log.entries C, e.keyValue.2 ≠ none := by
      intro e he
      obtain ⟨p, hp, hpe⟩ := (mem_entries C e).1 he
      exact (inv.comp p hp).sets e hpe
    have hincr := inv.incr
    rw [hent, List.map_append, List.pairwise_append] at hincr
    have hlive := lastFor_live_rest (Log.entries C) tes (Log.entries D ++ o.2) hcs hincr.1
    refine ⟨w1, { wal := w2 }, { wal := w3 }, hclean, hs0, hs1, ?_, ?_, ?_, ?_⟩
    · intro k
      rw [Get_of_mirror size w3 N D o inv3 hm3 k,
        Get_of_mirror size w2 C ((T, tes) :: D) o inv2 hm2 k, hent, hent1, (hlive k).1]
    · intro k
      rw [Get_of_mirror size w2 C ((T, tes) :: D) o inv2 hm2 k, records_of_inv inv]
    · intro k e he hv
      rw [records_of_inv inv, hent] at he
      rw [records_of_inv inv1, hent1]
      exact (hlive k).2 e he hv
    · intro m hm
      rw [inv1.metas] at hm
      obtain ⟨p, hp, hpm⟩ := List.mem_map.1 hm
      rw [← hpm]
      exact inv_visible inv1 p hp

/-- Witness for claim C2: the state after the six writes of `sixPuts`, whose first segment
is full and closed. -/
theorem pass_preserves_disk_view_witness :
    ∃ w, wal.run walSegmentSize freshWal (sixPuts.map (fun c => Op.write c.entry)) = some w ∧
      ∃ w1 s0 s1, w.cleanSegments walSegmentSize = some w1 ∧ NewKvStore w.env = some s0 ∧
        NewKvStore w1.env = some s1 ∧
        (∀ k, s1.Get k = s0.Get k) ∧
        (∀ k, s0.Get k = some (valueOf (lastFor k w.records))) ∧
        (∀ k e, lastFor k w.records = some e → e.keyValue.2 ≠ none →
          lastFor k w1.records = some e) ∧
        (∀ m ∈ w1.metatada, m.unfinished = false) :=
  Exists.elim
    (pass_preserves_disk_view walSegmentSize (by decide)
      (sixPuts.map (fun c => Op.write c.entry)) (by decide!))
    (fun w h => ⟨w, h.1, h.2 (by
      have hc : (wal.run walSegmentSize freshWal
          (sixPuts.map (fun c => Op.write c.entry))).bind
          (fun w => (w.metatada.find? (fun m => !m.IsCompactedSegment)).map
            (fun m => m.Closed)) = some true := by decide!
      rw [h.1] at hc
      exact hc)⟩)

/-! ## Compaction of a single segment -/

theorem keep_eq_highestSet (tes : List walEntry)
    (hincr : (tes.map (fun e => e.Index)).Pairwise (fun a b => a < b))
    (hkeys : ∀ e ∈ tes, e.keyValue.1 ≠ none) (e : walEntry) (he : e ∈ tes) :
    keep (offsetMapOf tes) e = highestSet tes e := by
  obtain ⟨k, hk⟩ := Option.ne_none_iff_exists'.1 (hkeys e he)
  have ht := keep_target tes hincr e he k hk
  rw [Bool.eq_iff_iff, ht]
  unfold highestSet
  simp only [Bool.and_eq_true, decide_eq_true_eq, List.all_eq_true]
  constructor
  · rintro ⟨hl, hv⟩
    refine ⟨hv, ?_⟩
    intro t htm htk
    exact lastFor_max k tes hincr e hl t htm (by rw [htk, hk])
  · rintro ⟨hv, hmax⟩
    refine ⟨?_, hv⟩
    cases hl : lastFor k tes with
    | none => exact absurd hk ((lastFor_eq_none k tes).1 hl e he)
    | some l =>
      have hlm := lastFor_mem k tes l hl
      have h1 := hmax l hlm.1 (by rw [hlm.2, hk])
      have h2 := lastFor_max k tes hincr l hl e he hk
      have h3 : e.Index = l.Index := by omega
      rw [pairwise_lt_inj (fun e => e.Index) tes hincr e l he hlm.1 h3]

theorem filter_compacted (N D : Log) (o : walSegmentMetadata × List walEntry)
    (hN : ∀ p ∈ N, p.1.IsCompactedSegment = true)
    (hD : ∀ p ∈ D ++ [o], p.1.IsCompactedSegment = false) :
    ((N ++ D ++ [o]).map Prod.fst).filter (fun m => m.IsCompactedSegment) = N.map Prod.fst := by
  rw [List.append_assoc, List.map_append, List.filter_append]
  have h1 : (N.map Prod.fst).filter (fun m => m.IsCompactedSegment) = N.map Prod.fst := by
    rw [List.filter_eq_self]
    intro m hm
    obtain ⟨p, hp, hpm⟩ := List.mem_map.1 hm
    rw [← hpm]
    exact hN p hp
  have h2 : ((D ++ [o]).map Prod.fst).filter (fun m => m.IsCompactedSegment) = [] := by
    rw [List.filter_eq_nil_iff]
    intro m hm
    obtain ⟨p, hp, hpm⟩ := List.mem_map.1 hm
    rw [← hpm, hD p hp]
    simp
  rw [h1, h2, List.append_nil]

theorem ceil_of_bounds (size k L : Nat) (h1 : k * size < L + size)
    (h2 : L ≤ k * size) : k = (L + size - 1) / size := by
  symm
  apply Nat.div_eq_of_lt_le
  · omega
  · rw [Nat.succ_mul]
    omega

/-! ## Claim C6 -/

/-- Claim C6. Every sequence of `WriteEntry` calls (of entries with a key) and complete
passes on the empty log runs to completion. When the first manifest segment `T` of the
state reached is closed and not compacted, one `cleanSegments` pass completes and writes
compacted segments whose records are exactly, in file order, the records of `T` that are
the highest-index record of their key and are Sets, unchanged (same data, same index). The
number of compacted segments is the number of these records divided by the capacity,
rounded up. `T` is no longer in the manifest and its file is deleted. Consequently: when
all records of `T` have the same key and the last one is a Set, there is one compacted
segment with that single record; when the records of `T` are Sets of distinct keys, the
compacted segments hold the same records; when the last record of every key of `T` is a
Delete, there is no compacted segment. -/
theorem single_segment_compaction (size : Nat) (hsize : 0 < size) (ops : List Op)
    (hops : ops.all Op.valid = true) :
    ∃ w, wal.run size freshWal ops = some w ∧
    ∀ T, w.metatada.head? = some T → T.IsCompactedSegment = false → T.Closed = true →
    ∃ w1, w.cleanSegments size = some w1 ∧
      w1.compactedRecords =
        (processEntries T w.env).filter (highestSet (processEntries T w.env)) ∧
      w1.compactedSegments.length = (w1.compactedRecords.length + size - 1) / size ∧
      T ∉ w1.metatada ∧ (∀ m ∈ w1.metatada, m.Id ≠ T.Id) ∧
      w1.env.files T.segmentLogFilePath = none ∧
      (∀ k l, (∀ e ∈ processEntries T w.env, e.keyValue.1 = some k) →
        (processEntries T w.env).getLast? = some l → l.keyValue.2 ≠ none →
        w1.compactedRecords = [l] ∧ w1.compactedSegments.length = 1) ∧
      (((processEntries T w.env).map (fun e => e.keyValue.1)).Nodup →
        (∀ e ∈ processEntries T w.env, e.keyValue.2 ≠ none) →
        w1.compactedRecords = processEntries T w.env) ∧
      ((∀ k l, lastFor k (processEntries T w.env) = some l → l.keyValue.2 = none) →
        w1.compactedSegments = []) := by
  obtain ⟨w, hrun⟩ := run_total size hsize ops freshWal [] []
    ((newMetadata Env.empty 0 0).1, []) (inv_fresh size) hops
  refine ⟨w, hrun, ?_⟩
  intro T hT hTd hTc
  obtain ⟨C, D, o, inv, _, _⟩ := inv_reachable size hsize ops w hrun
  -- the log has no compacted segment and `T` is its first closed segment
  cases C with
  | cons c C =>
    exfalso
    rw [inv.metas] at hT
    simp only [List.cons_append, List.map_cons, List.head?_cons, Option.some.injEq] at hT
    have := (inv.comp c (List.mem_cons_self _ _)).compacted
    rw [hT, hTd] at this
    exact absurd this (by simp)
  | nil =>
  cases D with
  | nil =>
    exfalso
    rw [inv.metas] at hT
    simp only [List.nil_append, List.map_cons, List.head?_cons, Option.some.injEq] at hT
    have := inv.openOK.2
    rw [hT, hTc] at this
    exact absurd this (by simp)
  | cons p D =>
  obtain ⟨T1, tes⟩ := p
  have hT1 : T1 = T := by
    rw [inv.metas] at hT
    simpa using hT
  subst hT1
  have hTmem : (T1, tes) ∈ [] ++ (T1, tes) :: D ++ [o] := by simp
  rw [processEntries_of_content T1 w.env tes (inv.content (T1, tes) hTmem)]
  obtain ⟨w1, N, hclean, inv1, hentN, _, hrem, hids, _, hcount⟩ :=
    inv_clean size hsize w [] D T1 tes o inv
  -- the entries of `T`
  have hent : Log.entries ([] ++ (T1, tes) :: D ++ [o]) = tes ++ (Log.entries D ++ o.2) := by
    simp [entries_append, entries_singleton, Log.entries]
  have hincr := inv.incr
  rw [hent, List.map_append, List.pairwise_append] at hincr
  have hti := hincr.1
  have hkeys : ∀ e ∈ tes, e.keyValue.1 ≠ none := by
    intro e he
    apply inv.keys e
    rw [hent]
    exact List.mem_append_left _ he
  have hlive : liveEntries (Log.entries []) tes = tes.filter (keep (offsetMapOf tes)) := rfl
  -- the compacted segments after the pass
  have hseg : w1.compactedSegments = N.map Prod.fst := by
    unfold wal.compactedSegments
    rw [inv1.metas]
    apply filter_compacted
    · intro p hp
      exact (inv1.comp p hp).compacted
    · intro p hp
      rcases List.mem_append.1 hp with h | h
      · exact (inv1.dirty p h).1.dirty
      · simp only [List.mem_singleton] at h
        rw [h]
        exact inv1.openOK.1.dirty
  have hrec : w1.compactedRecords = tes.filter (keep (offsetMapOf tes)) := by
    unfold wal.compactedRecords
    rw [hseg, flatMap_processEntries w1.env N (fun p hp => inv1.content p (by simp [hp])),
      hentN, hlive]
  have hlen : w1.compactedSegments.length = (w1.compactedRecords.length + size - 1) / size := by
    rw [hseg, hrec, List.length_map]
    rw [hlive] at hcount
    apply ceil_of_bounds _ _ _ hcount
    have := entries_length_le size N inv1.comp
    rw [hentN, hlive] at this
    exact this
  have hnoid : ∀ m ∈ w1.metatada, m.Id ≠ T1.Id := by
    intro m hm
    rw [inv1.metas, List.append_assoc] at hm
    obtain ⟨p, hp, hpm⟩ := List.mem_map.1 hm
    rw [← hpm]
    rcases List.mem_append.1 hp with h | h
    · have h1 := hids p h
      have h2 := inv.ids (T1, tes) hTmem
      simp only at h2
      omega
    · have hnd := inv.nodup
      have e1 : [] ++ (T1, tes) :: D ++ [o] = (T1, tes) :: (D ++ [o]) := by simp
      rw [e1, List.map_cons, List.nodup_cons] at hnd
      intro he
      apply hnd.1
      rw [← he]
      exact List.mem_map_of_mem (fun p => p.1.Id) h
  refine ⟨w1, hclean, ?_, hlen, ?_, hnoid, ?_, ?_, ?_, ?_⟩
  · rw [hrec]
    apply List.filter_congr
    intro e he
    exact keep_eq_highestSet tes hti hkeys e he
  · intro hin
    exact hnoid T1 hin rfl
  · exact hrem (T1, tes) (by simp)
  · -- all records of the same key
    intro k l hsame hlast hv
    have hone : tes.filter (keep (offsetMapOf tes)) = [l] := by
      cases tes using List.reverseRecOn with
      | nil => simp at hlast
      | append_singleton init x =>
        have hx : x = l := by simpa using hlast
        subst hx
        have hnd := incr_nodup _ hti
        rw [List.nodup_append] at hnd
        have hlf : lastFor k (init ++ [x]) = some x := by
          rw [lastFor_snoc, if_pos (hsame x (by simp))]
        rw [List.filter_append]
        have h1 : init.filter (keep (offsetMapOf (init ++ [x]))) = [] := by
          rw [List.filter_eq_nil_iff]
          intro e he hkeep
          have := ((keep_target _ hti e (List.mem_append_left _ he) k
            (hsame e (List.mem_append_left _ he))).1 hkeep).1
          rw [hlf] at this
          have e1 : x = e := Option.some.inj this
          exact hnd.2.2 he (by simp [e1])
        have h2 : keep (offsetMapOf (init ++ [x])) x = true :=
          (keep_target _ hti x (by simp) k (hsame x (by simp))).2 ⟨hlf, hv⟩
        rw [h1, List.filter_cons_of_pos h2]
        rfl
    refine ⟨by rw [hrec, hone], ?_⟩
    rw [hlen, hrec, hone]
    simp only [List.length_singleton]
    have e1 : 1 + size - 1 = size := by omega
    rw [e1, Nat.div_self hsize]
  · -- one Set for each key
    intro hnd hsets
    rw [hrec, List.filter_eq_self]
    intro e he
    obtain ⟨k, hk⟩ := Option.ne_none_iff_exists'.1 (hkeys e he)
    refine (keep_target tes hti e he k hk).2 ⟨?_, hsets e he⟩
    cases hl : lastFor k tes with
    | none => exact absurd hk ((lastFor_eq_none k tes).1 hl e he)
    | some l =>
      have hlm := lastFor_mem k tes l hl
      rw [List.inj_on_of_nodup_map hnd hlm.1 he (by rw [hlm.2, hk])]
  · -- every key ends in a Delete
    intro hdel
    have hnil : tes.filter (keep (offsetMapOf tes)) = [] := by
      rw [List.filter_eq_nil_iff]
      intro e he hkeep
      obtain ⟨k, hk⟩ := Option.ne_none_iff_exists'.1 (hkeys e he)
      have := (keep_target tes hti e he k hk).1 hkeep
      exact this.2 (hdel k e this.1)
    have : w1.compactedSegments.length = 0 := by
      rw [hlen, hrec, hnil]
      simp only [List.length_nil, Nat.zero_add]
      apply Nat.div_eq_of_lt
      omega
    exact List.length_eq_zero.1 this

/-- Witness for claim C6: the state after the six writes of `sixPuts`; its first segment
holds the records `a = 1` and `b = 1 .. 4` and is closed. -/
theorem single_segment_compaction_witness :
    ∃ w, wal.run walSegmentSize freshWal (sixPuts.map (fun c => Op.write c.entry)) = some w ∧
      w.metatada.head? = some firstSegmentAfterSixPuts ∧
      ∃ w1, w.cleanSegments walSegmentSize = some w1 ∧
        w1.compactedRecords =
          (processEntries firstSegmentAfterSixPuts w.env).filter
            (highestSet (processEntries firstSegmentAfterSixPuts w.env)) ∧
        w1.compactedSegments.length =
          (w1.compactedRecords.length + walSegmentSize - 1) / walSegmentSize ∧
        firstSegmentAfterSixPuts ∉ w1.metatada ∧
        (∀ m ∈ w1.metatada, m.Id ≠ firstSegmentAfterSixPuts.Id) ∧
        w1.env.files firstSegmentAfterSixPuts.segmentLogFilePath = none ∧
        (∀ k l, (∀ e ∈ processEntries firstSegmentAfterSixPuts w.env, e.keyValue.1 = some k) →
          (processEntries firstSegmentAfterSixPuts w.env).getLast? = some l →
          l.keyValue.2 ≠ none →
          w1.compactedRecords = [l] ∧ w1.compactedSegments.length = 1) ∧
        (((processEntries firstSegmentAfterSixPuts w.env).map (fun e => e.keyValue.1)).Nodup →
          (∀ e ∈ processEntries firstSegmentAfterSixPuts w.env, e.keyValue.2 ≠ none) →
          w1.compactedRecords = processEntries firstSegmentAfterSixPuts w.env) ∧
        ((∀ k l, lastFor k (processEntries firstSegmentAfterSixPuts w.env) = some l →
            l.keyValue.2 = none) →
          w1.compactedSegments = []) :=
  Exists.elim
    (single_segment_compaction walSegmentSize (by decide)
      (sixPuts.map (fun c => Op.write c.entry)) (by decide!))
    (fun w h =>
      have hT : w.metatada.head? = some firstSegmentAfterSixPuts := by
        have hc : (wal.run walSegmentSize freshWal
            (sixPuts.map (fun c => Op.write c.entry))).bind (fun w => w.metatada.head?) =
            some firstSegmentAfterSixPuts := by decide!
        rw [h.1] at hc
        exact hc
      ⟨w, h.1, hT, h.2 firstSegmentAfterSixPuts hT rfl rfl⟩)

/-! ## Claim C15 -/

theorem hashIndexFrom_absent (es : List walEntry) (k : Bytes)
    (hk : ∀ e ∈ es, e.keyValue.1 ≠ some k) :
    ∀ (h : Bytes → Option Nat) (off : Nat), hashIndexFrom h off es k = h k := by
  induction es with
  | nil => intro h off; rfl
  | cons e es ih =>
    intro h off
    have he := hk e (List.mem_cons_self _ _)
    have ih := ih (fun x hx => hk x (List.mem_cons_of_mem _ hx))
    simp only [hashIndexFrom]
    cases hkey : e.keyValue.1 with
    | none => exact ih _ _
    | some key =>
      simp only []
      rw [ih]
      have : k ≠ key := by
        intro hkk
        rw [hkey, hkk] at he
        exact he rfl
      simp [this]

theorem hashIndexFrom_at (p1 p2 : List walEntry) (e : walEntry) (k : Bytes)
    (hek : e.keyValue.1 = some k) (hp2 : ∀ x ∈ p2, x.keyValue.1 ≠ some k) :
    ∀ (h : Bytes → Option Nat) (off : Nat),
      hashIndexFrom h off (p1 ++ e :: p2) k = some (off + (fileOf p1).length) := by
  induction p1 with
  | nil =>
    intro h off
    simp only [List.nil_append, hashIndexFrom, hek, fileOf, List.length_nil, Nat.add_zero]
    rw [hashIndexFrom_absent p2 k hp2]
    simp
  | cons a p1 ih =>
    intro h off
    simp only [List.cons_append, hashIndexFrom, fileOf, List.append_eq]
    have hlen : off + (marshalEntry a ++ [10]).length + (fileOf p1).length =
        off + (marshalEntry a ++ 10 :: fileOf p1).length := by
      simp only [List.length_append, List.length_cons, List.length_nil]
      omega
    cases a.keyValue.1 with
    | none =>
      simp only []
      rw [ih, hlen]
    | some ka =>
      simp only []
      rw [ih, hlen]

/-- Claim C15. For a segment file holding the newline-terminated encoded records `es` (each
a Set or a Delete), `loadHashIndex` on the new segment returns, and for every key `k`: when
`k` is the key of no record of the file, the hash index has no entry for `k`; when `e` is
the last record in file order whose key is `k` (the records `p1` stand before it, no record
after it has the key `k`), the hash index maps `k` to the byte offset of the first byte of
`e`, the length of the encoding of `p1`, and `ReadEntryAtOffset` at that offset returns
exactly `e`. When the indices increase in file order, `e` has the largest index among the
records of the key `k`. -/
theorem hash_index_points_at_latest (m : walSegmentMetadata) (env : Env) (es : List walEntry)
    (hfile : env.files m.segmentLogFilePath = some (fileOf es))
    (hrec : ∀ e ∈ es, e.keyValue.1 ≠ none) :
    ∃ seg, (newWalSegment m).loadHashIndex env = some seg ∧ seg.meta = m ∧
      ∀ k,
        ((∀ e ∈ es, e.keyValue.1 ≠ some k) → seg.hashIndex k = none) ∧
        (∀ p1 e p2, es = p1 ++ e :: p2 → e.keyValue.1 = some k →
          (∀ x ∈ p2, x.keyValue.1 ≠ some k) →
          seg.hashIndex k = some (fileOf p1).length ∧
          seg.ReadEntryAtOffset env (fileOf p1).length = some (some e) ∧
          ((es.map (fun x => x.Index)).Pairwise (fun a b => a < b) →
            ∀ x ∈ es, x.keyValue.1 = some k → x.Index ≤ e.Index)) := by
  have hc : env.content m.segmentLogFilePath = fileOf es := by
    simp only [Env.content, hfile, Option.getD_some]
  refine ⟨{ meta := m, hashIndex := hashIndexOf es }, loadHashIndex_of_content m env es hc hrec,
    rfl, ?_⟩
  intro k
  refine ⟨?_, ?_⟩
  · intro habs
    exact hashIndexFrom_absent es k habs _ _
  · intro p1 e p2 hes hek hp2
    refine ⟨?_, ?_, ?_⟩
    · show hashIndexOf es k = _
      rw [hes]
      unfold hashIndexOf
      rw [hashIndexFrom_at p1 p2 e k hek hp2]
      simp
    · unfold walSegment.ReadEntryAtOffset
      simp only [hfile]
      rw [hes, readBytes_at_entry]
      simp only []
      rw [unmarshalEntry_marshalEntry e [10] (by decide)]
    · intro hincr x hx hxk
      have hl : lastFor k es = some e := by
        rw [hes]
        have e1 : p1 ++ e :: p2 = (p1 ++ [e]) ++ p2 := by simp
        rw [e1, lastFor_append, (lastFor_eq_none k p2).2 hp2, lastFor_snoc, if_pos hek]
        rfl
      exact lastFor_max k es hincr e hl x hx hxk

/-- Witness for claim C15: a file with the records `a = 1`, `b = 1`, `a = 2`. -/
theorem hash_index_points_at_latest_witness :
    ∃ seg, (newWalSegment firstSegmentAfterSixPuts).loadHashIndex
        { Env.empty with files := fun p =>
            if p = (0, 0) then some (fileOf (stamp 0
              [(Cmd.put (ascii "a") (ascii "1")).entry, (Cmd.put (ascii "b") (ascii "1")).entry,
               (Cmd.put (ascii "a") (ascii "2")).entry]))
            else none } = some seg ∧
      seg.meta = firstSegmentAfterSixPuts ∧
      ∀ k,
        ((∀ e ∈ stamp 0
              [(Cmd.put (ascii "a") (ascii "1")).entry, (Cmd.put (ascii "b") (ascii "1")).entry,
               (Cmd.put (ascii "a") (ascii "2")).entry], e.keyValue.1 ≠ some k) →
          seg.hashIndex k = none) ∧
        (∀ p1 e p2, stamp 0
              [(Cmd.put (ascii "a") (ascii "1")).entry, (Cmd.put (ascii "b") (ascii "1")).entry,
               (Cmd.put (ascii "a") (ascii "2")).entry] = p1 ++ e :: p2 →
          e.keyValue.1 = some k → (∀ x ∈ p2, x.keyValue.1 ≠ some k) →
          seg.hashIndex k = some (fileOf p1).length ∧
          seg.ReadEntryAtOffset
            { Env.empty with files := fun p =>
                if p = (0, 0) then some (fileOf (stamp 0
                  [(Cmd.put (ascii "a") (ascii "1")).entry,
                   (Cmd.put (ascii "b") (ascii "1")).entry,
                   (Cmd.put (ascii "a") (ascii "2")).entry]))
                else none } (fileOf p1).length = some (some e) ∧
          (((stamp 0
              [(Cmd.put (ascii "a") (ascii "1")).entry, (Cmd.put (ascii "b") (ascii "1")).entry,
               (Cmd.put (ascii "a") (ascii "2")).entry]).map (fun x => x.Index)).Pairwise
                (fun a b => a < b) →
            ∀ x ∈ stamp 0
              [(Cmd.put (ascii "a") (ascii "1")).entry, (Cmd.put (ascii "b") (ascii "1")).entry,
               (Cmd.put (ascii "a") (ascii "2")).entry],
              x.keyValue.1 = some k → x.Index ≤ e.Index)) :=
  hash_index_points_at_latest firstSegmentAfterSixPuts _ _ rfl (by decide!)

/-! ## Claim C16 -/

theorem openNewSegment_open (w : wal) (index : Nat) (prev : Option walSegment) :
    ∃ seg, (w.openNewSegment index prev).openSegment = some seg ∧ seg.meta.Closed = false ∧
      seg.meta.LastEntryIndex = seg.meta.FirstEntryIndex := by
  refine ⟨newWalSegment (newMetadata
    (match w.openSegment with
      | some seg => w.setOpenSegment seg.close
      | none => w).env index
    (match prev with
      | some p => p.meta.LastEntryIndex
      | none => 0)).1, ?_, rfl, rfl⟩
  unfold wal.openNewSegment wal.openSegment
  simp only [List.getLast?_append, List.getLast?_singleton]
  rfl

/-- In a state satisfying the invariant, the segment to which `WriteEntry` delegates after
`maybeRoll` is open and has room. -/
theorem maybeRoll_ok (size : Nat) (hsize : 0 < size) (w : wal) (C D : Log)
    (o : walSegmentMetadata × List walEntry) (inv : Inv size w C D o) :
    ∃ w1 seg, w.maybeRoll size = some w1 ∧ w1.openSegment = some seg ∧
      seg.meta.Closed = false ∧ seg.meta.isAtCapacity size = false := by
  obtain ⟨ss, seg, hss, hmeta⟩ := inv.mem
  have hopen := openSegment_eq w ss seg hss
  have hcl : seg.meta.Closed = false := by rw [hmeta]; exact inv.openOK.2
  unfold wal.maybeRoll
  rw [hopen]
  simp only []
  cases hcap : seg.meta.isAtCapacity size with
  | false =>
    simp only [hcl, Bool.or_false, Bool.false_eq_true, if_false]
    exact ⟨w, seg, rfl, hopen, hcl, hcap⟩
  | true =>
    simp only [Bool.true_or, if_true, inv.nonNil, Bool.false_eq_true, if_false]
    obtain ⟨seg1, h1, h2, h3⟩ := openNewSegment_open w (seg.meta.SegmentIndex + 1) (some seg)
    refine ⟨_, seg1, rfl, h1, h2, ?_⟩
    unfold walSegmentMetadata.isAtCapacity
    rw [h3]
    simp
    omega

theorem appendReady_of_inv (size : Nat) (hsize : 0 < size) (w : wal) (C D : Log)
    (o : walSegmentMetadata × List walEntry) (inv : Inv size w C D o) : AppendReady size w := by
  obtain ⟨w1, seg, h1, h2, h3, h4⟩ := maybeRoll_ok size hsize w C D o inv
  refine ⟨w1, seg, h1, h2, h3, h4, ?_⟩
  intro entry hk
  obtain ⟨k, hk⟩ := Option.ne_none_iff_exists'.1 hk
  unfold walSegment.writeEntry
  simp [h3, h4, hk, keyValue_with_index]

/-- Claim C16. With a positive segment size, every sequence `ops` of `WriteEntry` calls
(and compaction passes) from the opening of an empty directory runs to completion, and in
the state reached the append preconditions hold: `maybeRoll` returns and leaves an open
segment that is neither closed nor at capacity, and `writeEntry` on that segment, to which
`WriteEntry` delegates, returns for every entry with a key; its failures
`cannot write to a closed segment` and `current wal segment at capacity` do not occur. The
same holds after every further sequence `ops2` of calls on the store opened again on the
files of that state. -/
theorem append_preconditions_hold (size : Nat) (hsize : 0 < size) (ops ops2 : List Op)
    (hops : ops.all Op.valid = true) (hops2 : ops2.all Op.valid = true) :
    ∃ w, wal.run size freshWal ops = some w ∧ AppendReady size w ∧
      (w.env.manifest = some w.metatada →
        ∃ s w3, NewKvStore w.env = some s ∧ wal.run size s.wal ops2 = some w3 ∧
          AppendReady size w3) := by
  obtain ⟨w, hrun⟩ := run_total size hsize ops freshWal [] []
    ((newMetadata Env.empty 0 0).1, []) (inv_fresh size) hops
  obtain ⟨C, D, o, inv, _, _⟩ := inv_reachable size hsize ops w hrun
  refine ⟨w, hrun, appendReady_of_inv size hsize w C D o inv, ?_⟩
  intro hman
  obtain ⟨w2, hs, inv2, _, henv⟩ := reopen size w C D o inv hman
  obtain ⟨w3, hrun3⟩ := run_total size hsize ops2 w2 C D o inv2 hops2
  have hman2 : w2.env.manifest = some w2.metatada := by
    rw [henv, hman, inv2.metas, inv.metas]
  obtain ⟨C3, D3, o3, inv3, _, _⟩ := inv_run size hsize ops2 w2 C D o inv2 (Or.inl hman2) w3 hrun3
  exact ⟨{ wal := w2 }, w3, hs, hrun3, appendReady_of_inv size hsize w3 C3 D3 o3 inv3⟩

/-- Witness for claim C16: the state after five writes, whose open segment is full, and
six more writes after reopening. -/
theorem append_preconditions_hold_witness :
    ∃ w, wal.run walSegmentSize freshWal ((sixPuts.take 5).map (fun c => Op.write c.entry)) =
        some w ∧ AppendReady walSegmentSize w ∧
      (w.env.manifest = some w.metatada →
        ∃ s w3, NewKvStore w.env = some s ∧
          wal.run walSegmentSize s.wal (sixPuts.map (fun c => Op.write c.entry)) = some w3 ∧
          AppendReady walSegmentSize w3) :=
  append_preconditions_hold walSegmentSize (by decide)
    ((sixPuts.take 5).map (fun c => Op.write c.entry))
    (sixPuts.map (fun c => Op.write c.entry)) (by decide!) (by decide!)

/-! ## Claim C20 -/

theorem metaLE_iff_manifestOrder (a b : walSegmentMetadata) :
    metaLE a b ↔ manifestOrder a b := by
  unfold metaLE metaLess manifestOrder
  by_cases h : b.SegmentIndex = a.SegmentIndex
  · simp [h]
  · have h2 : ¬ a.SegmentIndex = b.SegmentIndex := fun e => h e.symm
    simp [h, h2]
    omega

theorem sortMetadata_manifestOrder (l : List walSegmentMetadata) :
    (sortMetadata l).Pairwise manifestOrder :=
  (sortMetadata_sorted l).imp (fun {a b} h => (metaLE_iff_manifestOrder a b).1 h)

theorem WriteEntry_sorted (size : Nat) (w w1 : wal) (entry : walEntry)
    (h : w.WriteEntry size entry = some w1) : ∃ l, w1.metatada = sortMetadata l := by
  unfold wal.WriteEntry at h
  cases hr : w.maybeRoll size with
  | none => rw [hr] at h; simp at h
  | some wr =>
    rw [hr] at h
    simp only [] at h
    cases ho : wr.openSegment with
    | none => rw [ho] at h; simp at h
    | some seg =>
      rw [ho] at h
      simp only [] at h
      cases hw : seg.writeEntry size wr.env entry none with
      | none => rw [hw] at h; simp at h
      | some r =>
        rw [hw] at h
        cases hn : wr.metatadaNil with
        | true => rw [hn] at h; simp at h
        | false =>
          rw [hn] at h
          simp only [Bool.false_eq_true, if_false, Option.some.injEq] at h
          subst h
          exact ⟨_, rfl⟩

/-- After a run that contains a write, the manifest file holds the manifest list. -/
theorem run_manifest (size : Nat) (hsize : 0 < size) (ops : List Op) :
    ∀ (w : wal) (C D : Log) (o : walSegmentMetadata × List walEntry), Inv size w C D o →
      (0 < numWrites ops ∨ w.env.manifest = some w.metatada) →
      ∀ w1, wal.run size w ops = some w1 → w1.env.manifest = some w1.metatada := by
  induction ops with
  | nil =>
    intro w C D o _ h w1 hrun
    simp only [wal.run, Option.some.injEq] at hrun
    subst hrun
    rcases h with h | h
    · simp [numWrites] at h
    · exact h
  | cons op ops ih =>
    intro w C D o inv h w1 hrun
    cases op with
    | write entry =>
      simp only [wal.run, wal.step] at hrun
      cases hk : entry.keyValue.1 with
      | none =>
        rw [WriteEntry_nil_key size w entry hk] at hrun
        simp at hrun
      | some k =>
        obtain ⟨w2, D2, o2, hw, inv2, _⟩ := inv_write size hsize w C D o inv entry k hk
        rw [hw] at hrun
        exact ih w2 C D2 o2 inv2 (Or.inr (WriteEntry_manifest size w w2 entry hw)) w1 hrun
    | clean =>
      simp only [wal.run, wal.step] at hrun
      cases D with
      | nil =>
        rw [clean_nop size w C o inv] at hrun
        exact ih w C [] o inv h w1 hrun
      | cons p D =>
        obtain ⟨T, tes⟩ := p
        obtain ⟨w2, N, hw, inv2, _, hman2, _⟩ := inv_clean size hsize w C D T tes o inv
        rw [hw] at hrun
        exact ih w2 N D o inv2 (Or.inr hman2) w1 hrun

/-- Claim C20. Sorting the manifest list never adds, drops or alters an entry: the sorted
list is a permutation of the list, ordered by `SegmentIndex` ascending, then `CreatedAt`
ascending. After every successful `WriteEntry`, on any log, the manifest list in memory is
sorted in this order and the manifest file holds exactly this list. After every sequence of
`WriteEntry` calls and `cleanSegments` passes from the empty log (so also after every pass)
the list in memory is sorted in this order, and the manifest file, written as soon as the
sequence contains a write, holds exactly this list. -/
theorem manifest_sorted (size : Nat) (hsize : 0 < size) (ops : List Op)
    (hops : ops.all Op.valid = true) :
    (∀ l, (sortMetadata l).Perm l ∧ (sortMetadata l).Pairwise manifestOrder) ∧
    (∀ (w0 w1 : wal) entry, w0.WriteEntry size entry = some w1 →
      w1.metatada.Pairwise manifestOrder ∧ w1.env.manifest = some w1.metatada) ∧
    ∃ w, wal.run size freshWal ops = some w ∧
      w.metatada.Pairwise manifestOrder ∧
      (w.env.manifest = none ∨ w.env.manifest = some w.metatada) ∧
      (0 < numWrites ops → w.env.manifest = some w.metatada) := by
  refine ⟨fun l => ⟨sortMetadata_perm l, sortMetadata_manifestOrder l⟩, ?_, ?_⟩
  · intro w0 w1 entry h
    obtain ⟨l, hl⟩ := WriteEntry_sorted size w0 w1 entry h
    refine ⟨?_, WriteEntry_manifest size w0 w1 entry h⟩
    rw [hl]
    exact sortMetadata_manifestOrder l
  · obtain ⟨w, hrun⟩ := run_total size hsize ops freshWal [] []
      ((newMetadata Env.empty 0 0).1, []) (inv_fresh size) hops
    obtain ⟨C, D, o, inv, _, _⟩ := inv_reachable size hsize ops w hrun
    refine ⟨w, hrun, ?_, inv.manifest, ?_⟩
    · rw [← inv_sorted inv]
      exact sortMetadata_manifestOrder _
    · intro hpos
      exact run_manifest size hsize ops freshWal [] [] ((newMetadata Env.empty 0 0).1, [])
        (inv_fresh size) (Or.inl hpos) w hrun

/-- Witness for claim C20: eleven writes and two passes, with the segment size of the
source. -/
theorem manifest_sorted_witness :
    (∀ l, (sortMetadata l).Perm l ∧ (sortMetadata l).Pairwise manifestOrder) ∧
    (∀ (w0 w1 : wal) entry, w0.WriteEntry walSegmentSize entry = some w1 →
      w1.metatada.Pairwise manifestOrder ∧ w1.env.manifest = some w1.metatada) ∧
    ∃ w, wal.run walSegmentSize freshWal elevenWritesTwoPasses = some w ∧
      w.metatada.Pairwise manifestOrder ∧
      (w.env.manifest = none ∨ w.env.manifest = some w.metatada) ∧
      (0 < numWrites elevenWritesTwoPasses → w.env.manifest = some w.metatada) :=
  manifest_sorted walSegmentSize (by decide) elevenWritesTwoPasses (by decide!)

/-! ## Returned errors -/

theorem writeEntryIO_ok (size : Nat) (seg : walSegment) (env : Env) (entry : walEntry)
    (index : Option Nat) :
    seg.writeEntryIO size env entry index WriteOutcome.ok =
      (seg.writeEntry size env entry index).map (fun r => (r.1, r.2, none)) := by
  unfold walSegment.writeEntryIO walSegment.writeEntry
  by_cases h1 : seg.meta.Closed = true
  · simp [h1]
  · by_cases h2 : seg.meta.isAtCapacity size = true
    · simp [h1, h2]
    · simp only [h1, h2, if_false]
      cases index with
      | none =>
        simp only []
        cases ({ entry with Index := seg.meta.LastEntryIndex } : walEntry).keyValue.1 <;> rfl
      | some i =>
        simp only []
        cases ({ entry with Index := i } : walEntry).keyValue.1 <;> rfl

theorem WriteEntryIO_ok (size : Nat) (w : wal) (entry : walEntry) :
    w.WriteEntryIO size entry WriteOutcome.ok =
      (w.WriteEntry size entry).map (fun w1 => (w1, none)) := by
  unfold wal.WriteEntryIO wal.WriteEntry
  cases w.maybeRoll size with
  | none => rfl
  | some w1 =>
    simp only []
    cases w1.openSegment with
    | none => rfl
    | some seg =>
      simp only [writeEntryIO_ok]
      cases seg.writeEntry size w1.env entry none with
      | none => rfl
      | some r =>
        cases hn : w1.metatadaNil <;> simp [hn]

theorem PutIO_ok (size : Nat) (store : KvStore) (key value : Bytes) :
    store.PutIO size key value WriteOutcome.ok =
      (store.Put size key value).map (fun s => (s, none)) := by
  unfold KvStore.PutIO KvStore.Put
  rw [WriteEntryIO_ok]
  cases store.wal.WriteEntry size (SetValueCommand.toWalEntry { Key := key, Value := value }) <;>
    rfl

theorem DeleteIO_ok (size : Nat) (store : KvStore) (key : Bytes) :
    store.DeleteIO size key WriteOutcome.ok =
      (store.Delete size key).map (fun s => (s, none)) := by
  unfold KvStore.DeleteIO KvStore.Delete
  rw [WriteEntryIO_ok]
  cases store.wal.WriteEntry size (DeleteValueCommand.toWalEntry { Key := key }) <;> rfl

/-! ## Claims C12 and C13 -/

/-- Claim C12 as stated fails: `Put` and `Delete` do not reject any input. On the new
store, `Put("", "")` returns nil and appends the Set record of the empty key;
`Put("a\nb", "c\nd")` returns nil and appends its record; `Delete("")` returns nil and
appends the Delete record of the empty key. -/
theorem put_accepts_empty_and_newline :
    ((NewKvStore Env.empty).bind
        (fun s => s.PutIO walSegmentSize [] [] WriteOutcome.ok)).map
        (fun r => (r.2, r.1.wal.records)) =
      some (none, [withIndex (SetValueCommand.toWalEntry { Key := [], Value := [] }) 0]) ∧
    ((NewKvStore Env.empty).bind
        (fun s => s.PutIO walSegmentSize (ascii "a\nb") (ascii "c\nd") WriteOutcome.ok)).map
        (fun r => (r.2, r.1.wal.records)) =
      some (none,
        [withIndex (SetValueCommand.toWalEntry
          { Key := ascii "a\nb", Value := ascii "c\nd" }) 0]) ∧
    ((NewKvStore Env.empty).bind
        (fun s => s.DeleteIO walSegmentSize [] WriteOutcome.ok)).map
        (fun r => (r.2, r.1.wal.records)) =
      some (none, [withIndex (DeleteValueCommand.toWalEntry { Key := [] }) 0]) := by
  decide!

theorem toWalEntry_set_key (key value : Bytes) :
    (SetValueCommand.toWalEntry { Key := key, Value := value }).keyValue.1 ≠ none := by
  obtain ⟨k, hk⟩ := Cmd.entry_key_some (Cmd.put key value)
  intro h
  rw [Cmd.entry] at hk
  rw [hk] at h
  exact absurd h (by simp)

theorem toWalEntry_delete_key (key : Bytes) :
    (DeleteValueCommand.toWalEntry { Key := key }).keyValue.1 ≠ none := by
  obtain ⟨k, hk⟩ := Cmd.entry_key_some (Cmd.delete key)
  intro h
  rw [Cmd.entry] at hk
  rw [hk] at h
  exact absurd h (by simp)

/-- Claim C12, amended. `Put` and `Delete` do not validate their input. In every state
reached from the empty log by `WriteEntry` calls and complete passes, for every key and
value (also the empty string and strings with a newline byte), when the file write
succeeds `Put(key, value)` returns nil and appends exactly one record, the Set record of
the command with the next index, and `Delete(key)` returns nil and appends exactly one
record, the Delete record of the command with the next index. -/
theorem put_delete_accept_every_input (size : Nat) (hsize : 0 < size) (ops : List Op)
    (hops : ops.all Op.valid = true) :
    ∃ w, wal.run size freshWal ops = some w ∧
      (∀ key value, ∃ s1,
        KvStore.PutIO size { wal := w } key value WriteOutcome.ok = some (s1, none) ∧
        s1.wal.records = w.records ++
          [withIndex (SetValueCommand.toWalEntry { Key := key, Value := value })
            (numWrites ops)]) ∧
      (∀ key, ∃ s1,
        KvStore.DeleteIO size { wal := w } key WriteOutcome.ok = some (s1, none) ∧
        s1.wal.records = w.records ++
          [withIndex (DeleteValueCommand.toWalEntry { Key := key }) (numWrites ops)]) := by
  obtain ⟨w, hrun⟩ := run_total size hsize ops freshWal [] []
    ((newMetadata Env.empty 0 0).1, []) (inv_fresh size) hops
  obtain ⟨C, D, o, inv, hl, _⟩ := inv_reachable size hsize ops w hrun
  have key : ∀ entry : walEntry, entry.keyValue.1 ≠ none →
      ∃ w3, w.WriteEntry size entry = some w3 ∧
        w3.records = w.records ++ [withIndex entry (numWrites ops)] := by
    intro entry hkey
    obtain ⟨k, hk⟩ := Option.ne_none_iff_exists'.1 hkey
    obtain ⟨w3, D3, o3, hw3, inv3, hent, _, _⟩ := inv_write size hsize w C D o inv entry k hk
    refine ⟨w3, hw3, ?_⟩
    rw [records_of_inv inv3, records_of_inv inv, List.append_assoc, entries_append, hent,
      List.append_assoc C, entries_append C, hl, List.append_assoc]
  refine ⟨w, hrun, ?_, ?_⟩
  · intro k v
    obtain ⟨w3, hw3, hrec⟩ := key _ (toWalEntry_set_key k v)
    refine ⟨{ wal := w3 }, ?_, hrec⟩
    rw [PutIO_ok]
    simp only [KvStore.Put, hw3, Option.map_some']
  · intro k
    obtain ⟨w3, hw3, hrec⟩ := key _ (toWalEntry_delete_key k)
    refine ⟨{ wal := w3 }, ?_, hrec⟩
    rw [DeleteIO_ok]
    simp only [KvStore.Delete, hw3, Option.map_some']

/-- Witness for the amended claim C12: the state after the six writes of `sixPuts`. -/
theorem put_delete_accept_every_input_witness :
    ∃ w, wal.run walSegmentSize freshWal (sixPuts.map (fun c => Op.write c.entry)) = some w ∧
      (∀ key value, ∃ s1,
        KvStore.PutIO walSegmentSize { wal := w } key value WriteOutcome.ok = some (s1, none) ∧
        s1.wal.records = w.records ++
          [withIndex (SetValueCommand.toWalEntry { Key := key, Value := value })
            (numWrites (sixPuts.map (fun c => Op.write c.entry)))]) ∧
      (∀ key, ∃ s1,
        KvStore.DeleteIO walSegmentSize { wal := w } key WriteOutcome.ok = some (s1, none) ∧
        s1.wal.records = w.records ++
          [withIndex (DeleteValueCommand.toWalEntry { Key := key })
            (numWrites (sixPuts.map (fun c => Op.write c.entry)))]) :=
  put_delete_accept_every_input walSegmentSize (by decide)
    (sixPuts.map (fun c => Op.write c.entry)) (by decide!)

/-- Claim C13 fails on the code. On the new store, with a file write that fails before any
byte reaches the file, `WriteEntry` returns a non-nil error, yet `Put` and `Delete` return
nil, and no record has been appended. `Put` and `Delete` call `WriteEntry` and drop the
value it returns. -/
theorem put_drops_write_error :
    ((NewKvStore Env.empty).bind
        (fun s => s.wal.WriteEntryIO walSegmentSize
          (SetValueCommand.toWalEntry { Key := ascii "k", Value := ascii "v" })
          (WriteOutcome.failed 0))).map (fun r => r.2) = some (some GoError.writeFailed) ∧
    ((NewKvStore Env.empty).bind
        (fun s => s.PutIO walSegmentSize (ascii "k") (ascii "v") (WriteOutcome.failed 0))).map
        (fun r => (r.2, r.1.wal.records)) = some (none, []) ∧
    ((NewKvStore Env.empty).bind
        (fun s => s.DeleteIO walSegmentSize (ascii "k") (WriteOutcome.failed 0))).map
        (fun r => (r.2, r.1.wal.records)) = some (none, []) := by
  decide!

/-! ## The compacted segments written by a pass -/

theorem batch_entries_length_le (size : Nat) (N : Log) (h : ∀ p ∈ N, BatchOK size p) :
    (Log.entries N).length ≤ N.length * size := by
  induction N with
  | nil => simp [Log.entries]
  | cons p N ih =>
    have h1 := (h p (List.mem_cons_self _ _)).len
    have h2 := ih (fun q hq => h q (List.mem_cons_of_mem _ hq))
    simp only [Log.entries, List.length_append, List.length_cons]
    rw [Nat.succ_mul]
    omega

/-- The new segments hold the consecutive batches of `size` live entries. -/
theorem emitted_chunk {size : Nat} {w0 : wal} {nsm0 : List walSegmentMetadata}
    {live : List walEntry} {st : emitState} {N : Log} (E : Emitted size w0 nsm0 live st N)
    (i : Nat) (p : walSegmentMetadata × List walEntry) (hp : N[i]? = some p) :
    p.2 = (live.drop (i * size)).take size := by
  have hlt : i < N.length := by
    by_contra hge
    rw [List.getElem?_eq_none (by omega)] at hp
    simp at hp
  have hd := entries_drop size N i
    (fun j q hj hq => E.full j q hq (by omega)) (Nat.le_of_lt hlt)
  rw [E.entries] at hd
  rw [hd, drop_eq_getElem_cons' N i p hp]
  simp only [Log.entries]
  by_cases hlast : i + 1 < N.length
  · have := E.full i p hp hlast
    rw [List.take_left' this]
  · have hnil : N.drop (i + 1) = [] := List.drop_eq_nil_iff.2 (by omega)
    rw [hnil]
    simp only [Log.entries, List.append_nil]
    have hmem : p ∈ N := List.getElem?_mem hp
    rw [List.take_of_length_le (E.shape p hmem).len]

theorem emitted_count {size : Nat} {w0 : wal} {nsm0 : List walSegmentMetadata}
    {live : List walEntry} {st : emitState} {N : Log} (E : Emitted size w0 nsm0 live st N) :
    N.length = (live.length + size - 1) / size := by
  apply ceil_of_bounds _ _ _ E.count
  have := batch_entries_length_le size N E.shape
  rw [E.entries] at this
  exact this

/-- The part of a pass that writes the compacted segments, for entries with keys, in a
log with a sorted manifest list whose segment ids are older than the next fresh id. -/
theorem emitSegments_spec (size : Nat) (hsize : 0 < size) (w : wal) (live : List walEntry)
    (hsorted : w.metatada.Sorted metaLE)
    (hfresh : ∀ path : Nat × Nat, w.env.uuid ≤ path.2 → w.env.files path = none)
    (hold : ∀ m ∈ w.metatada, m.Id < w.env.uuid)
    (hkeys : ∀ e ∈ live, e.keyValue.1 ≠ none) :
    ∃ st N, emitLoop size (emitStart w [] none) live = some st ∧
      Emitted size w [] live st N ∧
      w.emitSegments size live =
        some (({ st.w with metatada := finalizeMetas st.newSegmentMetas st.w.metatada
               }).saveMetadata, N.map (fun p => completedMeta p.1)) ∧
      (sortMetadata (finalizeMetas st.newSegmentMetas st.w.metatada)).Perm
        (w.metatada ++ N.map (fun p => completedMeta p.1)) := by
  obtain ⟨st, N, hemit, E⟩ := emitLoop_spec size hsize _ live w [] none (Nat.le_refl _)
    (fun m hmm => absurd hmm (List.not_mem_nil _)) hsorted hfresh hkeys
  have hnsm : st.newSegmentMetas = N.map Prod.fst := by rw [E.metas]; rfl
  have hnew : ∀ m ∈ N.map Prod.fst, w.env.uuid ≤ m.Id := by
    intro m hmm
    obtain ⟨p, hp, hpm⟩ := List.mem_map.1 hmm
    have : p.1.Id ∈ List.range' w.env.uuid N.length := by
      rw [← E.ids]
      exact List.mem_map_of_mem (fun p => p.1.Id) hp
    rw [← hpm]
    exact (mem_range'_ge _ _ _ this).1
  refine ⟨st, N, hemit, E, ?_, ?_⟩
  · unfold wal.emitSegments
    have e1 : ({ w := w, newSegmentMetas := [], currentBatchSize := 0, currentSegment := none }
        : emitState) = emitStart w [] none := rfl
    rw [e1, hemit]
    simp only [hnsm, List.map_map]
    rfl
  · refine (sortMetadata_perm _).trans ?_
    rw [hnsm]
    have := finalize_perm _ _ _ w.env.uuid E.perm hold hnew
    rw [List.map_map] at this
    exact this

/-! ## Claim C17 -/

theorem inv_first_dirty {size : Nat} {w : wal} {C D : Log}
    {o : walSegmentMetadata × List walEntry} (inv : Inv size w C D o)
    (T : walSegmentMetadata)
    (hT : w.metatada.find? (fun m => !m.IsCompactedSegment) = some T) (hTc : T.Closed = true) :
    ∃ tes D1, D = (T, tes) :: D1 := by
  cases D with
  | nil =>
    exfalso
    have hm : w.metatada = C.map Prod.fst ++ o.1 :: [] := by
      rw [inv.metas]; simp
    rw [hm, find_dirty _ _ _ (fun x hx => by
      obtain ⟨p, hp, hpx⟩ := List.mem_map.1 hx
      rw [← hpx]
      exact (inv.comp p hp).compacted) inv.openOK.1.dirty] at hT
    have := inv.openOK.2
    rw [Option.some.inj hT, hTc] at this
    exact absurd this (by simp)
  | cons p D1 =>
    obtain ⟨T1, tes⟩ := p
    have hm : w.metatada = C.map Prod.fst ++ T1 :: (D1.map Prod.fst ++ [o.1]) := by
      rw [inv.metas]; simp
    rw [hm, find_dirty _ _ _ (fun x hx => by
      obtain ⟨p, hp, hpx⟩ := List.mem_map.1 hx
      rw [← hpx]
      exact (inv.comp p hp).compacted)
      (inv.dirty (T1, tes) (List.mem_cons_self _ _)).1.dirty] at hT
    have e1 : T1 = T := Option.some.inj hT
    rw [e1]
    exact ⟨tes, D1, rfl⟩

/-- Claim C17. In every state reached from the empty log by `WriteEntry` calls and complete
passes, with `c` the segment size, the emission part of `cleanSegments` on a live list of
`n` entries (with keys) returns and creates exactly `⌈n / c⌉` compacted segments, all listed
in the saved manifest. The `i`-th (from 0) has `SegmentIndex i` and
`IsCompactedSegment = true`; its file holds exactly the entries
`live[i*c .. min(n, (i+1)*c) - 1]`, in that order and unchanged (same index, same data);
its `FirstEntryIndex` and `LastEntryIndex` are the indices of its first and last record;
and it has `CompactionCompleted = true` and `Closed = true`. A pass whose oldest segment
that is not compacted is closed gathers a live list, runs this emission on it, and ends
with exactly these compacted segments, their files unchanged. -/
theorem emission_of_compacted_segments (size : Nat) (hsize : 0 < size) (ops : List Op)
    (hops : ops.all Op.valid = true) :
    ∃ w, wal.run size freshWal ops = some w ∧
      (∀ live, (∀ e ∈ live, e.keyValue.1 ≠ none) →
        ∃ w2 metas, w.emitSegments size live = some (w2, metas) ∧
          metas.length = (live.length + size - 1) / size ∧
          w2.env.manifest = some w2.metatada ∧
          ∀ i m, metas[i]? = some m →
            m.SegmentIndex = i ∧ m.IsCompactedSegment = true ∧
            processEntries m w2.env = (live.drop (i * size)).take size ∧
            (processEntries m w2.env).head?.map (fun e => e.Index) = some m.FirstEntryIndex ∧
            (processEntries m w2.env).getLast?.map (fun e => e.Index) =
              some m.LastEntryIndex ∧
            m.CompactionCompleted = true ∧ m.Closed = true ∧ m ∈ w2.metatada) ∧
      (∀ T, w.metatada.find? (fun m => !m.IsCompactedSegment) = some T → T.Closed = true →
        ∃ live cleaned w2 metas w1,
          gatherLoop w.env T (offsetMapOf (processEntries T w.env)) w.metatada [] [] =
            some (live, cleaned) ∧
          (∀ e ∈ live, e.keyValue.1 ≠ none) ∧
          w.emitSegments size live = some (w2, metas) ∧
          w.cleanSegments size = some w1 ∧
          w1.compactedSegments = metas ∧
          ∀ m ∈ metas, processEntries m w1.env = processEntries m w2.env) := by
  obtain ⟨w, hrun⟩ := run_total size hsize ops freshWal [] []
    ((newMetadata Env.empty 0 0).1, []) (inv_fresh size) hops
  obtain ⟨C, D, o, inv, _, _⟩ := inv_reachable size hsize ops w hrun
  refine ⟨w, hrun, ?_, ?_⟩
  · intro live hkeys
    have hsorted : w.metatada.Sorted metaLE := by
      apply sorted_of_segIdx
      rw [inv.metas, List.map_map]
      exact inv.segIdx
    have hold : ∀ m ∈ w.metatada, m.Id < w.env.uuid := by
      intro m hmm
      rw [inv.metas] at hmm
      obtain ⟨p, hp, hpm⟩ := List.mem_map.1 hmm
      rw [← hpm]
      exact inv.ids p hp
    obtain ⟨st, N, _, E, hemit, hperm⟩ :=
      emitSegments_spec size hsize w live hsorted inv.fresh hold hkeys
    refine ⟨_, _, hemit, ?_, rfl, ?_⟩
    · rw [List.length_map]
      exact emitted_count E
    · intro i m hm
      rw [List.getElem?_map] at hm
      cases hp : N[i]? with
      | none => rw [hp] at hm; simp at hm
      | some p =>
        rw [hp] at hm
        simp only [Option.map_some', Option.some.injEq] at hm
        have hmem : p ∈ N := List.getElem?_mem hp
        have hB := E.shape p hmem
        have hcont : processEntries m
            (({ st.w with metatada := finalizeMetas st.newSegmentMetas st.w.metatada
              }).saveMetadata).env = p.2 := by
          apply processEntries_of_content
          rw [← hm]
          exact E.content p hmem
        have hidx : p.1.SegmentIndex = i := by
          have h1 := congrArg (fun l => l[i]?) E.segIdx
          simp only [List.getElem?_map, hp, Option.map_some'] at h1
          have hlt : i < N.length := by
            by_contra hge
            rw [List.getElem?_eq_none (by omega)] at hp
            simp at hp
          rw [List.getElem?_range' _ _ hlt] at h1
          simpa using h1
        rw [hcont]
        refine ⟨?_, ?_, emitted_chunk E i p hp, ?_, ?_, ?_, ?_, ?_⟩
        · rw [← hm]; exact hidx
        · rw [← hm]; exact hB.compacted
        · rw [← hm]; exact hB.first
        · rw [← hm]; exact hB.last
        · rw [← hm]; rfl
        · rw [← hm]; rfl
        · show m ∈ sortMetadata _
          refine (List.Perm.mem_iff hperm).2 (List.mem_append_right _ ?_)
          rw [← hm]
          exact List.mem_map_of_mem (fun p => completedMeta p.1) hmem
  · intro T hT hTc
    obtain ⟨tes, D1, hD⟩ := inv_first_dirty inv T hT hTc
    subst hD
    obtain ⟨w1, N, hclean, hentN, hshape, _, hidN, _, _, hmeta, _, _, _, _, _, hcont, _, _,
      hg, st, E, hemit, _, _⟩ := clean_run size hsize w C D1 T tes o inv
    refine ⟨_, _, _, _, w1, hg, ?_, hemit, hclean, ?_, ?_⟩
    · intro e he
      exact (keep_set _ e (List.mem_filter.1 he).2).1
    · unfold wal.compactedSegments
      have e1 : w1.metatada =
          (N.map (fun p => (completedMeta p.1, p.2)) ++ D1 ++ [o]).map Prod.fst := by
        rw [hmeta]
        simp [List.map_map, Function.comp_def]
      rw [e1, filter_compacted]
      · simp [List.map_map, Function.comp_def]
      · intro p hp
        obtain ⟨q, hq, hqp⟩ := List.mem_map.1 hp
        rw [← hqp]
        exact (hshape q hq).compacted
      · intro p hp
        rcases List.mem_append.1 hp with h | h
        · exact (inv.dirty p (List.mem_cons_of_mem _ h)).1.dirty
        · simp only [List.mem_singleton] at h
          rw [h]
          exact inv.openOK.1.dirty
    · intro m hm
      obtain ⟨m0, hm0, hmm⟩ := List.mem_map.1 hm
      obtain ⟨p, hp, hpm⟩ := List.mem_map.1 hm0
      have h1 : processEntries m w1.env = p.2 := by
        apply processEntries_of_content
        rw [← hmm, ← hpm]
        exact hcont p hp
      have h2 : processEntries m
          (({ st.w with metatada := finalizeMetas st.newSegmentMetas st.w.metatada
            }).saveMetadata).env = p.2 := by
        apply processEntries_of_content
        rw [← hmm, ← hpm]
        exact E.content p hp
      rw [h1, h2]

/-- Witness for claim C17: the state after the six writes of `sixPuts`. -/
theorem emission_of_compacted_segments_witness :
    ∃ w, wal.run walSegmentSize freshWal (sixPuts.map (fun c => Op.write c.entry)) = some w ∧
      (∀ live, (∀ e ∈ live, e.keyValue.1 ≠ none) →
        ∃ w2 metas, w.emitSegments walSegmentSize live = some (w2, metas) ∧
          metas.length = (live.length + walSegmentSize - 1) / walSegmentSize ∧
          w2.env.manifest = some w2.metatada ∧
          ∀ i m, metas[i]? = some m →
            m.SegmentIndex = i ∧ m.IsCompactedSegment = true ∧
            processEntries m w2.env = (live.drop (i * walSegmentSize)).take walSegmentSize ∧
            (processEntries m w2.env).head?.map (fun e => e.Index) = some m.FirstEntryIndex ∧
            (processEntries m w2.env).getLast?.map (fun e => e.Index) =
              some m.LastEntryIndex ∧
            m.CompactionCompleted = true ∧ m.Closed = true ∧ m ∈ w2.metatada) ∧
      (∀ T, w.metatada.find? (fun m => !m.IsCompactedSegment) = some T → T.Closed = true →
        ∃ live cleaned w2 metas w1,
          gatherLoop w.env T (offsetMapOf (processEntries T w.env)) w.metatada [] [] =
            some (live, cleaned) ∧
          (∀ e ∈ live, e.keyValue.1 ≠ none) ∧
          w.emitSegments walSegmentSize live = some (w2, metas) ∧
          w.cleanSegments walSegmentSize = some w1 ∧
          w1.compactedSegments = metas ∧
          ∀ m ∈ metas, processEntries m w1.env = processEntries m w2.env) :=
  emission_of_compacted_segments walSegmentSize (by decide)
    (sixPuts.map (fun c => Op.write c.entry)) (by decide!)

/-! ## Claim C21 -/

theorem readLinesAux_no_lf (p : Bytes) (hp : ∀ b ∈ p, b ≠ 10) :
    ∀ cur, readLinesAux p cur = [] := by
  induction p with
  | nil => intro cur; rfl
  | cons b p ih =>
    intro cur
    have hb : b ≠ 10 := hp b (List.mem_cons_self _ _)
    simp only [readLinesAux, hb, if_false]
    exact ih (fun x hx => hp x (List.mem_cons_of_mem _ hx)) _

theorem readLinesAux_append_partial (L p : Bytes) (hp : ∀ b ∈ p, b ≠ 10) :
    ∀ cur, readLinesAux (L ++ p) cur = readLinesAux L cur := by
  induction L with
  | nil =>
    intro cur
    rw [List.nil_append, readLinesAux_no_lf p hp]
    rfl
  | cons b L ih =>
    intro cur
    simp only [List.cons_append, readLinesAux, List.append_eq]
    by_cases hb : b = 10
    · simp only [hb, if_true]
      rw [ih]
    · simp only [hb, if_false]
      rw [ih]

/-- Claim C21. For a segment file with the content `L ++ p`, where `p` holds no newline
byte (a last line without terminator), `loadHashIndex` gives the same result, and so the
same hash index, and `processEntries` visits the same sequence of entries, as for the
content `L` alone. When `L` is the concatenation of the newline-terminated records `es`,
`loadHashIndex` returns with the hash index of `es` and `processEntries` visits exactly
`es`: nothing is taken from `p`. -/
theorem partial_trailing_record_absent (seg : walSegment) (env1 env2 : Env) (L p : Bytes)
    (hp : ∀ b ∈ p, b ≠ 10)
    (h1 : env1.files seg.meta.segmentLogFilePath = some (L ++ p))
    (h2 : env2.files seg.meta.segmentLogFilePath = some L) :
    readLines (L ++ p) = readLines L ∧
    seg.loadHashIndex env1 = seg.loadHashIndex env2 ∧
    processEntries seg.meta env1 = processEntries seg.meta env2 ∧
    ∀ es : List walEntry, L = fileOf es → (∀ e ∈ es, e.keyValue.1 ≠ none) →
      seg.loadHashIndex env1 =
        some { seg with hashIndex := hashIndexFrom seg.hashIndex 0 es } ∧
      processEntries seg.meta env1 = es := by
  have hl : readLines (L ++ p) = readLines L := readLinesAux_append_partial L p hp []
  have hpe : processEntries seg.meta env1 = processEntries seg.meta env2 := by
    unfold processEntries
    rw [h1, h2]
    simp only [hl]
  refine ⟨hl, ?_, hpe, ?_⟩
  · unfold walSegment.loadHashIndex
    rw [h1, h2]
    simp only [hl]
  · intro es hL hk
    subst hL
    refine ⟨?_, ?_⟩
    · unfold walSegment.loadHashIndex
      rw [h1]
      simp only [hl, readLines_fileOf, loadHashIndexLoop_fileOf es _ 0 hk]
      rfl
    · rw [hpe]
      apply processEntries_of_content
      unfold Env.content
      rw [h2]
      rfl

/-- Witness for claim C21: a file with the record `a = 1` followed by the three bytes
`abc` without newline. -/
theorem partial_trailing_record_absent_witness :
    readLines (fileOf [(Cmd.put (ascii "a") (ascii "1")).entry] ++ ascii "abc") =
      readLines (fileOf [(Cmd.put (ascii "a") (ascii "1")).entry]) ∧
    (newWalSegment firstSegmentAfterSixPuts).loadHashIndex
        (oneFileEnv (fileOf [(Cmd.put (ascii "a") (ascii "1")).entry] ++ ascii "abc")) =
      (newWalSegment firstSegmentAfterSixPuts).loadHashIndex
        (oneFileEnv (fileOf [(Cmd.put (ascii "a") (ascii "1")).entry])) ∧
    processEntries (newWalSegment firstSegmentAfterSixPuts).meta
        (oneFileEnv (fileOf [(Cmd.put (ascii "a") (ascii "1")).entry] ++ ascii "abc")) =
      processEntries (newWalSegment firstSegmentAfterSixPuts).meta
        (oneFileEnv (fileOf [(Cmd.put (ascii "a") (ascii "1")).entry])) ∧
    (newWalSegment firstSegmentAfterSixPuts).loadHashIndex
        (oneFileEnv (fileOf [(Cmd.put (ascii "a") (ascii "1")).entry] ++ ascii "abc")) =
      some { newWalSegment firstSegmentAfterSixPuts with
             hashIndex := hashIndexFrom (newWalSegment firstSegmentAfterSixPuts).hashIndex 0
               [(Cmd.put (ascii "a") (ascii "1")).entry] } ∧
    processEntries (newWalSegment firstSegmentAfterSixPuts).meta
        (oneFileEnv (fileOf [(Cmd.put (ascii "a") (ascii "1")).entry] ++ ascii "abc")) =
      [(Cmd.put (ascii "a") (ascii "1")).entry] :=
  have h := partial_trailing_record_absent (newWalSegment firstSegmentAfterSixPuts)
    (oneFileEnv (fileOf [(Cmd.put (ascii "a") (ascii "1")).entry] ++ ascii "abc"))
    (oneFileEnv (fileOf [(Cmd.put (ascii "a") (ascii "1")).entry]))
    (fileOf [(Cmd.put (ascii "a") (ascii "1")).entry]) (ascii "abc") (by decide) rfl rfl
  ⟨h.1, h.2.1, h.2.2.1, h.2.2.2 [(Cmd.put (ascii "a") (ascii "1")).entry] rfl (by decide!)⟩

/-! ## Claims C22 and C23 -/

/-- Claim C22 fails on the code. The first line of the file `malformedFirstLine` does not
decode (`ReadEntryAtOffset` at offset 0 panics on it), and it stands before the last line.
Yet `loadHashIndex` completes and has created a hash-index entry from that line, for the
empty key at offset 0, next to the entry of `a` at offset 3; and `processEntries`
completes and has called the visitor with the zero entry for that line, before the record
`a = 1`. Both drop the error of `json.Unmarshal`. -/
theorem malformed_line_is_not_fatal :
    unmarshalEntry (ascii "xx\n") = none ∧
    ((newWalSegment firstSegmentAfterSixPuts).ReadEntryAtOffset
      (oneFileEnv malformedFirstLine) 0).isNone = true ∧
    ((newWalSegment firstSegmentAfterSixPuts).loadHashIndex (oneFileEnv malformedFirstLine)).map
      (fun seg => (seg.hashIndex [], seg.hashIndex (ascii "a"))) = some (some 0, some 3) ∧
    processEntries firstSegmentAfterSixPuts (oneFileEnv malformedFirstLine) =
      [{ Index := 0, Data := [], EntryType := 0 },
       withIndex (Cmd.put (ascii "a") (ascii "1")).entry 5] := by
  decide!

/-- Claim C23. On a segment that is open and not at capacity, for an entry with a key,
`writeEntry` returns. When the write of the encoded record fails, `writeEntry` returns the
error and the metadata of the segment, with `LastEntryIndex`, is as before the call. When
the write succeeds, `writeEntry` returns nil; `LastEntryIndex` has increased by exactly one
when the index was assigned by the segment, and is unchanged when the index was given. -/
theorem failed_write_keeps_last_index (size : Nat) (seg : walSegment) (env : Env)
    (entry : walEntry) (index : Option Nat) (out : WriteOutcome)
    (hcl : seg.meta.Closed = false) (hcap : seg.meta.isAtCapacity size = false)
    (hk : entry.keyValue.1 ≠ none) :
    ∃ seg1 env1 err, seg.writeEntryIO size env entry index out = some (seg1, env1, err) ∧
      (∀ n, out = WriteOutcome.failed n →
        err = some GoError.writeFailed ∧ seg1.meta = seg.meta ∧
        seg1.meta.LastEntryIndex = seg.meta.LastEntryIndex) ∧
      (out = WriteOutcome.ok →
        err = none ∧
        (index = none → seg1.meta.LastEntryIndex = seg.meta.LastEntryIndex + 1) ∧
        (∀ i, index = some i → seg1.meta.LastEntryIndex = seg.meta.LastEntryIndex)) := by
  obtain ⟨k, hk⟩ := Option.ne_none_iff_exists'.1 hk
  unfold walSegment.writeEntryIO
  simp only [hcl, hcap, Bool.false_eq_true, if_false]
  cases index with
  | none =>
    simp only [keyValue_with_index, hk]
    cases out with
    | ok => exact ⟨_, _, _, rfl, fun n h => (by cases h), fun _ => ⟨rfl, fun _ => rfl,
        fun i h => by cases h⟩⟩
    | failed m => exact ⟨_, _, _, rfl, fun n _ => ⟨rfl, rfl, rfl⟩, fun h => by cases h⟩
  | some j =>
    simp only [keyValue_with_index, hk]
    cases out with
    | ok => exact ⟨_, _, _, rfl, fun n h => (by cases h), fun _ => ⟨rfl, fun h => (by cases h),
        fun i _ => rfl⟩⟩
    | failed m => exact ⟨_, _, _, rfl, fun n _ => ⟨rfl, rfl, rfl⟩, fun h => by cases h⟩

/-- Witness for claim C23: a failed write of `a = 1` to the new segment of an empty
directory. -/
theorem failed_write_keeps_last_index_witness :
    ∃ seg1 env1 err,
      walSegment.writeEntryIO walSegmentSize (newWalSegment (newMetadata Env.empty 0 0).1)
        Env.empty (Cmd.put (ascii "a") (ascii "1")).entry none (WriteOutcome.failed 0) =
        some (seg1, env1, err) ∧
      (∀ n, WriteOutcome.failed 0 = WriteOutcome.failed n →
        err = some GoError.writeFailed ∧
        seg1.meta = (newWalSegment (newMetadata Env.empty 0 0).1).meta ∧
        seg1.meta.LastEntryIndex =
          (newWalSegment (newMetadata Env.empty 0 0).1).meta.LastEntryIndex) ∧
      (WriteOutcome.failed 0 = WriteOutcome.ok →
        err = none ∧
        ((none : Option Nat) = none → seg1.meta.LastEntryIndex =
          (newWalSegment (newMetadata Env.empty 0 0).1).meta.LastEntryIndex + 1) ∧
        (∀ i, (none : Option Nat) = some i → seg1.meta.LastEntryIndex =
          (newWalSegment (newMetadata Env.empty 0 0).1).meta.LastEntryIndex)) :=
  failed_write_keeps_last_index walSegmentSize (newWalSegment (newMetadata Env.empty 0 0).1)
    Env.empty (Cmd.put (ascii "a") (ascii "1")).entry none (WriteOutcome.failed 0)
    rfl (by decide) (by decide!)

/-! ## Claim C24 -/

theorem set_of_value (e : walEntry) (h : e.keyValue.2 ≠ none) :
    e.EntryType = WalEntryTypeSetCommand := by
  unfold walEntry.keyValue at h
  by_cases h1 : e.EntryType = WalEntryTypeSetCommand
  · exact h1
  · exfalso
    rw [if_neg h1] at h
    by_cases h2 : e.EntryType = WalEntryTypeDeleteCommand
    · rw [if_pos h2] at h
      exact h rfl
    · rw [if_neg h2] at h
      exact h rfl

/-- In a state that keeps the invariant, the compacted segments of the manifest list are
the segments of `C` and their records are the entries of `C`. -/
theorem compacted_of_inv {size : Nat} {w : wal} {C D : Log}
    {o : walSegmentMetadata × List walEntry} (inv : Inv size w C D o) :
    w.compactedSegments = C.map Prod.fst ∧ w.compactedRecords = Log.entries C := by
  have hseg : w.compactedSegments = C.map Prod.fst := by
    unfold wal.compactedSegments
    rw [inv.metas]
    apply filter_compacted
    · intro p hp
      exact (inv.comp p hp).compacted
    · intro p hp
      rcases List.mem_append.1 hp with h | h
      · exact (inv.dirty p h).1.dirty
      · rw [List.mem_singleton] at h
        rw [h]
        exact inv.openOK.1.dirty
  refine ⟨hseg, ?_⟩
  unfold wal.compactedRecords
  rw [hseg]
  apply flatMap_processEntries
  intro p hp
  exact inv.content p (by simp [hp])

/-- Claim C25. Compacted segments hold only live Sets. In every state reached from the
empty log by `WriteEntry` calls and complete `cleanSegments` passes, every record stored in
the file of a compacted segment of the manifest list is a Set record with a key, and no key
occurs in more than one record of the compacted segments of the manifest list. -/
theorem compacted_segments_hold_live_sets (size : Nat) (hsize : 0 < size) (ops : List Op)
    (hops : ops.all Op.valid = true) :
    ∃ w, wal.run size freshWal ops = some w ∧
      (∀ m ∈ w.compactedSegments, ∀ e ∈ processEntries m w.env,
        e.EntryType = WalEntryTypeSetCommand ∧ e.keyValue.1 ≠ none ∧ e.keyValue.2 ≠ none) ∧
      (w.compactedRecords.map (fun e => e.keyValue.1)).Nodup := by
  obtain ⟨w, hrun⟩ := run_total size hsize ops freshWal [] []
    ((newMetadata Env.empty 0 0).1, []) (inv_fresh size) hops
  obtain ⟨C, D, o, inv, _, _⟩ := inv_reachable size hsize ops w hrun
  obtain ⟨hseg, hrec⟩ := compacted_of_inv inv
  refine ⟨w, hrun, ?_, ?_⟩
  · intro m hm e he
    rw [hseg] at hm
    obtain ⟨p, hp, hpm⟩ := List.mem_map.1 hm
    rw [← hpm, processEntries_of_content p.1 w.env p.2 (inv.content p (by simp [hp]))] at he
    have hv := (inv.comp p hp).sets e he
    refine ⟨set_of_value e hv, ?_, hv⟩
    exact inv.keys e ((mem_entries _ e).2 ⟨p, by simp [hp], he⟩)
  · rw [hrec]
    exact inv.compKeys

/-- Witness for claim C25: eleven writes and two passes, with the segment size of the
source. -/
theorem compacted_segments_hold_live_sets_witness :
    ∃ w, wal.run walSegmentSize freshWal elevenWritesTwoPasses = some w ∧
      (∀ m ∈ w.compactedSegments, ∀ e ∈ processEntries m w.env,
        e.EntryType = WalEntryTypeSetCommand ∧ e.keyValue.1 ≠ none ∧ e.keyValue.2 ≠ none) ∧
      (w.compactedRecords.map (fun e => e.keyValue.1)).Nodup :=
  compacted_segments_hold_live_sets walSegmentSize (by decide) elevenWritesTwoPasses
    (by decide!)

/-! ## Claim C26 -/

theorem filter_dirty (N D : Log) (o : walSegmentMetadata × List walEntry)
    (hN : ∀ p ∈ N, p.1.IsCompactedSegment = true)
    (hD : ∀ p ∈ D ++ [o], p.1.IsCompactedSegment = false) :
    ((N ++ D ++ [o]).map Prod.fst).filter (fun m => !m.IsCompactedSegment) =
      (D ++ [o]).map Prod.fst := by
  rw [List.append_assoc, List.map_append, List.filter_append]
  have h1 : (N.map Prod.fst).filter (fun m => !m.IsCompactedSegment) = [] := by
    rw [List.filter_eq_nil_iff]
    intro m hm
    obtain ⟨p, hp, hpm⟩ := List.mem_map.1 hm
    rw [← hpm, hN p hp]
    simp
  have h2 : ((D ++ [o]).map Prod.fst).filter (fun m => !m.IsCompactedSegment) =
      (D ++ [o]).map Prod.fst := by
    rw [List.filter_eq_self]
    intro m hm
    obtain ⟨p, hp, hpm⟩ := List.mem_map.1 hm
    rw [← hpm, hD p hp]
    rfl
  rw [h1, h2, List.nil_append]

/-- In a state that keeps the invariant, the non-compacted segments of the manifest list
are the segments of `D` and the open segment, and their records are the entries of these. -/
theorem dirty_of_inv {size : Nat} {w : wal} {C D : Log}
    {o : walSegmentMetadata × List walEntry} (inv : Inv size w C D o) :
    w.dirtySegments = (D ++ [o]).map Prod.fst ∧ w.dirtyRecords = Log.entries (D ++ [o]) := by
  have hseg : w.dirtySegments = (D ++ [o]).map Prod.fst := by
    unfold wal.dirtySegments
    rw [inv.metas]
    apply filter_dirty
    · intro p hp
      exact (inv.comp p hp).compacted
    · intro p hp
      rcases List.mem_append.1 hp with h | h
      · exact (inv.dirty p h).1.dirty
      · rw [List.mem_singleton] at h
        rw [h]
        exact inv.openOK.1.dirty
  refine ⟨hseg, ?_⟩
  unfold wal.dirtyRecords
  rw [hseg]
  apply flatMap_processEntries
  intro p hp
  exact inv.content p (by
    rw [List.append_assoc]
    exact List.mem_append_right _ hp)

/-- In a state that keeps the invariant, every compacted segment has a smaller
`SegmentIndex` than every non-compacted one, and the manifest list is the compacted
segments followed by the non-compacted ones. -/
theorem order_of_inv {size : Nat} {w : wal} {C D : Log}
    {o : walSegmentMetadata × List walEntry} (inv : Inv size w C D o) :
    (∀ c ∈ w.compactedSegments, ∀ d ∈ w.dirtySegments, c.SegmentIndex < d.SegmentIndex) ∧
    w.metatada = w.compactedSegments ++ w.dirtySegments := by
  rw [(compacted_of_inv inv).1, (dirty_of_inv inv).1]
  refine ⟨?_, ?_⟩
  · intro c hc d hd
    have h := inv.segIdx
    rw [List.append_assoc, List.map_append, List.pairwise_append] at h
    obtain ⟨p, hp, hpc⟩ := List.mem_map.1 hc
    obtain ⟨q, hq, hqd⟩ := List.mem_map.1 hd
    rw [← hpc, ← hqd]
    exact h.2.2 _ (List.mem_map_of_mem (fun p => p.1.SegmentIndex) hp) _
      (List.mem_map_of_mem (fun p => p.1.SegmentIndex) hq)
  · rw [inv.metas, List.append_assoc, List.map_append]

theorem dirtyFirst_of_dirty (l : List walSegmentMetadata)
    (h : ∀ m ∈ l, m.IsCompactedSegment = false) : dirtyFirst l := by
  unfold dirtyFirst
  induction l with
  | nil => exact List.Pairwise.nil
  | cons a t ih =>
    refine List.Pairwise.cons ?_ (ih (fun m hm => h m (List.mem_cons_of_mem _ hm)))
    intro b _ ha
    rw [h a (List.mem_cons_self _ _)] at ha
    cases ha

theorem dirtyFirst_append (l1 l2 : List walSegmentMetadata)
    (h1 : ∀ m ∈ l1, m.IsCompactedSegment = false)
    (h2 : ∀ m ∈ l2, m.IsCompactedSegment = true) : dirtyFirst (l1 ++ l2) := by
  unfold dirtyFirst
  rw [List.pairwise_append]
  refine ⟨dirtyFirst_of_dirty l1 h1, ?_, fun a _ b hb _ => h2 b hb⟩
  induction l2 with
  | nil => exact List.Pairwise.nil
  | cons a t ih =>
    exact List.Pairwise.cons (fun b hb _ => h2 b (List.mem_cons_of_mem _ hb))
      (ih (fun m hm => h2 m (List.mem_cons_of_mem _ hm)))

/-- A `WriteEntry` call keeps the segments in memory non-compacted. -/
theorem write_dirty_segments (size : Nat) (hsize : 0 < size) (w : wal) (C D : Log)
    (o : walSegmentMetadata × List walEntry) (inv : Inv size w C D o) (entry : walEntry)
    (k : Bytes) (hk : entry.keyValue.1 = some k)
    (hd : ∀ seg ∈ w.sortedSegments, seg.meta.IsCompactedSegment = false) :
    ∀ w1, w.WriteEntry size entry = some w1 →
      ∀ seg ∈ w1.sortedSegments, seg.meta.IsCompactedSegment = false := by
  obtain ⟨ss, seg, hss, hseg⟩ := inv.mem
  have hcl : seg.meta.Closed = false := by rw [hseg]; exact inv.openOK.2
  have hsd : seg.meta.IsCompactedSegment = false := hd seg (by rw [hss]; simp)
  have hssd : ∀ s ∈ ss, s.meta.IsCompactedSegment = false :=
    fun s hs => hd s (by rw [hss]; simp [hs])
  intro w1 hw1 s hs
  cases hcap : seg.meta.isAtCapacity size with
  | false =>
    rw [WriteEntry_noroll size w ss seg entry k hss hcl hcap hk inv.nonNil] at hw1
    simp only [Option.some.injEq] at hw1
    subst hw1
    simp only [List.mem_append, List.mem_singleton] at hs
    rcases hs with h | h
    · exact hssd s h
    · rw [h]
      exact hsd
  | true =>
    rw [WriteEntry_roll size hsize w ss seg entry k hss (by rw [hcap]; rfl) hk inv.nonNil] at hw1
    simp only [Option.some.injEq] at hw1
    subst hw1
    simp only [List.mem_append, List.mem_singleton] at hs
    rcases hs with (h | h) | h
    · exact hssd s h
    · rw [h]
      exact hsd
    · rw [h]
      rfl

/-- In every state reached by `WriteEntry` calls and passes the segments in memory are
non-compacted: a pass does not touch `sortedSegments`. -/
theorem run_dirty_segments (size : Nat) (hsize : 0 < size) (ops : List Op) :
    ∀ (w : wal) (C D : Log) (o : walSegmentMetadata × List walEntry), Inv size w C D o →
      (∀ seg ∈ w.sortedSegments, seg.meta.IsCompactedSegment = false) →
      ∀ w1, wal.run size w ops = some w1 →
        ∀ seg ∈ w1.sortedSegments, seg.meta.IsCompactedSegment = false := by
  induction ops with
  | nil =>
    intro w C D o _ hd w1 hrun
    simp only [wal.run, Option.some.injEq] at hrun
    subst hrun
    exact hd
  | cons op ops ih =>
    intro w C D o inv hd w1 hrun
    cases op with
    | write entry =>
      simp only [wal.run, wal.step] at hrun
      cases hk : entry.keyValue.1 with
      | none =>
        rw [WriteEntry_nil_key size w entry hk] at hrun
        simp at hrun
      | some k =>
        obtain ⟨w2, D2, o2, hw, inv2, _⟩ := inv_write size hsize w C D o inv entry k hk
        rw [hw] at hrun
        exact ih w2 C D2 o2 inv2
          (write_dirty_segments size hsize w C D o inv entry k hk hd w2 hw) w1 hrun
    | clean =>
      simp only [wal.run, wal.step] at hrun
      cases D with
      | nil =>
        rw [clean_nop size w C o inv] at hrun
        exact ih w C [] o inv hd w1 hrun
      | cons p D =>
        obtain ⟨T, tes⟩ := p
        obtain ⟨w2, N, hw, inv2, _, _, _, _, hsegs, _⟩ := inv_clean size hsize w C D T tes o inv
        rw [hw] at hrun
        exact ih w2 N D o inv2 (by rw [hsegs]; exact hd) w1 hrun

/-- Claim C26. Compacted segments sort before dirty ones. In every state reached from the
empty log by `WriteEntry` calls and complete `cleanSegments` passes: every compacted
segment of the manifest list has a `SegmentIndex` strictly smaller than every
non-compacted one, and the manifest list is the compacted segments followed by the
non-compacted ones. A pass with a closed target `T` returns, the compacted segments it
leaves are at most `T.SegmentIndex + 1`, and the state after the pass has the same two
properties. A lookup consults no compacted segment before a non-compacted one: the running
store holds non-compacted segments only, and a store opened on the data directory consults
the segments of the manifest list from the last to the first, so that `GetEntry` returns
the last record of the key in the non-compacted segments, and only when there is none the
record of the key in the compacted segments. -/
theorem compacted_sort_before_dirty (size : Nat) (hsize : 0 < size) (ops : List Op)
    (hops : ops.all Op.valid = true) :
    ∃ w, wal.run size freshWal ops = some w ∧
      (∀ c ∈ w.compactedSegments, ∀ d ∈ w.dirtySegments, c.SegmentIndex < d.SegmentIndex) ∧
      w.metatada = w.compactedSegments ++ w.dirtySegments ∧
      (∀ T, w.getNextDirtySegment.map Prod.fst = some (some T) → T.Closed = true →
        ∃ w1, w.cleanSegments size = some w1 ∧
          w1.compactedSegments.length ≤ T.SegmentIndex + 1 ∧
          (∀ c ∈ w1.compactedSegments, ∀ d ∈ w1.dirtySegments,
            c.SegmentIndex < d.SegmentIndex) ∧
          w1.metatada = w1.compactedSegments ++ w1.dirtySegments) ∧
      dirtyFirst w.lookupOrder ∧
      (w.env.manifest = some w.metatada →
        ∃ s, NewKvStore w.env = some s ∧
          s.wal.lookupOrder = w.dirtySegments.reverse ++ w.compactedSegments.reverse ∧
          dirtyFirst s.wal.lookupOrder ∧
          ∀ key, s.wal.GetEntry key =
            some ((lastFor key w.dirtyRecords).or (lastFor key w.compactedRecords))) := by
  obtain ⟨w, hrun⟩ := run_total size hsize ops freshWal [] []
    ((newMetadata Env.empty 0 0).1, []) (inv_fresh size) hops
  obtain ⟨C, D, o, inv, _, _⟩ := inv_reachable size hsize ops w hrun
  have hmem := run_dirty_segments size hsize ops freshWal [] []
    ((newMetadata Env.empty 0 0).1, []) (inv_fresh size) (by
      intro seg hseg
      rw [freshWal_eq] at hseg
      simp only [List.mem_singleton] at hseg
      rw [hseg]
      rfl) w hrun
  refine ⟨w, hrun, (order_of_inv inv).1, (order_of_inv inv).2, ?_, ?_, ?_⟩
  · intro T hT hTc
    have hfind : w.metatada.find? (fun m => !m.IsCompactedSegment) = some T := by
      unfold wal.getNextDirtySegment at hT
      simp only [inv_loadMetadata inv, inv.nonNil, Bool.false_eq_true, if_false,
        Option.map_some', Option.some.injEq] at hT
      exact hT
    obtain ⟨tes, D1, hD⟩ := inv_first_dirty inv T hfind hTc
    subst hD
    obtain ⟨w1, N, hw1, _, _, _, _, hlen, _, hmeta, _⟩ := clean_run size hsize w C D1 T tes o inv
    obtain ⟨w2, N2, hw2, inv2, _⟩ := inv_clean size hsize w C D1 T tes o inv
    have e : w2 = w1 := by
      rw [hw1] at hw2
      exact (Option.some.inj hw2).symm
    subst e
    refine ⟨w2, hw1, ?_, (order_of_inv inv2).1, (order_of_inv inv2).2⟩
    rw [(compacted_of_inv inv2).1, List.length_map]
    have h1 := congrArg List.length hmeta
    rw [inv2.metas] at h1
    simp only [List.length_map, List.length_append, List.length_singleton] at h1
    omega
  · apply dirtyFirst_of_dirty
    intro m hm
    unfold wal.lookupOrder at hm
    obtain ⟨seg, hseg, hsm⟩ := List.mem_map.1 hm
    rw [← hsm]
    exact hmem seg (List.mem_reverse.1 hseg)
  · intro hman
    obtain ⟨w2, hnew, inv2, hmir, henv⟩ := reopen size w C D o inv hman
    have horder : ({ wal := w2 } : KvStore).wal.lookupOrder =
        w.dirtySegments.reverse ++ w.compactedSegments.reverse := by
      unfold wal.lookupOrder
      rw [List.map_reverse, hmir.1, (dirty_of_inv inv).1, (compacted_of_inv inv).1,
        List.append_assoc, List.map_append, List.reverse_append]
    refine ⟨{ wal := w2 }, hnew, horder, ?_, ?_⟩
    · rw [horder]
      apply dirtyFirst_append
      · intro m hm
        rw [List.mem_reverse, (dirty_of_inv inv).1] at hm
        obtain ⟨p, hp, hpm⟩ := List.mem_map.1 hm
        rw [← hpm]
        rcases List.mem_append.1 hp with h | h
        · exact (inv.dirty p h).1.dirty
        · rw [List.mem_singleton] at h
          rw [h]
          exact inv.openOK.1.dirty
      · intro m hm
        rw [List.mem_reverse, (compacted_of_inv inv).1] at hm
        obtain ⟨p, hp, hpm⟩ := List.mem_map.1 hm
        rw [← hpm]
        exact (inv.comp p hp).compacted
    · intro key
      unfold wal.GetEntry
      rw [getEntryLoop_log w2.env key (C ++ D ++ [o]) w2.sortedSegments hmir.1 hmir.2
        inv2.content inv2.keys, (dirty_of_inv inv).2, (compacted_of_inv inv).2,
        List.append_assoc, entries_append, lastFor_append]

/-- Witness for claim C26: eleven writes and one pass; the next pass has the closed target
with `SegmentIndex` 1. -/
theorem compacted_sort_before_dirty_witness :
    ∃ w, wal.run walSegmentSize freshWal elevenWritesTwoPasses.dropLast = some w ∧
      (∀ c ∈ w.compactedSegments, ∀ d ∈ w.dirtySegments, c.SegmentIndex < d.SegmentIndex) ∧
      w.metatada = w.compactedSegments ++ w.dirtySegments ∧
      (∃ T w1, w.getNextDirtySegment.map Prod.fst = some (some T) ∧ T.Closed = true ∧
          T.SegmentIndex = 1 ∧
          w.cleanSegments walSegmentSize = some w1 ∧
          w1.compactedSegments.length ≤ T.SegmentIndex + 1 ∧
          (∀ c ∈ w1.compactedSegments, ∀ d ∈ w1.dirtySegments,
            c.SegmentIndex < d.SegmentIndex) ∧
          w1.metatada = w1.compactedSegments ++ w1.dirtySegments) ∧
      dirtyFirst w.lookupOrder ∧
      ∃ s, NewKvStore w.env = some s ∧
          s.wal.lookupOrder = w.dirtySegments.reverse ++ w.compactedSegments.reverse ∧
          dirtyFirst s.wal.lookupOrder ∧
          ∀ key, s.wal.GetEntry key =
            some ((lastFor key w.dirtyRecords).or (lastFor key w.compactedRecords)) :=
  Exists.elim (compacted_sort_before_dirty walSegmentSize (by decide)
      elevenWritesTwoPasses.dropLast (by decide!))
    (fun w h =>
      have hT : (w.getNextDirtySegment.map Prod.fst).map
          (fun r => r.map (fun T => (T.Closed, T.SegmentIndex))) = some (some (true, 1)) := by
        have hc : ((wal.run walSegmentSize freshWal elevenWritesTwoPasses.dropLast).bind
            (fun w => (w.getNextDirtySegment.map Prod.fst).map
              (fun r => r.map (fun T => (T.Closed, T.SegmentIndex))))) =
            some (some (true, 1)) := by decide!
        rw [h.1] at hc
        exact hc
      have hman2 : w.env.manifest = some w.metatada := by
        have hc : ((wal.run walSegmentSize freshWal elevenWritesTwoPasses.dropLast).bind
            (fun w => w.env.manifest.map (fun l => decide (l = w.metatada)))) =
            some true := by decide!
        rw [h.1] at hc
        simp only [Option.some_bind] at hc
        cases hm : w.env.manifest with
        | none => rw [hm] at hc; cases hc
        | some l =>
          rw [hm] at hc
          simp only [Option.map_some', Option.some.injEq, decide_eq_true_eq] at hc
          rw [hc]
      match hg : w.getNextDirtySegment.map Prod.fst, hT with
      | some (some T), hT1 =>
        have hTc : T.Closed = true := by
          simp only [Option.map_some', Option.some.injEq, Prod.mk.injEq] at hT1
          exact hT1.1
        have hTi : T.SegmentIndex = 1 := by
          simp only [Option.map_some', Option.some.injEq, Prod.mk.injEq] at hT1
          exact hT1.2
        ⟨w, h.1, h.2.1, h.2.2.1,
          Exists.elim (h.2.2.2.1 T hg hTc)
            (fun w1 h1 => ⟨T, w1, hg, hTc, hTi, h1⟩),
          h.2.2.2.2.1, h.2.2.2.2.2 hman2⟩)

/-! ## The trace of a pass -/

theorem emitTrace_loop (size : Nat) (es : List walEntry) :
    ∀ st, (emitTrace size st es).map Prod.snd = emitLoop size st es := by
  induction es with
  | nil => intro st; rfl
  | cons e es ih =>
    intro st
    simp only [emitTrace, emitLoop]
    cases emitStep size st e es with
    | none => rfl
    | some st1 =>
      simp only [Option.map_map]
      exact ih st1

theorem deleteTrace_loop (l : List walSegmentMetadata) :
    ∀ w, (deleteTrace w l).map Prod.snd = deleteSegments w l := by
  induction l with
  | nil => intro w; rfl
  | cons m l ih =>
    intro w
    simp only [deleteTrace, deleteSegments]
    cases w.deleteSegment m.Id with
    | none => rfl
    | some w1 =>
      simp only [Option.map_map]
      exact ih w1

/-- The trace is the trace of `cleanSegments`: the pass ends in the last log of its trace,
and panics when the trace does. -/
theorem cleanSegmentsTrace_end (size : Nat) (w : wal) :
    (w.cleanSegmentsTrace size).map (traceEnd w) = w.cleanSegments size := by
  unfold wal.cleanSegmentsTrace wal.cleanSegments
  split_ifs with hc
  · rfl
  · cases w.getNextDirtySegment with
    | none => rfl
    | some r =>
      obtain ⟨t, w1⟩ := r
      cases t with
      | none => rfl
      | some T =>
        simp only []
        split_ifs with hT
        · rfl
        · cases gatherLoop w1.env T
            ((processEntries T w1.env).foldl offsetMapStep (fun _ => none)) w1.metatada [] [] with
          | none => rfl
          | some g =>
            obtain ⟨entries, cleaned⟩ := g
            simp only []
            rw [← emitTrace_loop]
            cases emitTrace size { w := w1, newSegmentMetas := [], currentBatchSize := 0,
                                   currentSegment := none } entries with
            | none => rfl
            | some r1 =>
              obtain ⟨written, st⟩ := r1
              simp only [Option.map_some']
              rw [← deleteTrace_loop]
              cases deleteTrace (({ st.w with
                  metatada := finalizeMetas st.newSegmentMetas st.w.metatada }).saveMetadata)
                  cleaned with
              | none => rfl
              | some r2 =>
                obtain ⟨removed, w3⟩ := r2
                simp only [Option.map_some', traceEnd, List.getLast?_concat, Option.getD_some]

theorem writeEntry_frame (size : Nat) (seg seg1 : walSegment) (env env1 : Env)
    (entry : walEntry) (index : Option Nat)
    (h : seg.writeEntry size env entry index = some (seg1, env1)) :
    seg1.meta.Id = seg.meta.Id ∧ env1.manifest = env.manifest ∧ env1.uuid = env.uuid ∧
      ∀ path, path ≠ seg.meta.segmentLogFilePath → env1.files path = env.files path := by
  unfold walSegment.writeEntry at h
  split_ifs at h
  simp only [] at h
  split at h
  · cases h
  · simp only [Option.some.injEq, Prod.mk.injEq] at h
    obtain ⟨h1, h2⟩ := h
    subst h1 h2
    refine ⟨?_, rfl, rfl, ?_⟩
    · cases index <;> rfl
    · intro path hp
      simp [Env.appendFile, hp]

theorem emitStep_frame (size u0 : Nat) (w0 : wal) (orig : List walSegmentMetadata)
    (st st1 : emitState) (entry : walEntry) (rest : List walEntry)
    (h : emitStep size st entry rest = some st1)
    (hu : u0 ≤ st.w.env.uuid) (hc : ∀ seg, st.currentSegment = some seg → u0 ≤ seg.meta.Id)
    (hU : FrameOK u0 w0 orig st.w) :
    u0 ≤ st1.w.env.uuid ∧ (∀ seg, st1.currentSegment = some seg → u0 ≤ seg.meta.Id) ∧
      FrameOK u0 w0 orig st1.w := by
  obtain ⟨hf, hm, hman⟩ := hU
  have hpath : ∀ (m : walSegmentMetadata) (path : Nat × Nat), u0 ≤ m.Id → path.2 < u0 →
      path ≠ m.segmentLogFilePath := by
    intro m path h1 h2 e
    rw [e] at h2
    simp only [walSegmentMetadata.segmentLogFilePath] at h2
    omega
  unfold emitStep at h
  by_cases h0 : st.currentBatchSize = 0
  · simp only [h0, if_true] at h
    split at h
    · cases h
    · rename_i seg1 env1 hw
      obtain ⟨F1, F2, F3, F4⟩ := writeEntry_frame _ _ _ _ _ _ _ hw
      have hid : u0 ≤ seg1.meta.Id := by
        rw [F1]
        simp only [newWalSegment, newMetadata]
        exact hu
      have hfiles : ∀ path : Nat × Nat, path.2 < u0 → env1.files path = w0.env.files path := by
        intro path hp
        rw [F4 path (hpath _ path (by simp only [newWalSegment, newMetadata]; exact hu) hp)]
        exact hf path hp
      have huu : u0 ≤ env1.uuid := by
        rw [F3]
        simp only [newMetadata]
        omega
      split_ifs at h
      · simp only [Option.some.injEq] at h
        subst h
        refine ⟨huu, ?_, hfiles, ?_, ?_⟩
        · intro seg hs
          simp only [Option.some.injEq] at hs
          subst hs
          exact hid
        · intro x hx
          exact (List.Perm.mem_iff (sortMetadata_perm _)).2 (List.mem_append_left _ (hm x hx))
        · intro x hx l hl
          simp only [wal.saveMetadata, Option.some.injEq] at hl
          subst hl
          exact (List.Perm.mem_iff (sortMetadata_perm _)).2 (List.mem_append_left _ (hm x hx))
      · simp only [Option.some.injEq] at h
        subst h
        refine ⟨huu, ?_, hfiles, hm, ?_⟩
        · intro seg hs
          simp only [Option.some.injEq] at hs
          subst hs
          exact hid
        · intro x hx l hl
          simp only [F2, newMetadata] at hl
          exact hman x hx l hl
  · simp only [h0, if_false] at h
    split at h
    · cases h
    · rename_i seg hseg
      split at h
      · cases h
      · rename_i seg1 env1 hw
        obtain ⟨F1, F2, F3, F4⟩ := writeEntry_frame _ _ _ _ _ _ _ hw
        have hid0 : u0 ≤ seg.meta.Id := hc seg hseg
        have hid : u0 ≤ seg1.meta.Id := by
          rw [F1]
          exact hid0
        have hfiles : ∀ path : Nat × Nat, path.2 < u0 →
            env1.files path = w0.env.files path := by
          intro path hp
          rw [F4 path (hpath _ path hid0 hp)]
          exact hf path hp
        have huu : u0 ≤ env1.uuid := by
          rw [F3]
          exact hu
        split_ifs at h
        · simp only [Option.some.injEq] at h
          subst h
          refine ⟨huu, ?_, hfiles, ?_, ?_⟩
          · intro s hs
            simp only [Option.some.injEq] at hs
            subst hs
            exact hid
          · intro x hx
            exact (List.Perm.mem_iff (sortMetadata_perm _)).2 (List.mem_append_left _ (hm x hx))
          · intro x hx l hl
            simp only [wal.saveMetadata, Option.some.injEq] at hl
            subst hl
            exact (List.Perm.mem_iff (sortMetadata_perm _)).2 (List.mem_append_left _ (hm x hx))
        · simp only [Option.some.injEq] at h
          subst h
          refine ⟨huu, ?_, hfiles, hm, ?_⟩
          · intro s hs
            simp only [Option.some.injEq] at hs
            subst hs
            exact hid
          · intro x hx l hl
            simp only [F2] at hl
            exact hman x hx l hl

theorem emitTrace_frame (size u0 : Nat) (w0 : wal) (orig : List walSegmentMetadata)
    (es : List walEntry) :
    ∀ (st st1 : emitState) (tr : List (PassStep × wal)),
      emitTrace size st es = some (tr, st1) → u0 ≤ st.w.env.uuid →
      (∀ seg, st.currentSegment = some seg → u0 ≤ seg.meta.Id) → FrameOK u0 w0 orig st.w →
      tr.map Prod.fst = es.map PassStep.wrote ∧ (∀ s ∈ tr, FrameOK u0 w0 orig s.2) ∧
        FrameOK u0 w0 orig st1.w := by
  induction es with
  | nil =>
    intro st st1 tr h _ _ hU
    simp only [emitTrace, Option.some.injEq, Prod.mk.injEq] at h
    obtain ⟨h1, h2⟩ := h
    subst h1 h2
    exact ⟨rfl, fun s hs => absurd hs (List.not_mem_nil _), hU⟩
  | cons e es ih =>
    intro st st1 tr h hu hc hU
    simp only [emitTrace] at h
    cases hs : emitStep size st e es with
    | none => rw [hs] at h; cases h
    | some st2 =>
      rw [hs] at h
      simp only [] at h
      obtain ⟨hu2, hc2, hU2⟩ := emitStep_frame size u0 w0 orig st st2 e es hs hu hc hU
      cases ht : emitTrace size st2 es with
      | none => rw [ht] at h; cases h
      | some r =>
        obtain ⟨tr2, st3⟩ := r
        rw [ht] at h
        simp only [Option.map_some', Option.some.injEq, Prod.mk.injEq] at h
        obtain ⟨h1, h2⟩ := h
        subst h1 h2
        obtain ⟨i1, i2, i3⟩ := ih st2 st3 tr2 ht hu2 hc2 hU2
        refine ⟨?_, ?_, i3⟩
        · simp only [List.map_cons, i1]
        · intro s hs1
          rcases List.mem_cons.1 hs1 with h | h
          · rw [h]
            exact hU2
          · exact i2 s h

theorem deleteTrace_steps (l : List walSegmentMetadata) :
    ∀ (w w3 : wal) (tr : List (PassStep × wal)), deleteTrace w l = some (tr, w3) →
      tr.map Prod.fst = l.map (fun m => PassStep.deleted m.Id) := by
  induction l with
  | nil =>
    intro w w3 tr h
    simp only [deleteTrace, Option.some.injEq, Prod.mk.injEq] at h
    rw [← h.1]
    rfl
  | cons m l ih =>
    intro w w3 tr h
    simp only [deleteTrace] at h
    cases hd : w.deleteSegment m.Id with
    | none => rw [hd] at h; cases h
    | some w1 =>
      rw [hd] at h
      simp only [] at h
      cases ht : deleteTrace w1 l with
      | none => rw [ht] at h; cases h
      | some r =>
        obtain ⟨tr2, w4⟩ := r
        rw [ht] at h
        simp only [Option.map_some', Option.some.injEq, Prod.mk.injEq] at h
        rw [← h.1]
        simp only [List.map_cons, ih w1 w4 tr2 ht]

/-! ## Claim C11 -/

/-- Claim C11. In every state `w` reached from the empty log by `WriteEntry` calls and
complete passes in which the oldest segment that is not compacted is the closed segment
`T`, the pass goes through these logs, in this order: `w` itself, the logs `written` after
the iterations of the writing loop, one for each entry of the live list `live`, the log
`w2` after the marking loop and its `saveMetadata`, the logs `removed` after the
`deleteSegment` calls, which start in `w2`, one for each segment of `cleaned` (which
contains `T`), and the log `w1` in which the pass ends. In every log up to and including `w2` every segment of
`cleaned` is untouched: listed in the manifest list and in the manifest file, with its file
as before the pass. In `w2` every entry of `live` is stored in the file of a new compacted
segment, and the manifest file holds the manifest list, which lists every new compacted
segment with `CompactionCompleted = true` and `Closed = true`. At the end the files of the
segments of `cleaned` are deleted. -/
theorem originals_retired_after_finalize (size : Nat) (hsize : 0 < size) (ops : List Op)
    (hops : ops.all Op.valid = true) :
    ∃ w, wal.run size freshWal ops = some w ∧
      ∀ T, w.metatada.find? (fun m => !m.IsCompactedSegment) = some T → T.Closed = true →
        ∃ live cleaned written w2 metas removed w3 w1,
          gatherLoop w.env T (offsetMapOf (processEntries T w.env)) w.metatada [] [] =
            some (live, cleaned) ∧
          w.cleanSegmentsTrace size =
            some ((PassStep.start, w) :: written ++ [(PassStep.finalized, w2)] ++ removed ++
              [(PassStep.done, w1)]) ∧
          w.cleanSegments size = some w1 ∧
          written.map Prod.fst = live.map PassStep.wrote ∧
          deleteTrace w2 cleaned = some (removed, w3) ∧
          removed.map Prod.fst = cleaned.map (fun m => PassStep.deleted m.Id) ∧
          T ∈ cleaned ∧ (∀ x ∈ cleaned, x ∈ w.metatada) ∧
          (∀ s ∈ (PassStep.start, w) :: written ++ [(PassStep.finalized, w2)],
            Untouched w cleaned s.2) ∧
          w.emitSegments size live = some (w2, metas) ∧
          metas.flatMap (fun m => processEntries m w2.env) = live ∧
          w2.env.manifest = some w2.metatada ∧
          (∀ m ∈ metas, m ∈ w2.metatada ∧ m.IsCompactedSegment = true ∧
            m.CompactionCompleted = true ∧ m.Closed = true) ∧
          (∀ x ∈ cleaned, w1.env.files x.segmentLogFilePath = none) := by
  obtain ⟨w, hrun0⟩ := run_total size hsize ops freshWal [] []
    ((newMetadata Env.empty 0 0).1, []) (inv_fresh size) hops
  obtain ⟨C, D, o, inv, _, _⟩ := inv_reachable size hsize ops w hrun0
  refine ⟨w, hrun0, ?_⟩
  intro T hT hTc
  obtain ⟨tes, D1, hD⟩ := inv_first_dirty inv T hT hTc
  subst hD
  obtain ⟨w1, N, hrun, _, hshape, _, _, _, _, _, _, _, _, _, hrem, _, _, _,
    hg, stc, E, hemit, hperm, hclean⟩ := clean_run size hsize w C D1 T tes o inv
  have hm : w.metatada = C.map Prod.fst ++ T :: (D1.map Prod.fst ++ [o.1]) := by
    rw [inv.metas]; simp
  have hcl : ∀ x ∈ C.map Prod.fst ++ [T], x ∈ w.metatada := by
    intro x hx
    rw [hm]
    rcases List.mem_append.1 hx with h | h
    · exact List.mem_append_left _ h
    · simp only [List.mem_singleton] at h
      rw [h]
      simp
  have hid : ∀ x ∈ C.map Prod.fst ++ [T], x.Id < w.env.uuid := by
    intro x hx
    have hx1 := hcl x hx
    rw [inv.metas] at hx1
    obtain ⟨p, hp, hpx⟩ := List.mem_map.1 hx1
    rw [← hpx]
    exact inv.ids p hp
  -- the state of the writing loop at its end
  have e1 : ({ w := w, newSegmentMetas := [], currentBatchSize := 0, currentSegment := none }
      : emitState) = emitStart w [] none := rfl
  obtain ⟨st, hloop, hw2⟩ : ∃ st,
      emitLoop size (emitStart w [] none) (liveEntries (Log.entries C) tes) = some st ∧
      ({ st.w with metatada := finalizeMetas st.newSegmentMetas st.w.metatada }).saveMetadata =
        ({ stc.w with metatada := finalizeMetas stc.newSegmentMetas stc.w.metatada
         }).saveMetadata := by
    have h := hemit
    unfold wal.emitSegments at h
    rw [e1] at h
    cases hl : emitLoop size (emitStart w [] none) (liveEntries (Log.entries C) tes) with
    | none => rw [hl] at h; cases h
    | some st =>
      rw [hl] at h
      simp only [Option.some.injEq, Prod.mk.injEq] at h
      exact ⟨st, rfl, h.1⟩
  obtain ⟨written, htr⟩ : ∃ written,
      emitTrace size (emitStart w [] none) (liveEntries (Log.entries C) tes) =
        some (written, st) := by
    have h := emitTrace_loop size (liveEntries (Log.entries C) tes) (emitStart w [] none)
    rw [hloop] at h
    cases ht : emitTrace size (emitStart w [] none) (liveEntries (Log.entries C) tes) with
    | none => rw [ht] at h; cases h
    | some r =>
      obtain ⟨a, b⟩ := r
      rw [ht] at h
      simp only [Option.map_some', Option.some.injEq] at h
      subst h
      exact ⟨a, rfl⟩
  obtain ⟨w3, hdel, hw3⟩ : ∃ w3,
      deleteSegments (({ stc.w with
        metatada := finalizeMetas stc.newSegmentMetas stc.w.metatada }).saveMetadata)
        (C.map Prod.fst ++ [T]) = some w3 ∧ w3.saveMetadata = w1 := by
    have h := hclean
    rw [hrun] at h
    cases hd : deleteSegments (({ stc.w with
        metatada := finalizeMetas stc.newSegmentMetas stc.w.metatada }).saveMetadata)
        (C.map Prod.fst ++ [T]) with
    | none => rw [hd] at h; cases h
    | some w3 =>
      rw [hd] at h
      simp only [Option.map_some', Option.some.injEq] at h
      exact ⟨w3, rfl, h.symm⟩
  obtain ⟨removed, hrm⟩ : ∃ removed,
      deleteTrace (({ stc.w with
        metatada := finalizeMetas stc.newSegmentMetas stc.w.metatada }).saveMetadata)
        (C.map Prod.fst ++ [T]) = some (removed, w3) := by
    have h := deleteTrace_loop (C.map Prod.fst ++ [T]) (({ stc.w with
        metatada := finalizeMetas stc.newSegmentMetas stc.w.metatada }).saveMetadata)
    rw [hdel] at h
    cases ht : deleteTrace (({ stc.w with
        metatada := finalizeMetas stc.newSegmentMetas stc.w.metatada }).saveMetadata)
        (C.map Prod.fst ++ [T]) with
    | none => rw [ht] at h; cases h
    | some r =>
      obtain ⟨a, b⟩ := r
      rw [ht] at h
      simp only [Option.map_some', Option.some.injEq] at h
      subst h
      exact ⟨a, rfl⟩
  -- the trace
  have htrace : w.cleanSegmentsTrace size =
      some ((PassStep.start, w) :: written ++
        [(PassStep.finalized, ({ stc.w with
          metatada := finalizeMetas stc.newSegmentMetas stc.w.metatada }).saveMetadata)] ++
        removed ++ [(PassStep.done, w1)]) := by
    have hg2 : gatherLoop w.env T ((processEntries T w.env).foldl offsetMapStep (fun _ => none))
        w.metatada [] [] =
        some (liveEntries (Log.entries C) tes, C.map Prod.fst ++ [T]) := hg
    unfold wal.cleanSegmentsTrace
    simp only [inv.notCleaning, wal.getNextDirtySegment, inv_loadMetadata inv, inv.nonNil, hT,
      hTc, hg2, Bool.false_eq_true, if_false, Bool.not_true]
    rw [e1, htr]
    simp only [hw2, hrm, hw3]
  -- the logs before the first deletion
  have hF0 : FrameOK w.env.uuid w (C.map Prod.fst ++ [T]) w := by
    refine ⟨fun _ _ => rfl, hcl, ?_⟩
    intro x hx l hl
    rcases inv.manifest with h | h
    · rw [h] at hl; cases hl
    · rw [h] at hl
      simp only [Option.some.injEq] at hl
      rw [← hl]
      exact hcl x hx
  obtain ⟨hsteps, hall, _⟩ := emitTrace_frame size w.env.uuid w (C.map Prod.fst ++ [T])
    (liveEntries (Log.entries C) tes) (emitStart w [] none) st written htr (Nat.le_refl _)
    (fun seg hs => by cases hs) hF0
  have hmem2 : ∀ x ∈ C.map Prod.fst ++ [T],
      x ∈ (({ stc.w with metatada := finalizeMetas stc.newSegmentMetas stc.w.metatada
            }).saveMetadata).metatada := by
    intro x hx
    show x ∈ sortMetadata _
    exact (List.Perm.mem_iff hperm).2 (List.mem_append_left _ (hcl x hx))
  have hF2 : FrameOK w.env.uuid w (C.map Prod.fst ++ [T])
      (({ stc.w with metatada := finalizeMetas stc.newSegmentMetas stc.w.metatada
        }).saveMetadata) := by
    refine ⟨?_, hmem2, ?_⟩
    · intro path hp
      exact E.old path hp
    · intro x hx l hl
      have hl2 : l = (({ stc.w with metatada := finalizeMetas stc.newSegmentMetas stc.w.metatada
            }).saveMetadata).metatada := by
        simp only [wal.saveMetadata, Option.some.injEq] at hl
        rw [← hl]
        rfl
      rw [hl2]
      exact hmem2 x hx
  have hun : ∀ s : wal, FrameOK w.env.uuid w (C.map Prod.fst ++ [T]) s →
      Untouched w (C.map Prod.fst ++ [T]) s := by
    intro s hs x hx
    exact ⟨hs.2.1 x hx, hs.1 _ (hid x hx), hs.2.2 x hx⟩
  refine ⟨_, _, written, _, _, removed, w3, w1, hg, htrace, hrun, hsteps, hrm,
    deleteTrace_steps _ _ _ _ hrm, by simp, hcl, ?_, hemit, ?_, rfl, ?_, ?_⟩
  · intro s hs
    simp only [List.cons_append, List.mem_cons, List.mem_append, List.mem_singleton,
      List.not_mem_nil, or_false] at hs
    rcases hs with h | h | h
    · rw [h]
      exact hun _ hF0
    · exact hun _ (hall s h)
    · rw [h]
      exact hun _ hF2
  · have e2 : (N.map Prod.fst).map completedMeta =
        (N.map (fun p => (completedMeta p.1, p.2))).map Prod.fst := by
      simp [List.map_map, Function.comp_def]
    rw [e2, flatMap_processEntries, entries_map_meta, E.entries]
    intro p hp
    obtain ⟨q, hq, hqp⟩ := List.mem_map.1 hp
    rw [← hqp]
    exact E.content q hq
  · intro m hm1
    obtain ⟨m0, hm0, hmm⟩ := List.mem_map.1 hm1
    obtain ⟨p, hp, hpm⟩ := List.mem_map.1 hm0
    refine ⟨?_, ?_, ?_, ?_⟩
    · show m ∈ sortMetadata _
      exact (List.Perm.mem_iff hperm).2 (List.mem_append_right _ hm1)
    · rw [← hmm, ← hpm]
      exact (hshape p hp).compacted
    · rw [← hmm]; rfl
    · rw [← hmm]; rfl
  · intro x hx
    have hx2 : x ∈ (C ++ [(T, tes)]).map Prod.fst := by simpa using hx
    obtain ⟨p, hp, hpx⟩ := List.mem_map.1 hx2
    rw [← hpx]
    exact hrem p hp

/-- Witness for claim C11: the state after the six writes of `sixPuts`, whose first segment
is closed and not compacted. The pass writes the two live records, finalizes, and only
then deletes the segment with id 0. -/
theorem originals_retired_after_finalize_witness :
    ∃ w, wal.run walSegmentSize freshWal (sixPuts.map (fun c => Op.write c.entry)) = some w ∧
      w.metatada.find? (fun m => !m.IsCompactedSegment) = some firstSegmentAfterSixPuts ∧
      (w.cleanSegmentsTrace walSegmentSize).map (fun tr => tr.map Prod.fst) =
        some [PassStep.start,
              PassStep.wrote (withIndex (Cmd.put (ascii "a") (ascii "1")).entry 0),
              PassStep.wrote (withIndex (Cmd.put (ascii "b") (ascii "4")).entry 4),
              PassStep.finalized, PassStep.deleted 0, PassStep.done] ∧
      ∃ live cleaned written w2 metas removed w3 w1,
        gatherLoop w.env firstSegmentAfterSixPuts
            (offsetMapOf (processEntries firstSegmentAfterSixPuts w.env)) w.metatada [] [] =
          some (live, cleaned) ∧
        w.cleanSegmentsTrace walSegmentSize =
          some ((PassStep.start, w) :: written ++ [(PassStep.finalized, w2)] ++ removed ++
            [(PassStep.done, w1)]) ∧
        w.cleanSegments walSegmentSize = some w1 ∧
        written.map Prod.fst = live.map PassStep.wrote ∧
        deleteTrace w2 cleaned = some (removed, w3) ∧
        removed.map Prod.fst = cleaned.map (fun m => PassStep.deleted m.Id) ∧
        firstSegmentAfterSixPuts ∈ cleaned ∧ (∀ x ∈ cleaned, x ∈ w.metatada) ∧
        (∀ s ∈ (PassStep.start, w) :: written ++ [(PassStep.finalized, w2)],
          Untouched w cleaned s.2) ∧
        w.emitSegments walSegmentSize live = some (w2, metas) ∧
        metas.flatMap (fun m => processEntries m w2.env) = live ∧
        w2.env.manifest = some w2.metatada ∧
        (∀ m ∈ metas, m ∈ w2.metatada ∧ m.IsCompactedSegment = true ∧
          m.CompactionCompleted = true ∧ m.Closed = true) ∧
        (∀ x ∈ cleaned, w1.env.files x.segmentLogFilePath = none) :=
  Exists.elim
    (originals_retired_after_finalize walSegmentSize (by decide)
      (sixPuts.map (fun c => Op.write c.entry)) (by decide!))
    (fun w h =>
      have hT : w.metatada.find? (fun m => !m.IsCompactedSegment) =
          some firstSegmentAfterSixPuts := by
        have hc : (wal.run walSegmentSize freshWal
            (sixPuts.map (fun c => Op.write c.entry))).bind
            (fun w => w.metatada.find? (fun m => !m.IsCompactedSegment)) =
            some firstSegmentAfterSixPuts := by decide!
        rw [h.1] at hc
        exact hc
      have hS : (w.cleanSegmentsTrace walSegmentSize).map (fun tr => tr.map Prod.fst) =
          some [PassStep.start,
                PassStep.wrote (withIndex (Cmd.put (ascii "a") (ascii "1")).entry 0),
                PassStep.wrote (withIndex (Cmd.put (ascii "b") (ascii "4")).entry 4),
                PassStep.finalized, PassStep.deleted 0, PassStep.done] := by
        have hc : ((wal.run walSegmentSize freshWal
            (sixPuts.map (fun c => Op.write c.entry))).bind
            (fun w => w.cleanSegmentsTrace walSegmentSize)).map
              (fun tr => tr.map Prod.fst) =
            some [PassStep.start,
                  PassStep.wrote (withIndex (Cmd.put (ascii "a") (ascii "1")).entry 0),
                  PassStep.wrote (withIndex (Cmd.put (ascii "b") (ascii "4")).entry 4),
                  PassStep.finalized, PassStep.deleted 0, PassStep.done] := by decide!
        rw [h.1] at hc
        exact hc
      ⟨w, h.1, hT, hS, h.2 firstSegmentAfterSixPuts hT rfl⟩)

/-! ## Claims C18 and C19 -/

/-- The records scanned by the gather step of a pass whose segment to clean is `T`: the
entries of the compacted segments, then those of `T`, with increasing indices. -/
theorem scanned_of_inv {size : Nat} {w : wal} {C D : Log} {T : walSegmentMetadata}
    {tes : List walEntry} {o : walSegmentMetadata × List walEntry}
    (inv : Inv size w C ((T, tes) :: D) o) :
    (C.map Prod.fst ++ [T]).flatMap (fun m => processEntries m w.env) = Log.entries C ++ tes ∧
    processEntries T w.env = tes ∧
    ((Log.entries C ++ tes).map (fun e => e.Index)).Pairwise (fun a b => a < b) := by
  have hTf : w.env.content T.segmentLogFilePath = fileOf tes :=
    inv.content (T, tes) (by simp)
  refine ⟨?_, processEntries_of_content T w.env tes hTf, ?_⟩
  · have e1 : C.map Prod.fst ++ [T] = (C ++ [(T, tes)]).map Prod.fst := by simp
    rw [e1, flatMap_processEntries w.env (C ++ [(T, tes)]) (fun p hp => inv.content p (by
      rcases List.mem_append.1 hp with h | h
      · simp [h]
      · simp at h; simp [h])), entries_append, entries_singleton]
  · have h := inv.incr
    have e1 : C ++ (T, tes) :: D ++ [o] = (C ++ [(T, tes)]) ++ (D ++ [o]) := by simp
    rw [e1, entries_append, List.map_append, List.pairwise_append] at h
    have h1 := h.1
    rw [entries_append, entries_singleton] at h1
    exact h1

/-- The visitor of the gather step on a Set record whose key is not in the map: the record
is appended to the live list. -/
theorem gatherStep_set_absent (offsetMap : Bytes → Option Nat) (entries : List walEntry)
    (entry : walEntry) (key value : Bytes) (hkv : entry.keyValue = (some key, some value))
    (ho : offsetMap key = none) :
    gatherStep offsetMap entries entry = some (entries ++ [entry]) := by
  unfold gatherStep
  rw [hkv]
  simp only [ho]

/-- Claim C18. The visitor of the gather step appends every Set record whose key is not in
its map to the live list, whatever the live list. In every state reached from the empty
log by `WriteEntry` calls and complete passes in which the oldest segment that is not
compacted is the closed segment `T`: the gather loop is the visitor run over the records
of the segments `cleaned`, in order, and returns; the pass returns; and every scanned
record whose key is not in the map built from `T` is a Set record and is appended to the
live list. No Delete record with such a key is scanned: the Delete records scanned are
those of `T`, whose keys are all in the map. (On a Delete record with such a key the
visitor would dereference the nil `offset`, see `gatherStep`; the case does not arise.) -/
theorem gather_absent_key_appends_set (size : Nat) (hsize : 0 < size) (ops : List Op)
    (hops : ops.all Op.valid = true) :
    (∀ (offsetMap : Bytes → Option Nat) (entries : List walEntry) (entry : walEntry)
        (key value : Bytes), entry.keyValue = (some key, some value) → offsetMap key = none →
        gatherStep offsetMap entries entry = some (entries ++ [entry])) ∧
    ∃ w, wal.run size freshWal ops = some w ∧
      ∀ T, w.metatada.find? (fun m => !m.IsCompactedSegment) = some T → T.Closed = true →
        ∃ live cleaned w1,
          gatherLoop w.env T (offsetMapOf (processEntries T w.env)) w.metatada [] [] =
            some (live, cleaned) ∧
          gatherEntries (offsetMapOf (processEntries T w.env)) []
            (cleaned.flatMap (fun m => processEntries m w.env)) = some live ∧
          w.cleanSegments size = some w1 ∧
          ∀ e ∈ cleaned.flatMap (fun m => processEntries m w.env), ∀ key,
            e.keyValue.1 = some key → offsetMapOf (processEntries T w.env) key = none →
            e.EntryType = WalEntryTypeSetCommand ∧ e.keyValue.2 ≠ none ∧
            ∀ entries, gatherStep (offsetMapOf (processEntries T w.env)) entries e =
              some (entries ++ [e]) := by
  refine ⟨gatherStep_set_absent, ?_⟩
  obtain ⟨w, hrun0⟩ := run_total size hsize ops freshWal [] []
    ((newMetadata Env.empty 0 0).1, []) (inv_fresh size) hops
  obtain ⟨C, D, o, inv, _, _⟩ := inv_reachable size hsize ops w hrun0
  refine ⟨w, hrun0, ?_⟩
  intro T hT hTc
  obtain ⟨tes, D1, hD⟩ := inv_first_dirty inv T hT hTc
  subst hD
  obtain ⟨w1, N, hrun, _, _, _, _, _, _, _, _, _, _, _, _, _, _, _, hg, _⟩ :=
    clean_run size hsize w C D1 T tes o inv
  obtain ⟨hscan, hTe, hincr⟩ := scanned_of_inv inv
  have hti : (tes.map (fun e => e.Index)).Pairwise (fun a b => a < b) := by
    rw [List.map_append, List.pairwise_append] at hincr
    exact hincr.2.1
  have hTn : ∀ e ∈ tes, ∀ key, e.keyValue.1 = some key → offsetMapOf tes key ≠ none := by
    intro e he key hk
    rw [offsetMapOf_spec tes hti key]
    intro hnone
    rw [Option.map_eq_none', lastFor_eq_none] at hnone
    exact hnone e he hk
  have hCs : ∀ e ∈ Log.entries C, e.keyValue.2 ≠ none := by
    intro e he
    obtain ⟨p, hp, hep⟩ := (mem_entries C e).1 he
    exact (inv.comp p hp).sets e hep
  refine ⟨_, _, w1, hg, ?_, hrun, ?_⟩
  · rw [hscan, hTe, gatherEntries_filter]
    · rfl
    · intro e he key hkv
      rcases List.mem_append.1 he with h | h
      · exact absurd (by rw [hkv]) (hCs e h)
      · exact hTn e h key (by rw [hkv])
  · intro e he key hk ho
    rw [hscan] at he
    rw [hTe] at ho ⊢
    rcases List.mem_append.1 he with h | h
    · have hv := hCs e h
      refine ⟨set_of_value e hv, hv, ?_⟩
      intro entries
      obtain ⟨value, hval⟩ := Option.ne_none_iff_exists'.1 hv
      exact gatherStep_set_absent _ entries e key value (by
        rw [← hk, ← hval]) ho
    · exact absurd ho (hTn e h key hk)

/-- Witness for claim C18: after eleven writes and one pass the compacted segment holds the
records of `a` and `b`, and the segment to clean holds records of `c` only; the record
`a = 1` is scanned, its key is not in the map, and it is appended. -/
theorem gather_absent_key_appends_set_witness :
    ∃ w, wal.run walSegmentSize freshWal elevenWritesTwoPasses.dropLast = some w ∧
      ∃ T, w.metatada.find? (fun m => !m.IsCompactedSegment) = some T ∧ T.Closed = true ∧
        ∃ live cleaned w1,
          gatherLoop w.env T (offsetMapOf (processEntries T w.env)) w.metatada [] [] =
            some (live, cleaned) ∧
          gatherEntries (offsetMapOf (processEntries T w.env)) []
            (cleaned.flatMap (fun m => processEntries m w.env)) = some live ∧
          w.cleanSegments walSegmentSize = some w1 ∧
          withIndex (Cmd.put (ascii "a") (ascii "1")).entry 0 ∈
            cleaned.flatMap (fun m => processEntries m w.env) ∧
          offsetMapOf (processEntries T w.env) (ascii "a") = none ∧
          ∀ entries, gatherStep (offsetMapOf (processEntries T w.env)) entries
            (withIndex (Cmd.put (ascii "a") (ascii "1")).entry 0) =
              some (entries ++ [withIndex (Cmd.put (ascii "a") (ascii "1")).entry 0]) := by
  obtain ⟨w, hr, h⟩ := (gather_absent_key_appends_set walSegmentSize (by decide)
    elevenWritesTwoPasses.dropLast (by decide!)).2
  have hc : (wal.run walSegmentSize freshWal elevenWritesTwoPasses.dropLast).bind
      (fun w => (w.metatada.find? (fun m => !m.IsCompactedSegment)).bind
        (fun T => (gatherLoop w.env T (offsetMapOf (processEntries T w.env))
            w.metatada [] []).map
          (fun r => (T.Closed,
            decide (withIndex (Cmd.put (ascii "a") (ascii "1")).entry 0 ∈
              r.2.flatMap (fun m => processEntries m w.env)),
            (offsetMapOf (processEntries T w.env) (ascii "a")).isNone,
            (withIndex (Cmd.put (ascii "a") (ascii "1")).entry 0).keyValue.1)))) =
      some (true, true, true, some (ascii "a")) := by decide!
  rw [hr] at hc
  simp only [Option.some_bind] at hc
  cases hT : w.metatada.find? (fun m => !m.IsCompactedSegment) with
  | none => rw [hT] at hc; cases hc
  | some T =>
    rw [hT] at hc
    simp only [Option.some_bind] at hc
    cases hg : gatherLoop w.env T (offsetMapOf (processEntries T w.env)) w.metatada [] [] with
    | none => rw [hg] at hc; cases hc
    | some r =>
      rw [hg] at hc
      simp only [Option.map_some', Option.some.injEq, Prod.mk.injEq, decide_eq_true_eq,
        Option.isNone_iff_eq_none] at hc
      obtain ⟨hTc, hmem, hnone, hkey⟩ := hc
      obtain ⟨live, cleaned, w1, h1, h2, h3, h4⟩ := h T hT hTc
      rw [hg] at h1
      simp only [Option.some.injEq] at h1
      rw [h1] at hmem
      exact ⟨w, hr, T, hT, hTc, live, cleaned, w1, by rw [hg, h1], h2, h3, hmem, hnone,
        (h4 _ hmem (ascii "a") hkey hnone).2.2⟩

end kvstore
